import Mathlib

/-!
# A shallow embedding of the primordialsoup managed heap

This file models the semispace copying collector of `src/vm/heap.cc` /
`src/vm/heap.h` (class `psoup::Heap`): the bump allocator, the Cheney
scavenge with ephemeron and weak-array passes, class-table mourning and
forwarding, the `BecomeForward` identity swap, and the instance walks
`CountInstances` / `CollectInstances`.

Modelling conventions:

* Heap addresses are modelled as indices into a list of cells, one cell per
  object (the byte-level address arithmetic `scan += obj->HeapSize()` becomes
  an index increment; object payloads carry their slot lists or raw bytes).
  The two semispaces are separate stores: a `Ref.ptr a` names a from-space
  cell while scavenging reads it and a to-space cell once it has been
  rewritten, exactly following the code's discipline of rewriting each slot
  once.
* A cell is either a live object or a forwarding cell (`Cell.fwd target orig`).
  The code stores the forwarding target in the object's header word
  (`SetForwarded`, `Object::InitializeObject(kForwardingCorpseCid, ...)`)
  and leaves the payload bytes in place; the model keeps the original object
  in the cell next to the target for the reads the code still performs on a
  corpse (`old_class->id()` in `ForwardClass` / `ForwardClassTable`,
  `old->element(i)` in `BecomeForward`).
* The intrusive `next` links of the ephemeron and weak lists are modelled as
  lists of to-space indices held in the collector state; the specification's
  design notes explicitly allow a side table in place of the in-object link.
* The collector loops are written with an explicit structural bound (fuel)
  so that every definition is executable and kernel-reducible; the bound is
  proved sufficient below (each copy consumes one unforwarded from-space
  cell, so the Cheney fixpoint is reached long before the fuel runs out).
* `ObjectStore` and `Behavior` layouts live in `object.h`, which is not part
  of the sources here; where the heap code reads them the model follows the
  specification text (see `nilOf` and `behaviorId`).
-/

namespace Psoup

/-- Class-id constants. The numeric values live in `object.h` (not among the
sources); only the distinctness of the named roles is used. -/
def kIllegalCid : Nat := 0

/-- Cid written into a header by `Object::InitializeObject` when an object is
turned into a forwarding corpse. -/
def kForwardingCorpseCid : Nat := 1

/-- First cid visited by the class-table passes (`MournClassTable`,
`ForwardClassTable` iterate from `kFirstLegalCid`). -/
def kFirstLegalCid : Nat := 2

/-- Cid of weak arrays (checked by `ProcessToSpace`). -/
def kWeakArrayCid : Nat := 8

/-- Cid of ephemerons (checked by `ProcessToSpace`). -/
def kEphemeronCid : Nat := 9

/-- A reference word: an immediate small integer or a heap address
(the low tag bit distinguishes the two in the code). -/
inductive Ref where
  | imm (v : Int)
  | ptr (a : Nat)
deriving DecidableEq

/-- Object payload: traced pointer slots, or raw bytes that the collector
never traces (byte arrays, strings, boxed numbers). -/
inductive Payload where
  | ptrs (slots : List Ref)
  | bytes (data : List Nat)
deriving DecidableEq

/-- A heap object: class id, identity hash, payload. -/
structure Obj where
  cid : Nat
  hash : Nat
  payload : Payload
deriving DecidableEq

instance : Inhabited Obj := ⟨⟨0, 0, .bytes []⟩⟩

/-- A cell of a semispace: an object, or a forwarding cell created by
`SetForwarded` (during scavenges) or by `BecomeForward` (a corpse).
The original object is kept alongside the target because the code keeps the
payload bytes in place and still reads them through the corpse. -/
inductive Cell where
  | obj (o : Obj)
  | fwd (target : Nat) (orig : Obj)
deriving DecidableEq

instance : Inhabited Cell := ⟨.obj default⟩

/-- The pointer slots of an object (empty for byte payloads, matching
`Object::Pointers` yielding an empty range there). -/
def slotsOf : Obj → List Ref
  | ⟨_, _, .ptrs l⟩ => l
  | ⟨_, _, .bytes _⟩ => []

/-- Write slot `i` of an object (no-op beyond the slot count or on a byte
payload, situations the code never reaches for the writes modelled here). -/
def Obj.setSlot : Obj → Nat → Ref → Obj
  | ⟨c, h, .ptrs l⟩, i, r => ⟨c, h, .ptrs (l.set i r)⟩
  | o, _, _ => o

/-- The mutator-visible heap: the current to-space, the roots
(`object_store_`, `current_activation_`, the registered handle slots), and
the class table with its free-list head. -/
structure Heap where
  space : List Cell
  objectStore : Ref
  currentActivation : Ref
  handles : List Ref
  classTable : List Ref
  classTableFree : Nat
deriving DecidableEq

/-- Collector state during a scavenge: from-space (the previous to-space),
the to-space being filled (`top_` is its length), the roots, the class table,
and the intrusive ephemeron and weak lists (as to-space indices). -/
structure GcState where
  fromSp : List Cell
  toSp : List Obj
  objectStore : Ref
  currentActivation : Ref
  handles : List Ref
  classTable : List Ref
  classTableFree : Nat
  ephems : List Nat
  weaks : List Nat
deriving DecidableEq

/-- Read a to-space object. -/
def GcState.objAt (s : GcState) (t : Nat) : Obj := s.toSp.getD t default

/-- Read slot `i` of to-space object `t`. -/
def GcState.getSlot (s : GcState) (t i : Nat) : Ref :=
  (slotsOf (s.objAt t)).getD i (.imm 0)

/-- Write slot `i` of to-space object `t`. -/
def GcState.putSlot (s : GcState) (t i : Nat) (r : Ref) : GcState :=
  { s with toSp := s.toSp.set t ((s.toSp.getD t default).setSlot i r) }

/-- The forwarding target recorded at from-space address `a`, if any
(`IsForwarded` / `ForwardingTarget` read the header at the old address). -/
def fwdOf (s : GcState) (a : Nat) : Option Nat :=
  match s.fromSp[a]? with
  | some (.fwd t _) => some t
  | _ => none

/-- `Heap::ScavengePointer`: immediates are untouched; a pointer to a
forwarded from-space object is rewritten to the recorded target; otherwise
the from-space object is copied to the end of to-space (`TryAllocate` plus
`memcpy`), a forwarding header is written at the old address
(`SetForwarded`), and the pointer is rewritten to the copy. -/
def scavengePointer (s : GcState) (r : Ref) : GcState × Ref :=
  match r with
  | .imm v => (s, .imm v)
  | .ptr a =>
    match s.fromSp[a]? with
    | some (.obj o) =>
        let t := s.toSp.length
        ({ s with toSp := s.toSp ++ [o], fromSp := s.fromSp.set a (.fwd t o) }, .ptr t)
    | some (.fwd t _) => (s, .ptr t)
    | none => (s, r)

/-- `Heap::ScavengeClass`: like `ScavengePointer` on `class_table_[cid]`,
except that nothing is written back (the table entry is only updated later,
by `MournClassTable`). -/
def scavengeClass (s : GcState) (cid : Nat) : GcState :=
  match s.classTable.getD cid (.imm 0) with
  | .imm _ => s
  | .ptr a =>
    match s.fromSp[a]? with
    | some (.obj o) =>
        { s with toSp := s.toSp ++ [o], fromSp := s.fromSp.set a (.fwd s.toSp.length o) }
    | _ => s

/-- Scavenge `k` consecutive slots of to-space object `t` starting at slot
`i`: read the slot, scavenge it, write the result back (the loop
`for (ptr = from; ptr <= to; ptr++) ScavengePointer(ptr)`). -/
def scavengeSlots : GcState → Nat → Nat → Nat → GcState
  | s, _, _, 0 => s
  | s, t, i, Nat.succ k =>
      let p := scavengePointer s (s.getSlot t i)
      scavengeSlots (p.1.putSlot t i p.2) t (i + 1) k

/-- One iteration of the `Heap::ProcessToSpace` loop body at cursor `t`:
scavenge the object's class, then either link a weak array into the weak
list, link an ephemeron into the ephemeron list (neither is traced), or
scavenge every pointer slot. -/
def processObjAt (s : GcState) (t : Nat) : GcState :=
  let o := s.objAt t
  let s1 := scavengeClass s o.cid
  if o.cid = kWeakArrayCid then { s1 with weaks := t :: s1.weaks }
  else if o.cid = kEphemeronCid then { s1 with ephems := t :: s1.ephems }
  else scavengeSlots s1 t 0 (slotsOf o).length

/-- `Heap::ProcessToSpace`: advance the scan cursor to the current top,
processing each object once. The fuel argument is a structural bound on the
number of iterations; `processToSpace_exit` below shows the fuel used by the
collector is sufficient. -/
def processToSpace : Nat → GcState → Nat → GcState × Nat
  | 0, s, scan => (s, scan)
  | Nat.succ f, s, scan =>
      if scan < s.toSp.length then processToSpace f (processObjAt s scan) (scan + 1)
      else (s, scan)

/-- The key test of `Heap::ProcessEphemeronList`:
`key()->IsImmediateOrOldObject() || IsForwarded(key()->Addr())`. -/
def ephKeyKnown (s : GcState) (k : Ref) : Bool :=
  match k with
  | .imm _ => true
  | .ptr a =>
    match s.fromSp[a]? with
    | some (.fwd _ _) => true
    | _ => false

/-- The loop of `Heap::ProcessEphemeronList` over the detached list: a
survivor whose key is known live has its key, value and finalizer slots
scavenged; otherwise it is pushed back onto the (freshly cleared) list. -/
def processEphemList : List Nat → GcState → GcState
  | [], s => s
  | e :: rest, s =>
      let s1 := if ephKeyKnown s (s.getSlot e 0)
                then scavengeSlots s e 0 3
                else { s with ephems := e :: s.ephems }
      processEphemList rest s1

/-- `Heap::ProcessEphemeronList`: detach the list, then process it. -/
def processEphemeronList (s : GcState) : GcState :=
  processEphemList s.ephems { s with ephems := [] }

/-- `Heap::Scavenge`'s main loop: `while (scan < top_) { scan =
ProcessToSpace(scan); ProcessEphemeronList(); }`, with fuel bounds proved
sufficient below. -/
def scavengeLoop : Nat → GcState → Nat → GcState
  | 0, s, _ => s
  | Nat.succ f, s, scan =>
      if scan < s.toSp.length then
        let p := processToSpace (s.toSp.length + (s.fromSp.countP fun c =>
          match c with | .obj _ => true | _ => false) + 1) s scan
        scavengeLoop f (processEphemeronList p.1) p.2
      else s

/-- The number of unforwarded from-space cells; every copy decreases it by
one, which bounds all collector loops. -/
def obCount (l : List Cell) : Nat :=
  l.countP fun c => match c with | .obj _ => true | _ => false

/-- Scavenge the registered handle slots in order, returning the updated
state and slot contents. -/
def scavengeHandles : List Ref → GcState → GcState × List Ref
  | [], s => (s, [])
  | r :: rest, s =>
      let p := scavengePointer s r
      let q := scavengeHandles rest p.1
      (q.1, p.2 :: q.2)

/-- `Heap::ProcessRoots`: scavenge `object_store_`, `current_activation_`,
then every handle slot. -/
def processRoots (s : GcState) : GcState :=
  let p1 := scavengePointer s s.objectStore
  let s1 := { p1.1 with objectStore := p1.2 }
  let p2 := scavengePointer s1 s1.currentActivation
  let s2 := { p2.1 with currentActivation := p2.2 }
  let q := scavengeHandles s2.handles s2
  { q.1 with handles := q.2 }

/-- Modelled from the spec: `object_store()->nil_obj()`. The `ObjectStore`
layout is in `object.h`, outside these sources; per the specification the
object store is "a specific Array whose elements are well-known roots (e.g.
`nil`)", so `nil` is modelled as the store's first slot. -/
def nilOf (s : GcState) : Ref :=
  match s.objectStore with
  | .ptr a => s.getSlot a 0
  | r => r

/-- The loop of `Heap::MournEphemeronList`: set key, value and finalizer of
every ephemeron left on the list to `nil` (read once, before the loop). -/
def mournEphems (nil : Ref) : List Nat → GcState → GcState
  | [], s => s
  | e :: rest, s =>
      mournEphems nil rest (((s.putSlot e 0 nil).putSlot e 1 nil).putSlot e 2 nil)

/-- `Heap::MournEphemeronList`: detach the list and nil out the survivors. -/
def mournEphemeronList (s : GcState) : GcState :=
  mournEphems (nilOf s) s.ephems { s with ephems := [] }

/-- `Heap::MournWeakPointer` on slot `i` of weak array `w`: immediates are
kept, forwarded referents are followed, anything else becomes `nil` (read
from the object store at each call, as the code does). -/
def mournWeakSlot (s : GcState) (w i : Nat) : GcState :=
  match s.getSlot w i with
  | .imm _ => s
  | .ptr a =>
    match s.fromSp[a]? with
    | some (.fwd t _) => s.putSlot w i (.ptr t)
    | _ => s.putSlot w i (nilOf s)

/-- Mourn `k` consecutive slots of weak array `w` starting at slot `i`. -/
def mournWeakSlots (w : Nat) : Nat → Nat → GcState → GcState
  | _, 0, s => s
  | i, Nat.succ k, s => mournWeakSlots w (i + 1) k (mournWeakSlot s w i)

/-- The loop of `Heap::MournWeakList` over the detached weak list. -/
def mournWeaks : List Nat → GcState → GcState
  | [], s => s
  | w :: rest, s => mournWeaks rest (mournWeakSlots w 0 (slotsOf (s.objAt w)).length s)

/-- `Heap::MournWeakList`: detach the list, then rewrite every slot of every
listed weak array. -/
def mournWeakList (s : GcState) : GcState :=
  mournWeaks s.weaks { s with weaks := [] }

/-- One entry of `Heap::MournClassTable`: immediates (free-list links) are
skipped; a forwarded class is followed; a dead class's cid is released onto
the free list. -/
def mournClassStep (s : GcState) (i : Nat) : GcState :=
  match s.classTable.getD i (.imm 0) with
  | .imm _ => s
  | .ptr a =>
    match s.fromSp[a]? with
    | some (.fwd t _) => { s with classTable := s.classTable.set i (.ptr t) }
    | _ =>
        { s with
          classTable := s.classTable.set i (.imm (Int.ofNat s.classTableFree)),
          classTableFree := i }

/-- Walk `k` class-table entries starting at index `i`. -/
def mournClassFrom : Nat → Nat → GcState → GcState
  | _, 0, s => s
  | i, Nat.succ k, s => mournClassFrom (i + 1) k (mournClassStep s i)

/-- `Heap::MournClassTable`: walk entries `kFirstLegalCid ..
class_table_top_` (the table's length here). -/
def mournClassTable (s : GcState) : GcState :=
  mournClassFrom kFirstLegalCid (s.classTable.length - kFirstLegalCid) s

/-- `Heap::Scavenge` up to the collector state: flip (from-space is the old
to-space, to-space starts empty), process the roots, run the Cheney and
ephemeron fixpoint, then mourn ephemerons, weak arrays and the class table. -/
def scavengeGc (h : Heap) : GcState :=
  let s0 : GcState :=
    { fromSp := h.space, toSp := [], objectStore := h.objectStore,
      currentActivation := h.currentActivation, handles := h.handles,
      classTable := h.classTable, classTableFree := h.classTableFree,
      ephems := [], weaks := [] }
  let s1 := processRoots s0
  let s2 := scavengeLoop (obCount s1.fromSp + 2) s1 0
  mournClassTable (mournWeakList (mournEphemeronList s2))

/-- The heap after a scavenge: the new to-space and the updated roots and
class table. -/
def heapOf (s : GcState) : Heap :=
  { space := s.toSp.map .obj, objectStore := s.objectStore,
    currentActivation := s.currentActivation, handles := s.handles,
    classTable := s.classTable, classTableFree := s.classTableFree }

/-- A whole collection, heap to heap. -/
def scavenge (h : Heap) : Heap := heapOf (scavengeGc h)

/-- Read a cell of the mutator heap. -/
def Heap.cellAt (h : Heap) (a : Nat) : Cell := h.space.getD a (.obj default)

/-- Read the object stored at `a` (through a corpse, the retained payload
bytes, as the code's reads do). -/
def Heap.objAt (h : Heap) (a : Nat) : Obj :=
  match h.cellAt a with
  | .obj o => o
  | .fwd _ o => o

/-- Read slot `i` of the object at `a`. -/
def Heap.getSlotH (h : Heap) (a i : Nat) : Ref :=
  (slotsOf (h.objAt a)).getD i (.imm 0)

/-- Write slot `i` of the object at `a` (writing through a corpse updates the
retained payload, as an in-place store would). -/
def setSlotAt (h : Heap) (a i : Nat) (r : Ref) : Heap :=
  { h with space := h.space.set a (match h.space.getD a (.obj default) with
      | .obj o => .obj (o.setSlot i r)
      | .fwd t o => .fwd t (o.setSlot i r)) }

/-- Overwrite the identity-hash header field of the object at `a`
(`set_identity_hash`). -/
def setHashAt (h : Heap) (a : Nat) (v : Nat) : Heap :=
  { h with space := h.space.set a (match h.space.getD a (.obj default) with
      | .obj o => .obj ⟨o.cid, v, o.payload⟩
      | .fwd t o => .fwd t ⟨o.cid, v, o.payload⟩) }

/-- Overwrite the cid header field of the object at `a` (`set_cid`). -/
def setCidAt (h : Heap) (a : Nat) (v : Nat) : Heap :=
  { h with space := h.space.set a (match h.space.getD a (.obj default) with
      | .obj o => .obj ⟨v, o.hash, o.payload⟩
      | .fwd t o => .fwd t ⟨v, o.hash, o.payload⟩) }

/-- `ForwardPointer` (file-static in heap.cc): follow a forwarding corpse one
step; anything else is untouched. -/
def forwardRef (h : Heap) (r : Ref) : Ref :=
  match r with
  | .imm v => .imm v
  | .ptr a =>
    match h.space[a]? with
    | some (.fwd t _) => .ptr t
    | _ => .ptr a

/-- `Heap::ForwardRoots`: forward `object_store_`, `current_activation_` and
every handle slot through any corpse. -/
def forwardRoots (h : Heap) : Heap :=
  { h with objectStore := forwardRef h h.objectStore,
           currentActivation := forwardRef h h.currentActivation,
           handles := h.handles.map (forwardRef h) }

/-- Modelled from the spec: `Behavior::id()`. The `Behavior` layout is in
`object.h`, outside these sources; the id is modelled as the class object's
first slot (a `SmallInteger` cid or `nil`), which is all `ForwardClass` and
`ForwardClassTable` rely on. -/
def behaviorId (o : Obj) : Ref := (slotsOf o).getD 0 (.imm 0)

/-- `nil` as read through the mutator heap (`object_store()->nil_obj()`),
modelled as the object store's first slot (see `nilOf`). -/
def nilOfHeap (h : Heap) : Ref :=
  match h.objectStore with
  | .ptr a => h.getSlotH a 0
  | r => r

/-- `ForwardClass` (file-static in heap.cc) for the object at `t`: if the
object's class-table entry has become a corpse, adopt the corpse's id into
the replacement when the replacement's id is `nil`, then patch the object's
header cid to the replacement's id. -/
def forwardClassAt (h : Heap) (t : Nat) : Heap :=
  match h.cellAt t with
  | .fwd _ _ => h
  | .obj o =>
    match h.classTable.getD o.cid (.imm 0) with
    | .imm _ => h
    | .ptr ca =>
      match h.space[ca]? with
      | some (.fwd nt origCls) =>
          let h1 := if behaviorId (h.objAt nt) = nilOfHeap h
                    then setSlotAt h nt 0 (behaviorId origCls)
                    else h
          match behaviorId (h1.objAt nt) with
          | .imm v => setCidAt h1 t v.toNat
          | .ptr _ => h1
      | _ => h

/-- Forward every pointer slot of the (non-corpse) object at `t` through any
corpse (`ForwardPointer` over the object's pointer range). -/
def forwardSlotsAt (h : Heap) (t : Nat) : Heap :=
  match h.cellAt t with
  | .obj o =>
    (match o.payload with
     | .ptrs l =>
        { h with space := h.space.set t (.obj ⟨o.cid, o.hash, .ptrs (l.map (forwardRef h))⟩) }
     | .bytes _ => h)
  | .fwd _ _ => h

/-- The `Heap::ForwardToSpace` loop body at `t`: corpses are skipped;
otherwise forward the class and then every pointer slot. -/
def forwardObjAt (h : Heap) (t : Nat) : Heap :=
  match h.cellAt t with
  | .fwd _ _ => h
  | .obj _ => forwardSlotsAt (forwardClassAt h t) t

/-- Walk `k` to-space cells starting at `t`. -/
def forwardSpaceFrom : Nat → Nat → Heap → Heap
  | _, 0, h => h
  | t, Nat.succ k, h => forwardSpaceFrom (t + 1) k (forwardObjAt h t)

/-- `Heap::ForwardToSpace`: walk the whole to-space. -/
def forwardToSpace (h : Heap) : Heap := forwardSpaceFrom 0 h.space.length h

/-- One entry of `Heap::ForwardClassTable`: entries that are not corpses are
skipped; a corpse whose retained id equals the replacement's id is replaced
by the replacement; otherwise the cid is released onto the free list. -/
def forwardClassTableStep (h : Heap) (i : Nat) : Heap :=
  match h.classTable.getD i (.imm 0) with
  | .imm _ => h
  | .ptr a =>
    match h.space[a]? with
    | some (.fwd t origCls) =>
        if behaviorId origCls = behaviorId (h.objAt t)
        then { h with classTable := h.classTable.set i (.ptr t) }
        else
          { h with
            classTable := h.classTable.set i (.imm (Int.ofNat h.classTableFree)),
            classTableFree := i }
    | _ => h

/-- Walk `k` class-table entries starting at `i`. -/
def forwardClassTableFrom : Nat → Nat → Heap → Heap
  | _, 0, h => h
  | i, Nat.succ k, h => forwardClassTableFrom (i + 1) k (forwardClassTableStep h i)

/-- `Heap::ForwardClassTable`: walk entries `kFirstLegalCid ..
class_table_top_`. -/
def forwardClassTable (h : Heap) : Heap :=
  forwardClassTableFrom kFirstLegalCid (h.classTable.length - kFirstLegalCid) h

/-- The elements of the `Array` at `a` (`Array::element`; the element count
`Array::Size()` is its slot count). -/
def Heap.arrayElems (h : Heap) (a : Nat) : List Ref := slotsOf (h.objAt a)

/-- Immediate test (`IsImmediateObject`). -/
def Ref.isImm : Ref → Bool
  | .imm _ => true
  | .ptr _ => false

/-- The corpse-installation loop of `Heap::BecomeForward`: for each pair,
copy the forwarder's identity hash onto the forwardee, then reinitialise the
forwarder's storage as a forwarding corpse targeting the forwardee. -/
def becomePairs : List (Ref × Ref) → Heap → Heap
  | [], h => h
  | (f, n) :: rest, h =>
    match f, n with
    | .ptr fa, .ptr na =>
        let h1 := setHashAt h na (h.objAt fa).hash
        let h2 := { h1 with space := h1.space.set fa (.fwd na (h1.objAt fa)) }
        becomePairs rest h2
    | _, _ => h

/-- `Heap::BecomeForward`: fail on a length mismatch, fail if any element of
either array is an immediate (both checks performed before any mutation),
otherwise install corpses and run the three forwarding passes. -/
def becomeForward (h : Heap) (oldA neuA : Nat) : Bool × Heap :=
  let olds := h.arrayElems oldA
  let neus := h.arrayElems neuA
  if olds.length ≠ neus.length then (false, h)
  else if (olds.zip neus).any (fun p => p.1.isImm || p.2.isImm) then (false, h)
  else (true, forwardClassTable (forwardToSpace (forwardRoots (becomePairs (olds.zip neus) h))))

/-- The cid read from a cell header: a corpse header carries
`kForwardingCorpseCid` (written by `Object::InitializeObject`). -/
def cellCid : Cell → Nat
  | .obj o => o.cid
  | .fwd _ _ => kForwardingCorpseCid

/-- `Heap::CountInstances`: walk the whole to-space, counting headers whose
cid matches (reachable or not). -/
def countInstances (h : Heap) (cid : Nat) : Nat :=
  h.space.countP fun c => cellCid c = cid

/-- The writes `Heap::CollectInstances` performs: `(array index, to-space
address)` pairs in scan (address-ascending) order. `addr` is the address of
the first cell of `cells` and `inst` the running instance counter. -/
def collectWritesAux : List Cell → Nat → Nat → Nat → List (Nat × Nat)
  | [], _, _, _ => []
  | c :: rest, addr, cid, inst =>
      if cellCid c = cid then (inst, addr) :: collectWritesAux rest (addr + 1) cid (inst + 1)
      else collectWritesAux rest (addr + 1) cid inst

/-- All writes of a `CollectInstances(cid, array)` call; note the list does
not depend on the array at all (`set_element` performs no bounds check). -/
def collectWrites (h : Heap) (cid : Nat) : List (Nat × Nat) :=
  collectWritesAux h.space 0 cid 0

/-- `Heap::CollectInstances`: store each matching object into the next
element of `array` and return the count. -/
def collectInstances (h : Heap) (cid : Nat) (arrA : Nat) : Nat × Heap :=
  let ws := collectWrites h cid
  (ws.length, ws.foldl (fun hh p => setSlotAt hh arrA p.1 (.ptr p.2)) h)

/-- The bump-allocation cursor: `top_` and `end_` of `Heap`. -/
structure BumpState where
  top : Nat
  limit : Nat
deriving DecidableEq

/-- `Heap::TryAllocate`: fail (the code returns the null sentinel 0) when
`end_ - top_ < size`; otherwise return the old top and advance it. -/
def tryAllocate (b : BumpState) (size : Nat) : Option (Nat × BumpState) :=
  if b.limit - b.top < size then none
  else some (b.top, { b with top := b.top + size })

/-- `Heap::Allocate`: try the bump allocation; on failure scavenge and retry;
on failure again grow and retry; a third failure is fatal (modelled as
`none`) — the sentinel is never returned to the caller. The word-level
effect of `Scavenge` and `Grow(size, ...)` on the cursor is abstracted as
the function arguments `scav` and `grow`. -/
def allocate (scav : BumpState → BumpState) (grow : Nat → BumpState → BumpState)
    (b : BumpState) (size : Nat) : Option (Nat × BumpState) :=
  match tryAllocate b size with
  | some r => some r
  | none =>
    let b1 := scav b
    match tryAllocate b1 size with
    | some r => some r
    | none =>
      let b2 := grow size b1
      match tryAllocate b2 size with
      | some r => some r
      | none => none

/-- The doubling loop of `Heap::Grow`: `new_size = current * 2; while
(new_size - current < requested) new_size *= 2`. The extra `0 < ns` guard
only rules out the vacuous `ns = 0` orbit, which the code never enters
(`to_.size()` is always positive). -/
def growLoop (current requested : Nat) (ns : Nat) : Nat :=
  if h : 0 < ns ∧ ns - current < requested then growLoop current requested (2 * ns)
  else ns
termination_by current + requested - ns
decreasing_by
  omega

/-- The semispace size chosen by `Heap::Grow(requested, reason)` for a
current to-space size. -/
def growSize (current requested : Nat) : Nat := growLoop current requested (2 * current)

/-- `kMaxSemispaceCapacity = 16 * sizeof(uword) * MB` (heap.h; the 64-bit
value — only its role as a cap is used). -/
def kMaxSemispaceSize : Nat := 16 * 8 * 1048576

/-- The two semispace sizes. -/
structure Spaces where
  toSize : Nat
  fromSize : Nat
deriving DecidableEq

/-- The size-level effect of `Heap::FlipSpaces`: swap the spaces; if the new
to-space is smaller than the new from-space (the scavenge after a grow),
free it and reallocate it at from-space's size. -/
def flipSizes (s : Spaces) : Spaces :=
  let s1 : Spaces := ⟨s.fromSize, s.toSize⟩
  if s1.toSize < s1.fromSize then ⟨s1.fromSize, s1.fromSize⟩ else s1

/-- The size-level effect of `Heap::Grow`: choose the new size by doubling;
beyond the cap the program is fatal (`none`); otherwise from-space is freed
and reallocated at the new size and the scavenge that follows flips the
spaces (its early-growth heuristic, which can only grow further, is outside
this size-level view). -/
def growSpaces (s : Spaces) (requested : Nat) : Option Spaces :=
  let ns := growSize s.toSize requested
  if ns > kMaxSemispaceSize then none
  else some (flipSizes ⟨s.toSize, ns⟩)

/-! ## Example heaps used by counterexamples and witnesses -/

/-- A heap for exercising `BecomeForward` with aliased arguments: cell 0 is
the object store `[nil]`, cells 2/3/4 are plain objects `a`, `b`, `c` with
identity hashes 10/20/30, cell 5 is the array `[a, b]` and cell 6 the array
`[b, c]`. -/
def heapBecomeAlias : Heap :=
  { space := [
      .obj ⟨20, 0, .ptrs [.ptr 1]⟩,
      .obj ⟨20, 1, .ptrs []⟩,
      .obj ⟨20, 10, .ptrs []⟩,
      .obj ⟨20, 20, .ptrs []⟩,
      .obj ⟨20, 30, .ptrs []⟩,
      .obj ⟨20, 0, .ptrs [.ptr 2, .ptr 3]⟩,
      .obj ⟨20, 0, .ptrs [.ptr 3, .ptr 4]⟩],
    objectStore := .ptr 0, currentActivation := .imm 0, handles := [],
    classTable := [], classTableFree := 0 }

/-- A heap for exercising class replacement through `BecomeForward` without
live instances: cell 3 is a class `C` registered at cid 5 (its id slot holds
`SmallInteger 5`), cell 4 is a replacement class `D` whose id slot is `nil`,
cell 5 is the array `[C]` and cell 6 the array `[D]`; no object has cid 5. -/
def heapClassRelease : Heap :=
  { space := [
      .obj ⟨20, 0, .ptrs [.ptr 1, .ptr 3, .ptr 4, .ptr 5, .ptr 6]⟩,
      .obj ⟨20, 1, .ptrs []⟩,
      .obj ⟨20, 2, .ptrs []⟩,
      .obj ⟨20, 3, .ptrs [.imm 5]⟩,
      .obj ⟨20, 4, .ptrs [.ptr 1]⟩,
      .obj ⟨20, 0, .ptrs [.ptr 3]⟩,
      .obj ⟨20, 0, .ptrs [.ptr 4]⟩],
    objectStore := .ptr 0, currentActivation := .imm 0, handles := [],
    classTable := (List.replicate 6 (Ref.imm 0)).set 5 (.ptr 3), classTableFree := 0 }

/-- A heap in which class-table entry 5 already is a forwarding corpse (cell
2, retained id `SmallInteger 5`) whose target is the nil-id class at cell 3,
and cell 4 is an instance with cid 5. -/
def heapCorpseEntry : Heap :=
  { space := [
      .obj ⟨20, 0, .ptrs [.ptr 1]⟩,
      .obj ⟨20, 1, .ptrs []⟩,
      .fwd 3 ⟨20, 0, .ptrs [.imm 5]⟩,
      .obj ⟨20, 0, .ptrs [.ptr 1]⟩,
      .obj ⟨5, 0, .ptrs []⟩],
    objectStore := .ptr 0, currentActivation := .imm 0, handles := [],
    classTable := (List.replicate 6 (Ref.imm 0)).set 5 (.ptr 2), classTableFree := 0 }

/-! ## Helper lemmas about heap cell updates -/

theorem space_setSlotAt (h : Heap) (a i : Nat) (r : Ref) :
    (setSlotAt h a i r).space.length = h.space.length := by
  unfold setSlotAt
  simp

theorem space_setCidAt (h : Heap) (a : Nat) (v : Nat) :
    (setCidAt h a v).space.length = h.space.length := by
  unfold setCidAt
  simp

theorem objAt_setSlotAt_same (h : Heap) (a i : Nat) (r : Ref) (ha : a < h.space.length) :
    (setSlotAt h a i r).objAt a = (h.objAt a).setSlot i r := by
  have hget : h.space.getD a (.obj default) = h.space[a] := by
    rw [List.getD_eq_getElem?_getD, List.getElem?_eq_getElem ha]
    rfl
  unfold setSlotAt Heap.objAt Heap.cellAt
  rw [List.getD_eq_getElem?_getD, List.getElem?_set_self]
  · simp only [Option.getD_some, hget]
    cases h.space[a] <;> rfl
  · exact ha

theorem objAt_setSlotAt_ne (h : Heap) (a b i : Nat) (r : Ref) (hne : a ≠ b) :
    (setSlotAt h a i r).objAt b = h.objAt b := by
  unfold setSlotAt Heap.objAt Heap.cellAt
  rw [List.getD_eq_getElem?_getD, List.getElem?_set_ne hne, ← List.getD_eq_getElem?_getD]

theorem objAt_setCidAt_same (h : Heap) (a : Nat) (v : Nat) (ha : a < h.space.length) :
    (setCidAt h a v).objAt a = ⟨v, (h.objAt a).hash, (h.objAt a).payload⟩ := by
  have hget : h.space.getD a (.obj default) = h.space[a] := by
    rw [List.getD_eq_getElem?_getD, List.getElem?_eq_getElem ha]
    rfl
  unfold setCidAt Heap.objAt Heap.cellAt
  rw [List.getD_eq_getElem?_getD, List.getElem?_set_self]
  · simp only [Option.getD_some, hget]
    cases h.space[a] <;> rfl
  · exact ha

theorem objAt_setCidAt_ne (h : Heap) (a b : Nat) (v : Nat) (hne : a ≠ b) :
    (setCidAt h a v).objAt b = h.objAt b := by
  unfold setCidAt Heap.objAt Heap.cellAt
  rw [List.getD_eq_getElem?_getD, List.getElem?_set_ne hne, ← List.getD_eq_getElem?_getD]

theorem behaviorId_setSlot_zero (o : Obj) (l : List Ref) (hp : o.payload = .ptrs l)
    (hl : l ≠ []) (r : Ref) : behaviorId (o.setSlot 0 r) = r := by
  obtain ⟨c, hh, p⟩ := o
  simp only at hp
  subst hp
  cases l with
  | nil => exact absurd rfl hl
  | cons x xs => rfl

/-! ## C4: `become_forward` precondition-failure atomicity -/

/-- C4. `BecomeForward` with arrays of different lengths, or with an
immediate among either array's elements, returns `false` and leaves the heap
completely unchanged: both checks run before any mutation
(heap.cc lines 568-585). -/
theorem becomeForward_failure_atomic (h : Heap) (oldA neuA : Nat)
    (hfail : (h.arrayElems oldA).length ≠ (h.arrayElems neuA).length ∨
      ∃ i, i < (h.arrayElems oldA).length ∧
        (((h.arrayElems oldA).getD i (.imm 0)).isImm = true ∨
         ((h.arrayElems neuA).getD i (.imm 0)).isImm = true)) :
    becomeForward h oldA neuA = (false, h) := by
  by_cases hlen : (h.arrayElems oldA).length = (h.arrayElems neuA).length
  · rcases hfail with hne | ⟨i, hi, him⟩
    · exact absurd hlen hne
    · have hmin : i < ((h.arrayElems oldA).zip (h.arrayElems neuA)).length := by
        rw [List.length_zip]
        omega

      have hi2 : i < (h.arrayElems neuA).length := by omega
      have hval : ((h.arrayElems oldA).zip (h.arrayElems neuA))[i] =
          ((h.arrayElems oldA)[i], (h.arrayElems neuA)[i]) := by
        simp [List.getElem_zip]
      have hany : ((h.arrayElems oldA).zip (h.arrayElems neuA)).any
          (fun p => p.1.isImm || p.2.isImm) = true := by
        refine List.any_eq_true.mpr ⟨_, List.getElem_mem hmin, ?_⟩
        rw [hval]
        rcases him with h1 | h1
        · rw [List.getD_eq_getElem?_getD, List.getElem?_eq_getElem hi] at h1
          simp only [Option.getD_some] at h1
          simp [h1]
        · rw [List.getD_eq_getElem?_getD, List.getElem?_eq_getElem hi2] at h1
          simp only [Option.getD_some] at h1
          simp [h1]
      unfold becomeForward
      simp [hlen, hany]
  · unfold becomeForward
    simp [hlen]

/-- Witness for C4 at a concrete input (a length mismatch between the array
`[a, b]` at cell 5 and the store `[nil]` at cell 0). -/
theorem becomeForward_failure_atomic_witness :
    becomeForward heapBecomeAlias 5 0 = (false, heapBecomeAlias) :=
  becomeForward_failure_atomic heapBecomeAlias 5 0 (Or.inl (by decide))

/-! ## C5: `become_forward` success semantics -/

/-- Counterexample to C5 as stated. First half: with `old = [a, b]` and
`neu = [b, c]` (heap objects, equal lengths), `BecomeForward` succeeds but
`identity_hash(neu[1]) = identity_hash(c)` afterwards is `a`'s pre-call hash
10, not `old[1] = b`'s pre-call hash 20 — `b`'s hash header was overwritten
by the pair `(a, b)` before the pair `(b, c)` read it. Second half: with
`old = [C]`, `neu = [D]` where class-table entry 5 holds `C` and `D`'s id is
nil and `C` has no instances, `BecomeForward` succeeds but the class-table
entry afterwards is a free-list link, not a reference resolving to
`neu[0] = D`. -/
theorem become_identity_counterexample :
    ((becomeForward heapBecomeAlias 5 6).1 = true ∧
     (heapBecomeAlias.arrayElems 5).getD 1 (.imm 0) = .ptr 3 ∧
     (heapBecomeAlias.arrayElems 6).getD 1 (.imm 0) = .ptr 4 ∧
     (heapBecomeAlias.objAt 3).hash = 20 ∧
     ((becomeForward heapBecomeAlias 5 6).2.objAt 4).hash = 10) ∧
    ((becomeForward heapClassRelease 5 6).1 = true ∧
     heapClassRelease.classTable.getD 5 (.imm 0) = .ptr 3 ∧
     (heapClassRelease.arrayElems 6).getD 0 (.imm 0) = .ptr 4 ∧
     (becomeForward heapClassRelease 5 6).2.classTable.getD 5 (.imm 0) = .imm 0 ∧
     (becomeForward heapClassRelease 5 6).2.classTable.getD 5 (.imm 0) ≠ .ptr 4) := by
  decide

/-! ## C6: class-table forwarding under `become` -/

/-- C6, amended. The class-table forwarding pass does not itself adopt cids:
for an entry that has become a corpse it installs the corpse's target exactly
when the target's id equals the corpse's retained id, and otherwise —
including when the target's id is still `nil` because no live instance of
the old class was visited — it releases the cid onto the free list
(heap.cc lines 288-314). The adoption described by the claim
(`new_class.id := old_class.id` plus the header-cid patch) is performed by
`ForwardClass` when the to-space pass visits an instance of the old class
(heap.cc lines 169-183); the table pass then installs the target because the
ids agree. -/
theorem classTable_forward_amended :
    (∀ (h : Heap) (i a t : Nat) (origCls : Obj),
        h.classTable.getD i (.imm 0) = .ptr a →
        h.space[a]? = some (.fwd t origCls) →
        (behaviorId origCls = behaviorId (h.objAt t) →
          forwardClassTableStep h i = { h with classTable := h.classTable.set i (.ptr t) }) ∧
        (behaviorId origCls ≠ behaviorId (h.objAt t) →
          forwardClassTableStep h i =
            { h with
              classTable := h.classTable.set i (.imm (Int.ofNat h.classTableFree)),
              classTableFree := i })) ∧
    (∀ (h : Heap) (t : Nat) (o : Obj) (ca nt : Nat) (origCls : Obj) (v : Int) (l : List Ref),
        h.space[t]? = some (.obj o) →
        h.classTable.getD o.cid (.imm 0) = .ptr ca →
        h.space[ca]? = some (.fwd nt origCls) →
        behaviorId (h.objAt nt) = nilOfHeap h →
        behaviorId origCls = .imm v →
        (h.objAt nt).payload = .ptrs l → l ≠ [] →
        nt ≠ t →
        behaviorId ((forwardClassAt h t).objAt nt) = .imm v ∧
        ((forwardClassAt h t).objAt t).cid = v.toNat) := by
  constructor
  · intro h i a t origCls hentry hcorpse
    constructor
    · intro heq
      simp only [forwardClassTableStep, hentry, hcorpse, if_pos heq]
    · intro hne
      simp only [forwardClassTableStep, hentry, hcorpse, if_neg hne]
  · intro h t o ca nt origCls v l hobj hentry hcorpse hnil hoid hpay hlne hnet
    have hntlen : nt < h.space.length := by
      by_contra hge
      have : h.space.getD nt (.obj default) = .obj default := by
        rw [List.getD_eq_getElem?_getD, List.getElem?_eq_none (by omega)]
        rfl
      rw [Heap.objAt, Heap.cellAt, this] at hpay
      simp [default] at hpay
    have htlen : t < h.space.length := by
      rcases Nat.lt_or_ge t h.space.length with hlt | hge
      · exact hlt
      · rw [List.getElem?_eq_none hge] at hobj
        exact Option.noConfusion hobj
    have hcellt : h.cellAt t = .obj o := by
      rw [Heap.cellAt, List.getD_eq_getElem?_getD, hobj]
      rfl
    have hid2 : behaviorId ((setSlotAt h nt 0 (.imm v)).objAt nt) = .imm v := by
      rw [objAt_setSlotAt_same h nt 0 _ hntlen]
      exact behaviorId_setSlot_zero _ l hpay hlne _
    have hres : forwardClassAt h t = setCidAt (setSlotAt h nt 0 (.imm v)) t v.toNat := by
      simp only [forwardClassAt, hcellt, hentry, hcorpse, hnil, eq_self_iff_true, if_true,
        hoid, hid2]
    constructor
    · rw [hres, objAt_setCidAt_ne _ _ _ _ (Ne.symm hnet), hid2]
    · rw [hres, objAt_setCidAt_same]
      rw [space_setSlotAt]
      exact htlen

/-- Counterexample to C6 as stated: in `heapClassRelease`, `become_forward`
turns class-table entry 5 into a corpse whose target `D` has a nil id and no
instances; the class-table forwarding pass then releases cid 5 (the entry
becomes the free-list link `SmallInteger 0` and `class_table_free` becomes
5) instead of adopting — `D`'s id is still nil afterwards and the entry is
not `D`. -/
theorem classTable_forward_counterexample :
    ((becomeForward heapClassRelease 5 6).1 = true ∧
     heapClassRelease.classTable.getD 5 (.imm 0) = .ptr 3 ∧
     (becomePairs ((heapClassRelease.arrayElems 5).zip (heapClassRelease.arrayElems 6))
        heapClassRelease).space[3]? = some (.fwd 4 ⟨20, 3, .ptrs [.imm 5]⟩) ∧
     behaviorId (heapClassRelease.objAt 4) = nilOfHeap heapClassRelease) ∧
    ((becomeForward heapClassRelease 5 6).2.classTable.getD 5 (.imm 0) = .imm 0 ∧
     (becomeForward heapClassRelease 5 6).2.classTableFree = 5 ∧
     behaviorId ((becomeForward heapClassRelease 5 6).2.objAt 4) =
       nilOfHeap (becomeForward heapClassRelease 5 6).2 ∧
     (becomeForward heapClassRelease 5 6).2.classTable.getD 5 (.imm 0) ≠ .ptr 4) := by
  decide

/-- Witness for the amended C6 at concrete inputs: in `heapCorpseEntry`
(entry 5 is a corpse with retained id `SmallInteger 5`, target id nil), the
table pass releases the cid, while `ForwardClass` applied to the instance at
cell 4 adopts the id into the target and patches the instance's header. -/
theorem classTable_forward_amended_witness :
    (forwardClassTableStep heapCorpseEntry 5 =
      { heapCorpseEntry with
        classTable := heapCorpseEntry.classTable.set 5 (.imm 0),
        classTableFree := 5 }) ∧
    (behaviorId ((forwardClassAt heapCorpseEntry 4).objAt 3) = .imm 5 ∧
     ((forwardClassAt heapCorpseEntry 4).objAt 4).cid = (5 : Int).toNat) := by
  constructor
  · exact (classTable_forward_amended.1 heapCorpseEntry 5 2 3 ⟨20, 0, .ptrs [.imm 5]⟩
      (by decide) (by decide)).2 (by decide)
  · exact classTable_forward_amended.2 heapCorpseEntry 4 ⟨5, 0, .ptrs []⟩ 2 3
      ⟨20, 0, .ptrs [.imm 5]⟩ 5 [.ptr 1] (by decide) (by decide) (by decide) (by decide)
      (by decide) (by decide) (by decide) (by decide)

/-! ## C7: allocation fallback chain -/

/-- C7. `TryAllocate` succeeds, returning the old top and advancing it by
`size`, exactly when `end_ - top_ ≥ size`, and otherwise fails (the code's
null sentinel, `none` here) without changing the cursor; `Allocate` first
tries the bump allocation, retries after a scavenge, retries after a grow,
and is fatal (`none`) rather than returning the sentinel when all three
attempts fail (heap.cc lines 62-80, heap.h `TryAllocate`). -/
theorem allocate_fallback_chain (scav : BumpState → BumpState)
    (grow : Nat → BumpState → BumpState) (b : BumpState) (size : Nat) :
    (size ≤ b.limit - b.top →
      tryAllocate b size = some (b.top, { top := b.top + size, limit := b.limit })) ∧
    (b.limit - b.top < size → tryAllocate b size = none) ∧
    (∀ r, tryAllocate b size = some r → allocate scav grow b size = some r) ∧
    (∀ r, tryAllocate b size = none → tryAllocate (scav b) size = some r →
      allocate scav grow b size = some r) ∧
    (tryAllocate b size = none → tryAllocate (scav b) size = none →
      allocate scav grow b size = tryAllocate (grow size (scav b)) size) ∧
    (allocate scav grow b size = none ↔
      tryAllocate b size = none ∧ tryAllocate (scav b) size = none ∧
        tryAllocate (grow size (scav b)) size = none) := by
  refine ⟨?_, ?_, ?_, ?_, ?_, ?_⟩
  · intro hle
    unfold tryAllocate
    rw [if_neg (by omega)]
  · intro hlt
    unfold tryAllocate
    rw [if_pos hlt]
  · intro r h1
    simp only [allocate, h1]
  · intro r h1 h2
    simp only [allocate, h1, h2]
  · intro h1 h2
    simp only [allocate, h1, h2]
    cases h3 : tryAllocate (grow size (scav b)) size <;> simp
  · constructor
    · intro hall
      simp only [allocate] at hall
      cases h1 : tryAllocate b size with
      | some r => simp only [h1] at hall; exact Option.noConfusion hall
      | none =>
        simp only [h1] at hall
        cases h2 : tryAllocate (scav b) size with
        | some r => simp only [h2] at hall; exact Option.noConfusion hall
        | none =>
          simp only [h2] at hall
          cases h3 : tryAllocate (grow size (scav b)) size with
          | some r => simp only [h3] at hall; exact Option.noConfusion hall
          | none => exact ⟨rfl, rfl, rfl⟩
    · rintro ⟨h1, h2, h3⟩
      simp only [allocate, h1, h2, h3]

/-- Witness for C7 at a concrete cursor. -/
theorem allocate_fallback_chain_witness :
    tryAllocate ⟨0, 16⟩ 8 = some (0, { top := 8, limit := 16 }) :=
  (allocate_fallback_chain id (fun _ b => b) ⟨0, 16⟩ 8).1 (by decide)

/-! ## C8: growth sizing -/

theorem growLoop_exit (c q : Nat) : ∀ ns, 0 < ns →
    q ≤ growLoop c q ns - c ∧ 0 < growLoop c q ns := by
  intro ns
  induction ns using growLoop.induct c q with
  | case1 ns hg ih =>
      intro h
      rw [growLoop, dif_pos hg]
      exact ih (by omega)
  | case2 ns hg =>
      intro h
      rw [growLoop, dif_neg hg]
      exact ⟨by omega, h⟩

theorem growLoop_pow (c q : Nat) : ∀ ns, ∃ k, growLoop c q ns = 2 ^ k * ns := by
  intro ns
  induction ns using growLoop.induct c q with
  | case1 ns hg ih =>
      rcases ih with ⟨k, hk⟩
      refine ⟨k + 1, ?_⟩
      rw [growLoop, dif_pos hg, hk]
      ring
  | case2 ns hg =>
      exact ⟨0, by rw [growLoop, dif_neg hg]; ring⟩

theorem growLoop_min (c q : Nat) : ∀ ns,
    growLoop c q ns = ns ∨ ∃ m, growLoop c q ns = 2 * m ∧ m - c < q ∧ 0 < m := by
  intro ns
  induction ns using growLoop.induct c q with
  | case1 ns hg ih =>
      right
      rcases ih with h0 | ⟨m, hm, hmc, hmp⟩
      · exact ⟨ns, by rw [growLoop, dif_pos hg]; omega, hg.2, hg.1⟩
      · exact ⟨m, by rw [growLoop, dif_pos hg]; omega, hmc, hmp⟩
  | case2 ns hg =>
      left
      rw [growLoop, dif_neg hg]

/-- C8. The size chosen by `Grow`: starting at twice the current to-space
size and doubling, the final size leaves at least `requested` bytes of
headroom over the current size, is `2^(k+1)` times the current size (so the
semispace at least doubles), and is the first double that suffices (either
no extra doubling happened, or the preceding candidate's headroom was short).
Beyond `kMaxSemispaceSize` the program is fatal; otherwise from-space is
reallocated at the new size and the scavenge that follows flips it in as
to-space (the old to-space, now from-space, is brought up to the same size
by the next flip) (heap.cc lines 83-99 and 152-166). -/
theorem grow_sizing (current requested : Nat) (hc : 0 < current) :
    (requested ≤ growSize current requested - current) ∧
    (∃ k, growSize current requested = 2 ^ (k + 1) * current) ∧
    (2 * current ≤ growSize current requested) ∧
    (growSize current requested = 2 * current ∨
      ∃ m, growSize current requested = 2 * m ∧ m - current < requested) ∧
    (∀ fs, kMaxSemispaceSize < growSize current requested →
      growSpaces ⟨current, fs⟩ requested = none) ∧
    (∀ fs, growSize current requested ≤ kMaxSemispaceSize →
      growSpaces ⟨current, fs⟩ requested = some ⟨growSize current requested, current⟩) ∧
    (flipSizes ⟨growSize current requested, current⟩ =
      ⟨growSize current requested, growSize current requested⟩) := by
  have hpos : 0 < 2 * current := by omega
  have hge2 : ∃ k, growSize current requested = 2 ^ (k + 1) * current := by
    rcases growLoop_pow current requested (2 * current) with ⟨k, hk⟩
    exact ⟨k, by rw [growSize, hk]; ring⟩
  have hdouble : 2 * current ≤ growSize current requested := by
    rcases hge2 with ⟨k, hk⟩
    rw [hk]
    have h1 : (2 : Nat) ^ 1 ≤ 2 ^ (k + 1) := Nat.pow_le_pow_right (by omega) (by omega)
    calc 2 * current = 2 ^ 1 * current := by ring
    _ ≤ 2 ^ (k + 1) * current := Nat.mul_le_mul_right current h1
  refine ⟨(growLoop_exit current requested (2 * current) hpos).1, hge2, hdouble, ?_, ?_, ?_, ?_⟩
  · rcases growLoop_min current requested (2 * current) with h0 | ⟨m, hm, hmc, _⟩
    · exact Or.inl h0
    · exact Or.inr ⟨m, hm, hmc⟩
  · intro fs hbig
    simp only [growSpaces, flipSizes]
    rw [if_pos hbig]
  · intro fs hsmall
    simp only [growSpaces, flipSizes]
    rw [if_neg (by omega), if_neg (by omega)]
  · simp only [flipSizes]
    rw [if_pos (by omega)]

/-- Witness for C8: concrete sizes (current 4, requested 9 forces two extra
doublings to 32). -/
theorem grow_sizing_witness :
    (9 ≤ growSize 4 9 - 4) ∧ (2 * 4 ≤ growSize 4 9) :=
  ⟨(grow_sizing 4 9 (by decide)).1, (grow_sizing 4 9 (by decide)).2.2.1⟩

/-! ## C10: `CountInstances` / `CollectInstances` -/

theorem collectWritesAux_length (cells : List Cell) (cid : Nat) : ∀ addr inst,
    (collectWritesAux cells addr cid inst).length =
      cells.countP (fun c => cellCid c = cid) := by
  induction cells with
  | nil => intro addr inst; rfl
  | cons c rest ih =>
      intro addr inst
      rw [List.countP_cons]
      unfold collectWritesAux
      by_cases hc : cellCid c = cid
      · rw [if_pos hc, List.length_cons, ih]
        simp [hc]
      · rw [if_neg hc, ih]
        simp [hc]

theorem collectWritesAux_fst (cells : List Cell) (cid : Nat) : ∀ addr inst,
    (collectWritesAux cells addr cid inst).map Prod.fst =
      List.range' inst (cells.countP (fun c => cellCid c = cid)) := by
  induction cells with
  | nil => intro addr inst; rfl
  | cons c rest ih =>
      intro addr inst
      rw [List.countP_cons]
      unfold collectWritesAux
      by_cases hc : cellCid c = cid
      · rw [if_pos hc]
        simp only [List.map_cons, ih]
        have : rest.countP (fun c => decide (cellCid c = cid)) + 1 =
            (rest.countP (fun c => decide (cellCid c = cid))).succ := rfl
        simp [hc, List.range'_succ]
      · rw [if_neg hc, ih]
        simp [hc]

theorem collectWritesAux_mem (cells : List Cell) (cid : Nat) : ∀ addr inst,
    ∀ p ∈ collectWritesAux cells addr cid inst,
      addr ≤ p.2 ∧ ∃ c, cells[p.2 - addr]? = some c ∧ cellCid c = cid := by
  induction cells with
  | nil => intro addr inst p hp; exact absurd hp (List.not_mem_nil p)
  | cons c rest ih =>
      intro addr inst p hp
      unfold collectWritesAux at hp
      by_cases hc : cellCid c = cid
      · rw [if_pos hc] at hp
        rcases List.mem_cons.mp hp with he | ht
        · subst he
          exact ⟨Nat.le_refl _, c, by simp, hc⟩
        · rcases ih (addr + 1) (inst + 1) p ht with ⟨hle, c2, hg, hcid⟩
          refine ⟨by omega, c2, ?_, hcid⟩
          have : p.2 - addr = (p.2 - (addr + 1)) + 1 := by omega
          rw [this]
          simpa using hg
      · rw [if_neg hc] at hp
        rcases ih (addr + 1) inst p hp with ⟨hle, c2, hg, hcid⟩
        refine ⟨by omega, c2, ?_, hcid⟩
        have : p.2 - addr = (p.2 - (addr + 1)) + 1 := by omega
        rw [this]
        simpa using hg

theorem collectWritesAux_sorted (cells : List Cell) (cid : Nat) : ∀ addr inst,
    List.Pairwise (· < ·) ((collectWritesAux cells addr cid inst).map Prod.snd) := by
  induction cells with
  | nil => intro addr inst; exact List.Pairwise.nil
  | cons c rest ih =>
      intro addr inst
      unfold collectWritesAux
      by_cases hc : cellCid c = cid
      · rw [if_pos hc]
        simp only [List.map_cons]
        refine List.pairwise_cons.mpr ⟨?_, ih (addr + 1) (inst + 1)⟩
        intro x hx
        rcases List.mem_map.mp hx with ⟨p, hp, hpx⟩
        have := (collectWritesAux_mem rest cid (addr + 1) (inst + 1) p hp).1
        omega
      · rw [if_neg hc]
        exact ih (addr + 1) inst

/-- C10. `CollectInstances(cid, array)` returns exactly the number
`CountInstances(cid)` counts (all to-space headers with that cid, reachable
or not); its writes go to array elements `0 .. count-1` in ascending
to-space address order, each holding an object whose header matches; and the
write list is computed with no bounds check against the array — every write
lands inside an array of `len` elements exactly when `len ≥
CountInstances(cid)`, which is therefore the caller's obligation
(heap.cc lines 539-565). -/
theorem collectInstances_spec (h : Heap) (cid arrA : Nat) :
    ((collectInstances h cid arrA).1 = countInstances h cid) ∧
    ((collectWrites h cid).map Prod.fst = List.range (countInstances h cid)) ∧
    List.Pairwise (· < ·) ((collectWrites h cid).map Prod.snd) ∧
    (∀ p ∈ collectWrites h cid, ∃ c, h.space[p.2]? = some c ∧ cellCid c = cid) ∧
    (∀ len : Nat, (∀ p ∈ collectWrites h cid, p.1 < len) ↔ countInstances h cid ≤ len) := by
  have hfst : (collectWrites h cid).map Prod.fst = List.range (countInstances h cid) := by
    rw [collectWrites, collectWritesAux_fst, List.range_eq_range']
    rfl
  refine ⟨?_, hfst, ?_, ?_, ?_⟩
  · rw [collectInstances]
    simp only []
    rw [collectWrites, collectWritesAux_length]
    rfl
  · exact collectWritesAux_sorted h.space cid 0 0
  · intro p hp
    rcases (collectWritesAux_mem h.space cid 0 0 p hp).2 with ⟨c, hg, hcid⟩
    exact ⟨c, by simpa using hg, hcid⟩
  · intro len
    constructor
    · intro hall
      by_cases h0 : countInstances h cid = 0
      · omega
      · have hmem : countInstances h cid - 1 ∈ (collectWrites h cid).map Prod.fst := by
          rw [hfst, List.mem_range]
          omega
        rcases List.mem_map.mp hmem with ⟨p, hp, hpx⟩
        have := hall p hp
        omega
    · intro hle p hp
      have : p.1 ∈ (collectWrites h cid).map Prod.fst := List.mem_map_of_mem _ hp
      rw [hfst, List.mem_range] at this
      omega

/-! ## C5: `become_forward` success semantics (amended) -/

/-- The forwarding information a cell exposes to `ForwardPointer`: the
target when the cell is a corpse, `none` otherwise. -/
def corpseTarget (h : Heap) (x : Nat) : Option Nat :=
  match h.space[x]? with
  | some (.fwd t _) => some t
  | _ => none

theorem forwardRef_eq_ct (h : Heap) (a : Nat) :
    forwardRef h (.ptr a) =
      (match corpseTarget h a with | some t => .ptr t | none => .ptr a) := by
  cases hg : h.space[a]? with
  | none => simp [forwardRef, corpseTarget, hg]
  | some c => cases c <;> simp [forwardRef, corpseTarget, hg]

theorem forwardRef_congr (h1 h2 : Heap)
    (hct : ∀ x, corpseTarget h1 x = corpseTarget h2 x) (r : Ref) :
    forwardRef h1 r = forwardRef h2 r := by
  cases r with
  | imm v => rfl
  | ptr a => rw [forwardRef_eq_ct, forwardRef_eq_ct, hct]

theorem forwardRef_corpse (h : Heap) (a t : Nat) (o : Obj)
    (hg : h.space[a]? = some (.fwd t o)) : forwardRef h (.ptr a) = .ptr t := by
  simp only [forwardRef, hg]

theorem forwardRef_not_corpse (h : Heap) (a : Nat)
    (hct : corpseTarget h a = none) : forwardRef h (.ptr a) = .ptr a := by
  rw [forwardRef_eq_ct, hct]

theorem getElem_some_lt {α : Type} (l : List α) (i : Nat) (x : α)
    (h : l[i]? = some x) : i < l.length := by
  rcases List.getElem?_eq_some_iff.mp h with ⟨hl, _⟩
  exact hl

theorem objAt_of_getElem (h : Heap) (a : Nat) (o : Obj)
    (hg : h.space[a]? = some (.obj o)) : h.objAt a = o := by
  unfold Heap.objAt Heap.cellAt
  rw [List.getD_eq_getElem?_getD, hg]
  rfl

theorem get_setHashAt_ne (h : Heap) (a b : Nat) (v : Nat) (hne : a ≠ b) :
    (setHashAt h a v).space[b]? = h.space[b]? := by
  unfold setHashAt
  exact List.getElem?_set_ne hne

theorem get_setHashAt_obj (h : Heap) (a : Nat) (v : Nat) (o : Obj)
    (hg : h.space[a]? = some (.obj o)) :
    (setHashAt h a v).space[a]? = some (.obj ⟨o.cid, v, o.payload⟩) := by
  have ha := getElem_some_lt _ _ _ hg
  have hgd : h.space.getD a (.obj default) = .obj o := by
    rw [List.getD_eq_getElem?_getD, hg]
    rfl
  unfold setHashAt
  rw [List.getElem?_set_self]
  · rw [hgd]
  · exact ha

theorem space_length_setHashAt (h : Heap) (a v : Nat) :
    (setHashAt h a v).space.length = h.space.length := by
  unfold setHashAt
  simp

/-- Characterisation of the corpse-installation loop of `BecomeForward` for
pairwise-distinct, disjoint, non-corpse arguments: the forwarders become
corpses carrying their original objects and targeting their forwardees, the
forwardees receive the forwarders' identity hashes, and everything else —
including the roots and the class table — is untouched. -/
theorem becomePairs_spec (ps : List (Nat × Nat)) : ∀ (h : Heap),
    (∀ p ∈ ps, ∃ o, h.space[p.1]? = some (.obj o)) →
    (∀ p ∈ ps, ∃ o, h.space[p.2]? = some (.obj o)) →
    (ps.map Prod.fst).Nodup →
    (ps.map Prod.snd).Nodup →
    (∀ p ∈ ps, ∀ q ∈ ps, p.1 ≠ q.2) →
    (∀ x, (∀ p ∈ ps, x ≠ p.1 ∧ x ≠ p.2) →
      (becomePairs (ps.map fun p => (Ref.ptr p.1, Ref.ptr p.2)) h).space[x]? = h.space[x]?) ∧
    (∀ p ∈ ps, ∀ o, h.space[p.1]? = some (.obj o) →
      (becomePairs (ps.map fun p => (Ref.ptr p.1, Ref.ptr p.2)) h).space[p.1]? =
        some (.fwd p.2 o)) ∧
    (∀ p ∈ ps, ∀ o, h.space[p.2]? = some (.obj o) →
      (becomePairs (ps.map fun p => (Ref.ptr p.1, Ref.ptr p.2)) h).space[p.2]? =
        some (.obj ⟨o.cid, (h.objAt p.1).hash, o.payload⟩)) ∧
    (becomePairs (ps.map fun p => (Ref.ptr p.1, Ref.ptr p.2)) h).objectStore =
      h.objectStore ∧
    (becomePairs (ps.map fun p => (Ref.ptr p.1, Ref.ptr p.2)) h).currentActivation =
      h.currentActivation ∧
    (becomePairs (ps.map fun p => (Ref.ptr p.1, Ref.ptr p.2)) h).handles = h.handles ∧
    (becomePairs (ps.map fun p => (Ref.ptr p.1, Ref.ptr p.2)) h).classTable =
      h.classTable ∧
    (becomePairs (ps.map fun p => (Ref.ptr p.1, Ref.ptr p.2)) h).classTableFree =
      h.classTableFree ∧
    (becomePairs (ps.map fun p => (Ref.ptr p.1, Ref.ptr p.2)) h).space.length =
      h.space.length := by
  induction ps with
  | nil =>
      intro h _ _ _ _ _
      refine ⟨fun x _ => rfl, ?_, ?_, rfl, rfl, rfl, rfl, rfl, rfl⟩
      · intro p hp
        exact absurd hp (List.not_mem_nil p)
      · intro p hp
        exact absurd hp (List.not_mem_nil p)
  | cons hd rest ih =>
      intro h hobj1 hobj2 hnd1 hnd2 hdisj
      obtain ⟨fa, na⟩ := hd
      obtain ⟨oA, hgA⟩ := hobj1 (fa, na) (List.mem_cons_self _ _)
      obtain ⟨oB, hgB⟩ := hobj2 (fa, na) (List.mem_cons_self _ _)
      have hfane : fa ≠ na :=
        hdisj (fa, na) (List.mem_cons_self _ _) (fa, na) (List.mem_cons_self _ _)
      have hOA : h.objAt fa = oA := objAt_of_getElem h fa oA hgA
      -- the two writes of this pair
      set h1 := setHashAt h na (h.objAt fa).hash with hh1
      have h1gA : h1.space[fa]? = some (.obj oA) := by
        rw [hh1, get_setHashAt_ne h na fa _ (Ne.symm hfane)]
        exact hgA
      have h1gB : h1.space[na]? = some (.obj ⟨oB.cid, oA.hash, oB.payload⟩) := by
        rw [hh1, hOA]
        exact get_setHashAt_obj h na oA.hash oB hgB
      have h1other : ∀ x, x ≠ na → h1.space[x]? = h.space[x]? := by
        intro x hx
        rw [hh1]
        exact get_setHashAt_ne h na x _ (fun he => hx he.symm)
      have h1OA : h1.objAt fa = oA := objAt_of_getElem h1 fa oA h1gA
      set hB : Heap := { h1 with space := h1.space.set fa (.fwd na (h1.objAt fa)) } with hhB
      have hBfa : hB.space[fa]? = some (.fwd na oA) := by
        have hfl : fa < h1.space.length := getElem_some_lt _ _ _ h1gA
        rw [hhB]
        show (h1.space.set fa (.fwd na (h1.objAt fa)))[fa]? = some (.fwd na oA)
        rw [h1OA, List.getElem?_set_self hfl]
      have hBother : ∀ x, x ≠ fa → hB.space[x]? = h1.space[x]? := by
        intro x hx
        rw [hhB]
        show (h1.space.set fa _)[x]? = h1.space[x]?
        exact List.getElem?_set_ne (fun he => hx he.symm)
      have hBoth : ∀ x, x ≠ fa → x ≠ na → hB.space[x]? = h.space[x]? := by
        intro x hx1 hx2
        rw [hBother x hx1, h1other x hx2]
      -- membership facts for the tail
      have hdfst : ∀ p ∈ rest, p.1 ≠ fa := by
        intro p hp he
        have : fa ∈ rest.map Prod.fst := by
          rw [← he]
          exact List.mem_map_of_mem Prod.fst hp
        rw [List.map_cons] at hnd1
        exact (List.nodup_cons.mp hnd1).1 this
      have hdsnd : ∀ p ∈ rest, p.2 ≠ na := by
        intro p hp he
        have : na ∈ rest.map Prod.snd := by
          rw [← he]
          exact List.mem_map_of_mem Prod.snd hp
        rw [List.map_cons] at hnd2
        exact (List.nodup_cons.mp hnd2).1 this
      have hdx1 : ∀ p ∈ rest, p.1 ≠ na := by
        intro p hp
        exact hdisj p (List.mem_cons_of_mem _ hp) (fa, na) (List.mem_cons_self _ _)
      have hdx2 : ∀ p ∈ rest, p.2 ≠ fa := by
        intro p hp he
        exact hdisj (fa, na) (List.mem_cons_self _ _) p (List.mem_cons_of_mem _ hp) he.symm
      have hrest1 : ∀ p ∈ rest, hB.space[p.1]? = h.space[p.1]? := by
        intro p hp
        exact hBoth p.1 (hdfst p hp) (hdx1 p hp)
      have hrest2 : ∀ p ∈ rest, hB.space[p.2]? = h.space[p.2]? := by
        intro p hp
        exact hBoth p.2 (hdx2 p hp) (hdsnd p hp)
      have ihB := ih hB
        (by
          intro p hp
          rw [hrest1 p hp]
          exact hobj1 p (List.mem_cons_of_mem _ hp))
        (by
          intro p hp
          rw [hrest2 p hp]
          exact hobj2 p (List.mem_cons_of_mem _ hp))
        (by rw [List.map_cons] at hnd1; exact (List.nodup_cons.mp hnd1).2)
        (by rw [List.map_cons] at hnd2; exact (List.nodup_cons.mp hnd2).2)
        (by
          intro p hp q hq
          exact hdisj p (List.mem_cons_of_mem _ hp) q (List.mem_cons_of_mem _ hq))
      obtain ⟨ih0, ih1, ih2, ihS, ihA, ihH, ihT, ihF, ihL⟩ := ihB
      have hstep : becomePairs (((fa, na) :: rest).map fun p => (Ref.ptr p.1, Ref.ptr p.2)) h =
          becomePairs (rest.map fun p => (Ref.ptr p.1, Ref.ptr p.2)) hB := by
        rw [List.map_cons]
        rfl
      rw [hstep]
      have hfauntouched : (∀ p ∈ rest, fa ≠ p.1 ∧ fa ≠ p.2) := by
        intro p hp
        exact ⟨fun he => hdfst p hp he.symm, fun he => hdx2 p hp he.symm⟩
      have hnauntouched : (∀ p ∈ rest, na ≠ p.1 ∧ na ≠ p.2) := by
        intro p hp
        exact ⟨fun he => hdx1 p hp he.symm, fun he => hdsnd p hp he.symm⟩
      refine ⟨?_, ?_, ?_, ihS, ihA, ihH, ihT, ihF,
        by rw [ihL]; simp [hhB, hh1, setHashAt]⟩
      · intro x hx
        have hx0 := hx (fa, na) (List.mem_cons_self _ _)
        rw [ih0 x (fun p hp => hx p (List.mem_cons_of_mem _ hp))]
        exact hBoth x hx0.1 hx0.2
      · intro p hp o hgo
        rcases List.mem_cons.mp hp with he | ht
        · subst he
          have : o = oA := by
            rw [hgA] at hgo
            exact (Cell.obj.inj (Option.some.inj hgo)).symm
          subst this
          rw [ih0 fa hfauntouched]
          exact hBfa
        · refine ih1 p ht o ?_
          rw [hrest1 p ht]
          exact hgo
      · intro p hp o hgo
        rcases List.mem_cons.mp hp with he | ht
        · subst he
          have : o = oB := by
            rw [hgB] at hgo
            exact (Cell.obj.inj (Option.some.inj hgo)).symm
          subst this
          rw [ih0 na hnauntouched, hBother na (Ne.symm hfane), hOA]
          exact h1gB
        · have hres := ih2 p ht o (by rw [hrest2 p ht]; exact hgo)
          have hOeq : hB.objAt p.1 = h.objAt p.1 := by
            unfold Heap.objAt Heap.cellAt
            rw [List.getD_eq_getElem?_getD, List.getD_eq_getElem?_getD, hrest1 p ht]
          rw [hOeq] at hres
          exact hres

/-- Payload with every pointer slot passed through `f`. -/
def mapRefs (f : Ref → Ref) : Payload → Payload
  | .ptrs l => .ptrs (l.map f)
  | .bytes d => .bytes d

/-- The shape `ForwardToSpace` leaves a cell in, relative to a base heap
`h3`: corpses and out-of-range reads are untouched, objects have their
pointer slots forwarded through `h3`'s corpses. -/
def forwardedCell (h3 : Heap) : Option Cell → Option Cell
  | some (.obj o) => some (.obj ⟨o.cid, o.hash, mapRefs (forwardRef h3) o.payload⟩)
  | c => c

theorem corpseTarget_of_agree (h3 hcur : Heap)
    (hag : ∀ x : Nat, hcur.space[x]? = forwardedCell h3 (h3.space[x]?) ∨
      hcur.space[x]? = h3.space[x]?) :
    ∀ x, corpseTarget hcur x = corpseTarget h3 x := by
  intro x
  unfold corpseTarget
  rcases hag x with hx | hx
  · rw [hx]
    unfold forwardedCell
    cases hg : h3.space[x]? with
    | none => rfl
    | some c => cases c <;> rfl
  · rw [hx]

theorem forwardClassAt_noop (h : Heap) (t : Nat)
    (hcls : ∀ j ca, h.classTable.getD j (.imm 0) = .ptr ca → corpseTarget h ca = none) :
    forwardClassAt h t = h := by
  cases hc : h.cellAt t with
  | fwd tt oo => simp only [forwardClassAt, hc]
  | obj o =>
    cases he : h.classTable.getD o.cid (.imm 0) with
    | imm v => simp only [forwardClassAt, hc, he]
    | ptr ca =>
      have hnone := hcls o.cid ca he
      unfold corpseTarget at hnone
      cases hg : h.space[ca]? with
      | none => simp only [forwardClassAt, hc, he, hg]
      | some c =>
        cases c with
        | obj o2 => simp only [forwardClassAt, hc, he, hg]
        | fwd tt oo =>
            rw [hg] at hnone
            exact absurd hnone (by simp)

theorem forwardClassTableStep_noop (h : Heap) (i : Nat)
    (hcls : ∀ j ca, h.classTable.getD j (.imm 0) = .ptr ca → corpseTarget h ca = none) :
    forwardClassTableStep h i = h := by
  cases he : h.classTable.getD i (.imm 0) with
  | imm v => simp only [forwardClassTableStep, he]
  | ptr ca =>
    have hnone := hcls i ca he
    unfold corpseTarget at hnone
    cases hg : h.space[ca]? with
    | none => simp only [forwardClassTableStep, he, hg]
    | some c =>
      cases c with
      | obj o2 => simp only [forwardClassTableStep, he, hg]
      | fwd tt oo =>
          rw [hg] at hnone
          exact absurd hnone (by simp)

theorem forwardClassTableFrom_noop : ∀ (k i : Nat) (h : Heap),
    (∀ j ca, h.classTable.getD j (.imm 0) = .ptr ca → corpseTarget h ca = none) →
    forwardClassTableFrom i k h = h := by
  intro k
  induction k with
  | zero => intro i h _; rfl
  | succ k ihk =>
      intro i h hcls
      show forwardClassTableFrom (i + 1) k (forwardClassTableStep h i) = h
      rw [forwardClassTableStep_noop h i hcls]
      exact ihk (i + 1) h hcls

/-- The effect of one `ForwardToSpace` iteration at cursor `t`, in a heap
whose class table never points at a corpse (so `ForwardClass` is inert). -/
theorem forwardObjAt_spec (h3 hcur : Heap) (t : Nat)
    (hCls : ∀ j ca, h3.classTable.getD j (.imm 0) = .ptr ca → corpseTarget h3 ca = none)
    (htab : hcur.classTable = h3.classTable)
    (hag : ∀ x : Nat, hcur.space[x]? = forwardedCell h3 (h3.space[x]?) ∨
      hcur.space[x]? = h3.space[x]?)
    (hcell : hcur.space[t]? = h3.space[t]?) :
    (∀ x, x ≠ t → (forwardObjAt hcur t).space[x]? = hcur.space[x]?) ∧
    (forwardObjAt hcur t).space[t]? = forwardedCell h3 (h3.space[t]?) ∧
    (forwardObjAt hcur t).classTable = hcur.classTable ∧
    (forwardObjAt hcur t).objectStore = hcur.objectStore ∧
    (forwardObjAt hcur t).currentActivation = hcur.currentActivation ∧
    (forwardObjAt hcur t).handles = hcur.handles ∧
    (forwardObjAt hcur t).classTableFree = hcur.classTableFree := by
  have hct := corpseTarget_of_agree h3 hcur hag
  have hclsCur : ∀ j ca, hcur.classTable.getD j (.imm 0) = .ptr ca →
      corpseTarget hcur ca = none := by
    intro j ca he
    rw [htab] at he
    rw [hct ca]
    exact hCls j ca he
  have hnoopC := forwardClassAt_noop hcur t hclsCur
  have hfr : ∀ r, forwardRef hcur r = forwardRef h3 r := forwardRef_congr hcur h3 hct
  cases hg : h3.space[t]? with
  | none =>
      have hcellD : hcur.cellAt t = .obj default := by
        rw [Heap.cellAt, List.getD_eq_getElem?_getD, hcell, hg]
        rfl
      have hres : forwardObjAt hcur t = hcur := by
        rw [forwardObjAt, hcellD, hnoopC, forwardSlotsAt, hcellD]
      rw [hres]
      refine ⟨fun x _ => rfl, ?_, rfl, rfl, rfl, rfl, rfl⟩
      rw [hcell, hg]
      rfl
  | some c =>
    cases c with
    | fwd tt oo =>
        have hcellD : hcur.cellAt t = .fwd tt oo := by
          rw [Heap.cellAt, List.getD_eq_getElem?_getD, hcell, hg]
          rfl
        have hres : forwardObjAt hcur t = hcur := by
          rw [forwardObjAt, hcellD]
        rw [hres]
        refine ⟨fun x _ => rfl, ?_, rfl, rfl, rfl, rfl, rfl⟩
        rw [hcell, hg]
        rfl
    | obj o =>
        have hcellD : hcur.cellAt t = .obj o := by
          rw [Heap.cellAt, List.getD_eq_getElem?_getD, hcell, hg]
          rfl
        have htlen : t < hcur.space.length := by
          exact getElem_some_lt hcur.space t _ (hcell.trans hg)
        obtain ⟨cid0, hash0, pay0⟩ := o
        cases pay0 with
        | bytes d =>
            have hres : forwardObjAt hcur t = hcur := by
              rw [forwardObjAt, hcellD, hnoopC, forwardSlotsAt, hcellD]
            rw [hres]
            refine ⟨fun x _ => rfl, ?_, rfl, rfl, rfl, rfl, rfl⟩
            rw [hcell, hg]
            rfl
        | ptrs l =>
            have hres : forwardObjAt hcur t =
                { hcur with space := hcur.space.set t (.obj ⟨cid0, hash0, .ptrs (l.map (forwardRef hcur))⟩) } := by
              rw [forwardObjAt, hcellD, hnoopC, forwardSlotsAt, hcellD]
            rw [hres]
            refine ⟨?_, ?_, rfl, rfl, rfl, rfl, rfl⟩
            · intro x hx
              exact List.getElem?_set_ne (fun he => hx he.symm)
            · show (hcur.space.set t _)[t]? = _
              rw [List.getElem?_set_self htlen]
              unfold forwardedCell mapRefs
              have hmap : l.map (forwardRef hcur) = l.map (forwardRef h3) :=
                List.map_congr_left (fun a _ => hfr a)
              rw [hmap]

/-- The `ForwardToSpace` walk forwards every object's pointer slots through
the base heap's corpses and touches nothing else. -/
theorem forwardSpaceFrom_spec (h3 : Heap)
    (hCls : ∀ j ca, h3.classTable.getD j (.imm 0) = .ptr ca → corpseTarget h3 ca = none) :
    ∀ (k t : Nat) (hcur : Heap),
      hcur.classTable = h3.classTable →
      (∀ x, x < t → hcur.space[x]? = forwardedCell h3 (h3.space[x]?)) →
      (∀ x, t ≤ x → hcur.space[x]? = h3.space[x]?) →
      hcur.objectStore = h3.objectStore →
      hcur.currentActivation = h3.currentActivation →
      hcur.handles = h3.handles →
      hcur.classTableFree = h3.classTableFree →
      ((forwardSpaceFrom t k hcur).classTable = h3.classTable ∧
       (∀ x, x < t + k → (forwardSpaceFrom t k hcur).space[x]? =
         forwardedCell h3 (h3.space[x]?)) ∧
       (∀ x, t + k ≤ x → (forwardSpaceFrom t k hcur).space[x]? = h3.space[x]?) ∧
       (forwardSpaceFrom t k hcur).objectStore = h3.objectStore ∧
       (forwardSpaceFrom t k hcur).currentActivation = h3.currentActivation ∧
       (forwardSpaceFrom t k hcur).handles = h3.handles ∧
       (forwardSpaceFrom t k hcur).classTableFree = h3.classTableFree) := by
  intro k
  induction k with
  | zero =>
      intro t hcur htab hlow hhigh hS hA hH hF
      exact ⟨htab, fun x hx => hlow x (by omega), fun x hx => hhigh x (by omega),
        hS, hA, hH, hF⟩
  | succ k ihk =>
      intro t hcur htab hlow hhigh hS hA hH hF
      have hag : ∀ x : Nat, hcur.space[x]? = forwardedCell h3 (h3.space[x]?) ∨
          hcur.space[x]? = h3.space[x]? := by
        intro x
        rcases Nat.lt_or_ge x t with hx | hx
        · exact Or.inl (hlow x hx)
        · exact Or.inr (hhigh x hx)
      obtain ⟨hb0, hb1, hb2, hb3, hb4, hb5, hb6⟩ :=
        forwardObjAt_spec h3 hcur t hCls htab hag (hhigh t (Nat.le_refl t))
      have hstep : forwardSpaceFrom t (k + 1) hcur =
          forwardSpaceFrom (t + 1) k (forwardObjAt hcur t) := rfl
      rw [hstep]
      have hres := ihk (t + 1) (forwardObjAt hcur t)
        (by rw [hb2, htab])
        (by
          intro x hx
          rcases Nat.lt_or_ge x t with hx2 | hx2
          · rw [hb0 x (by omega)]
            exact hlow x hx2
          · have : x = t := by omega
            subst this
            exact hb1)
        (by
          intro x hx
          rw [hb0 x (by omega)]
          exact hhigh x (by omega))
        (by rw [hb3, hS]) (by rw [hb4, hA]) (by rw [hb5, hH]) (by rw [hb6, hF])
      obtain ⟨hr0, hr1, hr2, hr3, hr4, hr5, hr6⟩ := hres
      refine ⟨hr0, ?_, ?_, hr3, hr4, hr5, hr6⟩
      · intro x hx
        exact hr1 x (by omega)
      · intro x hx
        exact hr2 x (by omega)

theorem slotsOf_mapRefs (f : Ref → Ref) (c hsh : Nat) (pay : Payload) :
    slotsOf ⟨c, hsh, mapRefs f pay⟩ = (slotsOf ⟨c, hsh, pay⟩).map f := by
  cases pay <;> rfl

theorem mem_zip_right : ∀ (l1 l2 : List Nat), l1.length = l2.length →
    ∀ b ∈ l2, ∃ a, (a, b) ∈ l1.zip l2 := by
  intro l1
  induction l1 with
  | nil =>
      intro l2 hl b hb
      cases l2 with
      | nil => exact absurd hb (List.not_mem_nil b)
      | cons x t => simp at hl
  | cons a t ih =>
      intro l2 hl b hb
      cases l2 with
      | nil => exact absurd hb (List.not_mem_nil b)
      | cons b2 t2 =>
          rcases List.mem_cons.mp hb with he | ht
          · subst he
            exact ⟨a, List.mem_cons_self _ _⟩
          · rcases ih t2 (by simpa using hl) b ht with ⟨a2, ha2⟩
            exact ⟨a2, List.mem_cons_of_mem _ ha2⟩

/-- C5, amended. When `old` and `neu` are equal-length arrays of pairwise
distinct heap objects, disjoint from one another, in a corpse-free heap whose
class table does not reference any `old[i]` (class replacement follows the
separate rule settled with the class-table claim), `BecomeForward` returns
`true`; afterwards each `neu[i]` carries `old[i]`'s pre-call identity hash,
every pre-existing reference to `old[i]` in the roots, the handles, and the
pointer slots of every surviving (non-corpse) object is `neu[i]`, and the
class table is untouched. -/
theorem becomeForward_success_spec (h : Heap) (oldA neuA : Nat) (fas nas : List Nat)
    (holds : h.arrayElems oldA = fas.map Ref.ptr)
    (hneus : h.arrayElems neuA = nas.map Ref.ptr)
    (hlen : fas.length = nas.length)
    (hfobj : ∀ fa ∈ fas, ∃ o, h.space[fa]? = some (.obj o))
    (hnobj : ∀ na ∈ nas, ∃ o, h.space[na]? = some (.obj o))
    (hfnd : fas.Nodup) (hnnd : nas.Nodup)
    (hdisj : ∀ fa ∈ fas, fa ∉ nas)
    (hnc : ∀ x : Nat, corpseTarget h x = none)
    (htabcls : ∀ j : Nat, ∀ fa ∈ fas, h.classTable.getD j (.imm 0) ≠ .ptr fa) :
    (becomeForward h oldA neuA).1 = true ∧
    (∀ p ∈ fas.zip nas, ∀ o, h.space[p.1]? = some (.obj o) →
      ((becomeForward h oldA neuA).2.objAt p.2).hash = o.hash) ∧
    (∀ p ∈ fas.zip nas,
      (h.objectStore = .ptr p.1 → (becomeForward h oldA neuA).2.objectStore = .ptr p.2) ∧
      (h.currentActivation = .ptr p.1 →
        (becomeForward h oldA neuA).2.currentActivation = .ptr p.2) ∧
      (∀ j : Nat, h.handles[j]? = some (.ptr p.1) →
        (becomeForward h oldA neuA).2.handles[j]? = some (.ptr p.2)) ∧
      (∀ t : Nat, ∀ o, ∀ j : Nat, t ∉ fas → h.space[t]? = some (.obj o) →
        (slotsOf o)[j]? = some (.ptr p.1) →
        ∃ o2, (becomeForward h oldA neuA).2.space[t]? = some (.obj o2) ∧
          (slotsOf o2)[j]? = some (.ptr p.2) ∧ o2.cid = o.cid)) ∧
    (becomeForward h oldA neuA).2.classTable = h.classTable ∧
    (becomeForward h oldA neuA).2.classTableFree = h.classTableFree := by
  set ps := fas.zip nas with hps
  have hpmem1 : ∀ p ∈ ps, p.1 ∈ fas := by
    intro p hp
    exact (List.of_mem_zip hp).1
  have hpmem2 : ∀ p ∈ ps, p.2 ∈ nas := by
    intro p hp
    exact (List.of_mem_zip hp).2
  -- run of becomeForward
  have hlen2 : (h.arrayElems oldA).length = (h.arrayElems neuA).length := by
    rw [holds, hneus, List.length_map, List.length_map, hlen]
  have hzip : (h.arrayElems oldA).zip (h.arrayElems neuA) =
      ps.map (fun p => (Ref.ptr p.1, Ref.ptr p.2)) := by
    rw [holds, hneus, List.zip_map, hps]
    apply List.map_congr_left
    intro p _
    obtain ⟨a, b⟩ := p
    rfl
  have hany : ((h.arrayElems oldA).zip (h.arrayElems neuA)).any
      (fun p => p.1.isImm || p.2.isImm) = false := by
    rw [hzip]
    rw [List.any_eq_false]
    intro p hp
    rcases List.mem_map.mp hp with ⟨q, _, hq⟩
    rw [← hq]
    simp [Ref.isImm]
  have hrun : becomeForward h oldA neuA =
      (true, forwardClassTable (forwardToSpace (forwardRoots
        (becomePairs (ps.map fun p => (Ref.ptr p.1, Ref.ptr p.2)) h)))) := by
    unfold becomeForward
    rw [if_neg (by omega), if_neg (by rw [hany]; simp), hzip]
  -- corpse-installation pass
  have hB := becomePairs_spec ps h
    (fun p hp => hfobj p.1 (hpmem1 p hp))
    (fun p hp => hnobj p.2 (hpmem2 p hp))
    (by rw [hps, List.map_fst_zip fas nas (by omega)]; exact hfnd)
    (by rw [hps, List.map_snd_zip fas nas (by omega)]; exact hnnd)
    (fun p hp q hq he => hdisj p.1 (hpmem1 p hp) (he ▸ hpmem2 q hq))
  obtain ⟨hB0, hB1, hB2, hBS, hBA, hBH, hBT, hBF, hBL⟩ := hB
  set h2 := becomePairs (ps.map fun p => (Ref.ptr p.1, Ref.ptr p.2)) h with hh2
  -- untouched cells and corpse structure of h2
  have h2ct : ∀ ca : Nat, ca ∉ fas → corpseTarget h2 ca = none := by
    intro ca hca
    by_cases hcan : ca ∈ nas
    · rcases mem_zip_right fas nas hlen ca hcan with ⟨fa2, hpz⟩
      rcases hnobj ca hcan with ⟨o, ho⟩
      have := hB2 (fa2, ca) hpz o ho
      unfold corpseTarget
      rw [this]
    · have hunt : ∀ p ∈ ps, ca ≠ p.1 ∧ ca ≠ p.2 := by
        intro p hp
        exact ⟨fun he => hca (he ▸ hpmem1 p hp), fun he => hcan (he ▸ hpmem2 p hp)⟩
      have := hB0 ca hunt
      unfold corpseTarget
      rw [this]
      have := hnc ca
      unfold corpseTarget at this
      exact this
  set hR := forwardRoots h2 with hhR
  have hRspace : hR.space = h2.space := rfl
  have hRtab : hR.classTable = h.classTable := by
    rw [hhR]
    show h2.classTable = h.classTable
    exact hBT
  have hRct : ∀ x : Nat, corpseTarget hR x = corpseTarget h2 x := fun x => rfl
  have hRcls : ∀ j ca : Nat, hR.classTable.getD j (.imm 0) = .ptr ca →
      corpseTarget hR ca = none := by
    intro j ca he
    rw [hRtab] at he
    rw [hRct ca]
    refine h2ct ca ?_
    intro hmem
    exact htabcls j ca hmem he
  have hW := forwardSpaceFrom_spec hR hRcls hR.space.length 0 hR rfl
    (by intro x hx; omega)
    (by intro x _; rfl)
    rfl rfl rfl rfl
  obtain ⟨hW0, hW1, hW2, hW3, hW4, hW5, hW6⟩ := hW
  set hT := forwardToSpace hR with hhT
  have hTdef : hT = forwardSpaceFrom 0 hR.space.length hR := rfl
  have hTcell : ∀ x : Nat, hT.space[x]? = forwardedCell hR (hR.space[x]?) := by
    intro x
    rcases Nat.lt_or_ge x hR.space.length with hx | hx
    · rw [hTdef]
      exact hW1 x (by omega)
    · have hnone : hR.space[x]? = none := List.getElem?_eq_none hx
      rw [hTdef, hW2 x (by omega), hnone]
      rfl
  have hTtab : hT.classTable = h.classTable := by
    rw [hTdef, hW0, hRtab]
  have hTct : ∀ x : Nat, corpseTarget hT x = corpseTarget hR x :=
    corpseTarget_of_agree hR hT (fun x => Or.inl (hTcell x))
  have hTcls : ∀ j ca : Nat, hT.classTable.getD j (.imm 0) = .ptr ca →
      corpseTarget hT ca = none := by
    intro j ca he
    rw [hTtab, ← hRtab] at he
    rw [hTct ca]
    exact hRcls j ca he
  have hfinal : forwardClassTable hT = hT := by
    unfold forwardClassTable
    exact forwardClassTableFrom_noop _ _ hT hTcls
  have hrun2 : becomeForward h oldA neuA = (true, hT) := by
    rw [hrun, hfinal]
  have hfr : ∀ r, forwardRef hR r = forwardRef h2 r := fun r => rfl
  have hcorpse : ∀ p ∈ ps, ∀ o, h.space[p.1]? = some (.obj o) →
      forwardRef h2 (.ptr p.1) = .ptr p.2 := by
    intro p hp o ho
    exact forwardRef_corpse h2 p.1 p.2 o (hB1 p hp o ho)
  rw [hrun2]
  refine ⟨rfl, ?_, ?_, hTtab, ?_⟩
  · -- identity hashes
    intro p hp o ho
    rcases hnobj p.2 (hpmem2 p hp) with ⟨oB, hoB⟩
    have hcell2 := hB2 p hp oB hoB
    have : hT.space[p.2]? =
        some (.obj ⟨oB.cid, (h.objAt p.1).hash, mapRefs (forwardRef hR) oB.payload⟩) := by
      rw [hTcell p.2, hRspace, hcell2]
      rfl
    have hobjT := objAt_of_getElem hT p.2 _ this
    show (hT.objAt p.2).hash = o.hash
    rw [hobjT]
    show (h.objAt p.1).hash = o.hash
    rw [objAt_of_getElem h p.1 o ho]
  · -- references
    intro p hp
    rcases hfobj p.1 (hpmem1 p hp) with ⟨oA, hoA⟩
    have hfwd : forwardRef h2 (.ptr p.1) = .ptr p.2 := hcorpse p hp oA hoA
    refine ⟨?_, ?_, ?_, ?_⟩
    · intro hroot
      have : hT.objectStore = hR.objectStore := by rw [hTdef]; exact hW3
      rw [this, hhR]
      show forwardRef h2 h2.objectStore = .ptr p.2
      rw [hBS, hroot]
      exact hfwd
    · intro hroot
      have : hT.currentActivation = hR.currentActivation := by rw [hTdef]; exact hW4
      rw [this, hhR]
      show forwardRef h2 h2.currentActivation = .ptr p.2
      rw [hBA, hroot]
      exact hfwd
    · intro j hj
      have : hT.handles = hR.handles := by rw [hTdef]; exact hW5
      rw [this, hhR]
      show (h2.handles.map (forwardRef h2))[j]? = some (.ptr p.2)
      rw [List.getElem?_map, hBH, hj]
      simp [hfwd]
    · intro t o j ht ho hslot
      have hcellT : h2.space[t]? = some (.obj o) ∨
          h2.space[t]? = some (.obj ⟨o.cid, (h.objAt t).hash, o.payload⟩) ∨
          ∃ q ∈ ps, h2.space[t]? =
            some (.obj ⟨o.cid, (h.objAt q.1).hash, o.payload⟩) := by
        by_cases htn : t ∈ nas
        · rcases mem_zip_right fas nas hlen t htn with ⟨fa2, hpz⟩
          right; right
          exact ⟨(fa2, t), hpz, hB2 (fa2, t) hpz o ho⟩
        · left
          rw [hB0 t (fun q hq => ⟨fun he => ht (he ▸ hpmem1 q hq),
            fun he => htn (he ▸ hpmem2 q hq)⟩)]
          exact ho
      have hgen : ∀ hsh : Nat, h2.space[t]? = some (.obj ⟨o.cid, hsh, o.payload⟩) →
          ∃ o2, hT.space[t]? = some (.obj o2) ∧
            (slotsOf o2)[j]? = some (.ptr p.2) ∧ o2.cid = o.cid := by
        intro hsh hcell
        refine ⟨⟨o.cid, hsh, mapRefs (forwardRef hR) o.payload⟩, ?_, ?_, rfl⟩
        · rw [hTcell t, hRspace, hcell]
          rfl
        · rw [slotsOf_mapRefs]
          have : slotsOf ⟨o.cid, hsh, o.payload⟩ = slotsOf o := by
            obtain ⟨c0, h0, p0⟩ := o
            cases p0 <;> rfl
          rw [this, List.getElem?_map, hslot]
          show some (forwardRef hR (Ref.ptr p.1)) = some (Ref.ptr p.2)
          rw [hfr, hfwd]
      rcases hcellT with hc | hc | ⟨q, _, hc⟩
      · have : h2.space[t]? = some (.obj ⟨o.cid, o.hash, o.payload⟩) := by
          rw [hc]
        exact hgen o.hash this
      · exact hgen (h.objAt t).hash hc
      · exact hgen (h.objAt q.1).hash hc
  · rw [hTdef, hW6, hhR]
    show h2.classTableFree = h.classTableFree
    exact hBF

/-- A heap for exercising a well-formed `BecomeForward`: `old = [a]` (cell
2, hash 10), `neu = [c]` (cell 3, hash 30), the arrays at cells 4 and 5. -/
def heapBecomeOk : Heap :=
  { space := [
      .obj ⟨20, 0, .ptrs [.ptr 1, .ptr 2]⟩,
      .obj ⟨20, 1, .ptrs []⟩,
      .obj ⟨20, 10, .ptrs []⟩,
      .obj ⟨20, 30, .ptrs []⟩,
      .obj ⟨20, 0, .ptrs [.ptr 2]⟩,
      .obj ⟨20, 0, .ptrs [.ptr 3]⟩],
    objectStore := .ptr 0, currentActivation := .imm 0, handles := [],
    classTable := [], classTableFree := 0 }

/-- Witness for the amended C5 at `heapBecomeOk`: the call succeeds, `c`
receives `a`'s identity hash, and the store slot that referenced `a` now
references `c`. -/
theorem becomeForward_success_spec_witness :
    ((becomeForward heapBecomeOk 4 5).1 = true) ∧
    ((becomeForward heapBecomeOk 4 5).2.objAt 3).hash = 10 := by
  have hmain := becomeForward_success_spec heapBecomeOk 4 5 [2] [3]
    (by decide) (by decide) (by decide)
    (by
      intro fa hfa
      rw [List.mem_singleton] at hfa
      subst hfa
      exact ⟨⟨20, 10, .ptrs []⟩, rfl⟩)
    (by
      intro na hna
      rw [List.mem_singleton] at hna
      subst hna
      exact ⟨⟨20, 30, .ptrs []⟩, rfl⟩)
    (by decide) (by decide)
    (by decide)
    (by
      intro x
      unfold corpseTarget
      rcases Nat.lt_or_ge x 6 with hx | hx
      · interval_cases x <;> rfl
      · rw [List.getElem?_eq_none (by simpa [heapBecomeOk] using hx)])
    (by
      intro j fa hfa he
      rw [show heapBecomeOk.classTable = [] from rfl] at he
      rw [List.getD_eq_getElem?_getD, List.getElem?_nil] at he
      exact Ref.noConfusion he)
  refine ⟨hmain.1, ?_⟩
  have := hmain.2.1 (2, 3) (by decide) ⟨20, 10, .ptrs []⟩ (by decide)
  simpa using this

/-! ## Reachability and well-formedness for the scavenge theorems -/

/-- Ephemeron-aware liveness over a mutator heap (Hayes semantics as the
collector implements it): roots are live; slots of live non-weak,
non-ephemeron objects are live; the class-table entry for a live object's
cid is live (`ScavengeClass` runs for every scanned object); and the value
and finalizer of a live ephemeron are live provided its key is an immediate
or is itself live. -/
inductive Live (h : Heap) : Nat → Prop where
  | store : ∀ a : Nat, h.objectStore = .ptr a → Live h a
  | activation : ∀ a : Nat, h.currentActivation = .ptr a → Live h a
  | handle : ∀ a : Nat, Ref.ptr a ∈ h.handles → Live h a
  | slot : ∀ (a : Nat) (o : Obj) (b : Nat), Live h a → h.space[a]? = some (.obj o) →
      o.cid ≠ kWeakArrayCid → o.cid ≠ kEphemeronCid → Ref.ptr b ∈ slotsOf o → Live h b
  | classEdge : ∀ (a : Nat) (o : Obj) (c : Nat), Live h a → h.space[a]? = some (.obj o) →
      h.classTable.getD o.cid (.imm 0) = .ptr c → Live h c
  | ephImm : ∀ (a : Nat) (o : Obj) (v : Int) (b : Nat), Live h a →
      h.space[a]? = some (.obj o) → o.cid = kEphemeronCid →
      (slotsOf o).getD 0 (.imm 0) = .imm v →
      (Ref.ptr b = (slotsOf o).getD 1 (.imm 0) ∨ Ref.ptr b = (slotsOf o).getD 2 (.imm 0)) →
      Live h b
  | ephKey : ∀ (a : Nat) (o : Obj) (ka b : Nat), Live h a →
      h.space[a]? = some (.obj o) → o.cid = kEphemeronCid →
      (slotsOf o).getD 0 (.imm 0) = .ptr ka → Live h ka →
      (Ref.ptr b = (slotsOf o).getD 1 (.imm 0) ∨ Ref.ptr b = (slotsOf o).getD 2 (.imm 0)) →
      Live h b

/-- Plain strong reachability from the roots: through the pointer slots of
non-weak, non-ephemeron objects, and through the class edge the collector
follows for every scanned object. -/
inductive StrongReach (h : Heap) : Nat → Prop where
  | store : ∀ a : Nat, h.objectStore = .ptr a → StrongReach h a
  | activation : ∀ a : Nat, h.currentActivation = .ptr a → StrongReach h a
  | handle : ∀ a : Nat, Ref.ptr a ∈ h.handles → StrongReach h a
  | slot : ∀ (a : Nat) (o : Obj) (b : Nat), StrongReach h a →
      h.space[a]? = some (.obj o) → o.cid ≠ kWeakArrayCid → o.cid ≠ kEphemeronCid →
      Ref.ptr b ∈ slotsOf o → StrongReach h b
  | classEdge : ∀ (a : Nat) (o : Obj) (c : Nat), StrongReach h a →
      h.space[a]? = some (.obj o) → h.classTable.getD o.cid (.imm 0) = .ptr c →
      StrongReach h c

theorem strongReach_live (h : Heap) (a : Nat) (hr : StrongReach h a) : Live h a := by
  induction hr with
  | store a ha => exact Live.store a ha
  | activation a ha => exact Live.activation a ha
  | handle a ha => exact Live.handle a ha
  | slot a o b _ ho hw he hb ih => exact Live.slot a o b ih ho hw he hb
  | classEdge a o c _ ho hc ih => exact Live.classEdge a o c ih ho hc

/-- A reference is in range of the heap. -/
def refOkb (n : Nat) : Ref → Bool
  | .imm _ => true
  | .ptr b => decide (b < n)

/-- Executable well-formedness of a mutator heap: corpse-free, and every
reference anywhere (roots, handles, class table, object slots) is an
immediate or an in-range pointer. -/
def wfb (h : Heap) : Bool :=
  h.space.all (fun c => match c with
    | .obj o => (slotsOf o).all (refOkb h.space.length)
    | .fwd _ _ => false) &&
  refOkb h.space.length h.objectStore &&
  refOkb h.space.length h.currentActivation &&
  h.handles.all (refOkb h.space.length) &&
  h.classTable.all (refOkb h.space.length)

/-- The well-formedness facts the invariant proofs use. -/
structure WF (h : Heap) : Prop where
  noCorpse : ∀ (a t : Nat) (o : Obj), h.space[a]? ≠ some (.fwd t o)
  refOk : ∀ (a : Nat) (o : Obj), h.space[a]? = some (.obj o) →
    ∀ b : Nat, Ref.ptr b ∈ slotsOf o → b < h.space.length
  rootSOk : ∀ b : Nat, h.objectStore = .ptr b → b < h.space.length
  rootAOk : ∀ b : Nat, h.currentActivation = .ptr b → b < h.space.length
  handleOk : ∀ b : Nat, Ref.ptr b ∈ h.handles → b < h.space.length
  tableOk : ∀ j b : Nat, h.classTable.getD j (.imm 0) = .ptr b → b < h.space.length

theorem refOkb_ptr (n b : Nat) (hr : refOkb n (.ptr b) = true) : b < n := by
  unfold refOkb at hr
  exact of_decide_eq_true hr

theorem wfb_wf (h : Heap) (hb : wfb h = true) : WF h := by
  unfold wfb at hb
  rw [Bool.and_eq_true, Bool.and_eq_true, Bool.and_eq_true, Bool.and_eq_true] at hb
  obtain ⟨⟨⟨⟨hsp, hS⟩, hA⟩, hH⟩, hT⟩ := hb
  rw [List.all_eq_true] at hsp hH hT
  constructor
  · intro a t o hg
    have hmem : Cell.fwd t o ∈ h.space := by
      rcases List.getElem?_eq_some_iff.mp hg with ⟨hl, hv⟩
      rw [← hv]
      exact List.getElem_mem hl
    have := hsp _ hmem
    simp at this
  · intro a o hg b hb2
    have hmem : Cell.obj o ∈ h.space := by
      rcases List.getElem?_eq_some_iff.mp hg with ⟨hl, hv⟩
      rw [← hv]
      exact List.getElem_mem hl
    have := hsp _ hmem
    simp only [List.all_eq_true] at this
    exact refOkb_ptr _ _ (this _ hb2)
  · intro b hg
    rw [hg] at hS
    exact refOkb_ptr _ _ hS
  · intro b hg
    rw [hg] at hA
    exact refOkb_ptr _ _ hA
  · intro b hg
    exact refOkb_ptr _ _ (hH _ hg)
  · intro j b hg
    rcases Nat.lt_or_ge j h.classTable.length with hj | hj
    · have hmem : Ref.ptr b ∈ h.classTable := by
        rw [List.getD_eq_getElem?_getD, List.getElem?_eq_getElem hj] at hg
        simp only [Option.getD_some] at hg
        rw [← hg]
        exact List.getElem_mem hj
      exact refOkb_ptr _ _ (hT _ hmem)
    · rw [List.getD_eq_getElem?_getD, List.getElem?_eq_none hj] at hg
      exact absurd hg (by simp)

/-! ## The collector invariant -/

/-- From-space address `a` has been forwarded. -/
def isFwd (s : GcState) (a : Nat) : Prop :=
  ∃ t o, s.fromSp[a]? = some (.fwd t o)

/-- A slot has been fully scavenged: immediates are unchanged, pointers have
been replaced by the forwarding target of their referent. -/
def SlotDone (s : GcState) (orig cur : Ref) : Prop :=
  (∃ v, orig = .imm v ∧ cur = orig) ∨
  (∃ b t o2, orig = .ptr b ∧ s.fromSp[b]? = some (.fwd t o2) ∧ cur = .ptr t)

/-- The class of a cid has been scavenged: the table entry is an immediate
(nothing to do), or points to a forwarded from-space cell. -/
def ClassDone (s : GcState) (cid : Nat) : Prop :=
  (∃ v, s.classTable.getD cid (.imm 0) = .imm v) ∨
  (∃ c, s.classTable.getD cid (.imm 0) = .ptr c ∧ isFwd s c)

/-- All pointer slots of a copy have been scavenged against the original. -/
def NormDone (s : GcState) (o o2 : Obj) : Prop :=
  (∃ d, o.payload = .bytes d ∧ o2.payload = .bytes d) ∨
  (∃ l l2, o.payload = .ptrs l ∧ o2.payload = .ptrs l2 ∧ l2.length = l.length ∧
    ∀ i : Nat, i < l.length → SlotDone s (l.getD i (.imm 0)) (l2.getD i (.imm 0)))

/-- The key, value and finalizer slots of an ephemeron copy have been
scavenged; the remaining slots are untouched. -/
def EphDone (s : GcState) (o o2 : Obj) : Prop :=
  (∃ d, o.payload = .bytes d ∧ o2.payload = .bytes d) ∨
  (∃ l l2, o.payload = .ptrs l ∧ o2.payload = .ptrs l2 ∧ l2.length = l.length ∧
    (∀ i : Nat, i < 3 → i < l.length → SlotDone s (l.getD i (.imm 0)) (l2.getD i (.imm 0))) ∧
    (∀ i : Nat, 3 ≤ i → l2.getD i (.imm 0) = l.getD i (.imm 0)))

/-- State of a copy at to-space index `t` relative to its original `o`:
either still verbatim (with the intact-by-now justification when already
scanned: a weak array, or an ephemeron on the worklist `s.ephems` or on the
detached list `ex`), or a processed ephemeron, or a fully scanned ordinary
object. -/
def PayRel (s : GcState) (scan : Nat) (ex : List Nat) (t : Nat) (o o2 : Obj) : Prop :=
  (o2.payload = o.payload ∧
    (t < scan → o.cid = kWeakArrayCid ∨
      (o.cid = kEphemeronCid ∧ (t ∈ s.ephems ∨ t ∈ ex)))) ∨
  (o.cid = kEphemeronCid ∧ t < scan ∧ t ∉ s.ephems ∧ t ∉ ex ∧ EphDone s o o2) ∨
  (o.cid ≠ kWeakArrayCid ∧ o.cid ≠ kEphemeronCid ∧ t < scan ∧ NormDone s o o2)

/-- Monotone evolution of collector state: forwarding headers persist, the
class table is untouched, to-space only grows. -/
def ExtendsF (s s2 : GcState) : Prop :=
  (∀ (a t : Nat) (o : Obj), s.fromSp[a]? = some (.fwd t o) → s2.fromSp[a]? = some (.fwd t o)) ∧
  s2.classTable = s.classTable ∧ s.toSp.length ≤ s2.toSp.length

theorem extendsF_refl (s : GcState) : ExtendsF s s :=
  ⟨fun _ _ _ hg => hg, rfl, Nat.le_refl _⟩

theorem extendsF_trans {s1 s2 s3 : GcState} (h12 : ExtendsF s1 s2) (h23 : ExtendsF s2 s3) :
    ExtendsF s1 s3 :=
  ⟨fun a t o hg => h23.1 a t o (h12.1 a t o hg), h23.2.1.trans h12.2.1,
    h12.2.2.trans h23.2.2⟩

theorem isFwd_mono {s s2 : GcState} (hx : ExtendsF s s2) {a : Nat} (hf : isFwd s a) :
    isFwd s2 a := by
  rcases hf with ⟨t, o, hg⟩
  exact ⟨t, o, hx.1 a t o hg⟩

theorem slotDone_mono {s s2 : GcState} (hx : ExtendsF s s2) {orig cur : Ref}
    (hd : SlotDone s orig cur) : SlotDone s2 orig cur := by
  rcases hd with ⟨v, h1, h2⟩ | ⟨b, t, o2, h1, h2, h3⟩
  · exact Or.inl ⟨v, h1, h2⟩
  · exact Or.inr ⟨b, t, o2, h1, hx.1 b t o2 h2, h3⟩

theorem classDone_mono {s s2 : GcState} (hx : ExtendsF s s2) {cid : Nat}
    (hd : ClassDone s cid) : ClassDone s2 cid := by
  rcases hd with ⟨v, h1⟩ | ⟨c, h1, h2⟩
  · exact Or.inl ⟨v, by rw [hx.2.1]; exact h1⟩
  · exact Or.inr ⟨c, by rw [hx.2.1]; exact h1, isFwd_mono hx h2⟩

theorem normDone_mono {s s2 : GcState} (hx : ExtendsF s s2) {o o2 : Obj}
    (hd : NormDone s o o2) : NormDone s2 o o2 := by
  rcases hd with hb | ⟨l, l2, h1, h2, h3, h4⟩
  · exact Or.inl hb
  · exact Or.inr ⟨l, l2, h1, h2, h3, fun i hi => slotDone_mono hx (h4 i hi)⟩

theorem ephDone_mono {s s2 : GcState} (hx : ExtendsF s s2) {o o2 : Obj}
    (hd : EphDone s o o2) : EphDone s2 o o2 := by
  rcases hd with hb | ⟨l, l2, h1, h2, h3, h4, h5⟩
  · exact Or.inl hb
  · exact Or.inr ⟨l, l2, h1, h2, h3, fun i hi hi2 => slotDone_mono hx (h4 i hi hi2), h5⟩

/-- The core collector invariant relating a mid-scavenge state to the
pre-flip heap `h`; `scan` is the Cheney cursor, `ex` a detached ephemeron
worklist currently being processed, and `cur` an optional to-space index
whose copy is mid-update (its slot loop is running) and therefore exempt
from the content relation. -/
structure InvCore (h : Heap) (s : GcState) (scan : Nat) (ex : List Nat)
    (cur : Option Nat) : Prop where
  flen : s.fromSp.length = h.space.length
  fcells : ∀ a : Nat, s.fromSp[a]? = h.space[a]? ∨
    ∃ (o : Obj) (t : Nat), h.space[a]? = some (.obj o) ∧ s.fromSp[a]? = some (.fwd t o) ∧
      t < s.toSp.length
  inj : ∀ (a b t : Nat) (oa ob : Obj), s.fromSp[a]? = some (.fwd t oa) →
    s.fromSp[b]? = some (.fwd t ob) → a = b
  surj : ∀ t : Nat, t < s.toSp.length →
    ∃ (a : Nat) (o : Obj), h.space[a]? = some (.obj o) ∧ s.fromSp[a]? = some (.fwd t o)
  content : ∀ (a t : Nat) (o : Obj), h.space[a]? = some (.obj o) →
    s.fromSp[a]? = some (.fwd t o) → cur ≠ some t →
    ∃ o2, s.toSp[t]? = some o2 ∧ o2.cid = o.cid ∧ o2.hash = o.hash ∧ PayRel s scan ex t o o2
  classdone : ∀ t : Nat, t < scan → ∀ o2, s.toSp[t]? = some o2 → ClassDone s o2.cid
  ephmem : ∀ e ∈ s.ephems, e < scan ∧ ∃ o2, s.toSp[e]? = some o2 ∧ o2.cid = kEphemeronCid
  ephnd : s.ephems.Nodup
  weakmem : ∀ w ∈ s.weaks, w < scan ∧ ∃ o2, s.toSp[w]? = some o2 ∧ o2.cid = kWeakArrayCid
  weaknd : s.weaks.Nodup
  weakall : ∀ t : Nat, t < scan → ∀ o2, s.toSp[t]? = some o2 → o2.cid = kWeakArrayCid →
    t ∈ s.weaks
  scanle : scan ≤ s.toSp.length
  table : s.classTable = h.classTable
  free : s.classTableFree = h.classTableFree
  sound : ∀ a : Nat, isFwd s a → Live h a

/-- The roots have been scavenged. -/
structure RootsDone (h : Heap) (s : GcState) : Prop where
  rootS : SlotDone s h.objectStore s.objectStore
  rootA : SlotDone s h.currentActivation s.currentActivation
  rootH : List.Forall₂ (SlotDone s) h.handles s.handles

theorem getElem_append_lt {α : Type} (l : List α) (x : α) (i : Nat) (h : i < l.length) :
    (l ++ [x])[i]? = l[i]? := by
  rw [List.getElem?_append, if_pos h]

theorem payRel_mono {s s2 : GcState} {scan : Nat} {ex : List Nat} {t : Nat}
    {o o2 : Obj} (hx : ExtendsF s s2) (heph : s2.ephems = s.ephems)
    (hp : PayRel s scan ex t o o2) : PayRel s2 scan ex t o o2 := by
  rcases hp with ⟨h1, h2⟩ | ⟨h1, h2, h3, h4, h5⟩ | ⟨h1, h2, h3, h4⟩
  · refine Or.inl ⟨h1, ?_⟩
    intro ht
    rcases h2 ht with hw | ⟨he, hm⟩
    · exact Or.inl hw
    · exact Or.inr ⟨he, by rw [heph]; exact hm⟩
  · exact Or.inr (Or.inl ⟨h1, h2, by rw [heph]; exact h3, h4, ephDone_mono hx h5⟩)
  · exact Or.inr (Or.inr ⟨h1, h2, h3, normDone_mono hx h4⟩)

/-- Preservation of the core invariant by `ScavengePointer`, with the
returned reference fully scavenged. The Live-justification `hj` is supplied
by each call site (root, traced slot, class edge, or ephemeron rule). -/
theorem scavengePointer_pres (h : Heap) (hwf : WF h) (s : GcState) (scan : Nat)
    (ex : List Nat) (cur : Option Nat) (inv : InvCore h s scan ex cur) (r : Ref)
    (hj : ∀ (b : Nat) (ob : Obj), r = .ptr b → s.fromSp[b]? = some (.obj ob) → Live h b)
    (hrange : ∀ b : Nat, r = .ptr b → b < h.space.length) :
    InvCore h (scavengePointer s r).1 scan ex cur ∧
    SlotDone (scavengePointer s r).1 r (scavengePointer s r).2 ∧
    ExtendsF s (scavengePointer s r).1 ∧
    (scavengePointer s r).1.ephems = s.ephems ∧
    (scavengePointer s r).1.weaks = s.weaks ∧
    (scavengePointer s r).1.objectStore = s.objectStore ∧
    (scavengePointer s r).1.currentActivation = s.currentActivation ∧
    (scavengePointer s r).1.handles = s.handles ∧
    (∀ t : Nat, t < s.toSp.length → (scavengePointer s r).1.toSp[t]? = s.toSp[t]?) ∧
    ((scavengePointer s r).1.toSp.length = s.toSp.length → (scavengePointer s r).1 = s) := by
  cases r with
  | imm v =>
      exact ⟨inv, Or.inl ⟨v, rfl, rfl⟩, extendsF_refl s, rfl, rfl, rfl, rfl, rfl,
        fun t _ => rfl, fun _ => rfl⟩
  | ptr a =>
      have ha : a < h.space.length := hrange a rfl
      have haf : a < s.fromSp.length := by rw [inv.flen]; exact ha
      cases hfa : s.fromSp[a]? with
      | none =>
          rw [List.getElem?_eq_getElem haf] at hfa
          exact Option.noConfusion hfa
      | some c =>
        cases c with
        | fwd t o =>
            have hres : scavengePointer s (.ptr a) = (s, .ptr t) := by
              simp only [scavengePointer, hfa]
            rw [hres]
            exact ⟨inv, Or.inr ⟨a, t, o, rfl, hfa, rfl⟩, extendsF_refl s, rfl, rfl, rfl,
              rfl, rfl, fun t2 _ => rfl, fun _ => rfl⟩
        | obj o =>
            have hha : h.space[a]? = some (.obj o) := by
              rcases inv.fcells a with he | ⟨o3, t3, _, hf3, _⟩
              · rw [← he]
                exact hfa
              · rw [hf3] at hfa
                simp at hfa
            have hlive : Live h a := hj a o rfl hfa
            set t0 := s.toSp.length with ht0
            set s2 : GcState := { s with toSp := s.toSp ++ [o], fromSp := s.fromSp.set a (.fwd t0 o) } with hs2
            have hres : scavengePointer s (.ptr a) = (s2, .ptr t0) := by
              simp only [scavengePointer, hfa]
            rw [hres]
            have hfget : ∀ x : Nat, x ≠ a → s2.fromSp[x]? = s.fromSp[x]? := by
              intro x hx
              show (s.fromSp.set a _)[x]? = s.fromSp[x]?
              exact List.getElem?_set_ne (fun he => hx he.symm)
            have hfa2 : s2.fromSp[a]? = some (.fwd t0 o) := by
              show (s.fromSp.set a _)[a]? = _
              rw [List.getElem?_set_self haf]
            have htlow : ∀ t : Nat, t < s.toSp.length → s2.toSp[t]? = s.toSp[t]? := by
              intro t ht
              show (s.toSp ++ [o])[t]? = s.toSp[t]?
              exact getElem_append_lt s.toSp o t ht
            have htat : s2.toSp[t0]? = some o := by
              show (s.toSp ++ [o])[s.toSp.length]? = some o
              exact List.getElem?_concat_length s.toSp o
            have htlen : s2.toSp.length = s.toSp.length + 1 := by
              show (s.toSp ++ [o]).length = _
              simp
            have hfwdlt : ∀ (x t : Nat) (ox : Obj), s.fromSp[x]? = some (.fwd t ox) →
                t < s.toSp.length := by
              intro x t ox hg
              rcases inv.fcells x with he | ⟨o3, t3, _, hf3, hlt3⟩
              · rw [he] at hg
                exact absurd hg (hwf.noCorpse x t ox)
              · rw [hf3] at hg
                obtain ⟨h1, h2⟩ := Cell.fwd.inj (Option.some.inj hg)
                exact h1 ▸ hlt3
            have hx : ExtendsF s s2 := by
              refine ⟨?_, rfl, by omega⟩
              intro x t ox hg
              have hxa : x ≠ a := by
                intro he
                rw [he, hfa] at hg
                simp at hg
              rw [hfget x hxa]
              exact hg
            refine ⟨?_, Or.inr ⟨a, t0, o, rfl, hfa2, rfl⟩, hx, rfl, rfl, rfl, rfl, rfl,
              htlow, by intro hcon; rw [htlen] at hcon; omega⟩
            constructor
            · show s2.fromSp.length = h.space.length
              show (s.fromSp.set a _).length = h.space.length
              rw [List.length_set]
              exact inv.flen
            · intro x
              by_cases hxa : x = a
              · subst hxa
                refine Or.inr ⟨o, t0, hha, hfa2, by rw [htlen]; omega⟩
              · rw [hfget x hxa]
                rcases inv.fcells x with he | ⟨o3, t3, h1, h2, h3⟩
                · exact Or.inl he
                · exact Or.inr ⟨o3, t3, h1, h2, by rw [htlen]; omega⟩
            · intro x y t ox oy hgx hgy
              by_cases hxa : x = a
              · by_cases hya : y = a
                · rw [hxa, hya]
                · rw [hxa, hfa2] at hgx
                  obtain ⟨he1, he2⟩ := Cell.fwd.inj (Option.some.inj hgx)
                  rw [hfget y hya] at hgy
                  have h9 := hfwdlt y t oy hgy
                  rw [← he1, ht0] at h9
                  exact absurd h9 (lt_irrefl _)
              · rw [hfget x hxa] at hgx
                by_cases hya : y = a
                · rw [hya, hfa2] at hgy
                  obtain ⟨he1, he2⟩ := Cell.fwd.inj (Option.some.inj hgy)
                  have h9 := hfwdlt x t ox hgx
                  rw [← he1, ht0] at h9
                  exact absurd h9 (lt_irrefl _)
                · rw [hfget y hya] at hgy
                  exact inv.inj x y t ox oy hgx hgy
            · intro t ht
              rw [htlen] at ht
              rcases Nat.lt_or_ge t s.toSp.length with ht2 | ht2
              · rcases inv.surj t ht2 with ⟨x, ox, h1, h2⟩
                have hxa : x ≠ a := by
                  intro he
                  rw [he, hfa] at h2
                  simp at h2
                exact ⟨x, ox, h1, by rw [hfget x hxa]; exact h2⟩
              · have : t = t0 := by omega
                subst this
                exact ⟨a, o, hha, hfa2⟩
            · intro x t ox h1 h2 hcur
              by_cases hxa : x = a
              · subst hxa
                rw [hfa2] at h2
                obtain ⟨he1, he2⟩ := Cell.fwd.inj (Option.some.inj h2)
                rw [hha] at h1
                have ho : ox = o := (Cell.obj.inj (Option.some.inj h1)).symm
                subst ho
                refine ⟨ox, by rw [← he1]; exact htat, rfl, rfl, ?_⟩
                refine Or.inl ⟨rfl, ?_⟩
                intro hlt
                have := inv.scanle
                omega
              · rw [hfget x hxa] at h2
                rcases inv.content x t ox h1 h2 hcur with ⟨o2, hc1, hc2, hc3, hc4⟩
                have htlt := hfwdlt x t ox h2
                refine ⟨o2, by rw [htlow t htlt]; exact hc1, hc2, hc3, ?_⟩
                exact payRel_mono hx rfl hc4
            · intro t ht o2 hg
              have htlt : t < s.toSp.length := by
                have := inv.scanle
                omega
              rw [htlow t htlt] at hg
              exact classDone_mono hx (inv.classdone t ht o2 hg)
            · intro e he
              rcases inv.ephmem e he with ⟨h1, o2, h2, h3⟩
              have helt : e < s.toSp.length := by
                have := inv.scanle
                omega
              exact ⟨h1, o2, by rw [htlow e helt]; exact h2, h3⟩
            · exact inv.ephnd
            · intro w hw
              rcases inv.weakmem w hw with ⟨h1, o2, h2, h3⟩
              have hwlt : w < s.toSp.length := by
                have := inv.scanle
                omega
              exact ⟨h1, o2, by rw [htlow w hwlt]; exact h2, h3⟩
            · exact inv.weaknd
            · intro t ht o2 hg hc
              have htlt : t < s.toSp.length := by
                have := inv.scanle
                omega
              rw [htlow t htlt] at hg
              exact inv.weakall t ht o2 hg hc
            · show scan ≤ s2.toSp.length
              rw [htlen]
              have := inv.scanle
              omega
            · exact inv.table
            · exact inv.free
            · intro x hfx
              rcases hfx with ⟨t, ox, hg⟩
              by_cases hxa : x = a
              · subst hxa
                exact hlive
              · rw [hfget x hxa] at hg
                exact inv.sound x ⟨t, ox, hg⟩

theorem obCount_set_fwd (l : List Cell) (a t : Nat) (o ob : Obj)
    (hg : l[a]? = some (.obj ob)) :
    obCount (l.set a (.fwd t o)) + 1 = obCount l := by
  induction l generalizing a with
  | nil => simp at hg
  | cons c rest ih =>
      cases a with
      | zero =>
          simp only [List.getElem?_cons_zero, Option.some.injEq] at hg
          subst hg
          simp [obCount, List.countP_cons]
      | succ n =>
          simp only [List.getElem?_cons_succ] at hg
          have := ih n hg
          simp only [List.set_cons_succ, obCount, List.countP_cons] at *
          omega

/-- Each `ScavengePointer` call conserves copies-made plus copies-pending. -/
theorem scavengePointer_sigma (s : GcState) (r : Ref) :
    (scavengePointer s r).1.toSp.length + obCount (scavengePointer s r).1.fromSp =
    s.toSp.length + obCount s.fromSp := by
  cases r with
  | imm v => rfl
  | ptr a =>
      cases hfa : s.fromSp[a]? with
      | none =>
          have hres : scavengePointer s (.ptr a) = (s, .ptr a) := by
            simp only [scavengePointer, hfa]
          rw [hres]
      | some c =>
          cases c with
          | fwd t o =>
              have hres : scavengePointer s (.ptr a) = (s, .ptr t) := by
                simp only [scavengePointer, hfa]
              rw [hres]
          | obj o =>
              have hres : scavengePointer s (.ptr a) =
                  ({ s with toSp := s.toSp ++ [o], fromSp := s.fromSp.set a (.fwd s.toSp.length o) }, .ptr s.toSp.length) := by
                simp only [scavengePointer, hfa]
              rw [hres]
              have hob := obCount_set_fwd s.fromSp a s.toSp.length o o hfa
              show (s.toSp ++ [o]).length + obCount (s.fromSp.set a (.fwd s.toSp.length o)) = _
              rw [List.length_append]
              simp only [List.length_cons, List.length_nil]
              omega

/-- Preservation of the core invariant by `ScavengeClass`, with the class of
`cid` scavenged afterwards. -/
theorem scavengeClass_pres (h : Heap) (hwf : WF h) (s : GcState) (scan : Nat)
    (ex : List Nat) (cur : Option Nat) (inv : InvCore h s scan ex cur) (cid : Nat)
    (hj : ∀ c : Nat, s.classTable.getD cid (.imm 0) = .ptr c → Live h c) :
    InvCore h (scavengeClass s cid) scan ex cur ∧
    ClassDone (scavengeClass s cid) cid ∧
    ExtendsF s (scavengeClass s cid) ∧
    (scavengeClass s cid).ephems = s.ephems ∧
    (scavengeClass s cid).weaks = s.weaks ∧
    (scavengeClass s cid).objectStore = s.objectStore ∧
    (scavengeClass s cid).currentActivation = s.currentActivation ∧
    (scavengeClass s cid).handles = s.handles ∧
    (∀ t : Nat, t < s.toSp.length → (scavengeClass s cid).toSp[t]? = s.toSp[t]?) := by
  cases hct : s.classTable.getD cid (.imm 0) with
  | imm v =>
      have hres : scavengeClass s cid = s := by
        simp only [scavengeClass, hct]
      rw [hres]
      exact ⟨inv, Or.inl ⟨v, hct⟩, extendsF_refl s, rfl, rfl, rfl, rfl, rfl, fun t _ => rfl⟩
  | ptr c =>
      have hc : c < h.space.length := hwf.tableOk cid c (by rw [← inv.table]; exact hct)
      have heq : scavengeClass s cid = (scavengePointer s (.ptr c)).1 := by
        cases hfc : s.fromSp[c]? with
        | none => simp only [scavengeClass, scavengePointer, hct, hfc]
        | some cc =>
            cases cc with
            | obj o => simp only [scavengeClass, scavengePointer, hct, hfc]
            | fwd t o => simp only [scavengeClass, scavengePointer, hct, hfc]
      obtain ⟨hinv, hsd, hxf, heph, hwk, hst, hac, hhd, hpre, _⟩ :=
        scavengePointer_pres h hwf s scan ex cur inv (.ptr c)
          (fun b ob hb _ => by cases Ref.ptr.inj hb; exact hj c hct)
          (fun b hb => by cases Ref.ptr.inj hb; exact hc)
      rw [heq]
      refine ⟨hinv, ?_, hxf, heph, hwk, hst, hac, hhd, hpre⟩
      rcases hsd with ⟨v, h1, _⟩ | ⟨b, t, o2, h1, h2, _⟩
      · exact absurd h1 (by simp)
      · obtain rfl : c = b := Ref.ptr.inj h1
        exact Or.inr ⟨c, by rw [hxf.2.1]; exact hct, t, o2, h2⟩

/-- `ScavengeClass` conserves copies-made plus copies-pending. -/
theorem scavengeClass_sigma (s : GcState) (cid : Nat) :
    (scavengeClass s cid).toSp.length + obCount (scavengeClass s cid).fromSp =
    s.toSp.length + obCount s.fromSp := by
  cases hct : s.classTable.getD cid (.imm 0) with
  | imm v =>
      have hres : scavengeClass s cid = s := by
        simp only [scavengeClass, hct]
      rw [hres]
  | ptr c =>
      have heq : scavengeClass s cid = (scavengePointer s (.ptr c)).1 := by
        cases hfc : s.fromSp[c]? with
        | none => simp only [scavengeClass, scavengePointer, hct, hfc]
        | some cc =>
            cases cc with
            | obj o => simp only [scavengeClass, scavengePointer, hct, hfc]
            | fwd t o => simp only [scavengeClass, scavengePointer, hct, hfc]
      rw [heq]
      exact scavengePointer_sigma s (.ptr c)

theorem setSlot_cid (o : Obj) (i : Nat) (r : Ref) : (o.setSlot i r).cid = o.cid := by
  obtain ⟨c, hsh, p⟩ := o
  cases p <;> rfl

theorem setSlot_hash (o : Obj) (i : Nat) (r : Ref) : (o.setSlot i r).hash = o.hash := by
  obtain ⟨c, hsh, p⟩ := o
  cases p <;> rfl

theorem putSlot_at (s : GcState) (t i : Nat) (r : Ref) (o2 : Obj)
    (h2 : s.toSp[t]? = some o2) :
    (s.putSlot t i r).toSp[t]? = some (o2.setSlot i r) := by
  have hlt : t < s.toSp.length := getElem_some_lt _ _ _ h2
  have hgd : s.toSp.getD t default = o2 := by
    rw [List.getD_eq_getElem?_getD, h2]
    rfl
  show (s.toSp.set t ((s.toSp.getD t default).setSlot i r))[t]? = _
  rw [List.getElem?_set_self hlt, hgd]

theorem putSlot_ne (s : GcState) (t i : Nat) (r : Ref) (u : Nat) (hu : u ≠ t) :
    (s.putSlot t i r).toSp[u]? = s.toSp[u]? := by
  show (s.toSp.set t _)[u]? = s.toSp[u]?
  exact List.getElem?_set_ne (fun he => hu he.symm)

theorem putSlot_len (s : GcState) (t i : Nat) (r : Ref) :
    (s.putSlot t i r).toSp.length = s.toSp.length := by
  show (s.toSp.set t _).length = s.toSp.length
  exact List.length_set _ _ _

/-- Writing back a scavenged slot of the object currently being scanned
preserves the invariant (that object is exempt from the content relation,
and `setSlot` touches neither header word). -/
theorem putSlot_pres (h : Heap) (s : GcState) (scan : Nat) (ex : List Nat)
    (t i : Nat) (r : Ref) (inv : InvCore h s scan ex (some t)) :
    InvCore h (s.putSlot t i r) scan ex (some t) ∧ ExtendsF s (s.putSlot t i r) := by
  have hxf : ExtendsF s (s.putSlot t i r) :=
    ⟨fun a t2 o hg => hg, rfl, Nat.le_of_eq (putSlot_len s t i r).symm⟩
  refine ⟨⟨inv.flen, ?_, inv.inj, ?_, ?_, ?_, ?_, inv.ephnd, ?_, inv.weaknd, ?_, ?_,
    inv.table, inv.free, inv.sound⟩, hxf⟩
  · intro a
    rcases inv.fcells a with h1 | ⟨o, t2, h1, h2, h3⟩
    · exact Or.inl h1
    · exact Or.inr ⟨o, t2, h1, h2, by rw [putSlot_len]; exact h3⟩
  · intro t2 ht2
    rw [putSlot_len] at ht2
    exact inv.surj t2 ht2
  · intro a t2 o h1 h2 hcur
    have ht2 : t2 ≠ t := by
      intro he
      exact hcur (by rw [he])
    obtain ⟨o2, hc1, hc2, hc3, hc4⟩ := inv.content a t2 o h1 h2 hcur
    exact ⟨o2, by rw [putSlot_ne s t i r t2 ht2]; exact hc1, hc2, hc3,
      payRel_mono hxf rfl hc4⟩
  · intro u hu o2 hg
    by_cases hut : u = t
    · subst hut
      have hlt : u < (s.putSlot u i r).toSp.length := getElem_some_lt _ _ _ hg
      rw [putSlot_len] at hlt
      have hold : s.toSp[u]? = some (s.toSp.getD u default) := by
        rw [List.getD_eq_getElem?_getD, List.getElem?_eq_getElem hlt]
        rfl
      rw [putSlot_at s u i r _ hold] at hg
      have ho2 := Option.some.inj hg
      rw [← ho2, setSlot_cid]
      exact classDone_mono hxf (inv.classdone u hu _ hold)
    · rw [putSlot_ne s t i r u hut] at hg
      exact classDone_mono hxf (inv.classdone u hu o2 hg)
  · intro e he
    obtain ⟨h1, o2, h2, h3⟩ := inv.ephmem e he
    by_cases het : e = t
    · subst het
      exact ⟨h1, o2.setSlot i r, putSlot_at s e i r o2 h2, by rw [setSlot_cid]; exact h3⟩
    · exact ⟨h1, o2, by rw [putSlot_ne s t i r e het]; exact h2, h3⟩
  · intro w hw
    obtain ⟨h1, o2, h2, h3⟩ := inv.weakmem w hw
    by_cases hwt : w = t
    · subst hwt
      exact ⟨h1, o2.setSlot i r, putSlot_at s w i r o2 h2, by rw [setSlot_cid]; exact h3⟩
    · exact ⟨h1, o2, by rw [putSlot_ne s t i r w hwt]; exact h2, h3⟩
  · intro u hu o2 hg hcid
    by_cases hut : u = t
    · subst hut
      have hlt : u < (s.putSlot u i r).toSp.length := getElem_some_lt _ _ _ hg
      rw [putSlot_len] at hlt
      have hold : s.toSp[u]? = some (s.toSp.getD u default) := by
        rw [List.getD_eq_getElem?_getD, List.getElem?_eq_getElem hlt]
        rfl
      rw [putSlot_at s u i r _ hold] at hg
      have ho2 := Option.some.inj hg
      rw [← ho2, setSlot_cid] at hcid
      exact inv.weakall u hu _ hold hcid
    · rw [putSlot_ne s t i r u hut] at hg
      exact inv.weakall u hu o2 hg hcid
  · rw [putSlot_len]
    exact inv.scanle

theorem getD_set_ne {α : Type} (l : List α) (i j : Nat) (v d : α) (hij : i ≠ j) :
    (l.set i v).getD j d = l.getD j d := by
  rw [List.getD_eq_getElem?_getD, List.getD_eq_getElem?_getD, List.getElem?_set_ne hij]

theorem getD_set_self {α : Type} (l : List α) (i : Nat) (v d : α) (hi : i < l.length) :
    (l.set i v).getD i d = v := by
  rw [List.getD_eq_getElem?_getD, List.getElem?_set_self hi]
  rfl

theorem getD_beyond {α : Type} (l : List α) (i : Nat) (d : α) (hi : l.length ≤ i) :
    l.getD i d = d := by
  rw [List.getD_eq_getElem?_getD, List.getElem?_eq_none hi]
  rfl

theorem slotsOf_ptrs (o : Obj) (l : List Ref) (hp : o.payload = .ptrs l) :
    slotsOf o = l := by
  obtain ⟨c, hs, p⟩ := o
  cases p with
  | ptrs l0 => exact Payload.ptrs.inj hp
  | bytes d => exact absurd hp (by simp)

theorem setSlot_payload (o : Obj) (l : List Ref) (i : Nat) (r : Ref)
    (hp : o.payload = .ptrs l) : (o.setSlot i r).payload = .ptrs (l.set i r) := by
  obtain ⟨c, hs, p⟩ := o
  cases p with
  | ptrs l0 =>
      obtain rfl : l0 = l := Payload.ptrs.inj hp
      rfl
  | bytes d => exact absurd hp (by simp)

theorem getSlot_eq (s : GcState) (t i : Nat) (o2 : Obj) (l2 : List Ref)
    (h2 : s.toSp[t]? = some o2) (hp : o2.payload = .ptrs l2) :
    s.getSlot t i = l2.getD i (.imm 0) := by
  have hgd : s.toSp.getD t default = o2 := by
    rw [List.getD_eq_getElem?_getD, h2]
    rfl
  unfold GcState.getSlot GcState.objAt
  rw [hgd, slotsOf_ptrs o2 l2 hp]

/-- Mid-slot-loop state of the copy at to-space index `t` against the
original object `o` with slot list `l`: headers match, slots before `i` are
scavenged, the rest are verbatim. -/
def PartialCopy (s : GcState) (t : Nat) (o : Obj) (l : List Ref) (i : Nat) : Prop :=
  ∃ o2 l2, s.toSp[t]? = some o2 ∧ o2.cid = o.cid ∧ o2.hash = o.hash ∧
    o2.payload = .ptrs l2 ∧ l2.length = l.length ∧
    (∀ j : Nat, j < i → SlotDone s (l.getD j (.imm 0)) (l2.getD j (.imm 0))) ∧
    (∀ j : Nat, i ≤ j → l2.getD j (.imm 0) = l.getD j (.imm 0))

/-- Preservation of the invariant by the slot-scavenging loop, advancing the
partial-copy frontier of the object being scanned from `i` to `i + k`. -/
theorem scavengeSlots_pres (h : Heap) (hwf : WF h) (t : Nat) (o : Obj) (l : List Ref)
    (k : Nat) :
    ∀ (s : GcState) (scan : Nat) (ex : List Nat) (i : Nat),
    InvCore h s scan ex (some t) →
    PartialCopy s t o l i →
    (∀ j b : Nat, i ≤ j → j < i + k → l.getD j (.imm 0) = .ptr b →
      Live h b ∧ b < h.space.length) →
    InvCore h (scavengeSlots s t i k) scan ex (some t) ∧
    ExtendsF s (scavengeSlots s t i k) ∧
    (scavengeSlots s t i k).ephems = s.ephems ∧
    (scavengeSlots s t i k).weaks = s.weaks ∧
    (scavengeSlots s t i k).objectStore = s.objectStore ∧
    (scavengeSlots s t i k).currentActivation = s.currentActivation ∧
    (scavengeSlots s t i k).handles = s.handles ∧
    (∀ u : Nat, u < s.toSp.length → u ≠ t → (scavengeSlots s t i k).toSp[u]? = s.toSp[u]?) ∧
    (scavengeSlots s t i k).toSp.length + obCount (scavengeSlots s t i k).fromSp =
      s.toSp.length + obCount s.fromSp ∧
    PartialCopy (scavengeSlots s t i k) t o l (i + k) := by
  induction k with
  | zero =>
      intro s scan ex i inv hpc hjs
      exact ⟨inv, extendsF_refl s, rfl, rfl, rfl, rfl, rfl, fun u _ _ => rfl, rfl, hpc⟩
  | succ k ih =>
      intro s scan ex i inv hpc hjs
      obtain ⟨o2, l2, hc1, hc2, hc3, hc4, hc5, hc6, hc7⟩ := hpc
      have hslot : s.getSlot t i = l.getD i (.imm 0) := by
        rw [getSlot_eq s t i o2 l2 hc1 hc4]
        exact hc7 i (Nat.le_refl i)
      have hstep0 : scavengeSlots s t i (k + 1) =
          scavengeSlots ((scavengePointer s (s.getSlot t i)).1.putSlot t i
            (scavengePointer s (s.getSlot t i)).2) t (i + 1) k := rfl
      rw [hslot] at hstep0
      rw [hstep0]
      set r := l.getD i (.imm 0) with hrdef
      set s1 := (scavengePointer s r).1 with hs1
      set rr := (scavengePointer s r).2 with hrr
      obtain ⟨inv1, hsd1, hx1, he1, hw1, hos1, hca1, hh1, hpre1, _⟩ :=
        scavengePointer_pres h hwf s scan ex (some t) inv r
          (fun b ob hb _ => (hjs i b (Nat.le_refl i) (by omega) (hrdef ▸ hb)).1)
          (fun b hb => (hjs i b (Nat.le_refl i) (by omega) (hrdef ▸ hb)).2)
      have hsigma1 : s1.toSp.length + obCount s1.fromSp =
          s.toSp.length + obCount s.fromSp := scavengePointer_sigma s r
      obtain ⟨inv2, hx2⟩ := putSlot_pres h s1 scan ex t i rr inv1
      have ht_lt : t < s.toSp.length := getElem_some_lt _ _ _ hc1
      have hc1' : s1.toSp[t]? = some o2 := (hpre1 t ht_lt).trans hc1
      have hat2 : (s1.putSlot t i rr).toSp[t]? = some (o2.setSlot i rr) :=
        putSlot_at s1 t i rr o2 hc1'
      have hxs2 : ExtendsF s (s1.putSlot t i rr) := extendsF_trans hx1 hx2
      have hpc2 : PartialCopy (s1.putSlot t i rr) t o l (i + 1) := by
        refine ⟨o2.setSlot i rr, l2.set i rr, hat2, (setSlot_cid o2 i rr).trans hc2,
          (setSlot_hash o2 i rr).trans hc3, setSlot_payload o2 l2 i rr hc4,
          by rw [List.length_set]; exact hc5, ?_, ?_⟩
        · intro j hj
          rcases Nat.lt_or_ge j i with hji | hji
          · rw [getD_set_ne l2 i j rr (.imm 0) (by omega)]
            exact slotDone_mono hxs2 (hc6 j hji)
          · have hji2 : j = i := by omega
            subst hji2
            rcases Nat.lt_or_ge j l.length with hjl | hjl
            · rw [getD_set_self l2 j rr (.imm 0) (by rw [hc5]; exact hjl)]
              exact slotDone_mono hx2 hsd1
            · have hr0 : r = .imm 0 := by
                rw [hrdef]
                exact getD_beyond l j (.imm 0) hjl
              have hrr0 : rr = .imm 0 := by
                rw [hrr, hr0]
                rfl
              rw [getD_beyond (l2.set j rr) j (.imm 0)
                (by rw [List.length_set, hc5]; exact hjl)]
              rw [getD_beyond l j (.imm 0) hjl]
              exact Or.inl ⟨0, rfl, rfl⟩
        · intro j hj
          rw [getD_set_ne l2 i j rr (.imm 0) (by omega)]
          exact hc7 j (by omega)
      obtain ⟨inv3, hx3, he3, hw3, hos3, hca3, hh3, hpre3, hsig3, hpc3⟩ :=
        ih (s1.putSlot t i rr) scan ex (i + 1) inv2 hpc2
          (fun j b hj1 hj2 hb => hjs j b (by omega) (by omega) hb)
      have hlen1 : s.toSp.length ≤ s1.toSp.length := hx1.2.2
      have hlen2 : (s1.putSlot t i rr).toSp.length = s1.toSp.length := putSlot_len s1 t i rr
      have hsig2 : (s1.putSlot t i rr).toSp.length + obCount (s1.putSlot t i rr).fromSp =
          s1.toSp.length + obCount s1.fromSp := by
        rw [putSlot_len s1 t i rr]
        rfl
      refine ⟨inv3, extendsF_trans hxs2 hx3, he3.trans he1, hw3.trans hw1,
        hos3.trans hos1, hca3.trans hca1, hh3.trans hh1, ?_,
        hsig3.trans (hsig2.trans hsigma1), ?_⟩
      · intro u hu hut
        rw [hpre3 u (by omega) hut, putSlot_ne s1 t i rr u hut, hpre1 u hu]
      · have he : i + 1 + k = i + (k + 1) := by omega
        exact he ▸ hpc3

theorem mem_of_getD {α : Type} (l : List α) (j : Nat) (d : α) (hj : j < l.length) :
    l.getD j d ∈ l := by
  rw [List.getD_eq_getElem?_getD, List.getElem?_eq_getElem hj]
  exact List.getElem_mem hj

theorem slotsOf_bytes (o : Obj) (d : List Nat) (hp : o.payload = .bytes d) :
    slotsOf o = [] := by
  obtain ⟨c, hs, p⟩ := o
  cases p with
  | ptrs l0 => exact absurd hp (by simp)
  | bytes d0 => rfl

theorem payRel_scan_succ {s : GcState} {scan : Nat} {ex : List Nat} {t : Nat} {o o2 : Obj}
    (hne : t ≠ scan) (hp : PayRel s scan ex t o o2) : PayRel s (scan + 1) ex t o o2 := by
  rcases hp with ⟨h1, h2⟩ | ⟨h1, h2, h3, h4, h5⟩ | ⟨h1, h2, h3, h4⟩
  · exact Or.inl ⟨h1, fun ht => h2 (by omega)⟩
  · exact Or.inr (Or.inl ⟨h1, by omega, h3, h4, h5⟩)
  · exact Or.inr (Or.inr ⟨h1, h2, by omega, h4⟩)

theorem payRel_ephcons {s : GcState} {scan : Nat} {ex : List Nat} {t e : Nat} {o o2 : Obj}
    (he : scan ≤ e) (hp : PayRel s scan ex t o o2) :
    PayRel { s with ephems := e :: s.ephems } scan ex t o o2 := by
  have hx : ExtendsF s { s with ephems := e :: s.ephems } :=
    ⟨fun a t2 o3 hg => hg, rfl, Nat.le_refl _⟩
  rcases hp with ⟨h1, h2⟩ | ⟨h1, h2, h3, h4, h5⟩ | ⟨h1, h2, h3, h4⟩
  · refine Or.inl ⟨h1, fun ht => ?_⟩
    rcases h2 ht with hw | ⟨hep, hm⟩
    · exact Or.inl hw
    · refine Or.inr ⟨hep, ?_⟩
      rcases hm with hm | hm
      · exact Or.inl (by show t ∈ e :: s.ephems; exact List.mem_cons_of_mem e hm)
      · exact Or.inr hm
  · refine Or.inr (Or.inl ⟨h1, h2, ?_, h4, ephDone_mono hx h5⟩)
    show t ∉ e :: s.ephems
    intro hmem
    rcases List.mem_cons.mp hmem with hte | hmem2
    · omega
    · exact h3 hmem2
  · exact Or.inr (Or.inr ⟨h1, h2, h3, normDone_mono hx h4⟩)

theorem invCore_to_cur (h : Heap) (s : GcState) (scan : Nat) (ex : List Nat)
    (cur : Option Nat) (inv : InvCore h s scan ex none) : InvCore h s scan ex cur := by
  refine ⟨inv.flen, inv.fcells, inv.inj, inv.surj, ?_, inv.classdone, inv.ephmem,
    inv.ephnd, inv.weakmem, inv.weaknd, inv.weakall, inv.scanle, inv.table, inv.free,
    inv.sound⟩
  intro a t o h1 h2 _
  exact inv.content a t o h1 h2 (fun hc => Option.noConfusion hc)

/-- Advance the scan cursor over the object at `scan` once its class is done,
its payload relation is settled for the new cursor, and it is on the weak
list if it is a weak array. -/
theorem invCore_advance (h : Heap) (s : GcState) (scan : Nat) (ex : List Nat)
    (inv : InvCore h s scan ex (some scan))
    (hlt : scan < s.toSp.length)
    (hcontent : ∀ (a : Nat) (o : Obj), h.space[a]? = some (.obj o) →
      s.fromSp[a]? = some (.fwd scan o) →
      ∃ o2, s.toSp[scan]? = some o2 ∧ o2.cid = o.cid ∧ o2.hash = o.hash ∧
        PayRel s (scan + 1) ex scan o o2)
    (hclass : ∀ o2 : Obj, s.toSp[scan]? = some o2 → ClassDone s o2.cid)
    (hweak : ∀ o2 : Obj, s.toSp[scan]? = some o2 → o2.cid = kWeakArrayCid →
      scan ∈ s.weaks) :
    InvCore h s (scan + 1) ex none := by
  refine ⟨inv.flen, inv.fcells, inv.inj, inv.surj, ?_, ?_, ?_, inv.ephnd, ?_, inv.weaknd,
    ?_, hlt, inv.table, inv.free, inv.sound⟩
  · intro a t o h1 h2 _
    by_cases hts : t = scan
    · subst hts
      exact hcontent a o h1 h2
    · obtain ⟨o2, x1, x2, x3, x4⟩ := inv.content a t o h1 h2
        (fun hc => hts (Option.some.inj hc).symm)
      exact ⟨o2, x1, x2, x3, payRel_scan_succ hts x4⟩
  · intro u hu o2 hg
    by_cases hus : u = scan
    · subst hus
      exact hclass o2 hg
    · exact inv.classdone u (by omega) o2 hg
  · intro e he
    obtain ⟨h1, rest⟩ := inv.ephmem e he
    exact ⟨by omega, rest⟩
  · intro w hw2
    obtain ⟨h1, rest⟩ := inv.weakmem w hw2
    exact ⟨by omega, rest⟩
  · intro u hu o2 hg hc
    by_cases hus : u = scan
    · subst hus
      exact hweak o2 hg hc
    · exact inv.weakall u (by omega) o2 hg hc

/-- The copy at `scan` has a unique origin. -/
theorem content_at_scan (h : Heap) (s : GcState) (scan : Nat) (ex : List Nat)
    (cur : Option Nat) (inv : InvCore h s scan ex cur) (a : Nat) (o : Obj)
    (hfa : s.fromSp[a]? = some (.fwd scan o)) :
    ∀ (a2 : Nat) (o2 : Obj), h.space[a2]? = some (.obj o2) →
      s.fromSp[a2]? = some (.fwd scan o2) → a2 = a ∧ o2 = o := by
  intro a2 o2 h1 h2
  have ha2 := inv.inj a2 a scan o2 o h2 hfa
  subst ha2
  rw [hfa] at h2
  obtain ⟨_, ho⟩ := Cell.fwd.inj (Option.some.inj h2)
  exact ⟨rfl, ho.symm⟩

/-- One iteration of the `ProcessToSpace` loop body advances the invariant
cursor by one and conserves the copy measure. -/
theorem processObjAt_pres (h : Heap) (hwf : WF h) (s : GcState) (scan : Nat)
    (ex : List Nat) (inv : InvCore h s scan ex none) (hlt : scan < s.toSp.length) :
    InvCore h (processObjAt s scan) (scan + 1) ex none ∧
    ExtendsF s (processObjAt s scan) ∧
    (processObjAt s scan).objectStore = s.objectStore ∧
    (processObjAt s scan).currentActivation = s.currentActivation ∧
    (processObjAt s scan).handles = s.handles ∧
    (processObjAt s scan).toSp.length + obCount (processObjAt s scan).fromSp =
      s.toSp.length + obCount s.fromSp ∧
    (∀ e : Nat, e ∈ s.ephems → e ∈ (processObjAt s scan).ephems) := by
  have hcopy : s.toSp[scan]? = some (s.objAt scan) := by
    unfold GcState.objAt
    rw [List.getD_eq_getElem?_getD, List.getElem?_eq_getElem hlt]
    rfl
  obtain ⟨a, o, hsa, hfa⟩ := inv.surj scan hlt
  obtain ⟨o2c, hto, hcid, hhash, hpay⟩ := inv.content a scan o hsa hfa
    (fun hc => Option.noConfusion hc)
  have hobj : s.objAt scan = o2c := Option.some.inj (hcopy.symm.trans hto)
  have hpayeq : o2c.payload = o.payload := by
    rcases hpay with ⟨h1, _⟩ | ⟨_, h2, _⟩ | ⟨_, _, h2, _⟩
    · exact h1
    · omega
    · omega
  have hlivea : Live h a := inv.sound a ⟨scan, o, hfa⟩
  have hclassLive : ∀ c : Nat, s.classTable.getD o2c.cid (.imm 0) = .ptr c → Live h c := by
    intro c hcg
    refine Live.classEdge a o c hlivea hsa ?_
    rw [← inv.table]
    rw [hcid] at hcg
    exact hcg
  obtain ⟨inv1, hcd1, hx1, he1, hw1, hos1, hca1, hh1, hpre1⟩ :=
    scavengeClass_pres h hwf s scan ex none inv o2c.cid hclassLive
  have hto1 : (scavengeClass s o2c.cid).toSp[scan]? = some o2c := (hpre1 scan hlt).trans hto
  have hfa1 : (scavengeClass s o2c.cid).fromSp[a]? = some (.fwd scan o) := hx1.1 a scan o hfa
  have hlen1 : s.toSp.length ≤ (scavengeClass s o2c.cid).toSp.length := hx1.2.2
  by_cases hwcid : o2c.cid = kWeakArrayCid
  · have hres : processObjAt s scan =
        { scavengeClass s o2c.cid with weaks := scan :: (scavengeClass s o2c.cid).weaks } := by
      simp only [processObjAt, hobj]
      rw [if_pos hwcid]
    rw [hres]
    set s1 := scavengeClass s o2c.cid with hs1
    have hxw : ExtendsF s1 { s1 with weaks := scan :: s1.weaks } :=
      ⟨fun a2 t2 o3 hg => hg, rfl, Nat.le_refl _⟩
    refine ⟨?_, extendsF_trans hx1 hxw, hos1, hca1, hh1, scavengeClass_sigma s o2c.cid,
      fun e he => by show e ∈ s1.ephems; rw [he1]; exact he⟩
    refine ⟨inv1.flen, inv1.fcells, inv1.inj, inv1.surj, ?_, ?_, ?_, inv1.ephnd, ?_, ?_,
      ?_, by show scan + 1 ≤ s1.toSp.length; omega, inv1.table, inv1.free, inv1.sound⟩
    · intro a2 t o2 h1 h2 _
      by_cases hts : t = scan
      · subst hts
        obtain ⟨rfl, rfl⟩ := content_at_scan h s1 t ex none inv1 a o hfa1 a2 o2 h1 h2
        refine ⟨o2c, hto1, hcid, hhash, Or.inl ⟨hpayeq, fun _ => Or.inl ?_⟩⟩
        rw [← hcid]
        exact hwcid
      · obtain ⟨o2x, x1, x2, x3, x4⟩ := inv1.content a2 t o2 h1 h2
          (fun hc => Option.noConfusion hc)
        exact ⟨o2x, x1, x2, x3, payRel_mono hxw rfl (payRel_scan_succ hts x4)⟩
    · intro u hu o2 hg
      by_cases hus : u = scan
      · subst hus
        obtain rfl : o2c = o2 := Option.some.inj (hto1.symm.trans hg)
        exact classDone_mono hxw hcd1
      · exact classDone_mono hxw (inv1.classdone u (by omega) o2 hg)
    · intro e he
      obtain ⟨x1, rest⟩ := inv1.ephmem e he
      exact ⟨by omega, rest⟩
    · intro w hw2
      rcases List.mem_cons.mp hw2 with rfl | hw3
      · exact ⟨by omega, o2c, hto1, hwcid⟩
      · obtain ⟨x1, rest⟩ := inv1.weakmem w hw3
        exact ⟨by omega, rest⟩
    · refine List.nodup_cons.mpr ⟨?_, inv1.weaknd⟩
      intro hmem
      exact absurd (inv1.weakmem scan hmem).1 (lt_irrefl scan)
    · intro u hu o2 hg hc
      by_cases hus : u = scan
      · subst hus
        exact List.mem_cons_self u s1.weaks
      · exact List.mem_cons_of_mem scan (inv1.weakall u (by omega) o2 hg hc)
  · by_cases hecid : o2c.cid = kEphemeronCid
    · have hres : processObjAt s scan =
          { scavengeClass s o2c.cid with ephems := scan :: (scavengeClass s o2c.cid).ephems } := by
        simp only [processObjAt, hobj]
        rw [if_neg hwcid, if_pos hecid]
      rw [hres]
      set s1 := scavengeClass s o2c.cid with hs1
      have hxw : ExtendsF s1 { s1 with ephems := scan :: s1.ephems } :=
        ⟨fun a2 t2 o3 hg => hg, rfl, Nat.le_refl _⟩
      refine ⟨?_, extendsF_trans hx1 hxw, hos1, hca1, hh1, scavengeClass_sigma s o2c.cid,
        fun e he => by
          show e ∈ scan :: s1.ephems
          exact List.mem_cons_of_mem scan (by rw [he1]; exact he)⟩
      refine ⟨inv1.flen, inv1.fcells, inv1.inj, inv1.surj, ?_, ?_, ?_, ?_, ?_, inv1.weaknd,
        ?_, by show scan + 1 ≤ s1.toSp.length; omega, inv1.table, inv1.free, inv1.sound⟩
      · intro a2 t o2 h1 h2 _
        by_cases hts : t = scan
        · subst hts
          obtain ⟨rfl, rfl⟩ := content_at_scan h s1 t ex none inv1 a o hfa1 a2 o2 h1 h2
          refine ⟨o2c, hto1, hcid, hhash, Or.inl ⟨hpayeq, fun _ => Or.inr ⟨?_, Or.inl ?_⟩⟩⟩
          · rw [← hcid]
            exact hecid
          · exact List.mem_cons_self t s1.ephems
        · obtain ⟨o2x, x1, x2, x3, x4⟩ := inv1.content a2 t o2 h1 h2
            (fun hc => Option.noConfusion hc)
          exact ⟨o2x, x1, x2, x3, payRel_scan_succ hts (payRel_ephcons (Nat.le_refl scan) x4)⟩
      · intro u hu o2 hg
        by_cases hus : u = scan
        · subst hus
          obtain rfl : o2c = o2 := Option.some.inj (hto1.symm.trans hg)
          exact classDone_mono hxw hcd1
        · exact classDone_mono hxw (inv1.classdone u (by omega) o2 hg)
      · intro e he
        rcases List.mem_cons.mp he with rfl | he2
        · exact ⟨by omega, o2c, hto1, hecid⟩
        · obtain ⟨x1, rest⟩ := inv1.ephmem e he2
          exact ⟨by omega, rest⟩
      · refine List.nodup_cons.mpr ⟨?_, inv1.ephnd⟩
        intro hmem
        exact absurd (inv1.ephmem scan hmem).1 (lt_irrefl scan)
      · intro w hw2
        obtain ⟨x1, rest⟩ := inv1.weakmem w hw2
        exact ⟨by omega, rest⟩
      · intro u hu o2 hg hc
        by_cases hus : u = scan
        · subst hus
          obtain rfl : o2c = o2 := Option.some.inj (hto1.symm.trans hg)
          exact absurd hc hwcid
        · exact inv1.weakall u (by omega) o2 hg hc
    · have hres : processObjAt s scan =
          scavengeSlots (scavengeClass s o2c.cid) scan 0 (slotsOf o2c).length := by
        simp only [processObjAt, hobj]
        rw [if_neg hwcid, if_neg hecid]
      have honw : o.cid ≠ kWeakArrayCid := fun hoc => hwcid (hcid.trans hoc)
      have hone : o.cid ≠ kEphemeronCid := fun hoc => hecid (hcid.trans hoc)
      cases hpp : o2c.payload with
      | bytes d =>
          have hopay : o.payload = .bytes d := hpayeq ▸ hpp
          have hres2 : processObjAt s scan = scavengeClass s o2c.cid := by
            rw [hres, slotsOf_bytes o2c d hpp]
            rfl
          rw [hres2]
          set s1 := scavengeClass s o2c.cid with hs1
          refine ⟨?_, hx1, hos1, hca1, hh1, scavengeClass_sigma s o2c.cid,
            fun e he => by show e ∈ s1.ephems; rw [he1]; exact he⟩
          refine invCore_advance h s1 scan ex (invCore_to_cur h s1 scan ex (some scan) inv1)
            (by omega) ?_ ?_ ?_
          · intro a2 o2 h1 h2
            obtain ⟨rfl, rfl⟩ := content_at_scan h s1 scan ex none inv1 a o hfa1 a2 o2 h1 h2
            exact ⟨o2c, hto1, hcid, hhash,
              Or.inr (Or.inr ⟨honw, hone, by omega, Or.inl ⟨d, hopay, hpp⟩⟩)⟩
          · intro o2 hg
            obtain rfl : o2c = o2 := Option.some.inj (hto1.symm.trans hg)
            exact hcd1
          · intro o2 hg hc
            obtain rfl : o2c = o2 := Option.some.inj (hto1.symm.trans hg)
            exact absurd hc hwcid
      | ptrs lo =>
          have hopay : o.payload = .ptrs lo := hpayeq ▸ hpp
          have hres2 : processObjAt s scan =
              scavengeSlots (scavengeClass s o2c.cid) scan 0 lo.length := by
            rw [hres, slotsOf_ptrs o2c lo hpp]
          rw [hres2]
          set s1 := scavengeClass s o2c.cid with hs1
          have hpcinit : PartialCopy s1 scan o lo 0 :=
            ⟨o2c, lo, hto1, hcid, hhash, hpp, rfl,
              fun j hj => absurd hj (Nat.not_lt_zero j), fun j _ => rfl⟩
          have hjs : ∀ j b : Nat, 0 ≤ j → j < 0 + lo.length →
              lo.getD j (.imm 0) = .ptr b → Live h b ∧ b < h.space.length := by
            intro j b _ hjlt hgb
            have hjlo : j < lo.length := by omega
            have hmem : Ref.ptr b ∈ slotsOf o := by
              rw [slotsOf_ptrs o lo hopay, ← hgb]
              exact mem_of_getD lo j (.imm 0) hjlo
            exact ⟨Live.slot a o b hlivea hsa honw hone hmem, hwf.refOk a o hsa b hmem⟩
          obtain ⟨inv2, hx2, he2, hw2, hos2, hca2, hh2, hpre2, hsig2, hpc2⟩ :=
            scavengeSlots_pres h hwf scan o lo lo.length s1 scan ex 0
              (invCore_to_cur h s1 scan ex (some scan) inv1) hpcinit hjs
          obtain ⟨o2f, l2f, hf1, hf2, hf3, hf4, hf5, hf6, hf7⟩ := hpc2
          have hnd : NormDone (scavengeSlots s1 scan 0 lo.length) o o2f :=
            Or.inr ⟨lo, l2f, hopay, hf4, hf5, fun i hi => hf6 i (by omega)⟩
          have hfa2 : (scavengeSlots s1 scan 0 lo.length).fromSp[a]? =
              some (.fwd scan o) := hx2.1 a scan o hfa1
          refine ⟨?_, extendsF_trans hx1 hx2, hos2.trans hos1, hca2.trans hca1,
            hh2.trans hh1, hsig2.trans (scavengeClass_sigma s o2c.cid),
            fun e he => by rw [he2, he1]; exact he⟩
          refine invCore_advance h (scavengeSlots s1 scan 0 lo.length) scan ex inv2
            (by have := hx2.2.2; omega) ?_ ?_ ?_
          · intro a2 o2 h1 h2
            obtain ⟨rfl, rfl⟩ := content_at_scan h (scavengeSlots s1 scan 0 lo.length)
              scan ex (some scan) inv2 a o hfa2 a2 o2 h1 h2
            exact ⟨o2f, hf1, hf2, hf3, Or.inr (Or.inr ⟨honw, hone, by omega, hnd⟩)⟩
          · intro o2 hg
            obtain rfl : o2f = o2 := Option.some.inj (hf1.symm.trans hg)
            rw [show o2f.cid = o2c.cid from hf2.trans hcid.symm]
            exact classDone_mono hx2 hcd1
          · intro o2 hg hc
            obtain rfl : o2f = o2 := Option.some.inj (hf1.symm.trans hg)
            exact absurd (hcid.trans (hf2.symm.trans hc)) hwcid

/-- `ProcessToSpace` with sufficient fuel drains the scan gap: the returned
cursor equals the new top, and the invariant holds there. -/
theorem processToSpace_pres (h : Heap) (hwf : WF h) (f : Nat) :
    ∀ (s : GcState) (scan : Nat) (ex : List Nat),
    InvCore h s scan ex none →
    s.toSp.length + obCount s.fromSp + 1 - scan ≤ f →
    InvCore h (processToSpace f s scan).1 (processToSpace f s scan).2 ex none ∧
    ExtendsF s (processToSpace f s scan).1 ∧
    (processToSpace f s scan).1.objectStore = s.objectStore ∧
    (processToSpace f s scan).1.currentActivation = s.currentActivation ∧
    (processToSpace f s scan).1.handles = s.handles ∧
    (processToSpace f s scan).1.toSp.length + obCount (processToSpace f s scan).1.fromSp =
      s.toSp.length + obCount s.fromSp ∧
    (∀ e : Nat, e ∈ s.ephems → e ∈ (processToSpace f s scan).1.ephems) ∧
    (processToSpace f s scan).2 = (processToSpace f s scan).1.toSp.length := by
  induction f with
  | zero =>
      intro s scan ex inv hfuel
      have := inv.scanle
      have hob : 0 ≤ obCount s.fromSp := Nat.zero_le _
      omega
  | succ f ih =>
      intro s scan ex inv hfuel
      by_cases hlt : scan < s.toSp.length
      · have hres : processToSpace (f + 1) s scan =
            processToSpace f (processObjAt s scan) (scan + 1) := by
          simp only [processToSpace]
          rw [if_pos hlt]
        rw [hres]
        obtain ⟨inv1, hx1, hos1, hca1, hh1, hsig1, hem1⟩ :=
          processObjAt_pres h hwf s scan ex inv hlt
        obtain ⟨inv2, hx2, hos2, hca2, hh2, hsig2, hem2, hend⟩ :=
          ih (processObjAt s scan) (scan + 1) ex inv1 (by omega)
        exact ⟨inv2, extendsF_trans hx1 hx2, hos2.trans hos1, hca2.trans hca1,
          hh2.trans hh1, hsig2.trans hsig1, fun e he => hem2 e (hem1 e he),
          hend⟩
      · have hres : processToSpace (f + 1) s scan = (s, scan) := by
          simp only [processToSpace]
          rw [if_neg hlt]
        rw [hres]
        have := inv.scanle
        exact ⟨inv, extendsF_refl s, rfl, rfl, rfl, rfl, fun e he => he,
          by show scan = s.toSp.length; omega⟩

theorem set_getD_self {α : Type} (l : List α) (i : Nat) (d : α) (hi : i < l.length) :
    l.set i (l.getD i d) = l := by
  have hgd : l.getD i d = l[i] := by
    rw [List.getD_eq_getElem?_getD, List.getElem?_eq_getElem hi]
    rfl
  rw [hgd]
  apply List.ext_getElem?
  intro j
  by_cases hij : i = j
  · subst hij
    rw [List.getElem?_set_self hi, List.getElem?_eq_getElem hi]
  · rw [List.getElem?_set_ne hij]

theorem scavengePointer_toSp_le (s : GcState) (r : Ref) :
    s.toSp.length ≤ (scavengePointer s r).1.toSp.length := by
  cases r with
  | imm v => exact Nat.le_refl _
  | ptr a =>
      cases hfa : s.fromSp[a]? with
      | none =>
          have hres : scavengePointer s (.ptr a) = (s, .ptr a) := by
            simp only [scavengePointer, hfa]
          rw [hres]
      | some c =>
          cases c with
          | fwd t o =>
              have hres : scavengePointer s (.ptr a) = (s, .ptr t) := by
                simp only [scavengePointer, hfa]
              rw [hres]
          | obj o =>
              have hres : scavengePointer s (.ptr a) =
                  ({ s with toSp := s.toSp ++ [o], fromSp := s.fromSp.set a (.fwd s.toSp.length o) }, .ptr s.toSp.length) := by
                simp only [scavengePointer, hfa]
              rw [hres]
              show s.toSp.length ≤ (s.toSp ++ [o]).length
              rw [List.length_append]
              omega

theorem scavengePointer_nocopy (s : GcState) (r : Ref)
    (hl : (scavengePointer s r).1.toSp.length = s.toSp.length) :
    (scavengePointer s r).1 = s := by
  cases r with
  | imm v => rfl
  | ptr a =>
      cases hfa : s.fromSp[a]? with
      | none =>
          have hres : scavengePointer s (.ptr a) = (s, .ptr a) := by
            simp only [scavengePointer, hfa]
          rw [hres]
      | some c =>
          cases c with
          | fwd t o =>
              have hres : scavengePointer s (.ptr a) = (s, .ptr t) := by
                simp only [scavengePointer, hfa]
              rw [hres]
          | obj o =>
              exfalso
              have hres : scavengePointer s (.ptr a) =
                  ({ s with toSp := s.toSp ++ [o], fromSp := s.fromSp.set a (.fwd s.toSp.length o) }, .ptr s.toSp.length) := by
                simp only [scavengePointer, hfa]
              rw [hres] at hl
              have : (s.toSp ++ [o]).length = s.toSp.length := hl
              rw [List.length_append] at this
              simp at this

theorem scavengeSlots_toSp_le (t k : Nat) : ∀ (s : GcState) (i : Nat),
    s.toSp.length ≤ (scavengeSlots s t i k).toSp.length := by
  induction k with
  | zero =>
      intro s i
      exact Nat.le_refl _
  | succ k ih =>
      intro s i
      have hstep : scavengeSlots s t i (k + 1) =
          scavengeSlots ((scavengePointer s (s.getSlot t i)).1.putSlot t i
            (scavengePointer s (s.getSlot t i)).2) t (i + 1) k := rfl
      rw [hstep]
      have h1 := scavengePointer_toSp_le s (s.getSlot t i)
      have h2 := ih ((scavengePointer s (s.getSlot t i)).1.putSlot t i
        (scavengePointer s (s.getSlot t i)).2) (i + 1)
      rw [putSlot_len] at h2
      omega

theorem scavengeSlots_nocopy (t k : Nat) : ∀ (s : GcState) (i : Nat),
    (scavengeSlots s t i k).toSp.length = s.toSp.length →
    (scavengeSlots s t i k).fromSp = s.fromSp := by
  induction k with
  | zero =>
      intro s i _
      rfl
  | succ k ih =>
      intro s i hl
      have hstep : scavengeSlots s t i (k + 1) =
          scavengeSlots ((scavengePointer s (s.getSlot t i)).1.putSlot t i
            (scavengePointer s (s.getSlot t i)).2) t (i + 1) k := rfl
      rw [hstep] at hl ⊢
      have h1 := scavengePointer_toSp_le s (s.getSlot t i)
      have h2 := scavengeSlots_toSp_le t k ((scavengePointer s (s.getSlot t i)).1.putSlot t i
        (scavengePointer s (s.getSlot t i)).2) (i + 1)
      rw [putSlot_len] at h2
      have hpl : (scavengePointer s (s.getSlot t i)).1.toSp.length = s.toSp.length := by omega
      have hps := scavengePointer_nocopy s (s.getSlot t i) hpl
      have hrec := ih ((scavengePointer s (s.getSlot t i)).1.putSlot t i
        (scavengePointer s (s.getSlot t i)).2) (i + 1) (by rw [putSlot_len]; omega)
      rw [hrec, hps]
      rfl

theorem scavengeSlots_bytes (t k : Nat) : ∀ (s : GcState) (i : Nat) (o2 : Obj) (d : List Nat),
    s.toSp[t]? = some o2 → o2.payload = .bytes d →
    scavengeSlots s t i k = s := by
  induction k with
  | zero =>
      intro s i o2 d _ _
      rfl
  | succ k ih =>
      intro s i o2 d h2 hp
      have hgd : s.toSp.getD t default = o2 := by
        rw [List.getD_eq_getElem?_getD, h2]
        rfl
      have hslot : s.getSlot t i = .imm 0 := by
        unfold GcState.getSlot GcState.objAt
        rw [hgd, slotsOf_bytes o2 d hp]
        rfl
      have hss : o2.setSlot i (.imm 0) = o2 := by
        obtain ⟨c, hh, p⟩ := o2
        cases p with
        | ptrs l0 => exact absurd hp (by simp)
        | bytes d0 => rfl
      have hput : s.putSlot t i (.imm 0) = s := by
        show { s with toSp := s.toSp.set t ((s.toSp.getD t default).setSlot i (.imm 0)) } = s
        rw [hgd, hss, ← hgd, set_getD_self s.toSp t default (getElem_some_lt _ _ _ h2)]
      have hstep : scavengeSlots s t i (k + 1) =
          scavengeSlots ((scavengePointer s (s.getSlot t i)).1.putSlot t i
            (scavengePointer s (s.getSlot t i)).2) t (i + 1) k := rfl
      rw [hstep, hslot]
      show scavengeSlots (s.putSlot t i (.imm 0)) t (i + 1) k = s
      rw [hput]
      exact ih s (i + 1) o2 d h2 hp

theorem payRel_exdrop {s s2 : GcState} {scan : Nat} {ex : List Nat} {e : Nat}
    {rest : List Nat} {t : Nat} {o o2 : Obj} (hx : ExtendsF s s2)
    (heph : s2.ephems = s.ephems) (hne : t ≠ e) (hexeq : ex = e :: rest)
    (hp : PayRel s scan ex t o o2) : PayRel s2 scan rest t o o2 := by
  subst hexeq
  rcases hp with ⟨h1, h2⟩ | ⟨h1, h2, h3, h4, h5⟩ | ⟨h1, h2, h3, h4⟩
  · refine Or.inl ⟨h1, fun ht => ?_⟩
    rcases h2 ht with hw | ⟨hep, hm⟩
    · exact Or.inl hw
    · refine Or.inr ⟨hep, ?_⟩
      rcases hm with hm | hm
      · exact Or.inl (heph.symm ▸ hm)
      · rcases List.mem_cons.mp hm with rfl | hm2
        · exact absurd rfl hne
        · exact Or.inr hm2
  · exact Or.inr (Or.inl ⟨h1, h2, heph.symm ▸ h3,
      fun hm => h4 (List.mem_cons_of_mem e hm), ephDone_mono hx h5⟩)
  · exact Or.inr (Or.inr ⟨h1, h2, h3, normDone_mono hx h4⟩)

theorem payRel_expush {s : GcState} {scan : Nat} {e : Nat} {rest : List Nat} {t : Nat}
    {o o2 : Obj} (hp : PayRel s scan (e :: rest) t o o2) :
    PayRel { s with ephems := e :: s.ephems } scan rest t o o2 := by
  have hx : ExtendsF s { s with ephems := e :: s.ephems } :=
    ⟨fun a t2 o3 hg => hg, rfl, Nat.le_refl _⟩
  rcases hp with ⟨h1, h2⟩ | ⟨h1, h2, h3, h4, h5⟩ | ⟨h1, h2, h3, h4⟩
  · refine Or.inl ⟨h1, fun ht => ?_⟩
    rcases h2 ht with hw | ⟨hep, hm⟩
    · exact Or.inl hw
    · refine Or.inr ⟨hep, ?_⟩
      rcases hm with hm | hm
      · exact Or.inl (show t ∈ e :: s.ephems from List.mem_cons_of_mem e hm)
      · rcases List.mem_cons.mp hm with rfl | hm2
        · exact Or.inl (show t ∈ t :: s.ephems from List.mem_cons_self t s.ephems)
        · exact Or.inr hm2
  · refine Or.inr (Or.inl ⟨h1, h2, ?_, fun hm => h4 (List.mem_cons_of_mem e hm),
      ephDone_mono hx h5⟩)
    show t ∉ e :: s.ephems
    intro hmem
    rcases List.mem_cons.mp hmem with rfl | hm2
    · exact h4 (List.mem_cons_self t rest)
    · exact h3 hm2
  · exact Or.inr (Or.inr ⟨h1, h2, h3, normDone_mono hx h4⟩)

/-- Pushing an undecided ephemeron back onto the worklist moves its
justification from the detached list to the state list. -/
theorem invCore_expush (h : Heap) (s : GcState) (scan : Nat) (e : Nat) (rest : List Nat)
    (inv : InvCore h s scan (e :: rest) none) (he : e ∉ s.ephems) (helt : e < scan)
    (hecopy : ∃ o2, s.toSp[e]? = some o2 ∧ o2.cid = kEphemeronCid) :
    InvCore h { s with ephems := e :: s.ephems } scan rest none := by
  refine ⟨inv.flen, inv.fcells, inv.inj, inv.surj, ?_, inv.classdone, ?_, ?_, inv.weakmem,
    inv.weaknd, inv.weakall, inv.scanle, inv.table, inv.free, inv.sound⟩
  · intro a t o h1 h2 _
    obtain ⟨o2, x1, x2, x3, x4⟩ := inv.content a t o h1 h2 (fun hc => Option.noConfusion hc)
    exact ⟨o2, x1, x2, x3, payRel_expush x4⟩
  · intro e2 he2
    rcases List.mem_cons.mp he2 with rfl | he3
    · exact ⟨helt, hecopy⟩
    · exact inv.ephmem e2 he3
  · exact List.nodup_cons.mpr ⟨he, inv.ephnd⟩

/-- Retiring a scavenged ephemeron from the detached worklist. -/
theorem invCore_exdrop (h : Heap) (s2 : GcState) (scan : Nat) (e : Nat) (rest : List Nat)
    (inv2 : InvCore h s2 scan (e :: rest) (some e))
    (hcontent : ∀ (a : Nat) (o : Obj), h.space[a]? = some (.obj o) →
      s2.fromSp[a]? = some (.fwd e o) →
      ∃ o2, s2.toSp[e]? = some o2 ∧ o2.cid = o.cid ∧ o2.hash = o.hash ∧
        o.cid = kEphemeronCid ∧ EphDone s2 o o2)
    (helt : e < scan) (hee : e ∉ s2.ephems) (her : e ∉ rest) :
    InvCore h s2 scan rest none := by
  refine ⟨inv2.flen, inv2.fcells, inv2.inj, inv2.surj, ?_, inv2.classdone, inv2.ephmem,
    inv2.ephnd, inv2.weakmem, inv2.weaknd, inv2.weakall, inv2.scanle, inv2.table,
    inv2.free, inv2.sound⟩
  intro a t o h1 h2 _
  by_cases hte : t = e
  · subst hte
    obtain ⟨o2, x1, x2, x3, x4, x5⟩ := hcontent a o h1 h2
    exact ⟨o2, x1, x2, x3, Or.inr (Or.inl ⟨x4, helt, hee, her, x5⟩)⟩
  · obtain ⟨o2, x1, x2, x3, x4⟩ := inv2.content a t o h1 h2
      (fun hc => hte (Option.some.inj hc).symm)
    exact ⟨o2, x1, x2, x3, payRel_exdrop (extendsF_refl s2) rfl hte rfl x4⟩

/-- The copy at any forwarded target has a unique origin. -/
theorem content_at_t (h : Heap) (s : GcState) (scan tt : Nat) (ex : List Nat)
    (cur : Option Nat) (inv : InvCore h s scan ex cur) (a : Nat) (o : Obj)
    (hfa : s.fromSp[a]? = some (.fwd tt o)) :
    ∀ (a2 : Nat) (o2 : Obj), h.space[a2]? = some (.obj o2) →
      s.fromSp[a2]? = some (.fwd tt o2) → a2 = a ∧ o2 = o := by
  intro a2 o2 h1 h2
  have ha2 := inv.inj a2 a tt o2 o h2 hfa
  subst ha2
  rw [hfa] at h2
  obtain ⟨_, ho⟩ := Cell.fwd.inj (Option.some.inj h2)
  exact ⟨rfl, ho.symm⟩

theorem getSlot_congr {s s2 : GcState} {t : Nat} (hts : s2.toSp[t]? = s.toSp[t]?)
    (i : Nat) : s2.getSlot t i = s.getSlot t i := by
  unfold GcState.getSlot GcState.objAt
  have hgd : s2.toSp.getD t default = s.toSp.getD t default := by
    rw [List.getD_eq_getElem?_getD, List.getD_eq_getElem?_getD, hts]
  rw [hgd]

theorem ephKeyKnown_congr {s s2 : GcState} (hf : s2.fromSp = s.fromSp) (k : Ref) :
    ephKeyKnown s2 k = ephKeyKnown s k := by
  cases k with
  | imm v => rfl
  | ptr a =>
      unfold ephKeyKnown
      rw [hf]

theorem ephKeyKnown_ptr (s : GcState) (b : Nat)
    (hk : ephKeyKnown s (.ptr b) = true) : ∃ (t : Nat) (o2 : Obj),
      s.fromSp[b]? = some (.fwd t o2) := by
  cases hfb : s.fromSp[b]? with
  | none =>
      have hfalse : ephKeyKnown s (.ptr b) = false := by
        simp only [ephKeyKnown, hfb]
      rw [hfalse] at hk
      exact absurd hk (by simp)
  | some c =>
      cases c with
      | obj o =>
          have hfalse : ephKeyKnown s (.ptr b) = false := by
            simp only [ephKeyKnown, hfb]
          rw [hfalse] at hk
          exact absurd hk (by simp)
      | fwd t o => exact ⟨t, o, rfl⟩

/-- Preservation of the invariant by the `ProcessEphemeronList` loop over the
detached worklist `ex`; survivors with known keys get their three slots
scavenged, the rest are pushed back. When the pass makes no copy, from-space
is untouched and every pushed-back ephemeron still has an unknown key. -/
theorem processEphemList_pres (h : Heap) (hwf : WF h) :
    ∀ (ex : List Nat) (s : GcState) (scan : Nat),
    InvCore h s scan ex none →
    ex.Nodup →
    (∀ e2 ∈ ex, e2 ∉ s.ephems) →
    (∀ e2 ∈ ex, e2 < scan ∧ ∃ o2, s.toSp[e2]? = some o2 ∧ o2.cid = kEphemeronCid) →
    InvCore h (processEphemList ex s) scan [] none ∧
    ExtendsF s (processEphemList ex s) ∧
    (processEphemList ex s).weaks = s.weaks ∧
    (processEphemList ex s).objectStore = s.objectStore ∧
    (processEphemList ex s).currentActivation = s.currentActivation ∧
    (processEphemList ex s).handles = s.handles ∧
    (processEphemList ex s).toSp.length + obCount (processEphemList ex s).fromSp =
      s.toSp.length + obCount s.fromSp ∧
    (∀ u : Nat, u < s.toSp.length → u ∉ ex →
      (processEphemList ex s).toSp[u]? = s.toSp[u]?) ∧
    (∀ e2 : Nat, e2 ∈ (processEphemList ex s).ephems → e2 ∈ s.ephems ∨ e2 ∈ ex) ∧
    ((processEphemList ex s).toSp.length = s.toSp.length →
      (processEphemList ex s).fromSp = s.fromSp ∧
      ∀ e2 : Nat, e2 ∈ (processEphemList ex s).ephems → e2 ∈ s.ephems ∨
        ephKeyKnown (processEphemList ex s) ((processEphemList ex s).getSlot e2 0) =
          false) := by
  intro ex
  induction ex with
  | nil =>
      intro s scan inv hnd hdisj hex
      exact ⟨inv, extendsF_refl s, rfl, rfl, rfl, rfl, rfl, fun u _ _ => rfl,
        fun e2 he2 => Or.inl he2, fun _ => ⟨rfl, fun e2 he2 => Or.inl he2⟩⟩
  | cons e rest ih =>
      intro s scan inv hnd hdisj hex
      obtain ⟨helt, o2e, hte, hce⟩ := hex e (List.mem_cons_self e rest)
      have her : e ∉ rest := (List.nodup_cons.mp hnd).1
      have hndr : rest.Nodup := (List.nodup_cons.mp hnd).2
      have henotin : e ∉ s.ephems := hdisj e (List.mem_cons_self e rest)
      have hres0 : processEphemList (e :: rest) s =
          processEphemList rest (if ephKeyKnown s (s.getSlot e 0)
            then scavengeSlots s e 0 3
            else { s with ephems := e :: s.ephems }) := rfl
      by_cases hk : ephKeyKnown s (s.getSlot e 0) = true
      · have hres : processEphemList (e :: rest) s =
            processEphemList rest (scavengeSlots s e 0 3) := by
          rw [hres0, if_pos hk]
        obtain ⟨a, o, hsa, hfa⟩ := inv.surj e (by have := inv.scanle; omega)
        obtain ⟨o2x, hto, hcid2, hhash2, hpay⟩ := inv.content a e o hsa hfa
          (fun hc => Option.noConfusion hc)
        obtain rfl : o2e = o2x := Option.some.inj (hte.symm.trans hto)
        have hoeph : o.cid = kEphemeronCid := hcid2.symm.trans hce
        have hpayeq : o2e.payload = o.payload := by
          rcases hpay with ⟨h1, _⟩ | ⟨_, _, _, h4, _⟩ | ⟨_, hne, _, _⟩
          · exact h1
          · exact absurd (List.mem_cons_self e rest) h4
          · exact absurd hoeph hne
        have hlivea : Live h a := inv.sound a ⟨e, o, hfa⟩
        cases hppe : o2e.payload with
        | bytes d =>
            have hopay : o.payload = .bytes d := hpayeq ▸ hppe
            have hbs : scavengeSlots s e 0 3 = s := scavengeSlots_bytes e 3 s 0 o2e d hte hppe
            have hres2 : processEphemList (e :: rest) s = processEphemList rest s := by
              rw [hres, hbs]
            rw [hres2]
            have invd : InvCore h s scan rest none := by
              refine invCore_exdrop h s scan e rest
                (invCore_to_cur h s scan (e :: rest) (some e) inv) ?_ helt henotin her
              intro a2 o2 h1 h2
              obtain ⟨rfl, rfl⟩ := content_at_t h s scan e (e :: rest) none inv a o hfa
                a2 o2 h1 h2
              exact ⟨o2e, hte, hcid2, hhash2, hoeph, Or.inl ⟨d, hopay, hppe⟩⟩
            obtain ⟨r1, r2, r3, r4, r5, r6, r7, r8, r9, r10⟩ := ih s scan invd hndr
              (fun e2 he2 => hdisj e2 (List.mem_cons_of_mem e he2))
              (fun e2 he2 => hex e2 (List.mem_cons_of_mem e he2))
            refine ⟨r1, r2, r3, r4, r5, r6, r7, ?_, ?_, ?_⟩
            · intro u hu hun
              exact r8 u hu (fun hm => hun (List.mem_cons_of_mem e hm))
            · intro e2 he2x
              rcases r9 e2 he2x with hm | hm
              · exact Or.inl hm
              · exact Or.inr (List.mem_cons_of_mem e hm)
            · intro hnc
              obtain ⟨hf, hkeys⟩ := r10 hnc
              refine ⟨hf, fun e2 he2x => ?_⟩
              rcases hkeys e2 he2x with hm | hm
              · exact Or.inl hm
              · exact Or.inr hm
        | ptrs lo =>
            have hopay : o.payload = .ptrs lo := hpayeq ▸ hppe
            have hslo : slotsOf o = lo := slotsOf_ptrs o lo hopay
            have hkk : ephKeyKnown s (lo.getD 0 (.imm 0)) = true := by
              rw [← getSlot_eq s e 0 o2e lo hte hppe]
              exact hk
            have hpcinit : PartialCopy s e o lo 0 := ⟨o2e, lo, hte, hcid2, hhash2, hppe,
              rfl, fun j hj => absurd hj (Nat.not_lt_zero j), fun j _ => rfl⟩
            have hjs : ∀ j b : Nat, 0 ≤ j → j < 0 + 3 →
                lo.getD j (.imm 0) = .ptr b → Live h b ∧ b < h.space.length := by
              intro j b _ hj3 hgb
              have hjlen : j < lo.length := by
                by_contra hge
                rw [getD_beyond lo j (.imm 0) (by omega)] at hgb
                exact Ref.noConfusion hgb
              have hmem : Ref.ptr b ∈ slotsOf o := by
                rw [hslo, ← hgb]
                exact mem_of_getD lo j (.imm 0) hjlen
              refine ⟨?_, hwf.refOk a o hsa b hmem⟩
              rcases Nat.lt_or_ge j 1 with hj0 | hj1
              · have hj0e : j = 0 := by omega
                subst hj0e
                rw [hgb] at hkk
                obtain ⟨tf, off, hff⟩ := ephKeyKnown_ptr s b hkk
                exact inv.sound b ⟨tf, off, hff⟩
              · have hor : Ref.ptr b = (slotsOf o).getD 1 (.imm 0) ∨
                    Ref.ptr b = (slotsOf o).getD 2 (.imm 0) := by
                  rw [hslo]
                  rcases Nat.lt_or_ge j 2 with hj2 | hj2
                  · have hj1e : j = 1 := by omega
                    subst hj1e
                    exact Or.inl hgb.symm
                  · have hj2e : j = 2 := by omega
                    subst hj2e
                    exact Or.inr hgb.symm
                cases hkey : lo.getD 0 (.imm 0) with
                | imm v =>
                    refine Live.ephImm a o v b hlivea hsa hoeph ?_ hor
                    rw [hslo]
                    exact hkey
                | ptr ka =>
                    rw [hkey] at hkk
                    obtain ⟨tf, off, hff⟩ := ephKeyKnown_ptr s ka hkk
                    refine Live.ephKey a o ka b hlivea hsa hoeph ?_
                      (inv.sound ka ⟨tf, off, hff⟩) hor
                    rw [hslo]
                    exact hkey
            obtain ⟨inv2, hx2, he2, hw2, hos2, hca2, hh2, hpre2, hsig2, hpc2⟩ :=
              scavengeSlots_pres h hwf e o lo 3 s scan (e :: rest) 0
                (invCore_to_cur h s scan (e :: rest) (some e) inv) hpcinit hjs
            obtain ⟨o2f, l2f, hf1, hf2, hf3, hf4, hf5, hf6, hf7⟩ := hpc2
            have hfa2 : (scavengeSlots s e 0 3).fromSp[a]? = some (.fwd e o) :=
              hx2.1 a e o hfa
            have invd : InvCore h (scavengeSlots s e 0 3) scan rest none := by
              refine invCore_exdrop h (scavengeSlots s e 0 3) scan e rest inv2 ?_ helt
                (by rw [he2]; exact henotin) her
              intro a2 o2 h1 h2
              obtain ⟨rfl, rfl⟩ := content_at_t h (scavengeSlots s e 0 3) scan e
                (e :: rest) (some e) inv2 a o hfa2 a2 o2 h1 h2
              refine ⟨o2f, hf1, hf2, hf3, hoeph,
                Or.inr ⟨lo, l2f, hopay, hf4, hf5, ?_, ?_⟩⟩
              · intro i hi3 hilen
                exact hf6 i (by omega)
              · intro i hi3
                exact hf7 i (by omega)
            rw [hres]
            have hlen2 : s.toSp.length ≤ (scavengeSlots s e 0 3).toSp.length := hx2.2.2
            obtain ⟨r1, r2, r3, r4, r5, r6, r7, r8, r9, r10⟩ :=
              ih (scavengeSlots s e 0 3) scan invd hndr
                (fun e2 he2x => by
                  rw [he2]
                  exact hdisj e2 (List.mem_cons_of_mem e he2x))
                (fun e2 he2x => by
                  obtain ⟨hlt2, o2y, hty, hcy⟩ := hex e2 (List.mem_cons_of_mem e he2x)
                  have hne2 : e2 ≠ e := fun hh => her (hh ▸ he2x)
                  exact ⟨hlt2, o2y,
                    by rw [hpre2 e2 (getElem_some_lt _ _ _ hty) hne2]; exact hty, hcy⟩)
            refine ⟨r1, extendsF_trans hx2 r2, r3.trans hw2, r4.trans hos2, r5.trans hca2,
              r6.trans hh2, r7.trans hsig2, ?_, ?_, ?_⟩
            · intro u hu hun
              have hune : u ≠ e := fun hh => hun (hh ▸ List.mem_cons_self e rest)
              have hunr : u ∉ rest := fun hm => hun (List.mem_cons_of_mem e hm)
              rw [r8 u (by omega) hunr, hpre2 u hu hune]
            · intro e2 he2x
              rcases r9 e2 he2x with hm | hm
              · rw [he2] at hm
                exact Or.inl hm
              · exact Or.inr (List.mem_cons_of_mem e hm)
            · intro hnc
              have hfin := r2.2.2
              have hl2 : (scavengeSlots s e 0 3).toSp.length = s.toSp.length := by omega
              have hfs : (scavengeSlots s e 0 3).fromSp = s.fromSp :=
                scavengeSlots_nocopy e 3 s 0 hl2
              obtain ⟨hf, hkeys⟩ := r10 (by omega)
              refine ⟨hf.trans hfs, fun e2 he2x => ?_⟩
              rcases hkeys e2 he2x with hm | hm
              · rw [he2] at hm
                exact Or.inl hm
              · exact Or.inr hm
      · rw [Bool.not_eq_true] at hk
        have hres : processEphemList (e :: rest) s =
            processEphemList rest { s with ephems := e :: s.ephems } := by
          rw [hres0, if_neg (by rw [hk]; exact Bool.false_ne_true)]
        rw [hres]
        have hx01 : ExtendsF s { s with ephems := e :: s.ephems } :=
          ⟨fun a2 t2 o3 hg => hg, rfl, Nat.le_refl _⟩
        have inv1 : InvCore h { s with ephems := e :: s.ephems } scan rest none :=
          invCore_expush h s scan e rest inv henotin helt ⟨o2e, hte, hce⟩
        obtain ⟨r1, r2, r3, r4, r5, r6, r7, r8, r9, r10⟩ :=
          ih { s with ephems := e :: s.ephems } scan inv1 hndr
            (fun e2 he2x => by
              show e2 ∉ e :: s.ephems
              intro hmem
              rcases List.mem_cons.mp hmem with rfl | hm2
              · exact her he2x
              · exact hdisj e2 (List.mem_cons_of_mem e he2x) hm2)
            (fun e2 he2x => hex e2 (List.mem_cons_of_mem e he2x))
        refine ⟨r1, extendsF_trans hx01 r2, r3, r4, r5, r6, r7, ?_, ?_, ?_⟩
        · intro u hu hun
          exact r8 u hu (fun hm => hun (List.mem_cons_of_mem e hm))
        · intro e2 he2x
          rcases r9 e2 he2x with hm | hm
          · rcases List.mem_cons.mp hm with rfl | hm2
            · exact Or.inr (List.mem_cons_self e2 rest)
            · exact Or.inl hm2
          · exact Or.inr (List.mem_cons_of_mem e hm)
        · intro hnc
          obtain ⟨hf, hkeys⟩ := r10 hnc
          refine ⟨hf, fun e2 he2x => ?_⟩
          rcases hkeys e2 he2x with hm | hm
          · rcases List.mem_cons.mp hm with rfl | hm2
            · refine Or.inr ?_
              have htoe : (processEphemList rest { s with ephems := e2 :: s.ephems }).toSp[e2]? =
                  s.toSp[e2]? := r8 e2 (getElem_some_lt _ _ _ hte) her
              have hgse : (processEphemList rest { s with ephems := e2 :: s.ephems }).getSlot e2 0 =
                  s.getSlot e2 0 := getSlot_congr htoe 0
              rw [hgse, ephKeyKnown_congr hf (s.getSlot e2 0)]
              exact hk
            · exact Or.inl hm2
          · exact Or.inr hm

/-- Detaching the ephemeron worklist before processing it. -/
theorem invCore_detach (h : Heap) (s : GcState) (scan : Nat)
    (inv : InvCore h s scan [] none) :
    InvCore h { s with ephems := [] } scan s.ephems none := by
  have hx : ExtendsF s { s with ephems := [] } :=
    ⟨fun a2 t2 o3 hg => hg, rfl, Nat.le_refl _⟩
  refine ⟨inv.flen, inv.fcells, inv.inj, inv.surj, ?_, inv.classdone, ?_, List.nodup_nil,
    inv.weakmem, inv.weaknd, inv.weakall, inv.scanle, inv.table, inv.free, inv.sound⟩
  · intro a t o h1 h2 _
    obtain ⟨o2, x1, x2, x3, x4⟩ := inv.content a t o h1 h2 (fun hc => Option.noConfusion hc)
    refine ⟨o2, x1, x2, x3, ?_⟩
    rcases x4 with ⟨h1p, h2p⟩ | ⟨h1p, h2p, h3p, h4p, h5p⟩ | ⟨h1p, h2p, h3p, h4p⟩
    · refine Or.inl ⟨h1p, fun ht => ?_⟩
      rcases h2p ht with hw | ⟨hep, hm⟩
      · exact Or.inl hw
      · refine Or.inr ⟨hep, ?_⟩
        rcases hm with hm | hm
        · exact Or.inr hm
        · exact absurd hm (List.not_mem_nil t)
    · exact Or.inr (Or.inl ⟨h1p, h2p, List.not_mem_nil t, h3p, ephDone_mono hx h5p⟩)
    · exact Or.inr (Or.inr ⟨h1p, h2p, h3p, normDone_mono hx h4p⟩)
  · intro e2 he2
    exact absurd he2 (List.not_mem_nil e2)

/-- `ProcessEphemeronList` preserves the invariant; if it copies nothing,
every surviving worklist entry still has an unknown key. -/
theorem processEphemeronList_pres (h : Heap) (hwf : WF h) (s : GcState) (scan : Nat)
    (inv : InvCore h s scan [] none) :
    InvCore h (processEphemeronList s) scan [] none ∧
    ExtendsF s (processEphemeronList s) ∧
    (processEphemeronList s).objectStore = s.objectStore ∧
    (processEphemeronList s).currentActivation = s.currentActivation ∧
    (processEphemeronList s).handles = s.handles ∧
    (processEphemeronList s).toSp.length + obCount (processEphemeronList s).fromSp =
      s.toSp.length + obCount s.fromSp ∧
    ((processEphemeronList s).toSp.length = s.toSp.length →
      ∀ e2 : Nat, e2 ∈ (processEphemeronList s).ephems →
        ephKeyKnown (processEphemeronList s) ((processEphemeronList s).getSlot e2 0) =
          false) := by
  have hdet := invCore_detach h s scan inv
  obtain ⟨r1, r2, r3, r4, r5, r6, r7, r8, r9, r10⟩ :=
    processEphemList_pres h hwf s.ephems { s with ephems := [] } scan hdet inv.ephnd
      (fun e2 _ => List.not_mem_nil e2)
      (fun e2 he2 => inv.ephmem e2 he2)
  refine ⟨r1, extendsF_trans ⟨fun a2 t2 o3 hg => hg, rfl, Nat.le_refl _⟩ r2, r4, r5, r6,
    r7, ?_⟩
  intro hnc e2 he2
  obtain ⟨hf, hkeys⟩ := r10 hnc
  rcases hkeys e2 he2 with hm | hm
  · exact absurd hm (List.not_mem_nil e2)
  · exact hm

/-- The scavenge fixpoint loop: with fuel beyond the number of pending
copies, it terminates with the cursor at the top, the invariant intact, and
every ephemeron left on the worklist with an unknown (dead) key. -/
theorem scavengeLoop_pres (h : Heap) (hwf : WF h) (f : Nat) :
    ∀ (s : GcState) (scan : Nat),
    InvCore h s scan [] none →
    1 ≤ f →
    (scan < s.toSp.length → obCount s.fromSp + 2 ≤ f) →
    (s.toSp.length ≤ scan → ∀ e2 ∈ s.ephems,
      ephKeyKnown s (s.getSlot e2 0) = false) →
    ∃ scanF : Nat,
      InvCore h (scavengeLoop f s scan) scanF [] none ∧
      (scavengeLoop f s scan).toSp.length ≤ scanF ∧
      ExtendsF s (scavengeLoop f s scan) ∧
      (scavengeLoop f s scan).objectStore = s.objectStore ∧
      (scavengeLoop f s scan).currentActivation = s.currentActivation ∧
      (scavengeLoop f s scan).handles = s.handles ∧
      (∀ e2 ∈ (scavengeLoop f s scan).ephems,
        ephKeyKnown (scavengeLoop f s scan) ((scavengeLoop f s scan).getSlot e2 0) =
          false) := by
  induction f with
  | zero =>
      intro s scan inv h1 _ _
      omega
  | succ f ih =>
      intro s scan inv h1 hfuel hkeys
      have hres0 : scavengeLoop (f + 1) s scan =
          if scan < s.toSp.length then
            scavengeLoop f
              (processEphemeronList
                (processToSpace (s.toSp.length + obCount s.fromSp + 1) s scan).1)
              (processToSpace (s.toSp.length + obCount s.fromSp + 1) s scan).2
          else s := rfl
      by_cases hlt : scan < s.toSp.length
      · have hres := hres0.trans (if_pos hlt)
        obtain ⟨inv2, hx2, hos2, hca2, hh2, hsig2, hem2, hend⟩ :=
          processToSpace_pres h hwf (s.toSp.length + obCount s.fromSp + 1) s scan []
            inv (by omega)
        obtain ⟨inv3, hx3, hos3, hca3, hh3, hsig3, hnc3⟩ :=
          processEphemeronList_pres h hwf
            (processToSpace (s.toSp.length + obCount s.fromSp + 1) s scan).1
            (processToSpace (s.toSp.length + obCount s.fromSp + 1) s scan).2
            inv2
        have hlen12 : s.toSp.length ≤
            (processToSpace (s.toSp.length + obCount s.fromSp + 1) s scan).1.toSp.length :=
          hx2.2.2
        have hlen23 :
            (processToSpace (s.toSp.length + obCount s.fromSp + 1) s scan).1.toSp.length ≤
            (processEphemeronList
              (processToSpace (s.toSp.length + obCount s.fromSp + 1) s scan).1).toSp.length :=
          hx3.2.2
        have hfuel1 : obCount s.fromSp + 2 ≤ f + 1 := hfuel hlt
        obtain ⟨scanF, q1, q2, q3, q4, q5, q6, q7⟩ :=
          ih (processEphemeronList
                (processToSpace (s.toSp.length + obCount s.fromSp + 1) s scan).1)
             (processToSpace (s.toSp.length + obCount s.fromSp + 1) s scan).2
             inv3
             (by omega)
             (fun hc => by omega)
             (fun hge e2 he2 => hnc3 (by omega) e2 he2)
        rw [hres]
        exact ⟨scanF, q1, q2, extendsF_trans hx2 (extendsF_trans hx3 q3),
          q4.trans (hos3.trans hos2), q5.trans (hca3.trans hca2),
          q6.trans (hh3.trans hh2), q7⟩
      · have hres := hres0.trans (if_neg hlt)
        rw [hres]
        exact ⟨scan, inv, by omega, extendsF_refl s, rfl, rfl, rfl,
          hkeys (by omega)⟩
/-- The invariant ignores the root slots of the collector state. -/
theorem invCore_setRoots (h : Heap) (s : GcState) (scan : Nat) (ex : List Nat)
    (cur : Option Nat) (os ca : Ref) (hd : List Ref) (inv : InvCore h s scan ex cur) :
    InvCore h { s with objectStore := os, currentActivation := ca, handles := hd }
      scan ex cur :=
  ⟨inv.flen, inv.fcells, inv.inj, inv.surj, inv.content, inv.classdone, inv.ephmem,
    inv.ephnd, inv.weakmem, inv.weaknd, inv.weakall, inv.scanle, inv.table, inv.free,
    inv.sound⟩

/-- Scavenging a list of handle slots. -/
theorem scavengeHandles_pres (h : Heap) (hwf : WF h) (rs : List Ref) :
    ∀ (s : GcState) (scan : Nat) (ex : List Nat) (cur : Option Nat),
    InvCore h s scan ex cur →
    (∀ r ∈ rs, ∀ b : Nat, r = .ptr b → Live h b ∧ b < h.space.length) →
    InvCore h (scavengeHandles rs s).1 scan ex cur ∧
    ExtendsF s (scavengeHandles rs s).1 ∧
    (scavengeHandles rs s).1.ephems = s.ephems ∧
    (scavengeHandles rs s).1.weaks = s.weaks ∧
    (scavengeHandles rs s).1.objectStore = s.objectStore ∧
    (scavengeHandles rs s).1.currentActivation = s.currentActivation ∧
    (scavengeHandles rs s).1.handles = s.handles ∧
    List.Forall₂ (SlotDone (scavengeHandles rs s).1) rs (scavengeHandles rs s).2 := by
  induction rs with
  | nil =>
      intro s scan ex cur inv hj
      exact ⟨inv, extendsF_refl s, rfl, rfl, rfl, rfl, rfl, List.Forall₂.nil⟩
  | cons r rest ih =>
      intro s scan ex cur inv hj
      have hres : scavengeHandles (r :: rest) s =
          ((scavengeHandles rest (scavengePointer s r).1).1,
            (scavengePointer s r).2 :: (scavengeHandles rest (scavengePointer s r).1).2) :=
        rfl
      obtain ⟨inv1, hsd1, hx1, he1, hw1, hos1, hca1, hh1, _, _⟩ :=
        scavengePointer_pres h hwf s scan ex cur inv r
          (fun b ob hb _ => (hj r (List.mem_cons_self r rest) b hb).1)
          (fun b hb => (hj r (List.mem_cons_self r rest) b hb).2)
      obtain ⟨inv2, hx2, he2, hw2, hos2, hca2, hh2, hfa2⟩ :=
        ih (scavengePointer s r).1 scan ex cur inv1
          (fun r2 hr2 => hj r2 (List.mem_cons_of_mem r hr2))
      rw [hres]
      exact ⟨inv2, extendsF_trans hx1 hx2, he2.trans he1, hw2.trans hw1, hos2.trans hos1,
        hca2.trans hca1, hh2.trans hh1, List.Forall₂.cons (slotDone_mono hx2 hsd1) hfa2⟩

/-- The invariant holds at the flip: from-space is the old heap, to-space is
empty, nothing is forwarded. -/
theorem invCore_init (h : Heap) (hwf : WF h) :
    InvCore h
      { fromSp := h.space, toSp := [], objectStore := h.objectStore,
        currentActivation := h.currentActivation, handles := h.handles,
        classTable := h.classTable, classTableFree := h.classTableFree,
        ephems := [], weaks := [] } 0 [] none := by
  refine ⟨rfl, fun a => Or.inl rfl, ?_, ?_, ?_, ?_, ?_, List.nodup_nil, ?_,
    List.nodup_nil, ?_, Nat.le_refl 0, rfl, rfl, ?_⟩
  · intro a b t oa ob hga hgb
    exact absurd hga (hwf.noCorpse a t oa)
  · intro t ht
    exact absurd ht (by simp)
  · intro a t o h1 h2 _
    exact absurd h2 (hwf.noCorpse a t o)
  · intro t ht
    exact absurd ht (Nat.not_lt_zero t)
  · intro e he
    exact absurd he (List.not_mem_nil e)
  · intro w hw2
    exact absurd hw2 (List.not_mem_nil w)
  · intro t ht
    exact absurd ht (Nat.not_lt_zero t)
  · intro a hf
    obtain ⟨t, o, hg⟩ := hf
    exact absurd hg (hwf.noCorpse a t o)

theorem scavengeHandles_sigma (rs : List Ref) : ∀ s : GcState,
    (scavengeHandles rs s).1.toSp.length + obCount (scavengeHandles rs s).1.fromSp =
    s.toSp.length + obCount s.fromSp := by
  induction rs with
  | nil =>
      intro s
      rfl
  | cons r rest ih =>
      intro s
      have hres : scavengeHandles (r :: rest) s =
          ((scavengeHandles rest (scavengePointer s r).1).1,
            (scavengePointer s r).2 :: (scavengeHandles rest (scavengePointer s r).1).2) :=
        rfl
      rw [hres]
      show (scavengeHandles rest (scavengePointer s r).1).1.toSp.length +
          obCount (scavengeHandles rest (scavengePointer s r).1).1.fromSp =
          s.toSp.length + obCount s.fromSp
      have h1 := scavengePointer_sigma s r
      have h2 := ih (scavengePointer s r).1
      omega

/-- `ProcessRoots` scavenges the three root sets and records the results. -/
theorem processRoots_pres (h : Heap) (hwf : WF h) (s0 : GcState)
    (inv : InvCore h s0 0 [] none)
    (hos : s0.objectStore = h.objectStore)
    (hca : s0.currentActivation = h.currentActivation)
    (hhd : s0.handles = h.handles)
    (heph : s0.ephems = []) (hwks : s0.weaks = []) :
    InvCore h (processRoots s0) 0 [] none ∧
    ExtendsF s0 (processRoots s0) ∧
    (processRoots s0).ephems = [] ∧
    (processRoots s0).weaks = [] ∧
    RootsDone h (processRoots s0) ∧
    (processRoots s0).toSp.length + obCount (processRoots s0).fromSp =
      s0.toSp.length + obCount s0.fromSp := by
  set p1 := scavengePointer s0 s0.objectStore with hp1
  set s1 : GcState := { p1.1 with objectStore := p1.2 } with hs1
  set p2 := scavengePointer s1 s1.currentActivation with hp2
  set s2 : GcState := { p2.1 with currentActivation := p2.2 } with hs2
  set q := scavengeHandles s2.handles s2 with hq
  have hres : processRoots s0 = { q.1 with handles := q.2 } := rfl
  obtain ⟨inv1, hsd1, hx1, he1, hw1, hos1, hca1, hh1, _, _⟩ :=
    scavengePointer_pres h hwf s0 0 [] none inv s0.objectStore
      (fun b ob hb _ => Live.store b (by rw [← hos]; exact hb))
      (fun b hb => hwf.rootSOk b (by rw [← hos]; exact hb))
  have hsig1 : p1.1.toSp.length + obCount p1.1.fromSp =
      s0.toSp.length + obCount s0.fromSp := scavengePointer_sigma s0 s0.objectStore
  have inv1b : InvCore h s1 0 [] none :=
    invCore_setRoots h p1.1 0 [] none p1.2 p1.1.currentActivation p1.1.handles inv1
  have hx1b : ExtendsF p1.1 s1 := ⟨fun a2 t2 o3 hg => hg, rfl, Nat.le_refl _⟩
  have hca1b : s1.currentActivation = h.currentActivation := by
    show p1.1.currentActivation = h.currentActivation
    rw [hca1, hca]
  obtain ⟨inv2, hsd2, hx2, he2, hw2, hos2, hca2, hh2, _, _⟩ :=
    scavengePointer_pres h hwf s1 0 [] none inv1b s1.currentActivation
      (fun b ob hb _ => Live.activation b (by rw [← hca1b]; exact hb))
      (fun b hb => hwf.rootAOk b (by rw [← hca1b]; exact hb))
  have hsig2 : p2.1.toSp.length + obCount p2.1.fromSp =
      s1.toSp.length + obCount s1.fromSp := scavengePointer_sigma s1 s1.currentActivation
  have inv2b : InvCore h s2 0 [] none :=
    invCore_setRoots h p2.1 0 [] none p2.1.objectStore p2.2 p2.1.handles inv2
  have hx2b : ExtendsF p2.1 s2 := ⟨fun a2 t2 o3 hg => hg, rfl, Nat.le_refl _⟩
  have hhd2b : s2.handles = h.handles := by
    show p2.1.handles = h.handles
    rw [hh2]
    show p1.1.handles = h.handles
    rw [hh1, hhd]
  obtain ⟨inv3, hx3, he3, hw3, hos3, hca3, hh3, hfa3⟩ :=
    scavengeHandles_pres h hwf s2.handles s2 0 [] none inv2b
      (fun r hr b hb => by
        rw [hb] at hr
        rw [hhd2b] at hr
        exact ⟨Live.handle b hr, hwf.handleOk b hr⟩)
  have inv3b : InvCore h { q.1 with handles := q.2 } 0 [] none :=
    invCore_setRoots h q.1 0 [] none q.1.objectStore q.1.currentActivation q.2 inv3
  have hx3b : ExtendsF q.1 { q.1 with handles := q.2 } :=
    ⟨fun a2 t2 o3 hg => hg, rfl, Nat.le_refl _⟩
  rw [hres]
  refine ⟨inv3b, extendsF_trans hx1 (extendsF_trans hx1b (extendsF_trans hx2
    (extendsF_trans hx2b (extendsF_trans hx3 hx3b)))), ?_, ?_, ?_, ?_⟩
  · show q.1.ephems = []
    rw [he3]
    show p2.1.ephems = []
    rw [he2]
    show p1.1.ephems = []
    rw [he1, heph]
  · show q.1.weaks = []
    rw [hw3]
    show p2.1.weaks = []
    rw [hw2]
    show p1.1.weaks = []
    rw [hw1, hwks]
  · refine ⟨?_, ?_, ?_⟩
    · show SlotDone { q.1 with handles := q.2 } h.objectStore q.1.objectStore
      have hsv : q.1.objectStore = p1.2 := by
        rw [hos3]
        show p2.1.objectStore = p1.2
        rw [hos2]
      rw [hsv]
      have hsd1b : SlotDone p1.1 h.objectStore p1.2 := by
        rw [← hos]
        exact hsd1
      exact slotDone_mono (extendsF_trans hx1b (extendsF_trans hx2
        (extendsF_trans hx2b (extendsF_trans hx3 hx3b)))) hsd1b
    · show SlotDone { q.1 with handles := q.2 } h.currentActivation q.1.currentActivation
      have hsv : q.1.currentActivation = p2.2 := by
        rw [hca3]
      rw [hsv]
      have hsd2b : SlotDone p2.1 h.currentActivation p2.2 := by
        rw [← hca1b]
        exact hsd2
      exact slotDone_mono (extendsF_trans hx2b (extendsF_trans hx3 hx3b)) hsd2b
    · show List.Forall₂ (SlotDone { q.1 with handles := q.2 }) h.handles q.2
      rw [← hhd2b]
      exact List.Forall₂.imp (fun a b hab => slotDone_mono hx3b hab) hfa3
  · show q.1.toSp.length + obCount q.1.fromSp = s0.toSp.length + obCount s0.fromSp
    have hsig3 := scavengeHandles_sigma s2.handles s2
    rw [← hq] at hsig3
    have hs2sig : s2.toSp.length + obCount s2.fromSp =
        p2.1.toSp.length + obCount p2.1.fromSp := rfl
    have hs1sig : s1.toSp.length + obCount s1.fromSp =
        p1.1.toSp.length + obCount p1.1.fromSp := rfl
    omega

theorem forall2_mem_left {α β : Type} {R : α → β → Prop} {l1 : List α} {l2 : List β}
    (hf : List.Forall₂ R l1 l2) {x : α} (hx : x ∈ l1) : ∃ y ∈ l2, R x y := by
  induction hf with
  | nil => exact absurd hx (List.not_mem_nil x)
  | cons hR hrest ih =>
      rcases List.mem_cons.mp hx with rfl | hx2
      · exact ⟨_, List.mem_cons_self _ _, hR⟩
      · obtain ⟨y, hy, hRy⟩ := ih hx2
        exact ⟨y, List.mem_cons_of_mem _ hy, hRy⟩

theorem slotsOf_payload_congr (o o2 : Obj) (hp : o2.payload = o.payload) :
    slotsOf o2 = slotsOf o := by
  obtain ⟨c1, h1, p1⟩ := o
  obtain ⟨c2, h2, p2⟩ := o2
  have hpp : p2 = p1 := hp
  subst hpp
  cases p2 <;> rfl

theorem getSlot_of_copy (s : GcState) (t : Nat) (o2 : Obj)
    (h2 : s.toSp[t]? = some o2) (i : Nat) :
    s.getSlot t i = (slotsOf o2).getD i (.imm 0) := by
  unfold GcState.getSlot GcState.objAt
  have hgd : s.toSp.getD t default = o2 := by
    rw [List.getD_eq_getElem?_getD, h2]
    rfl
  rw [hgd]

/-- The origin object recorded in a forwarding header matches the heap. -/
theorem fwd_orig_eq (h : Heap) (hwf : WF h) (s : GcState) (scan : Nat) (ex : List Nat)
    (cur : Option Nat) (inv : InvCore h s scan ex cur) (a t : Nat) (o oo : Obj)
    (ho : h.space[a]? = some (.obj o)) (hfwd : s.fromSp[a]? = some (.fwd t oo)) :
    oo = o := by
  rcases inv.fcells a with heq | ⟨o3, t3, hsp3, hf3, _⟩
  · rw [heq, ho] at hfwd
    exact absurd (Option.some.inj hfwd).symm (fun hc => Cell.noConfusion hc)
  · rw [hf3] at hfwd
    obtain ⟨_, h5⟩ := Cell.fwd.inj (Option.some.inj hfwd)
    rw [ho] at hsp3
    have h6 : o = o3 := Cell.obj.inj (Option.some.inj hsp3)
    rw [← h5, ← h6]

/-- Completeness of the scavenge fixpoint: at loop exit every live object has
been forwarded (Hayes ephemeron semantics included). -/
theorem live_isFwd (h : Heap) (hwf : WF h) (s : GcState) (scanF : Nat)
    (inv : InvCore h s scanF [] none) (hscan : s.toSp.length ≤ scanF)
    (hroots : RootsDone h s)
    (hkeys : ∀ e2 ∈ s.ephems, ephKeyKnown s (s.getSlot e2 0) = false) :
    ∀ a : Nat, Live h a → isFwd s a := by
  intro a hl
  induction hl with
  | store a2 ha2 =>
      rcases hroots.rootS with ⟨v, h1, _⟩ | ⟨b, t, o2, h1, h2, _⟩
      · rw [ha2] at h1
        exact Ref.noConfusion h1
      · rw [ha2] at h1
        obtain rfl : a2 = b := Ref.ptr.inj h1
        exact ⟨t, o2, h2⟩
  | activation a2 ha2 =>
      rcases hroots.rootA with ⟨v, h1, _⟩ | ⟨b, t, o2, h1, h2, _⟩
      · rw [ha2] at h1
        exact Ref.noConfusion h1
      · rw [ha2] at h1
        obtain rfl : a2 = b := Ref.ptr.inj h1
        exact ⟨t, o2, h2⟩
  | handle a2 ha2 =>
      obtain ⟨y, hy, hR⟩ := forall2_mem_left hroots.rootH ha2
      rcases hR with ⟨v, h1, _⟩ | ⟨b, t, o2, h1, h2, _⟩
      · exact Ref.noConfusion h1
      · obtain rfl : a2 = b := Ref.ptr.inj h1
        exact ⟨t, o2, h2⟩
  | slot a2 o b hla ho hw he hb ih =>
      obtain ⟨t, oo, hfwd⟩ := ih
      obtain rfl : oo = o := fwd_orig_eq h hwf s scanF [] none inv a2 t o oo ho hfwd
      obtain ⟨o2, hc1, hc2, hc3, hc4⟩ := inv.content a2 t oo ho hfwd
        (fun hc => Option.noConfusion hc)
      have htlt : t < s.toSp.length := getElem_some_lt _ _ _ hc1
      have hts : t < scanF := by omega
      rcases hc4 with ⟨hp1, hp2⟩ | ⟨hp1, _⟩ | ⟨_, _, _, hnd⟩
      · rcases hp2 hts with hww | ⟨hee, _⟩
        · exact absurd hww hw
        · exact absurd hee he
      · exact absurd hp1 he
      · rcases hnd with ⟨d, hbytes, _⟩ | ⟨l, l2, hl1, hl2, hl3, hl4⟩
        · rw [slotsOf_bytes oo d hbytes] at hb
          exact absurd hb (List.not_mem_nil _)
        · rw [slotsOf_ptrs oo l hl1] at hb
          obtain ⟨i, hi, hieq⟩ := List.getElem_of_mem hb
          have hgd : l.getD i (.imm 0) = .ptr b := by
            rw [List.getD_eq_getElem?_getD, List.getElem?_eq_getElem hi, hieq]
            rfl
          have hsd := hl4 i hi
          rw [hgd] at hsd
          rcases hsd with ⟨v, h1, _⟩ | ⟨b2, t2, o3, h1, h2, _⟩
          · exact Ref.noConfusion h1
          · obtain rfl : b = b2 := Ref.ptr.inj h1
            exact ⟨t2, o3, h2⟩
  | classEdge a2 o c hla ho hcg ih =>
      obtain ⟨t, oo, hfwd⟩ := ih
      obtain rfl : oo = o := fwd_orig_eq h hwf s scanF [] none inv a2 t o oo ho hfwd
      obtain ⟨o2, hc1, hc2, hc3, hc4⟩ := inv.content a2 t oo ho hfwd
        (fun hc => Option.noConfusion hc)
      have htlt : t < s.toSp.length := getElem_some_lt _ _ _ hc1
      have hts : t < scanF := by omega
      rcases inv.classdone t hts o2 hc1 with ⟨v, h1⟩ | ⟨c2, h1, h2⟩
      · rw [inv.table, hc2] at h1
        exact absurd (hcg.symm.trans h1) (fun hc => Ref.noConfusion hc)
      · rw [inv.table, hc2] at h1
        obtain rfl : c2 = c := Ref.ptr.inj (h1.symm.trans hcg)
        exact h2
  | ephImm a2 o v b hla ho hoe hkey hvb ih =>
      obtain ⟨t, oo, hfwd⟩ := ih
      obtain rfl : oo = o := fwd_orig_eq h hwf s scanF [] none inv a2 t o oo ho hfwd
      obtain ⟨o2, hc1, hc2, hc3, hc4⟩ := inv.content a2 t oo ho hfwd
        (fun hc => Option.noConfusion hc)
      have htlt : t < s.toSp.length := getElem_some_lt _ _ _ hc1
      have hts : t < scanF := by omega
      rcases hc4 with ⟨hp1, hp2⟩ | ⟨_, _, _, _, hed⟩ | ⟨_, hne, _, _⟩
      · rcases hp2 hts with hww | ⟨_, hmem | hmem⟩
        · exact absurd (hww.symm.trans hoe) (by decide)
        · have hku := hkeys t hmem
          rw [getSlot_of_copy s t o2 hc1 0, slotsOf_payload_congr oo o2 hp1, hkey] at hku
          exact absurd hku (by simp [ephKeyKnown])
        · exact absurd hmem (List.not_mem_nil t)
      · rcases hed with ⟨d, hbytes, _⟩ | ⟨l, l2, hl1, hl2, hl3, hl4, hl5⟩
        · rw [slotsOf_bytes oo d hbytes] at hvb
          rcases hvb with hvb | hvb <;> exact Ref.noConfusion hvb
        · rw [slotsOf_ptrs oo l hl1] at hvb
          have hj : ∃ j : Nat, j < 3 ∧ l.getD j (.imm 0) = .ptr b := by
            rcases hvb with hvb | hvb
            · exact ⟨1, by omega, hvb.symm⟩
            · exact ⟨2, by omega, hvb.symm⟩
          obtain ⟨j, hj3, hjv⟩ := hj
          have hjlen : j < l.length := by
            by_contra hge
            rw [getD_beyond l j (.imm 0) (by omega)] at hjv
            exact Ref.noConfusion hjv
          have hsd := hl4 j hj3 hjlen
          rw [hjv] at hsd
          rcases hsd with ⟨v2, h1, _⟩ | ⟨b2, t2, o3, h1, h2, _⟩
          · exact Ref.noConfusion h1
          · obtain rfl : b = b2 := Ref.ptr.inj h1
            exact ⟨t2, o3, h2⟩
      · exact absurd hoe hne
  | ephKey a2 o ka b hla ho hoe hkey hlka hvb ih ihk =>
      obtain ⟨t, oo, hfwd⟩ := ih
      obtain rfl : oo = o := fwd_orig_eq h hwf s scanF [] none inv a2 t o oo ho hfwd
      obtain ⟨o2, hc1, hc2, hc3, hc4⟩ := inv.content a2 t oo ho hfwd
        (fun hc => Option.noConfusion hc)
      have htlt : t < s.toSp.length := getElem_some_lt _ _ _ hc1
      have hts : t < scanF := by omega
      rcases hc4 with ⟨hp1, hp2⟩ | ⟨_, _, _, _, hed⟩ | ⟨_, hne, _, _⟩
      · rcases hp2 hts with hww | ⟨_, hmem | hmem⟩
        · exact absurd (hww.symm.trans hoe) (by decide)
        · have hku := hkeys t hmem
          rw [getSlot_of_copy s t o2 hc1 0, slotsOf_payload_congr oo o2 hp1, hkey] at hku
          obtain ⟨tk, ok, hfk⟩ := ihk
          have hkt : ephKeyKnown s (.ptr ka) = true := by
            simp only [ephKeyKnown, hfk]
          rw [hkt] at hku
          exact absurd hku (by simp)
        · exact absurd hmem (List.not_mem_nil t)
      · rcases hed with ⟨d, hbytes, _⟩ | ⟨l, l2, hl1, hl2, hl3, hl4, hl5⟩
        · rw [slotsOf_bytes oo d hbytes] at hvb
          rcases hvb with hvb | hvb <;> exact Ref.noConfusion hvb
        · rw [slotsOf_ptrs oo l hl1] at hvb
          have hj : ∃ j : Nat, j < 3 ∧ l.getD j (.imm 0) = .ptr b := by
            rcases hvb with hvb | hvb
            · exact ⟨1, by omega, hvb.symm⟩
            · exact ⟨2, by omega, hvb.symm⟩
          obtain ⟨j, hj3, hjv⟩ := hj
          have hjlen : j < l.length := by
            by_contra hge
            rw [getD_beyond l j (.imm 0) (by omega)] at hjv
            exact Ref.noConfusion hjv
          have hsd := hl4 j hj3 hjlen
          rw [hjv] at hsd
          rcases hsd with ⟨v2, h1, _⟩ | ⟨b2, t2, o3, h1, h2, _⟩
          · exact Ref.noConfusion h1
          · obtain rfl : b = b2 := Ref.ptr.inj h1
            exact ⟨t2, o3, h2⟩
      · exact absurd hoe hne

/-- Names for the intermediate states of `scavengeGc`. -/
def flipState (h : Heap) : GcState :=
  { fromSp := h.space, toSp := [], objectStore := h.objectStore,
    currentActivation := h.currentActivation, handles := h.handles,
    classTable := h.classTable, classTableFree := h.classTableFree,
    ephems := [], weaks := [] }

/-- The collector state after `ProcessRoots`. -/
def rootsState (h : Heap) : GcState := processRoots (flipState h)

/-- The collector state when the strong-and-ephemeron fixpoint loop exits. -/
def loopState (h : Heap) : GcState :=
  scavengeLoop (obCount (rootsState h).fromSp + 2) (rootsState h) 0

theorem scavengeGc_eq (h : Heap) :
    scavengeGc h =
      mournClassTable (mournWeakList (mournEphemeronList (loopState h))) := rfl

theorem heapOf_space (s : GcState) (t : Nat) :
    (heapOf s).space[t]? = (s.toSp[t]?).map Cell.obj := by
  show (s.toSp.map Cell.obj)[t]? = _
  rw [List.getElem?_map]

/-- Everything the mourning phase needs about the state at loop exit. -/
theorem loopState_facts (h : Heap) (hwf : WF h) :
    ∃ scanF : Nat,
      InvCore h (loopState h) scanF [] none ∧
      (loopState h).toSp.length ≤ scanF ∧
      RootsDone h (loopState h) ∧
      (∀ e2 ∈ (loopState h).ephems,
        ephKeyKnown (loopState h) ((loopState h).getSlot e2 0) = false) := by
  have hinit := invCore_init h hwf
  obtain ⟨invR, hxR, hephR, hwkR, hrdR, hsigR⟩ :=
    processRoots_pres h hwf (flipState h) hinit rfl rfl rfl rfl rfl
  obtain ⟨scanF, q1, q2, q3, q4, q5, q6, q7⟩ :=
    scavengeLoop_pres h hwf (obCount (rootsState h).fromSp + 2) (rootsState h) 0
      invR (by omega) (fun _ => Nat.le_refl _)
      (fun _ e2 he2 => absurd (hephR ▸ he2) (List.not_mem_nil e2))
  refine ⟨scanF, q1, q2, ⟨?_, ?_, ?_⟩, q7⟩
  · show SlotDone (loopState h) h.objectStore
      (scavengeLoop (obCount (rootsState h).fromSp + 2) (rootsState h) 0).objectStore
    rw [q4]
    exact slotDone_mono q3 hrdR.rootS
  · show SlotDone (loopState h) h.currentActivation
      (scavengeLoop (obCount (rootsState h).fromSp + 2) (rootsState h) 0).currentActivation
    rw [q5]
    exact slotDone_mono q3 hrdR.rootA
  · show List.Forall₂ (SlotDone (loopState h)) h.handles
      (scavengeLoop (obCount (rootsState h).fromSp + 2) (rootsState h) 0).handles
    rw [q6]
    exact List.Forall₂.imp (fun a b hab => slotDone_mono q3 hab) hrdR.rootH

theorem set_beyond {α : Type} (l : List α) (i : Nat) (v : α) (hi : l.length ≤ i) :
    l.set i v = l := by
  apply List.ext_getElem?
  intro j
  by_cases hij : i = j
  · subst hij
    rw [List.getElem?_eq_none (by rw [List.length_set]; exact hi), List.getElem?_eq_none hi]
  · rw [List.getElem?_set_ne hij]

theorem setSlot_eta (o2 : Obj) (l2 : List Ref) (i : Nat) (r : Ref)
    (hp : o2.payload = .ptrs l2) :
    o2.setSlot i r = ⟨o2.cid, o2.hash, .ptrs (l2.set i r)⟩ := by
  have h0 : o2.setSlot i r =
      ⟨(o2.setSlot i r).cid, (o2.setSlot i r).hash, (o2.setSlot i r).payload⟩ := rfl
  rw [h0, setSlot_cid, setSlot_hash, setSlot_payload o2 l2 i r hp]

theorem obj_eta_ptrs (o2 : Obj) (l2 : List Ref) (hp : o2.payload = .ptrs l2) :
    o2 = ⟨o2.cid, o2.hash, .ptrs l2⟩ := by
  rw [← hp]

/-- The value `MournWeakPointer` leaves in a weak slot: immediates kept,
forwarded referents followed, anything else replaced by nil. -/
def mournedRef (s : GcState) (nilv : Ref) : Ref → Ref
  | .imm v => .imm v
  | .ptr a =>
    match s.fromSp[a]? with
    | some (.fwd t _) => .ptr t
    | _ => nilv

theorem mournedRef_congr {s s2 : GcState} (hf : s2.fromSp = s.fromSp) (nilv r : Ref) :
    mournedRef s2 nilv r = mournedRef s nilv r := by
  cases r with
  | imm v => rfl
  | ptr a =>
      unfold mournedRef
      rw [hf]

theorem nilOf_congr {s s2 : GcState} (hos : s2.objectStore = s.objectStore)
    (hts : ∀ a : Nat, s.objectStore = .ptr a → s2.toSp[a]? = s.toSp[a]?) :
    nilOf s2 = nilOf s := by
  unfold nilOf
  rw [hos]
  cases hsr : s.objectStore with
  | imm v => rfl
  | ptr a => exact getSlot_congr (hts a hsr) 0

theorem mournWeakSlot_spec (s : GcState) (w i : Nat) (o2 : Obj) (l2 : List Ref)
    (h2 : s.toSp[w]? = some o2) (hp : o2.payload = .ptrs l2) :
    (mournWeakSlot s w i).fromSp = s.fromSp ∧
    (mournWeakSlot s w i).objectStore = s.objectStore ∧
    (mournWeakSlot s w i).currentActivation = s.currentActivation ∧
    (mournWeakSlot s w i).handles = s.handles ∧
    (mournWeakSlot s w i).classTable = s.classTable ∧
    (mournWeakSlot s w i).classTableFree = s.classTableFree ∧
    (mournWeakSlot s w i).ephems = s.ephems ∧
    (mournWeakSlot s w i).weaks = s.weaks ∧
    (∀ u : Nat, u ≠ w → (mournWeakSlot s w i).toSp[u]? = s.toSp[u]?) ∧
    ∃ l2' : List Ref,
      (mournWeakSlot s w i).toSp[w]? = some ⟨o2.cid, o2.hash, .ptrs l2'⟩ ∧
      l2'.length = l2.length ∧
      (∀ j : Nat, j ≠ i → l2'.getD j (.imm 0) = l2.getD j (.imm 0)) ∧
      (i < l2.length → l2'.getD i (.imm 0) = mournedRef s (nilOf s) (l2.getD i (.imm 0))) := by
  have hslot : s.getSlot w i = l2.getD i (.imm 0) := getSlot_eq s w i o2 l2 h2 hp
  cases hv : l2.getD i (.imm 0) with
  | imm v =>
      have hres : mournWeakSlot s w i = s := by
        simp only [mournWeakSlot, hslot, hv]
      rw [hres]
      refine ⟨rfl, rfl, rfl, rfl, rfl, rfl, rfl, rfl, fun u _ => rfl, l2, ?_, rfl,
        fun j _ => rfl, fun _ => by rw [hv]; rfl⟩
      rw [h2, obj_eta_ptrs o2 l2 hp]
  | ptr a =>
      cases hfa : s.fromSp[a]? with
      | some c =>
          cases c with
          | fwd t o =>
              have hres : mournWeakSlot s w i = s.putSlot w i (.ptr t) := by
                simp only [mournWeakSlot, hslot, hv, hfa]
              rw [hres]
              refine ⟨rfl, rfl, rfl, rfl, rfl, rfl, rfl, rfl,
                fun u hu => putSlot_ne s w i (.ptr t) u hu, l2.set i (.ptr t), ?_,
                List.length_set _ _ _, fun j hj => getD_set_ne l2 i j _ _ (fun he => hj he.symm),
                fun hlen => ?_⟩
              · rw [putSlot_at s w i (.ptr t) o2 h2, setSlot_eta o2 l2 i (.ptr t) hp]
              · rw [getD_set_self l2 i (.ptr t) (.imm 0) hlen]
                simp only [mournedRef, hfa]
          | obj o =>
              have hres : mournWeakSlot s w i = s.putSlot w i (nilOf s) := by
                simp only [mournWeakSlot, hslot, hv, hfa]
              rw [hres]
              refine ⟨rfl, rfl, rfl, rfl, rfl, rfl, rfl, rfl,
                fun u hu => putSlot_ne s w i (nilOf s) u hu, l2.set i (nilOf s), ?_,
                List.length_set _ _ _, fun j hj => getD_set_ne l2 i j _ _ (fun he => hj he.symm),
                fun hlen => ?_⟩
              · rw [putSlot_at s w i (nilOf s) o2 h2, setSlot_eta o2 l2 i (nilOf s) hp]
              · rw [getD_set_self l2 i (nilOf s) (.imm 0) hlen]
                simp only [mournedRef, hfa]
      | none =>
          have hres : mournWeakSlot s w i = s.putSlot w i (nilOf s) := by
            simp only [mournWeakSlot, hslot, hv, hfa]
          rw [hres]
          refine ⟨rfl, rfl, rfl, rfl, rfl, rfl, rfl, rfl,
            fun u hu => putSlot_ne s w i (nilOf s) u hu, l2.set i (nilOf s), ?_,
            List.length_set _ _ _, fun j hj => getD_set_ne l2 i j _ _ (fun he => hj he.symm),
            fun hlen => ?_⟩
          · rw [putSlot_at s w i (nilOf s) o2 h2, setSlot_eta o2 l2 i (nilOf s) hp]
          · rw [getD_set_self l2 i (nilOf s) (.imm 0) hlen]
            simp only [mournedRef, hfa]

theorem mournWeakSlots_spec (w k : Nat) :
    ∀ (s : GcState) (i : Nat) (o2 : Obj) (l2 : List Ref),
    s.toSp[w]? = some o2 → o2.payload = .ptrs l2 →
    (∀ a2 : Nat, s.objectStore = .ptr a2 → a2 ≠ w) →
    (mournWeakSlots w i k s).fromSp = s.fromSp ∧
    (mournWeakSlots w i k s).objectStore = s.objectStore ∧
    (mournWeakSlots w i k s).currentActivation = s.currentActivation ∧
    (mournWeakSlots w i k s).handles = s.handles ∧
    (mournWeakSlots w i k s).classTable = s.classTable ∧
    (mournWeakSlots w i k s).classTableFree = s.classTableFree ∧
    (mournWeakSlots w i k s).ephems = s.ephems ∧
    (mournWeakSlots w i k s).weaks = s.weaks ∧
    (∀ u : Nat, u ≠ w → (mournWeakSlots w i k s).toSp[u]? = s.toSp[u]?) ∧
    ∃ l2' : List Ref,
      (mournWeakSlots w i k s).toSp[w]? = some ⟨o2.cid, o2.hash, .ptrs l2'⟩ ∧
      l2'.length = l2.length ∧
      (∀ j : Nat, j < i → l2'.getD j (.imm 0) = l2.getD j (.imm 0)) ∧
      (∀ j : Nat, i ≤ j → j < i + k → j < l2.length →
        l2'.getD j (.imm 0) = mournedRef s (nilOf s) (l2.getD j (.imm 0))) ∧
      (∀ j : Nat, i + k ≤ j → l2'.getD j (.imm 0) = l2.getD j (.imm 0)) := by
  induction k with
  | zero =>
      intro s i o2 l2 h2 hp hsw
      refine ⟨rfl, rfl, rfl, rfl, rfl, rfl, rfl, rfl, fun u _ => rfl, l2, ?_, rfl,
        fun j _ => rfl, fun j hj1 hj2 _ => by omega, fun j _ => rfl⟩
      show s.toSp[w]? = some ⟨o2.cid, o2.hash, .ptrs l2⟩
      rw [h2, obj_eta_ptrs o2 l2 hp]
  | succ k ih =>
      intro s i o2 l2 h2 hp hsw
      have hstep : mournWeakSlots w i (k + 1) s =
          mournWeakSlots w (i + 1) k (mournWeakSlot s w i) := rfl
      rw [hstep]
      obtain ⟨m1, m2, m3, m4, m5, m6, m7, m8, m9, l2a, n1, n2, n3, n4⟩ :=
        mournWeakSlot_spec s w i o2 l2 h2 hp
      have hsw1 : ∀ a2 : Nat, (mournWeakSlot s w i).objectStore = .ptr a2 → a2 ≠ w := by
        intro a2 ha2
        exact hsw a2 (by rw [← m2]; exact ha2)
      obtain ⟨r1, r2, r3, r4, r5, r6, r7, r8, r9, l2b, p1, p2, p3, p4, p5⟩ :=
        ih (mournWeakSlot s w i) (i + 1) ⟨o2.cid, o2.hash, .ptrs l2a⟩ l2a n1 rfl hsw1
      have hnil : nilOf (mournWeakSlot s w i) = nilOf s :=
        nilOf_congr m2 (fun a2 ha2 => m9 a2 (hsw a2 ha2))
      refine ⟨r1.trans m1, r2.trans m2, r3.trans m3, r4.trans m4, r5.trans m5,
        r6.trans m6, r7.trans m7, r8.trans m8,
        fun u hu => (r9 u hu).trans (m9 u hu), l2b, p1, p2.trans n2, ?_, ?_, ?_⟩
      · intro j hj
        rw [p3 j (by omega), n3 j (by omega)]
      · intro j hj1 hj2 hjlen
        by_cases hji : j = i
        · subst hji
          rw [p3 j (by omega)]
          exact n4 hjlen
        · have := p4 j (by omega) (by omega) (by rw [n2]; exact hjlen)
          rw [this, mournedRef_congr m1, hnil, n3 j hji]
      · intro j hj
        rw [p5 j (by omega), n3 j (by omega)]

theorem mournWeaks_spec (ws : List Nat) :
    ∀ s : GcState, ws.Nodup →
    (∀ a2 : Nat, s.objectStore = .ptr a2 → a2 ∉ ws) →
    (∀ w ∈ ws, ∃ o2 : Obj, s.toSp[w]? = some o2) →
    (mournWeaks ws s).fromSp = s.fromSp ∧
    (mournWeaks ws s).objectStore = s.objectStore ∧
    (mournWeaks ws s).currentActivation = s.currentActivation ∧
    (mournWeaks ws s).handles = s.handles ∧
    (mournWeaks ws s).classTable = s.classTable ∧
    (mournWeaks ws s).classTableFree = s.classTableFree ∧
    (mournWeaks ws s).ephems = s.ephems ∧
    (mournWeaks ws s).weaks = s.weaks ∧
    (∀ u : Nat, u ∉ ws → (mournWeaks ws s).toSp[u]? = s.toSp[u]?) ∧
    (∀ w ∈ ws, ∀ (o2 : Obj) (l2 : List Ref), s.toSp[w]? = some o2 →
      o2.payload = .ptrs l2 →
      ∃ l2' : List Ref,
        (mournWeaks ws s).toSp[w]? = some ⟨o2.cid, o2.hash, .ptrs l2'⟩ ∧
        l2'.length = l2.length ∧
        ∀ j : Nat, j < l2.length →
          l2'.getD j (.imm 0) = mournedRef s (nilOf s) (l2.getD j (.imm 0))) := by
  induction ws with
  | nil =>
      intro s _ _ _
      exact ⟨rfl, rfl, rfl, rfl, rfl, rfl, rfl, rfl, fun u _ => rfl,
        fun w hw => absurd hw (List.not_mem_nil w)⟩
  | cons w rest ih =>
      intro s hnd hsw hcopies
      have hstep : mournWeaks (w :: rest) s =
          mournWeaks rest (mournWeakSlots w 0 (slotsOf (s.objAt w)).length s) := rfl
      rw [hstep]
      obtain ⟨o2, h2⟩ := hcopies w (List.mem_cons_self w rest)
      have hobj : s.objAt w = o2 := by
        unfold GcState.objAt
        rw [List.getD_eq_getElem?_getD, h2]
        rfl
      have her : w ∉ rest := (List.nodup_cons.mp hnd).1
      have hndr : rest.Nodup := (List.nodup_cons.mp hnd).2
      cases hpp : o2.payload with
      | bytes d =>
          have hk : (slotsOf (s.objAt w)).length = 0 := by
            rw [hobj, slotsOf_bytes o2 d hpp]
            rfl
          rw [hk]
          have hid : mournWeakSlots w 0 0 s = s := rfl
          rw [hid]
          obtain ⟨r1, r2, r3, r4, r5, r6, r7, r8, r9, r10⟩ := ih s hndr
            (fun a2 ha2 hm => hsw a2 ha2 (List.mem_cons_of_mem w hm))
            (fun w2 hw2 => hcopies w2 (List.mem_cons_of_mem w hw2))
          refine ⟨r1, r2, r3, r4, r5, r6, r7, r8, ?_, ?_⟩
          · intro u hu
            exact r9 u (fun hm => hu (List.mem_cons_of_mem w hm))
          · intro w2 hw2 o2b l2b h2b hpb
            rcases List.mem_cons.mp hw2 with rfl | hw3
            · obtain rfl : o2 = o2b := Option.some.inj (h2.symm.trans h2b)
              rw [hpp] at hpb
              exact absurd hpb (by simp)
            · exact r10 w2 hw3 o2b l2b h2b hpb
      | ptrs l2 =>
          have hk : (slotsOf (s.objAt w)).length = l2.length := by
            rw [hobj, slotsOf_ptrs o2 l2 hpp]
          rw [hk]
          obtain ⟨m1, m2, m3, m4, m5, m6, m7, m8, m9, l2a, n1, n2, n3, n4, n5⟩ :=
            mournWeakSlots_spec w l2.length s 0 o2 l2 h2 hpp
              (fun a2 ha2 he => hsw a2 ha2 (by rw [he]; exact List.mem_cons_self w rest))
          have hsw1 : ∀ a2 : Nat, (mournWeakSlots w 0 l2.length s).objectStore = .ptr a2 →
              a2 ∉ rest := by
            intro a2 ha2 hm
            exact hsw a2 (by rw [← m2]; exact ha2) (List.mem_cons_of_mem w hm)
          have hcop1 : ∀ w2 ∈ rest, ∃ o2b : Obj,
              (mournWeakSlots w 0 l2.length s).toSp[w2]? = some o2b := by
            intro w2 hw2
            obtain ⟨o2b, h2b⟩ := hcopies w2 (List.mem_cons_of_mem w hw2)
            have hne : w2 ≠ w := fun hh => her (hh ▸ hw2)
            exact ⟨o2b, by rw [m9 w2 hne]; exact h2b⟩
          obtain ⟨r1, r2, r3, r4, r5, r6, r7, r8, r9, r10⟩ :=
            ih (mournWeakSlots w 0 l2.length s) hndr hsw1 hcop1
          have hnil1 : nilOf (mournWeakSlots w 0 l2.length s) = nilOf s :=
            nilOf_congr m2 (fun a2 ha2 => m9 a2
              (fun he => hsw a2 ha2 (by rw [he]; exact List.mem_cons_self w rest)))
          refine ⟨r1.trans m1, r2.trans m2, r3.trans m3, r4.trans m4, r5.trans m5,
            r6.trans m6, r7.trans m7, r8.trans m8, ?_, ?_⟩
          · intro u hu
            have hune : u ≠ w := fun hh => hu (by rw [hh]; exact List.mem_cons_self w rest)
            exact (r9 u (fun hm => hu (List.mem_cons_of_mem w hm))).trans (m9 u hune)
          · intro w2 hw2 o2b l2b h2b hpb
            rcases List.mem_cons.mp hw2 with rfl | hw3
            · obtain rfl : o2 = o2b := Option.some.inj (h2.symm.trans h2b)
              obtain rfl : l2 = l2b := by
                rw [hpp] at hpb
                exact Payload.ptrs.inj hpb
              refine ⟨l2a, ?_, n2, ?_⟩
              · rw [r9 w2 her]
                exact n1
              · intro j hj
                exact n4 j (Nat.zero_le j) (by omega) hj
            · have hne : w2 ≠ w := fun hh => her (hh ▸ hw3)
              obtain ⟨l2c, p1, p2, p3⟩ := r10 w2 hw3 o2b l2b
                (by rw [m9 w2 hne]; exact h2b) hpb
              refine ⟨l2c, p1, p2, fun j hj => ?_⟩
              rw [p3 j hj, mournedRef_congr m1, hnil1]

/-- `Heap::MournWeakList`: detach, then rewrite every slot of every listed
weak array by the mourned-slot function. -/
theorem mournWeakList_spec (s : GcState) (hnd : s.weaks.Nodup)
    (hsw : ∀ a2 : Nat, s.objectStore = .ptr a2 → a2 ∉ s.weaks)
    (hcopies : ∀ w ∈ s.weaks, ∃ o2 : Obj, s.toSp[w]? = some o2) :
    (mournWeakList s).fromSp = s.fromSp ∧
    (mournWeakList s).objectStore = s.objectStore ∧
    (mournWeakList s).currentActivation = s.currentActivation ∧
    (mournWeakList s).handles = s.handles ∧
    (mournWeakList s).classTable = s.classTable ∧
    (mournWeakList s).classTableFree = s.classTableFree ∧
    (mournWeakList s).ephems = s.ephems ∧
    (∀ u : Nat, u ∉ s.weaks → (mournWeakList s).toSp[u]? = s.toSp[u]?) ∧
    (∀ w ∈ s.weaks, ∀ (o2 : Obj) (l2 : List Ref), s.toSp[w]? = some o2 →
      o2.payload = .ptrs l2 →
      ∃ l2' : List Ref,
        (mournWeakList s).toSp[w]? = some ⟨o2.cid, o2.hash, .ptrs l2'⟩ ∧
        l2'.length = l2.length ∧
        ∀ j : Nat, j < l2.length →
          l2'.getD j (.imm 0) = mournedRef s (nilOf s) (l2.getD j (.imm 0))) := by
  have hdet : mournWeakList s = mournWeaks s.weaks { s with weaks := [] } := rfl
  rw [hdet]
  obtain ⟨r1, r2, r3, r4, r5, r6, r7, r8, r9, r10⟩ :=
    mournWeaks_spec s.weaks { s with weaks := [] } hnd hsw hcopies
  have hnil : nilOf { s with weaks := ([] : List Nat) } = nilOf s :=
    nilOf_congr rfl (fun _ _ => rfl)
  refine ⟨r1, r2, r3, r4, r5, r6, r7, r9, ?_⟩
  intro w hw o2 l2 h2 hp
  obtain ⟨l2c, p1, p2, p3⟩ := r10 w hw o2 l2 h2 hp
  refine ⟨l2c, p1, p2, fun j hj => ?_⟩
  rw [p3 j hj, hnil]
  exact mournedRef_congr
    (show ({ s with weaks := ([] : List Nat) }).fromSp = s.fromSp from rfl)
    (nilOf s) (l2.getD j (.imm 0))

theorem mournEphems_spec (nilv : Ref) (es : List Nat) :
    ∀ s : GcState, es.Nodup →
    (mournEphems nilv es s).fromSp = s.fromSp ∧
    (mournEphems nilv es s).objectStore = s.objectStore ∧
    (mournEphems nilv es s).currentActivation = s.currentActivation ∧
    (mournEphems nilv es s).handles = s.handles ∧
    (mournEphems nilv es s).classTable = s.classTable ∧
    (mournEphems nilv es s).classTableFree = s.classTableFree ∧
    (mournEphems nilv es s).ephems = s.ephems ∧
    (mournEphems nilv es s).weaks = s.weaks ∧
    (∀ u : Nat, u ∉ es → (mournEphems nilv es s).toSp[u]? = s.toSp[u]?) ∧
    (∀ e ∈ es, ∀ o2 : Obj, s.toSp[e]? = some o2 →
      (mournEphems nilv es s).toSp[e]? =
        some (((o2.setSlot 0 nilv).setSlot 1 nilv).setSlot 2 nilv)) := by
  induction es with
  | nil =>
      intro s _
      exact ⟨rfl, rfl, rfl, rfl, rfl, rfl, rfl, rfl, fun u _ => rfl,
        fun e he => absurd he (List.not_mem_nil e)⟩
  | cons e rest ih =>
      intro s hnd
      have her : e ∉ rest := (List.nodup_cons.mp hnd).1
      have hndr : rest.Nodup := (List.nodup_cons.mp hnd).2
      have hstep : mournEphems nilv (e :: rest) s =
          mournEphems nilv rest (((s.putSlot e 0 nilv).putSlot e 1 nilv).putSlot e 2 nilv) :=
        rfl
      rw [hstep]
      obtain ⟨r1, r2, r3, r4, r5, r6, r7, r8, r9, r10⟩ :=
        ih (((s.putSlot e 0 nilv).putSlot e 1 nilv).putSlot e 2 nilv) hndr
      have hne3 : ∀ u : Nat, u ≠ e →
          ((((s.putSlot e 0 nilv).putSlot e 1 nilv).putSlot e 2 nilv)).toSp[u]? =
          s.toSp[u]? := by
        intro u hu
        rw [putSlot_ne _ e 2 nilv u hu, putSlot_ne _ e 1 nilv u hu,
          putSlot_ne _ e 0 nilv u hu]
      refine ⟨r1, r2, r3, r4, r5, r6, r7, r8, ?_, ?_⟩
      · intro u hu
        have hune : u ≠ e := fun hh => hu (by rw [hh]; exact List.mem_cons_self e rest)
        exact (r9 u (fun hm => hu (List.mem_cons_of_mem e hm))).trans (hne3 u hune)
      · intro e2 he2 o2 h2
        rcases List.mem_cons.mp he2 with rfl | he3
        · have h2a := putSlot_at s e2 0 nilv o2 h2
          have h2b := putSlot_at (s.putSlot e2 0 nilv) e2 1 nilv _ h2a
          have h2c := putSlot_at ((s.putSlot e2 0 nilv).putSlot e2 1 nilv) e2 2 nilv _ h2b
          rw [r9 e2 her, h2c]
        · have hne : e2 ≠ e := fun hh => her (hh ▸ he3)
          exact r10 e2 he3 o2 (by rw [hne3 e2 hne]; exact h2)

/-- `Heap::MournEphemeronList`: detach, then nil the key, value and
finalizer of every survivor. -/
theorem mournEphemeronList_spec (s : GcState) (hnd : s.ephems.Nodup) :
    (mournEphemeronList s).fromSp = s.fromSp ∧
    (mournEphemeronList s).objectStore = s.objectStore ∧
    (mournEphemeronList s).currentActivation = s.currentActivation ∧
    (mournEphemeronList s).handles = s.handles ∧
    (mournEphemeronList s).classTable = s.classTable ∧
    (mournEphemeronList s).classTableFree = s.classTableFree ∧
    (mournEphemeronList s).ephems = ([] : List Nat) ∧
    (mournEphemeronList s).weaks = s.weaks ∧
    (∀ u : Nat, u ∉ s.ephems → (mournEphemeronList s).toSp[u]? = s.toSp[u]?) ∧
    (∀ e ∈ s.ephems, ∀ o2 : Obj, s.toSp[e]? = some o2 →
      (mournEphemeronList s).toSp[e]? =
        some (((o2.setSlot 0 (nilOf s)).setSlot 1 (nilOf s)).setSlot 2 (nilOf s))) := by
  have hdet : mournEphemeronList s = mournEphems (nilOf s) s.ephems { s with ephems := [] } :=
    rfl
  rw [hdet]
  obtain ⟨r1, r2, r3, r4, r5, r6, r7, r8, r9, r10⟩ :=
    mournEphems_spec (nilOf s) s.ephems { s with ephems := [] } hnd
  exact ⟨r1, r2, r3, r4, r5, r6, r7, r8, r9, r10⟩

theorem mournClassStep_frame (s : GcState) (i : Nat) :
    (mournClassStep s i).toSp = s.toSp ∧
    (mournClassStep s i).fromSp = s.fromSp ∧
    (mournClassStep s i).objectStore = s.objectStore ∧
    (mournClassStep s i).currentActivation = s.currentActivation ∧
    (mournClassStep s i).handles = s.handles ∧
    (mournClassStep s i).ephems = s.ephems ∧
    (mournClassStep s i).weaks = s.weaks := by
  cases hct : s.classTable.getD i (.imm 0) with
  | imm v =>
      have hres : mournClassStep s i = s := by
        simp only [mournClassStep, hct]
      rw [hres]
      exact ⟨rfl, rfl, rfl, rfl, rfl, rfl, rfl⟩
  | ptr a =>
      cases hfa : s.fromSp[a]? with
      | none =>
          have hres : mournClassStep s i =
              { s with classTable := s.classTable.set i (.imm (Int.ofNat s.classTableFree)), classTableFree := i } := by
            simp only [mournClassStep, hct, hfa]
          rw [hres]
          exact ⟨rfl, rfl, rfl, rfl, rfl, rfl, rfl⟩
      | some c =>
          cases c with
          | fwd t o =>
              have hres : mournClassStep s i =
                  { s with classTable := s.classTable.set i (.ptr t) } := by
                simp only [mournClassStep, hct, hfa]
              rw [hres]
              exact ⟨rfl, rfl, rfl, rfl, rfl, rfl, rfl⟩
          | obj o =>
              have hres : mournClassStep s i =
                  { s with classTable := s.classTable.set i (.imm (Int.ofNat s.classTableFree)), classTableFree := i } := by
                simp only [mournClassStep, hct, hfa]
              rw [hres]
              exact ⟨rfl, rfl, rfl, rfl, rfl, rfl, rfl⟩

theorem mournClassFrom_frame (k : Nat) : ∀ (i : Nat) (s : GcState),
    (mournClassFrom i k s).toSp = s.toSp ∧
    (mournClassFrom i k s).fromSp = s.fromSp ∧
    (mournClassFrom i k s).objectStore = s.objectStore ∧
    (mournClassFrom i k s).currentActivation = s.currentActivation ∧
    (mournClassFrom i k s).handles = s.handles ∧
    (mournClassFrom i k s).ephems = s.ephems ∧
    (mournClassFrom i k s).weaks = s.weaks := by
  induction k with
  | zero =>
      intro i s
      exact ⟨rfl, rfl, rfl, rfl, rfl, rfl, rfl⟩
  | succ k ih =>
      intro i s
      have hstep : mournClassFrom i (k + 1) s =
          mournClassFrom (i + 1) k (mournClassStep s i) := rfl
      rw [hstep]
      obtain ⟨r1, r2, r3, r4, r5, r6, r7⟩ := ih (i + 1) (mournClassStep s i)
      obtain ⟨m1, m2, m3, m4, m5, m6, m7⟩ := mournClassStep_frame s i
      exact ⟨r1.trans m1, r2.trans m2, r3.trans m3, r4.trans m4, r5.trans m5,
        r6.trans m6, r7.trans m7⟩

theorem mournClassTable_frame (s : GcState) :
    (mournClassTable s).toSp = s.toSp ∧
    (mournClassTable s).fromSp = s.fromSp ∧
    (mournClassTable s).objectStore = s.objectStore ∧
    (mournClassTable s).currentActivation = s.currentActivation ∧
    (mournClassTable s).handles = s.handles ∧
    (mournClassTable s).ephems = s.ephems ∧
    (mournClassTable s).weaks = s.weaks :=
  mournClassFrom_frame (s.classTable.length - kFirstLegalCid) kFirstLegalCid s

theorem mournWeakSlot_len (s : GcState) (w i : Nat) :
    (mournWeakSlot s w i).toSp.length = s.toSp.length := by
  cases hv : s.getSlot w i with
  | imm v =>
      have hres : mournWeakSlot s w i = s := by
        simp only [mournWeakSlot, hv]
      rw [hres]
  | ptr a =>
      cases hfa : s.fromSp[a]? with
      | none =>
          have hres : mournWeakSlot s w i = s.putSlot w i (nilOf s) := by
            simp only [mournWeakSlot, hv, hfa]
          rw [hres, putSlot_len]
      | some c =>
          cases c with
          | fwd t o =>
              have hres : mournWeakSlot s w i = s.putSlot w i (.ptr t) := by
                simp only [mournWeakSlot, hv, hfa]
              rw [hres, putSlot_len]
          | obj o =>
              have hres : mournWeakSlot s w i = s.putSlot w i (nilOf s) := by
                simp only [mournWeakSlot, hv, hfa]
              rw [hres, putSlot_len]

theorem mournWeakSlots_len (w k : Nat) : ∀ (s : GcState) (i : Nat),
    (mournWeakSlots w i k s).toSp.length = s.toSp.length := by
  induction k with
  | zero =>
      intro s i
      rfl
  | succ k ih =>
      intro s i
      have hstep : mournWeakSlots w i (k + 1) s =
          mournWeakSlots w (i + 1) k (mournWeakSlot s w i) := rfl
      rw [hstep, ih (mournWeakSlot s w i) (i + 1), mournWeakSlot_len]

theorem mournWeaks_len (ws : List Nat) : ∀ s : GcState,
    (mournWeaks ws s).toSp.length = s.toSp.length := by
  induction ws with
  | nil =>
      intro s
      rfl
  | cons w rest ih =>
      intro s
      have hstep : mournWeaks (w :: rest) s =
          mournWeaks rest (mournWeakSlots w 0 (slotsOf (s.objAt w)).length s) := rfl
      rw [hstep, ih, mournWeakSlots_len]

theorem mournWeakList_len (s : GcState) :
    (mournWeakList s).toSp.length = s.toSp.length :=
  mournWeaks_len s.weaks { s with weaks := [] }

theorem mournEphems_len (nilv : Ref) (es : List Nat) : ∀ s : GcState,
    (mournEphems nilv es s).toSp.length = s.toSp.length := by
  induction es with
  | nil =>
      intro s
      rfl
  | cons e rest ih =>
      intro s
      have hstep : mournEphems nilv (e :: rest) s =
          mournEphems nilv rest (((s.putSlot e 0 nilv).putSlot e 1 nilv).putSlot e 2 nilv) :=
        rfl
      rw [hstep, ih, putSlot_len, putSlot_len, putSlot_len]

theorem mournEphemeronList_len (s : GcState) :
    (mournEphemeronList s).toSp.length = s.toSp.length :=
  mournEphems_len (nilOf s) s.ephems { s with ephems := [] }

theorem getSlotH_heapOf (s : GcState) (a i : Nat) :
    (heapOf s).getSlotH a i = s.getSlot a i := by
  cases hta : s.toSp[a]? with
  | none =>
      have h1 : (heapOf s).space[a]? = none := by
        rw [heapOf_space, hta]
        rfl
      have hga : (heapOf s).space.getD a (.obj default) = .obj default := by
        rw [List.getD_eq_getElem?_getD, h1]
        rfl
      have hgb : s.toSp.getD a default = default := by
        rw [List.getD_eq_getElem?_getD, hta]
        rfl
      unfold Heap.getSlotH Heap.objAt Heap.cellAt GcState.getSlot GcState.objAt
      rw [hga, hgb]
  | some o2 =>
      have h1 : (heapOf s).space[a]? = some (.obj o2) := by
        rw [heapOf_space, hta]
        rfl
      have hga : (heapOf s).space.getD a (.obj default) = .obj o2 := by
        rw [List.getD_eq_getElem?_getD, h1]
        rfl
      have hgb : s.toSp.getD a default = o2 := by
        rw [List.getD_eq_getElem?_getD, hta]
        rfl
      unfold Heap.getSlotH Heap.objAt Heap.cellAt GcState.getSlot GcState.objAt
      rw [hga, hgb]

/-- The scavenged object store's copy is on neither mourning worklist, when
the store object itself is neither a weak array nor an ephemeron. -/
theorem store_target_clean (h : Heap) (hwf : WF h)
    (hstore : ∀ (as : Nat) (os : Obj), h.objectStore = .ptr as →
      h.space[as]? = some (.obj os) → os.cid ≠ kWeakArrayCid ∧ os.cid ≠ kEphemeronCid)
    (s : GcState) (scanF : Nat) (inv : InvCore h s scanF [] none)
    (hrs : SlotDone s h.objectStore s.objectStore) :
    ∀ a2 : Nat, s.objectStore = .ptr a2 → a2 ∉ s.weaks ∧ a2 ∉ s.ephems := by
  intro a2 ha2
  rcases hrs with ⟨v, h1, h2⟩ | ⟨as, ts, oss, h1, h2, h3⟩
  · rw [h2, h1] at ha2
    exact absurd ha2 (fun hc => Ref.noConfusion hc)
  · rw [h3] at ha2
    obtain rfl : ts = a2 := Ref.ptr.inj ha2
    have hlt : as < h.space.length := hwf.rootSOk as h1
    have hcell : ∃ os : Obj, h.space[as]? = some (.obj os) := by
      cases hc : h.space[as]? with
      | none =>
          rw [List.getElem?_eq_getElem hlt] at hc
          exact Option.noConfusion hc
      | some c =>
          cases c with
          | obj os => exact ⟨os, rfl⟩
          | fwd t o => exact absurd hc (hwf.noCorpse as t o)
    obtain ⟨os, hos⟩ := hcell
    obtain rfl : oss = os := fwd_orig_eq h hwf s scanF [] none inv as ts os oss hos h2
    obtain ⟨o2s, hc1, hc2, _, _⟩ := inv.content as ts oss hos h2
      (fun hc => Option.noConfusion hc)
    obtain ⟨hw1, hw2⟩ := hstore as oss h1 hos
    constructor
    · intro hmem
      obtain ⟨_, o2x, hx1, hx2⟩ := inv.weakmem ts hmem
      obtain rfl : o2s = o2x := Option.some.inj (hc1.symm.trans hx1)
      exact hw1 (hc2.symm.trans hx2)
    · intro hmem
      obtain ⟨_, o2x, hx1, hx2⟩ := inv.ephmem ts hmem
      obtain rfl : o2s = o2x := Option.some.inj (hc1.symm.trans hx1)
      exact hw2 (hc2.symm.trans hx2)

/-- The nil reference read by the mourning passes is the final heap's nil,
when the object store is itself an ordinary object. -/
theorem scavenge_nil_final (h : Heap) (hwf : WF h)
    (hstore : ∀ (as : Nat) (os : Obj), h.objectStore = .ptr as →
      h.space[as]? = some (.obj os) → os.cid ≠ kWeakArrayCid ∧ os.cid ≠ kEphemeronCid)
    (scanF : Nat) (inv : InvCore h (loopState h) scanF [] none)
    (hrs : SlotDone (loopState h) h.objectStore (loopState h).objectStore) :
    nilOf (mournEphemeronList (loopState h)) = nilOf (loopState h) ∧
    nilOfHeap (scavenge h) = nilOf (loopState h) := by
  have hclean := store_target_clean h hwf hstore (loopState h) scanF inv hrs
  obtain ⟨e1, e2, e3, e4, e5, e6, e7, e8, e9, e10⟩ :=
    mournEphemeronList_spec (loopState h) inv.ephnd
  have hnil1 : nilOf (mournEphemeronList (loopState h)) = nilOf (loopState h) :=
    nilOf_congr e2 (fun a2 ha2 => e9 a2 (hclean a2 ha2).2)
  refine ⟨hnil1, ?_⟩
  have hwnodup : (mournEphemeronList (loopState h)).weaks.Nodup := by
    rw [e8]
    exact inv.weaknd
  have hswE : ∀ a2 : Nat, (mournEphemeronList (loopState h)).objectStore = .ptr a2 →
      a2 ∉ (mournEphemeronList (loopState h)).weaks := by
    intro a2 ha2
    rw [e8]
    exact (hclean a2 (by rw [← e2]; exact ha2)).1
  have hwcop : ∀ w ∈ (mournEphemeronList (loopState h)).weaks,
      ∃ o2 : Obj, (mournEphemeronList (loopState h)).toSp[w]? = some o2 := by
    intro w hw
    rw [e8] at hw
    obtain ⟨_, o2, h2, hcid⟩ := inv.weakmem w hw
    have hwne : w ∉ (loopState h).ephems := by
      intro hmem
      obtain ⟨_, o2e, h2e, hcide⟩ := inv.ephmem w hmem
      obtain rfl : o2 = o2e := Option.some.inj (h2.symm.trans h2e)
      exact absurd (hcid.symm.trans hcide) (by decide)
    exact ⟨o2, by rw [e9 w hwne]; exact h2⟩
  obtain ⟨w1, w2, w3, w4, w5, w6, w7, w8, w9⟩ :=
    mournWeakList_spec (mournEphemeronList (loopState h)) hwnodup hswE hwcop
  obtain ⟨c1, c2, c3, c4, c5, c6, c7⟩ :=
    mournClassTable_frame (mournWeakList (mournEphemeronList (loopState h)))
  have hosfin : (scavenge h).objectStore = (loopState h).objectStore := by
    show (scavengeGc h).objectStore = _
    rw [scavengeGc_eq, c3, w2, e2]
  cases hso : (loopState h).objectStore with
  | imm v =>
      unfold nilOfHeap nilOf
      rw [hosfin, hso]
  | ptr ts =>
      have hts := hclean ts hso
      have hnilh : nilOfHeap (scavenge h) = (scavenge h).getSlotH ts 0 := by
        unfold nilOfHeap
        rw [hosfin, hso]
      have hnill : nilOf (loopState h) = (loopState h).getSlot ts 0 := by
        unfold nilOf
        rw [hso]
      rw [hnilh, hnill]
      have hg1 : (scavenge h).getSlotH ts 0 = (scavengeGc h).getSlot ts 0 :=
        getSlotH_heapOf (scavengeGc h) ts 0
      rw [hg1]
      apply getSlot_congr
      rw [scavengeGc_eq]
      have hts1 :
          (mournClassTable (mournWeakList (mournEphemeronList (loopState h)))).toSp[ts]? =
          (mournWeakList (mournEphemeronList (loopState h))).toSp[ts]? := by
        rw [c1]
      rw [hts1, w8 ts (by rw [e8]; exact hts.1), e9 ts hts.2]

/-- C3: every slot of a weak array that survives a scavenge is, afterwards,
an unchanged immediate, the to-space forwarding target of a referent that
survived the strong-and-ephemeron fixpoint (a live to-space reference), or
the heap's nil when the referent was an unforwarded from-space object —
never a from-space reference; weak-array slots are not traced as strong
references (a referent live only through a weak slot is nilled). -/
theorem scavenge_weak_clearing (h : Heap) (hb : wfb h = true)
    (hstore : ∀ (as : Nat) (os : Obj), h.objectStore = .ptr as →
      h.space[as]? = some (.obj os) → os.cid ≠ kWeakArrayCid ∧ os.cid ≠ kEphemeronCid)
    (aw : Nat) (ow : Obj) (hlw : Live h aw) (haw : h.space[aw]? = some (.obj ow))
    (hcw : ow.cid = kWeakArrayCid) (l : List Ref) (hpl : ow.payload = .ptrs l) :
    ∃ (tw : Nat) (l2 : List Ref),
      (scavenge h).space[tw]? = some (.obj ⟨ow.cid, ow.hash, .ptrs l2⟩) ∧
      l2.length = l.length ∧
      ∀ i : Nat, i < l.length →
        (∀ v : Int, l.getD i (.imm 0) = .imm v → l2.getD i (.imm 0) = .imm v) ∧
        (∀ b : Nat, l.getD i (.imm 0) = .ptr b →
          (Live h b → ∃ (tb : Nat) (ob : Obj),
            (scavengeGc h).fromSp[b]? = some (.fwd tb ob) ∧
            l2.getD i (.imm 0) = .ptr tb ∧ tb < (scavenge h).space.length) ∧
          (¬ Live h b → l2.getD i (.imm 0) = nilOfHeap (scavenge h))) := by
  have hwf := wfb_wf h hb
  obtain ⟨scanF, inv, hscan, hroots, hkeys⟩ := loopState_facts h hwf
  have hcomp := live_isFwd h hwf (loopState h) scanF inv hscan hroots hkeys
  obtain ⟨hnilE, hnilF⟩ := scavenge_nil_final h hwf hstore scanF inv hroots.rootS
  obtain ⟨tw, oo, hfwd⟩ := hcomp aw hlw
  obtain rfl : oo = ow :=
    fwd_orig_eq h hwf (loopState h) scanF [] none inv aw tw ow oo haw hfwd
  obtain ⟨o2w, hc1, hc2, hc3, hc4⟩ := inv.content aw tw oo haw hfwd
    (fun hc => Option.noConfusion hc)
  have htlt : tw < (loopState h).toSp.length := getElem_some_lt _ _ _ hc1
  have hts : tw < scanF := by omega
  have hpay : o2w.payload = oo.payload := by
    rcases hc4 with ⟨h1, _⟩ | ⟨h1, _⟩ | ⟨hnw, _, _, _⟩
    · exact h1
    · exact absurd (hcw.symm.trans h1) (by decide)
    · exact absurd hcw hnw
  have hpw : o2w.payload = .ptrs l := by rw [hpay, hpl]
  have hcid2 : o2w.cid = kWeakArrayCid := hc2.trans hcw
  have hmemw : tw ∈ (loopState h).weaks := inv.weakall tw hts o2w hc1 hcid2
  have hnotE : tw ∉ (loopState h).ephems := by
    intro hmem
    obtain ⟨_, o2e, h2e, hcide⟩ := inv.ephmem tw hmem
    obtain rfl : o2w = o2e := Option.some.inj (hc1.symm.trans h2e)
    exact absurd (hcid2.symm.trans hcide) (by decide)
  have hclean := store_target_clean h hwf hstore (loopState h) scanF inv hroots.rootS
  obtain ⟨e1, e2, e3, e4, e5, e6, e7, e8, e9, e10⟩ :=
    mournEphemeronList_spec (loopState h) inv.ephnd
  have hcE : (mournEphemeronList (loopState h)).toSp[tw]? = some o2w := by
    rw [e9 tw hnotE]
    exact hc1
  have hwnodup : (mournEphemeronList (loopState h)).weaks.Nodup := by
    rw [e8]
    exact inv.weaknd
  have hswE : ∀ a2 : Nat, (mournEphemeronList (loopState h)).objectStore = .ptr a2 →
      a2 ∉ (mournEphemeronList (loopState h)).weaks := by
    intro a2 ha2
    rw [e8]
    exact (hclean a2 (by rw [← e2]; exact ha2)).1
  have hwcop : ∀ w ∈ (mournEphemeronList (loopState h)).weaks,
      ∃ o2 : Obj, (mournEphemeronList (loopState h)).toSp[w]? = some o2 := by
    intro w hw
    rw [e8] at hw
    obtain ⟨_, o2, h2, hcid⟩ := inv.weakmem w hw
    have hwne : w ∉ (loopState h).ephems := by
      intro hmem
      obtain ⟨_, o2e, h2e, hcide⟩ := inv.ephmem w hmem
      obtain rfl : o2 = o2e := Option.some.inj (h2.symm.trans h2e)
      exact absurd (hcid.symm.trans hcide) (by decide)
    exact ⟨o2, by rw [e9 w hwne]; exact h2⟩
  obtain ⟨w1, w2, w3, w4, w5, w6, w7, w8, w9⟩ :=
    mournWeakList_spec (mournEphemeronList (loopState h)) hwnodup hswE hwcop
  obtain ⟨lf, hw1, hw2len, hw3slots⟩ := w9 tw (by rw [e8]; exact hmemw) o2w l hcE hpw
  obtain ⟨c1, c2, c3, c4, c5, c6, c7⟩ :=
    mournClassTable_frame (mournWeakList (mournEphemeronList (loopState h)))
  refine ⟨tw, lf, ?_, hw2len, ?_⟩
  · show (heapOf (scavengeGc h)).space[tw]? = _
    rw [heapOf_space, scavengeGc_eq, c1, hw1]
    rw [hc2, hc3]
    rfl
  · intro i hi
    have hmourned := hw3slots i hi
    constructor
    · intro v hv
      rw [hmourned, hv, hnilE]
      rfl
    · intro b hbv
      have hbrange : b < h.space.length := by
        refine hwf.refOk aw oo haw b ?_
        rw [slotsOf_ptrs oo l hpl, ← hbv]
        exact mem_of_getD l i (.imm 0) hi
      constructor
      · intro hlb
        obtain ⟨tb, ob, hfb⟩ := hcomp b hlb
        refine ⟨tb, ob, ?_, ?_, ?_⟩
        · show (scavengeGc h).fromSp[b]? = _
          rw [scavengeGc_eq, c2, w1, e1]
          exact hfb
        · rw [hmourned, hbv]
          have hfbE : (mournEphemeronList (loopState h)).fromSp[b]? = some (.fwd tb ob) := by
            rw [e1]
            exact hfb
          simp only [mournedRef, hfbE]
        · have hblt : tb < (loopState h).toSp.length := by
            rcases inv.fcells b with heq | ⟨o3, t3, hsp3, hf3, hlt3⟩
            · rw [heq] at hfb
              exact absurd hfb (hwf.noCorpse b tb ob)
            · rw [hf3] at hfb
              obtain ⟨hte, _⟩ := Cell.fwd.inj (Option.some.inj hfb)
              rw [← hte]
              exact hlt3
          show tb < (heapOf (scavengeGc h)).space.length
          have hmap : (heapOf (scavengeGc h)).space.length = (scavengeGc h).toSp.length := by
            show ((scavengeGc h).toSp.map Cell.obj).length = _
            rw [List.length_map]
          rw [hmap, scavengeGc_eq]
          have hlen1 := mournWeakList_len (mournEphemeronList (loopState h))
          have hlen2 := mournEphemeronList_len (loopState h)
          have hlenC := c1
          rw [show (mournClassTable (mournWeakList (mournEphemeronList (loopState h)))).toSp.length =
            (mournWeakList (mournEphemeronList (loopState h))).toSp.length from by rw [c1]]
          omega
      · intro hnlb
        have hnf : ¬ isFwd (loopState h) b := fun hf => hnlb (inv.sound b hf)
        have hble : b < (loopState h).fromSp.length := by
          rw [inv.flen]
          exact hbrange
        rw [hmourned, hbv, hnilF, hnilE]
        cases hcb : (loopState h).fromSp[b]? with
        | none =>
            rw [List.getElem?_eq_getElem hble] at hcb
            exact Option.noConfusion hcb
        | some c =>
            cases c with
            | fwd t o => exact absurd ⟨t, o, hcb⟩ hnf
            | obj o =>
                have hcbE : (mournEphemeronList (loopState h)).fromSp[b]? =
                    some (.obj o) := by
                  rw [e1]
                  exact hcb
                simp only [mournedRef, hcbE]

theorem setSlot_bytes (o2 : Obj) (d : List Nat) (i : Nat) (r : Ref)
    (hp : o2.payload = .bytes d) : o2.setSlot i r = o2 := by
  obtain ⟨c, hh, p⟩ := o2
  cases p with
  | ptrs l0 => exact absurd hp (by simp)
  | bytes d0 => rfl

theorem mournWeakSlot_ne (s : GcState) (w i u : Nat) (hu : u ≠ w) :
    (mournWeakSlot s w i).toSp[u]? = s.toSp[u]? := by
  cases hv : s.getSlot w i with
  | imm v =>
      have hres : mournWeakSlot s w i = s := by
        simp only [mournWeakSlot, hv]
      rw [hres]
  | ptr a =>
      cases hfa : s.fromSp[a]? with
      | none =>
          have hres : mournWeakSlot s w i = s.putSlot w i (nilOf s) := by
            simp only [mournWeakSlot, hv, hfa]
          rw [hres, putSlot_ne s w i (nilOf s) u hu]
      | some c =>
          cases c with
          | fwd t o =>
              have hres : mournWeakSlot s w i = s.putSlot w i (.ptr t) := by
                simp only [mournWeakSlot, hv, hfa]
              rw [hres, putSlot_ne s w i (.ptr t) u hu]
          | obj o =>
              have hres : mournWeakSlot s w i = s.putSlot w i (nilOf s) := by
                simp only [mournWeakSlot, hv, hfa]
              rw [hres, putSlot_ne s w i (nilOf s) u hu]

theorem mournWeakSlots_ne (w k : Nat) : ∀ (s : GcState) (i u : Nat), u ≠ w →
    (mournWeakSlots w i k s).toSp[u]? = s.toSp[u]? := by
  induction k with
  | zero =>
      intro s i u _
      rfl
  | succ k ih =>
      intro s i u hu
      have hstep : mournWeakSlots w i (k + 1) s =
          mournWeakSlots w (i + 1) k (mournWeakSlot s w i) := rfl
      rw [hstep, ih (mournWeakSlot s w i) (i + 1) u hu, mournWeakSlot_ne s w i u hu]

theorem mournWeaks_notmem (ws : List Nat) : ∀ (s : GcState) (u : Nat), u ∉ ws →
    (mournWeaks ws s).toSp[u]? = s.toSp[u]? := by
  induction ws with
  | nil =>
      intro s u _
      rfl
  | cons w rest ih =>
      intro s u hu
      have hstep : mournWeaks (w :: rest) s =
          mournWeaks rest (mournWeakSlots w 0 (slotsOf (s.objAt w)).length s) := rfl
      have hne : u ≠ w := fun hh => hu (by rw [hh]; exact List.mem_cons_self w rest)
      rw [hstep, ih _ u (fun hm => hu (List.mem_cons_of_mem w hm)),
        mournWeakSlots_ne w _ s 0 u hne]

theorem mournWeaks_bytes (ws : List Nat) : ∀ s : GcState,
    ∀ w2 ∈ ws, ∀ (o2 : Obj) (d : List Nat), s.toSp[w2]? = some o2 →
    o2.payload = .bytes d → (mournWeaks ws s).toSp[w2]? = some o2 := by
  induction ws with
  | nil =>
      intro s w2 hw2
      exact absurd hw2 (List.not_mem_nil w2)
  | cons w rest ih =>
      intro s w2 hw2 o2 d h2 hp
      have hstep : mournWeaks (w :: rest) s =
          mournWeaks rest (mournWeakSlots w 0 (slotsOf (s.objAt w)).length s) := rfl
      rw [hstep]
      by_cases hww : w2 = w
      · subst hww
        have hobj : s.objAt w2 = o2 := by
          unfold GcState.objAt
          rw [List.getD_eq_getElem?_getD, h2]
          rfl
        have hk : (slotsOf (s.objAt w2)).length = 0 := by
          rw [hobj, slotsOf_bytes o2 d hp]
          rfl
        rw [hk]
        have hid : mournWeakSlots w2 0 0 s = s := rfl
        rw [hid]
        by_cases hmem : w2 ∈ rest
        · exact ih s w2 hmem o2 d h2 hp
        · rw [mournWeaks_notmem rest s w2 hmem]
          exact h2
      · have h2b : (mournWeakSlots w 0 (slotsOf (s.objAt w)).length s).toSp[w2]? =
            some o2 := by
          rw [mournWeakSlots_ne w _ s 0 w2 hww]
          exact h2
        rcases List.mem_cons.mp hw2 with rfl | hw3
        · exact absurd rfl hww
        · exact ih _ w2 hw3 o2 d h2b hp

theorem mournWeakSlots_shape (w k : Nat) :
    ∀ (s : GcState) (i : Nat) (o2 : Obj) (l2 : List Ref),
    s.toSp[w]? = some o2 → o2.payload = .ptrs l2 →
    ∃ l2' : List Ref,
      (mournWeakSlots w i k s).toSp[w]? = some ⟨o2.cid, o2.hash, .ptrs l2'⟩ ∧
      l2'.length = l2.length := by
  induction k with
  | zero =>
      intro s i o2 l2 h2 hp
      refine ⟨l2, ?_, rfl⟩
      show s.toSp[w]? = _
      rw [h2, obj_eta_ptrs o2 l2 hp]
  | succ k ih =>
      intro s i o2 l2 h2 hp
      have hstep : mournWeakSlots w i (k + 1) s =
          mournWeakSlots w (i + 1) k (mournWeakSlot s w i) := rfl
      rw [hstep]
      obtain ⟨m1, m2, m3, m4, m5, m6, m7, m8, m9, l2a, n1, n2, n3, n4⟩ :=
        mournWeakSlot_spec s w i o2 l2 h2 hp
      obtain ⟨l2b, p1, p2⟩ := ih (mournWeakSlot s w i) (i + 1)
        ⟨o2.cid, o2.hash, .ptrs l2a⟩ l2a n1 rfl
      exact ⟨l2b, p1, p2.trans n2⟩

theorem mournWeaks_shape (ws : List Nat) : ∀ s : GcState,
    ∀ w2 ∈ ws, ∀ (o2 : Obj) (l2 : List Ref), s.toSp[w2]? = some o2 →
    o2.payload = .ptrs l2 →
    ∃ l2' : List Ref,
      (mournWeaks ws s).toSp[w2]? = some ⟨o2.cid, o2.hash, .ptrs l2'⟩ ∧
      l2'.length = l2.length := by
  induction ws with
  | nil =>
      intro s w2 hw2
      exact absurd hw2 (List.not_mem_nil w2)
  | cons w rest ih =>
      intro s w2 hw2 o2 l2 h2 hp
      have hstep : mournWeaks (w :: rest) s =
          mournWeaks rest (mournWeakSlots w 0 (slotsOf (s.objAt w)).length s) := rfl
      rw [hstep]
      by_cases hww : w2 = w
      · subst hww
        obtain ⟨l2a, p1, p2⟩ :=
          mournWeakSlots_shape w2 (slotsOf (s.objAt w2)).length s 0 o2 l2 h2 hp
        by_cases hmem : w2 ∈ rest
        · obtain ⟨l2b, q1, q2⟩ := ih _ w2 hmem ⟨o2.cid, o2.hash, .ptrs l2a⟩ l2a p1 rfl
          exact ⟨l2b, q1, q2.trans p2⟩
        · rw [mournWeaks_notmem rest _ w2 hmem]
          exact ⟨l2a, p1, p2⟩
      · have h2b : (mournWeakSlots w 0 (slotsOf (s.objAt w)).length s).toSp[w2]? =
            some o2 := by
          rw [mournWeakSlots_ne w _ s 0 w2 hww]
          exact h2
        rcases List.mem_cons.mp hw2 with rfl | hw3
        · exact absurd rfl hww
        · exact ih _ w2 hw3 o2 l2 h2b hp

theorem mournWeakSlot_fromSp (s : GcState) (w i : Nat) :
    (mournWeakSlot s w i).fromSp = s.fromSp := by
  cases hv : s.getSlot w i with
  | imm v =>
      have hres : mournWeakSlot s w i = s := by
        simp only [mournWeakSlot, hv]
      rw [hres]
  | ptr a =>
      cases hfa : s.fromSp[a]? with
      | none =>
          have hres : mournWeakSlot s w i = s.putSlot w i (nilOf s) := by
            simp only [mournWeakSlot, hv, hfa]
          rw [hres]
          rfl
      | some c =>
          cases c with
          | fwd t o =>
              have hres : mournWeakSlot s w i = s.putSlot w i (.ptr t) := by
                simp only [mournWeakSlot, hv, hfa]
              rw [hres]
              rfl
          | obj o =>
              have hres : mournWeakSlot s w i = s.putSlot w i (nilOf s) := by
                simp only [mournWeakSlot, hv, hfa]
              rw [hres]
              rfl

theorem mournWeakSlots_fromSp (w k : Nat) : ∀ (s : GcState) (i : Nat),
    (mournWeakSlots w i k s).fromSp = s.fromSp := by
  induction k with
  | zero =>
      intro s i
      rfl
  | succ k ih =>
      intro s i
      have hstep : mournWeakSlots w i (k + 1) s =
          mournWeakSlots w (i + 1) k (mournWeakSlot s w i) := rfl
      rw [hstep, ih (mournWeakSlot s w i) (i + 1), mournWeakSlot_fromSp]

theorem mournWeaks_fromSp (ws : List Nat) : ∀ s : GcState,
    (mournWeaks ws s).fromSp = s.fromSp := by
  induction ws with
  | nil =>
      intro s
      rfl
  | cons w rest ih =>
      intro s
      have hstep : mournWeaks (w :: rest) s =
          mournWeaks rest (mournWeakSlots w 0 (slotsOf (s.objAt w)).length s) := rfl
      rw [hstep, ih, mournWeakSlots_fromSp]

theorem mournWeakList_fromSp (s : GcState) : (mournWeakList s).fromSp = s.fromSp :=
  mournWeaks_fromSp s.weaks { s with weaks := [] }

theorem mournWeakList_notmem (s : GcState) (u : Nat) (hu : u ∉ s.weaks) :
    (mournWeakList s).toSp[u]? = s.toSp[u]? :=
  mournWeaks_notmem s.weaks { s with weaks := [] } u hu

theorem mournWeakList_bytes (s : GcState) (w : Nat) (hw : w ∈ s.weaks) (o2 : Obj)
    (d : List Nat) (h2 : s.toSp[w]? = some o2) (hp : o2.payload = .bytes d) :
    (mournWeakList s).toSp[w]? = some o2 :=
  mournWeaks_bytes s.weaks { s with weaks := [] } w hw o2 d h2 hp

theorem mournWeakList_shape (s : GcState) (w : Nat) (hw : w ∈ s.weaks) (o2 : Obj)
    (l2 : List Ref) (h2 : s.toSp[w]? = some o2) (hp : o2.payload = .ptrs l2) :
    ∃ l2' : List Ref,
      (mournWeakList s).toSp[w]? = some ⟨o2.cid, o2.hash, .ptrs l2'⟩ ∧
      l2'.length = l2.length :=
  mournWeaks_shape s.weaks { s with weaks := [] } w hw o2 l2 h2 hp

/-- C1 (amended): conservation under collection. Every object strongly
reachable from the roots before the scavenge has, afterwards, exactly one
forwarding target in from-space; the to-space copy at that target keeps the
original cid and identity hash; a bytes payload is preserved verbatim; and
for ordinary (non-weak-array, non-ephemeron) objects every pointer slot of
the copy has been rewritten to the forwarding target of its referent while
immediate slots are unchanged. (Weak-array and ephemeron slots are exempt
from the universal rewriting clause: the mourning passes may overwrite them
with nil.) -/
theorem scavenge_conservation (h : Heap) (hb : wfb h = true) (a : Nat) (o : Obj)
    (hr : StrongReach h a) (ha : h.space[a]? = some (.obj o)) :
    ∃ t : Nat,
      (scavengeGc h).fromSp[a]? = some (.fwd t o) ∧
      (∀ (a2 t2 : Nat) (o2 : Obj), (scavengeGc h).fromSp[a2]? = some (.fwd t2 o2) →
        (t2 = t ↔ a2 = a)) ∧
      ∃ o2 : Obj, (scavenge h).space[t]? = some (.obj o2) ∧ o2.cid = o.cid ∧
        o2.hash = o.hash ∧
        (∀ d : List Nat, o.payload = .bytes d → o2.payload = .bytes d) ∧
        (o.cid ≠ kWeakArrayCid → o.cid ≠ kEphemeronCid →
          ∀ l : List Ref, o.payload = .ptrs l →
          ∃ l2 : List Ref, o2.payload = .ptrs l2 ∧ l2.length = l.length ∧
            ∀ i : Nat, i < l.length →
              (∀ v : Int, l.getD i (.imm 0) = .imm v → l2.getD i (.imm 0) = .imm v) ∧
              (∀ b : Nat, l.getD i (.imm 0) = .ptr b →
                ∃ (tb : Nat) (ob : Obj),
                  (scavengeGc h).fromSp[b]? = some (.fwd tb ob) ∧
                  l2.getD i (.imm 0) = .ptr tb)) := by
  have hwf := wfb_wf h hb
  obtain ⟨scanF, inv, hscan, hroots, hkeys⟩ := loopState_facts h hwf
  have hcomp := live_isFwd h hwf (loopState h) scanF inv hscan hroots hkeys
  obtain ⟨t, oo, hfwd⟩ := hcomp a (strongReach_live h a hr)
  obtain rfl : oo = o :=
    fwd_orig_eq h hwf (loopState h) scanF [] none inv a t o oo ha hfwd
  obtain ⟨o2L, hc1, hc2, hc3, hc4⟩ := inv.content a t oo ha hfwd
    (fun hc => Option.noConfusion hc)
  have htlt : t < (loopState h).toSp.length := getElem_some_lt _ _ _ hc1
  have hts : t < scanF := by omega
  obtain ⟨e1, e2, e3, e4, e5, e6, e7, e8, e9, e10⟩ :=
    mournEphemeronList_spec (loopState h) inv.ephnd
  obtain ⟨c1, c2, c3, c4, c5, c6, c7⟩ :=
    mournClassTable_frame (mournWeakList (mournEphemeronList (loopState h)))
  have hfchain : (scavengeGc h).fromSp = (loopState h).fromSp := by
    rw [scavengeGc_eq, c2, mournWeakList_fromSp, e1]
  refine ⟨t, ?_, ?_, ?_⟩
  · rw [hfchain]
    exact hfwd
  · intro a2 t2 o2 hg
    rw [hfchain] at hg
    constructor
    · intro he
      subst he
      exact inv.inj a2 a t2 o2 oo hg hfwd
    · intro he
      subst he
      rw [hfwd] at hg
      exact ((Cell.fwd.inj (Option.some.inj hg)).1).symm
  · by_cases hcw : o2L.cid = kWeakArrayCid
    · -- the copy is a weak array: it is on the weak list, untouched by the
      -- ephemeron pass, and the weak pass keeps cid/hash (and bytes verbatim)
      have hpayeq : o2L.payload = oo.payload := by
        rcases hc4 with ⟨h1, _⟩ | ⟨h1, _⟩ | ⟨hnw, _, _, _⟩
        · exact h1
        · exact absurd (hcw.symm.trans (hc2.trans h1)) (by decide)
        · exact absurd (hc2.symm.trans hcw) hnw
      have hmemw : t ∈ (loopState h).weaks := inv.weakall t hts o2L hc1 hcw
      have hnotE : t ∉ (loopState h).ephems := by
        intro hmem
        obtain ⟨_, o2e, h2e, hcide⟩ := inv.ephmem t hmem
        obtain rfl : o2L = o2e := Option.some.inj (hc1.symm.trans h2e)
        exact absurd (hcw.symm.trans hcide) (by decide)
      have hcE : (mournEphemeronList (loopState h)).toSp[t]? = some o2L := by
        rw [e9 t hnotE]
        exact hc1
      have hmemwE : t ∈ (mournEphemeronList (loopState h)).weaks := by
        rw [e8]
        exact hmemw
      cases hpp : o2L.payload with
      | bytes d =>
          have hW : (mournWeakList (mournEphemeronList (loopState h))).toSp[t]? =
              some o2L :=
            mournWeakList_bytes (mournEphemeronList (loopState h)) t hmemwE o2L d hcE hpp
          refine ⟨o2L, ?_, hc2, hc3, ?_, ?_⟩
          · show (heapOf (scavengeGc h)).space[t]? = _
            rw [heapOf_space, scavengeGc_eq, c1, hW]
            rfl
          · intro d2 hd2
            exact hpayeq.trans hd2
          · intro hnw _ _ _
            exact absurd (hc2.symm.trans hcw) hnw
      | ptrs lw =>
          obtain ⟨l2w, hW1, _⟩ :=
            mournWeakList_shape (mournEphemeronList (loopState h)) t hmemwE o2L lw hcE hpp
          refine ⟨⟨o2L.cid, o2L.hash, .ptrs l2w⟩, ?_, hc2, hc3, ?_, ?_⟩
          · show (heapOf (scavengeGc h)).space[t]? = _
            rw [heapOf_space, scavengeGc_eq, c1, hW1]
            rfl
          · intro d2 hd2
            exact Payload.noConfusion ((hpp.symm.trans hpayeq).trans hd2)
          · intro hnw _ _ _
            exact absurd (hc2.symm.trans hcw) hnw
    · by_cases hce : o2L.cid = kEphemeronCid
      · -- the copy is an ephemeron
        have hnW : t ∉ (loopState h).weaks := by
          intro hmem
          obtain ⟨_, o2w2, h2w, hcidw⟩ := inv.weakmem t hmem
          obtain rfl : o2L = o2w2 := Option.some.inj (hc1.symm.trans h2w)
          exact absurd (hce.symm.trans hcidw) (by decide)
        by_cases hmE : t ∈ (loopState h).ephems
        · -- a surviving worklist ephemeron: the mourning pass nils its
          -- key, value and finalizer slots but keeps cid and hash
          have hcE := e10 t hmE o2L hc1
          have hW : (mournWeakList (mournEphemeronList (loopState h))).toSp[t]? =
              some (((o2L.setSlot 0 (nilOf (loopState h))).setSlot 1
                (nilOf (loopState h))).setSlot 2 (nilOf (loopState h))) := by
            rw [mournWeakList_notmem (mournEphemeronList (loopState h)) t
              (by rw [e8]; exact hnW)]
            exact hcE
          refine ⟨((o2L.setSlot 0 (nilOf (loopState h))).setSlot 1
              (nilOf (loopState h))).setSlot 2 (nilOf (loopState h)), ?_, ?_, ?_, ?_, ?_⟩
          · show (heapOf (scavengeGc h)).space[t]? = _
            rw [heapOf_space, scavengeGc_eq, c1, hW]
            rfl
          · rw [setSlot_cid, setSlot_cid, setSlot_cid]
            exact hc2
          · rw [setSlot_hash, setSlot_hash, setSlot_hash]
            exact hc3
          · intro d2 hd2
            have hpayeq : o2L.payload = oo.payload := by
              rcases hc4 with ⟨h1, _⟩ | ⟨_, _, h3, _⟩ | ⟨_, hne2, _, _⟩
              · exact h1
              · exact absurd hmE h3
              · exact absurd (hc2.symm.trans hce) hne2
            have hb2 : o2L.payload = .bytes d2 := hpayeq.trans hd2
            rw [setSlot_bytes o2L d2 0 (nilOf (loopState h)) hb2,
              setSlot_bytes o2L d2 1 (nilOf (loopState h)) hb2,
              setSlot_bytes o2L d2 2 (nilOf (loopState h)) hb2]
            exact hb2
          · intro _ hne2 _ _
            exact absurd (hc2.symm.trans hce) hne2
        · -- an ephemeron already processed: the copy survives both passes
          have hcE : (mournEphemeronList (loopState h)).toSp[t]? = some o2L := by
            rw [e9 t hmE]
            exact hc1
          have hW : (mournWeakList (mournEphemeronList (loopState h))).toSp[t]? =
              some o2L := by
            rw [mournWeakList_notmem (mournEphemeronList (loopState h)) t
              (by rw [e8]; exact hnW)]
            exact hcE
          refine ⟨o2L, ?_, hc2, hc3, ?_, ?_⟩
          · show (heapOf (scavengeGc h)).space[t]? = _
            rw [heapOf_space, scavengeGc_eq, c1, hW]
            rfl
          · intro d2 hd2
            rcases hc4 with ⟨h1, _⟩ | ⟨_, _, _, _, hed⟩ | ⟨_, hne2, _, _⟩
            · exact h1.trans hd2
            · rcases hed with ⟨d, hod, ho2d⟩ | ⟨l, l2, hol, _⟩
              · rw [ho2d, Payload.bytes.inj (hod.symm.trans hd2)]
              · exact Payload.noConfusion (hol.symm.trans hd2)
            · exact absurd (hc2.symm.trans hce) hne2
          · intro _ hne2 _ _
            exact absurd (hc2.symm.trans hce) hne2
      · -- an ordinary object: survives both mourning passes with all its
        -- pointer slots rewritten
        have hnW : t ∉ (loopState h).weaks := by
          intro hmem
          obtain ⟨_, o2w2, h2w, hcidw⟩ := inv.weakmem t hmem
          obtain rfl : o2L = o2w2 := Option.some.inj (hc1.symm.trans h2w)
          exact absurd hcidw hcw
        have hnE : t ∉ (loopState h).ephems := by
          intro hmem
          obtain ⟨_, o2e, h2e, hcide⟩ := inv.ephmem t hmem
          obtain rfl : o2L = o2e := Option.some.inj (hc1.symm.trans h2e)
          exact absurd hcide hce
        have hcE : (mournEphemeronList (loopState h)).toSp[t]? = some o2L := by
          rw [e9 t hnE]
          exact hc1
        have hW : (mournWeakList (mournEphemeronList (loopState h))).toSp[t]? =
            some o2L := by
          rw [mournWeakList_notmem (mournEphemeronList (loopState h)) t
            (by rw [e8]; exact hnW)]
          exact hcE
        refine ⟨o2L, ?_, hc2, hc3, ?_, ?_⟩
        · show (heapOf (scavengeGc h)).space[t]? = _
          rw [heapOf_space, scavengeGc_eq, c1, hW]
          rfl
        · intro d2 hd2
          rcases hc4 with ⟨h1, _⟩ | ⟨h1, _⟩ | ⟨_, _, _, hnd⟩
          · exact h1.trans hd2
          · exact absurd (hc2.trans h1) hce
          · rcases hnd with ⟨d, hod, ho2d⟩ | ⟨l, l2, hol, _⟩
            · rw [ho2d, Payload.bytes.inj (hod.symm.trans hd2)]
            · exact Payload.noConfusion (hol.symm.trans hd2)
        · intro hnw2 hne2 l hl
          rcases hc4 with ⟨_, h2⟩ | ⟨h1, _⟩ | ⟨_, _, _, hnd⟩
          · rcases h2 hts with hww | ⟨hee, _⟩
            · exact absurd hww hnw2
            · exact absurd hee hne2
          · exact absurd h1 hne2
          · rcases hnd with ⟨d, hod, _⟩ | ⟨l0, l2, hl0, hl2, hlen, hsd⟩
            · exact Payload.noConfusion (hod.symm.trans hl)
            · obtain rfl : l0 = l := Payload.ptrs.inj (hl0.symm.trans hl)
              refine ⟨l2, hl2, hlen, ?_⟩
              intro i hi
              constructor
              · intro v hv
                rcases hsd i hi with ⟨v2, h1, h2⟩ | ⟨b, tb, ob, h1, h2, h3⟩
                · rw [h2, hv]
                · rw [hv] at h1
                  exact Ref.noConfusion h1
              · intro b hbv
                rcases hsd i hi with ⟨v2, h1, h2⟩ | ⟨b2, tb, ob, h1, h2, h3⟩
                · rw [hbv] at h1
                  exact Ref.noConfusion h1
                · obtain rfl : b2 = b := Ref.ptr.inj (h1.symm.trans hbv)
                  refine ⟨tb, ob, ?_, h3⟩
                  rw [hfchain]
                  exact h2

/-- A heap with a strongly reachable weak array (address 1) whose sole slot
points at an object (address 2) that is reachable only through that weak
slot. The store root object's first slot is the immediate 99, so `nil` reads
as `.imm 99` during mourning. -/
def heapC1 : Heap :=
  { space := [
      .obj ⟨2, 1, .ptrs [.imm 99, .ptr 1]⟩,
      .obj ⟨kWeakArrayCid, 5, .ptrs [.ptr 2]⟩,
      .obj ⟨2, 7, .ptrs []⟩ ],
    objectStore := .ptr 0,
    currentActivation := .imm 0,
    handles := [],
    classTable := [],
    classTableFree := 0 }

/-- C1, counterexample to the claim as stated: the weak array at address 1
is live (strongly reachable from the store root) and its slot 0 is the
pointer slot `.ptr 2`, yet after the scavenge its referent has no new
address at all (address 2 is never forwarded) and the slot has been
rewritten to the immediate `nil` (99), not to "the new address of its
referent". The universal clause "every pointer slot of every live object
has been rewritten to the new address of its referent" therefore fails for
weak-array (and ephemeron key/value/finalizer) slots. -/
theorem scavenge_conservation_counterexample :
    StrongReach heapC1 1 ∧
    heapC1.space[1]? = some (.obj ⟨kWeakArrayCid, 5, .ptrs [.ptr 2]⟩) ∧
    (scavengeGc heapC1).fromSp[1]? =
      some (.fwd 1 ⟨kWeakArrayCid, 5, .ptrs [.ptr 2]⟩) ∧
    (scavenge heapC1).space[1]? =
      some (.obj ⟨kWeakArrayCid, 5, .ptrs [.imm 99]⟩) ∧
    (∀ (t2 : Nat) (o2 : Obj), (scavengeGc heapC1).fromSp[2]? ≠ some (.fwd t2 o2)) := by
  refine ⟨?_, by decide, by decide, by decide, ?_⟩
  · exact StrongReach.slot 0 ⟨2, 1, .ptrs [.imm 99, .ptr 1]⟩ 1
      (StrongReach.store 0 rfl) (by decide) (by decide) (by decide) (by decide)
  · intro t2 o2 hg
    rw [show (scavengeGc heapC1).fromSp[2]? = some (.obj ⟨2, 7, .ptrs []⟩) from by decide]
      at hg
    exact Cell.noConfusion (Option.some.inj hg)

/-- C1, witness for the amended conservation theorem at the store root of
`heapC1`. -/
theorem scavenge_conservation_witness :
    ∃ t : Nat,
      (scavengeGc heapC1).fromSp[0]? =
        some (.fwd t ⟨2, 1, .ptrs [.imm 99, .ptr 1]⟩) ∧
      (∀ (a2 t2 : Nat) (o2 : Obj),
        (scavengeGc heapC1).fromSp[a2]? = some (.fwd t2 o2) → (t2 = t ↔ a2 = 0)) ∧
      ∃ o2 : Obj, (scavenge heapC1).space[t]? = some (.obj o2) ∧
        o2.cid = (⟨2, 1, .ptrs [.imm 99, .ptr 1]⟩ : Obj).cid ∧
        o2.hash = (⟨2, 1, .ptrs [.imm 99, .ptr 1]⟩ : Obj).hash ∧
        (∀ d : List Nat,
          (⟨2, 1, .ptrs [.imm 99, .ptr 1]⟩ : Obj).payload = .bytes d →
          o2.payload = .bytes d) ∧
        ((⟨2, 1, .ptrs [.imm 99, .ptr 1]⟩ : Obj).cid ≠ kWeakArrayCid →
          (⟨2, 1, .ptrs [.imm 99, .ptr 1]⟩ : Obj).cid ≠ kEphemeronCid →
          ∀ l : List Ref,
          (⟨2, 1, .ptrs [.imm 99, .ptr 1]⟩ : Obj).payload = .ptrs l →
          ∃ l2 : List Ref, o2.payload = .ptrs l2 ∧ l2.length = l.length ∧
            ∀ i : Nat, i < l.length →
              (∀ v : Int, l.getD i (.imm 0) = .imm v → l2.getD i (.imm 0) = .imm v) ∧
              (∀ b : Nat, l.getD i (.imm 0) = .ptr b →
                ∃ (tb : Nat) (ob : Obj),
                  (scavengeGc heapC1).fromSp[b]? = some (.fwd tb ob) ∧
                  l2.getD i (.imm 0) = .ptr tb)) :=
  scavenge_conservation heapC1 (by decide) 0 ⟨2, 1, .ptrs [.imm 99, .ptr 1]⟩
    (StrongReach.store 0 rfl) (by decide)

/-- C3, witness: the weak-clearing trichotomy applied to the weak array at
address 1 of `heapC1`, whose only slot points at a dead object. -/
theorem scavenge_weak_clearing_witness :
    ∃ (tw : Nat) (l2 : List Ref),
      (scavenge heapC1).space[tw]? = some (.obj ⟨kWeakArrayCid, 5, .ptrs l2⟩) ∧
      l2.length = ([Ref.ptr 2] : List Ref).length ∧
      ∀ i : Nat, i < ([Ref.ptr 2] : List Ref).length →
        (∀ v : Int, ([Ref.ptr 2] : List Ref).getD i (.imm 0) = .imm v →
          l2.getD i (.imm 0) = .imm v) ∧
        (∀ b : Nat, ([Ref.ptr 2] : List Ref).getD i (.imm 0) = .ptr b →
          (Live heapC1 b → ∃ (tb : Nat) (ob : Obj),
            (scavengeGc heapC1).fromSp[b]? = some (.fwd tb ob) ∧
            l2.getD i (.imm 0) = .ptr tb ∧ tb < (scavenge heapC1).space.length) ∧
          (¬ Live heapC1 b → l2.getD i (.imm 0) = nilOfHeap (scavenge heapC1))) := by
  refine scavenge_weak_clearing heapC1 (by decide) ?_ 1
    ⟨kWeakArrayCid, 5, .ptrs [.ptr 2]⟩ ?_ rfl (by decide) [.ptr 2] rfl
  · intro as os h1 h2
    obtain rfl : as = 0 := (Ref.ptr.inj h1).symm
    have h3 : some (Cell.obj (⟨2, 1, .ptrs [.imm 99, .ptr 1]⟩ : Obj)) =
        some (.obj os) := h2
    cases Cell.obj.inj (Option.some.inj h3)
    exact ⟨by decide, by decide⟩
  · exact Live.slot 0 ⟨2, 1, .ptrs [.imm 99, .ptr 1]⟩ 1 (Live.store 0 rfl) (by decide)
      (by decide) (by decide) (by decide)

theorem getD_set012 (l : List Ref) (n : Ref) (i : Nat) (hi : i < 3) (hl : i < l.length) :
    (((l.set 0 n).set 1 n).set 2 n).getD i (.imm 0) = n := by
  rw [List.getD_eq_getElem?_getD]
  interval_cases i
  · rw [List.getElem?_set_ne (by omega), List.getElem?_set_ne (by omega),
      List.getElem?_set_self hl]
    rfl
  · rw [List.getElem?_set_ne (by omega),
      List.getElem?_set_self (by rw [List.length_set]; exact hl)]
    rfl
  · rw [List.getElem?_set_self (by rw [List.length_set, List.length_set]; exact hl)]
    rfl

theorem getD_set012_ge (l : List Ref) (n : Ref) (i : Nat) (hi : 3 ≤ i) :
    (((l.set 0 n).set 1 n).set 2 n).getD i (.imm 0) = l.getD i (.imm 0) := by
  rw [List.getD_eq_getElem?_getD, List.getElem?_set_ne (by omega),
    List.getElem?_set_ne (by omega), List.getElem?_set_ne (by omega),
    ← List.getD_eq_getElem?_getD]

/-- C2 (amended): ephemeron semantics with the collector's actual (Hayes)
notion of key liveness. For every ephemeron live before the scavenge, the
final copy keeps cid and hash and: if its key is an immediate or a live
referent — where liveness includes discovery through the value chains of
other ephemerons whose keys are live, not only non-ephemeron strong paths —
then the key, value and finalizer slots are scavenged like ordinary slots
(immediates kept, pointers rewritten to forwarding targets); if the key is a
pointer to a dead object, the key, value and finalizer slots are all set to
nil; slots beyond the first three are untouched. -/
theorem ephemeron_semantics (h : Heap) (hb : wfb h = true)
    (hstore : ∀ (as : Nat) (os : Obj), h.objectStore = .ptr as →
      h.space[as]? = some (.obj os) → os.cid ≠ kWeakArrayCid ∧ os.cid ≠ kEphemeronCid)
    (ae : Nat) (oe : Obj) (hle : Live h ae) (hae : h.space[ae]? = some (.obj oe))
    (hce : oe.cid = kEphemeronCid) (l : List Ref) (hpl : oe.payload = .ptrs l) :
    ∃ (te : Nat) (l2 : List Ref),
      (scavenge h).space[te]? = some (.obj ⟨oe.cid, oe.hash, .ptrs l2⟩) ∧
      l2.length = l.length ∧
      (((∃ v : Int, l.getD 0 (.imm 0) = .imm v) ∨
        (∃ ka : Nat, l.getD 0 (.imm 0) = .ptr ka ∧ Live h ka)) →
        ∀ i : Nat, i < 3 → i < l.length →
          (∀ v : Int, l.getD i (.imm 0) = .imm v → l2.getD i (.imm 0) = .imm v) ∧
          (∀ b : Nat, l.getD i (.imm 0) = .ptr b →
            ∃ (tb : Nat) (ob : Obj),
              (scavengeGc h).fromSp[b]? = some (.fwd tb ob) ∧
              l2.getD i (.imm 0) = .ptr tb)) ∧
      (∀ ka : Nat, l.getD 0 (.imm 0) = .ptr ka → ¬ Live h ka →
        ∀ i : Nat, i < 3 → i < l.length →
          l2.getD i (.imm 0) = nilOfHeap (scavenge h)) ∧
      (∀ i : Nat, 3 ≤ i → l2.getD i (.imm 0) = l.getD i (.imm 0)) := by
  have hwf := wfb_wf h hb
  obtain ⟨scanF, inv, hscan, hroots, hkeys⟩ := loopState_facts h hwf
  have hcomp := live_isFwd h hwf (loopState h) scanF inv hscan hroots hkeys
  obtain ⟨hnilE, hnilF⟩ := scavenge_nil_final h hwf hstore scanF inv hroots.rootS
  obtain ⟨te, oo, hfwd⟩ := hcomp ae hle
  obtain rfl : oo = oe :=
    fwd_orig_eq h hwf (loopState h) scanF [] none inv ae te oe oo hae hfwd
  obtain ⟨o2L, hc1, hc2, hc3, hc4⟩ := inv.content ae te oo hae hfwd
    (fun hc => Option.noConfusion hc)
  have htlt : te < (loopState h).toSp.length := getElem_some_lt _ _ _ hc1
  have hts : te < scanF := by omega
  have hcid2 : o2L.cid = kEphemeronCid := hc2.trans hce
  have hnW : te ∉ (loopState h).weaks := by
    intro hmem
    obtain ⟨_, o2w2, h2w, hcidw⟩ := inv.weakmem te hmem
    obtain rfl : o2L = o2w2 := Option.some.inj (hc1.symm.trans h2w)
    exact absurd (hcid2.symm.trans hcidw) (by decide)
  obtain ⟨e1, e2, e3, e4, e5, e6, e7, e8, e9, e10⟩ :=
    mournEphemeronList_spec (loopState h) inv.ephnd
  obtain ⟨c1, c2, c3, c4, c5, c6, c7⟩ :=
    mournClassTable_frame (mournWeakList (mournEphemeronList (loopState h)))
  have hfchain : (scavengeGc h).fromSp = (loopState h).fromSp := by
    rw [scavengeGc_eq, c2, mournWeakList_fromSp, e1]
  by_cases hmE : te ∈ (loopState h).ephems
  · -- still on the worklist at loop exit: the key was never discovered, and
    -- `MournEphemeronList` nils the key, value and finalizer slots
    have hpayeq : o2L.payload = oo.payload := by
      rcases hc4 with ⟨h1, _⟩ | ⟨_, _, h3, _⟩ | ⟨_, hne2, _, _⟩
      · exact h1
      · exact absurd hmE h3
      · exact absurd hce hne2
    have hpl2 : o2L.payload = .ptrs l := hpayeq.trans hpl
    have hkeyu := hkeys te hmE
    have hkslot : (loopState h).getSlot te 0 = l.getD 0 (.imm 0) := by
      rw [getSlot_of_copy (loopState h) te o2L hc1 0, slotsOf_ptrs o2L l hpl2]
    have hcE := e10 te hmE o2L hc1
    rw [obj_eta_ptrs o2L l hpl2] at hcE
    have htrip : ((((⟨o2L.cid, o2L.hash, .ptrs l⟩ : Obj).setSlot 0
          (nilOf (loopState h))).setSlot 1 (nilOf (loopState h))).setSlot 2
          (nilOf (loopState h))) =
        ⟨o2L.cid, o2L.hash, .ptrs (((l.set 0 (nilOf (loopState h))).set 1
          (nilOf (loopState h))).set 2 (nilOf (loopState h)))⟩ := rfl
    rw [htrip] at hcE
    have hW : (mournWeakList (mournEphemeronList (loopState h))).toSp[te]? =
        some (⟨o2L.cid, o2L.hash, .ptrs (((l.set 0 (nilOf (loopState h))).set 1
          (nilOf (loopState h))).set 2 (nilOf (loopState h)))⟩ : Obj) := by
      rw [mournWeakList_notmem (mournEphemeronList (loopState h)) te
        (by rw [e8]; exact hnW)]
      exact hcE
    refine ⟨te, ((l.set 0 (nilOf (loopState h))).set 1
      (nilOf (loopState h))).set 2 (nilOf (loopState h)), ?_, ?_, ?_, ?_, ?_⟩
    · show (heapOf (scavengeGc h)).space[te]? = _
      rw [heapOf_space, scavengeGc_eq, c1, hW, hc2, hc3]
      rfl
    · rw [List.length_set, List.length_set, List.length_set]
    · intro hknown
      exfalso
      rcases hknown with ⟨v, hv⟩ | ⟨ka, hka, hlka⟩
      · rw [hkslot, hv] at hkeyu
        exact Bool.noConfusion hkeyu
      · obtain ⟨tk, ok, hfk⟩ := hcomp ka hlka
        rw [hkslot, hka] at hkeyu
        have htrue : ephKeyKnown (loopState h) (.ptr ka) = true := by
          simp only [ephKeyKnown, hfk]
        rw [htrue] at hkeyu
        exact Bool.noConfusion hkeyu
    · intro ka hka hnlka i hi3 hil
      rw [hnilF]
      exact getD_set012 l (nilOf (loopState h)) i hi3 hil
    · intro i hi3
      exact getD_set012_ge l (nilOf (loopState h)) i hi3
  · -- processed off the worklist: the key was discovered, the three slots
    -- were scavenged like ordinary slots; the copy survives the mourning
    -- passes untouched
    have hed : EphDone (loopState h) oo o2L := by
      rcases hc4 with ⟨_, h2⟩ | ⟨_, _, _, _, hed⟩ | ⟨_, hne2, _, _⟩
      · rcases h2 hts with hww | ⟨_, hm⟩
        · exact absurd (hce.symm.trans hww) (by decide)
        · rcases hm with hm1 | hm2
          · exact absurd hm1 hmE
          · exact absurd hm2 (List.not_mem_nil te)
      · exact hed
      · exact absurd hce hne2
    rcases hed with ⟨d, hod, _⟩ | ⟨l0, l2, hl0, hl2, hlen, hsd3, hsge⟩
    · exact absurd (hod.symm.trans hpl) (by simp)
    · obtain rfl : l0 = l := Payload.ptrs.inj (hl0.symm.trans hpl)
      have hcE : (mournEphemeronList (loopState h)).toSp[te]? = some o2L := by
        rw [e9 te hmE]
        exact hc1
      have hW : (mournWeakList (mournEphemeronList (loopState h))).toSp[te]? =
          some o2L := by
        rw [mournWeakList_notmem (mournEphemeronList (loopState h)) te
          (by rw [e8]; exact hnW)]
        exact hcE
      rw [obj_eta_ptrs o2L l2 hl2] at hW
      refine ⟨te, l2, ?_, hlen, ?_, ?_, hsge⟩
      · show (heapOf (scavengeGc h)).space[te]? = _
        rw [heapOf_space, scavengeGc_eq, c1, hW, hc2, hc3]
        rfl
      · intro _ i hi3 hil
        constructor
        · intro v hv
          rcases hsd3 i hi3 hil with ⟨v2, h1, h2⟩ | ⟨b, tb, ob, h1, h2, h3⟩
          · rw [h2, hv]
          · rw [hv] at h1
            exact Ref.noConfusion h1
        · intro b hbv
          rcases hsd3 i hi3 hil with ⟨v2, h1, h2⟩ | ⟨b2, tb, ob, h1, h2, h3⟩
          · rw [hbv] at h1
            exact Ref.noConfusion h1
          · obtain rfl : b2 = b := Ref.ptr.inj (h1.symm.trans hbv)
            refine ⟨tb, ob, ?_, h3⟩
            rw [hfchain]
            exact h2
      · intro ka hka hnlka i hi3 hil
        exfalso
        rcases hsd3 0 (by omega) (by omega) with ⟨v2, h1, h2⟩ | ⟨b2, tb, ob, h1, h2, h3⟩
        · rw [hka] at h1
          exact Ref.noConfusion h1
        · obtain rfl : b2 = ka := Ref.ptr.inj (h1.symm.trans hka)
          exact hnlka (inv.sound b2 ⟨tb, ob, h2⟩)

/-- Two chained ephemerons: e1 (address 2) has a strongly reachable key
(address 1) and a value (address 4) whose only slot points at address 5,
which is the key of e2 (address 3). Address 5 is reachable only through
e1's value slot, never through a non-ephemeron strong path. -/
def heapC2 : Heap :=
  { space := [
      .obj ⟨2, 1, .ptrs [.imm 99, .ptr 1, .ptr 2, .ptr 3]⟩,
      .obj ⟨2, 11, .ptrs []⟩,
      .obj ⟨kEphemeronCid, 12, .ptrs [.ptr 1, .ptr 4, .imm 0]⟩,
      .obj ⟨kEphemeronCid, 13, .ptrs [.ptr 5, .imm 7, .imm 8]⟩,
      .obj ⟨2, 14, .ptrs [.ptr 5]⟩,
      .obj ⟨2, 15, .ptrs []⟩ ],
    objectStore := .ptr 0,
    currentActivation := .imm 0,
    handles := [],
    classTable := [],
    classTableFree := 0 }

theorem heapC2_strong_bound : ∀ x : Nat, StrongReach heapC2 x →
    x = 0 ∨ x = 1 ∨ x = 2 ∨ x = 3 := by
  intro x hx
  induction hx with
  | store a ha => exact Or.inl (Ref.ptr.inj ha).symm
  | activation a ha => exact Ref.noConfusion ha
  | handle a ha => exact absurd ha (List.not_mem_nil _)
  | slot a o b hra ho hnw hne hb ih =>
      rcases ih with rfl | rfl | rfl | rfl
      · have h3 : some (Cell.obj (⟨2, 1, .ptrs [.imm 99, .ptr 1, .ptr 2, .ptr 3]⟩ : Obj)) =
            some (.obj o) := ho
        cases Cell.obj.inj (Option.some.inj h3)
        have hb2 : Ref.ptr b ∈ ([.imm 99, .ptr 1, .ptr 2, .ptr 3] : List Ref) := hb
        simp only [List.mem_cons, List.not_mem_nil, or_false] at hb2
        rcases hb2 with hh | hh | hh | hh
        · exact Ref.noConfusion hh
        · exact Or.inr (Or.inl (Ref.ptr.inj hh))
        · exact Or.inr (Or.inr (Or.inl (Ref.ptr.inj hh)))
        · exact Or.inr (Or.inr (Or.inr (Ref.ptr.inj hh)))
      · have h3 : some (Cell.obj (⟨2, 11, .ptrs []⟩ : Obj)) = some (.obj o) := ho
        cases Cell.obj.inj (Option.some.inj h3)
        exact absurd hb (List.not_mem_nil _)
      · have h3 : some (Cell.obj
            (⟨kEphemeronCid, 12, .ptrs [.ptr 1, .ptr 4, .imm 0]⟩ : Obj)) =
            some (.obj o) := ho
        cases Cell.obj.inj (Option.some.inj h3)
        exact absurd rfl hne
      · have h3 : some (Cell.obj
            (⟨kEphemeronCid, 13, .ptrs [.ptr 5, .imm 7, .imm 8]⟩ : Obj)) =
            some (.obj o) := ho
        cases Cell.obj.inj (Option.some.inj h3)
        exact absurd rfl hne
  | classEdge a o c hra ho hc ih =>
      have hc2 : (Ref.imm 0) = .ptr c := hc
      exact Ref.noConfusion hc2

/-- C2, counterexample to the claim as stated: after scavenging `heapC2`,
ephemeron e2 (address 3, copied to to-space index 3) keeps its key, value
and finalizer — the key slot is rewritten to the forwarding target of
address 5 and the immediates 7 and 8 stay — even though its key (address 5)
is reachable through no non-ephemeron strong path: the only path runs
through e1's value slot. The claimed dichotomy ("key reachable via a
non-ephemeron strong path, or all three slots nilled") fails; the collector
also discovers keys through the value chains of ephemerons whose own keys
are live. -/
theorem ephemeron_semantics_counterexample :
    (¬ StrongReach heapC2 5) ∧
    Live heapC2 3 ∧
    heapC2.space[3]? = some (.obj ⟨kEphemeronCid, 13, .ptrs [.ptr 5, .imm 7, .imm 8]⟩) ∧
    (scavengeGc heapC2).fromSp[5]? = some (.fwd 5 ⟨2, 15, .ptrs []⟩) ∧
    (scavenge heapC2).space[3]? =
      some (.obj ⟨kEphemeronCid, 13, .ptrs [.ptr 5, .imm 7, .imm 8]⟩) ∧
    nilOfHeap (scavenge heapC2) = .imm 99 := by
  refine ⟨?_, ?_, by decide, by decide, by decide, by decide⟩
  · intro hx
    rcases heapC2_strong_bound 5 hx with hh | hh | hh | hh <;> exact absurd hh (by decide)
  · exact Live.slot 0 ⟨2, 1, .ptrs [.imm 99, .ptr 1, .ptr 2, .ptr 3]⟩ 3
      (Live.store 0 rfl) (by decide) (by decide) (by decide) (by decide)

/-- C2, witness for the amended ephemeron theorem at ephemeron e2 of
`heapC2`. -/
theorem ephemeron_semantics_witness :
    ∃ (te : Nat) (l2 : List Ref),
      (scavenge heapC2).space[te]? = some (.obj ⟨kEphemeronCid, 13, .ptrs l2⟩) ∧
      l2.length = ([Ref.ptr 5, .imm 7, .imm 8] : List Ref).length ∧
      (((∃ v : Int, ([Ref.ptr 5, .imm 7, .imm 8] : List Ref).getD 0 (.imm 0) = .imm v) ∨
        (∃ ka : Nat, ([Ref.ptr 5, .imm 7, .imm 8] : List Ref).getD 0 (.imm 0) = .ptr ka ∧
          Live heapC2 ka)) →
        ∀ i : Nat, i < 3 → i < ([Ref.ptr 5, .imm 7, .imm 8] : List Ref).length →
          (∀ v : Int, ([Ref.ptr 5, .imm 7, .imm 8] : List Ref).getD i (.imm 0) = .imm v →
            l2.getD i (.imm 0) = .imm v) ∧
          (∀ b : Nat, ([Ref.ptr 5, .imm 7, .imm 8] : List Ref).getD i (.imm 0) = .ptr b →
            ∃ (tb : Nat) (ob : Obj),
              (scavengeGc heapC2).fromSp[b]? = some (.fwd tb ob) ∧
              l2.getD i (.imm 0) = .ptr tb)) ∧
      (∀ ka : Nat, ([Ref.ptr 5, .imm 7, .imm 8] : List Ref).getD 0 (.imm 0) = .ptr ka →
        ¬ Live heapC2 ka →
        ∀ i : Nat, i < 3 → i < ([Ref.ptr 5, .imm 7, .imm 8] : List Ref).length →
          l2.getD i (.imm 0) = nilOfHeap (scavenge heapC2)) ∧
      (∀ i : Nat, 3 ≤ i →
        l2.getD i (.imm 0) = ([Ref.ptr 5, .imm 7, .imm 8] : List Ref).getD i (.imm 0)) := by
  refine ephemeron_semantics heapC2 (by decide) ?_ 3
    ⟨kEphemeronCid, 13, .ptrs [.ptr 5, .imm 7, .imm 8]⟩ ?_ rfl rfl
    [.ptr 5, .imm 7, .imm 8] rfl
  · intro as os h1 h2
    obtain rfl : as = 0 := (Ref.ptr.inj h1).symm
    have h3 : some (Cell.obj (⟨2, 1, .ptrs [.imm 99, .ptr 1, .ptr 2, .ptr 3]⟩ : Obj)) =
        some (.obj os) := h2
    cases Cell.obj.inj (Option.some.inj h3)
    exact ⟨by decide, by decide⟩
  · exact Live.slot 0 ⟨2, 1, .ptrs [.imm 99, .ptr 1, .ptr 2, .ptr 3]⟩ 3
      (Live.store 0 rfl) (by decide) (by decide) (by decide) (by decide)

/-! ## C9: idempotence of collection

A second scavenge replays the first one's copy order in lockstep: the Cheney
discovery order of the compacted heap is the identity permutation, so the
second collection copies every object back to its own address, rewrites
every slot to the value it already has, and mourns nothing.  The relation
`Sim` ties a state of the first run (on `h`) to the corresponding state of
the second run (on `scavenge h`). -/

theorem scavenge_space_len (h : Heap) :
    (scavenge h).space.length = (loopState h).toSp.length := by
  show ((scavengeGc h).toSp.map Cell.obj).length = _
  rw [List.length_map, scavengeGc_eq,
    (mournClassTable_frame (mournWeakList (mournEphemeronList (loopState h)))).1,
    mournWeakList_len, mournEphemeronList_len]

theorem scavenge_space_obj (h : Heap) (t : Nat) (ht : t < (scavenge h).space.length) :
    ∃ o : Obj, (scavenge h).space[t]? = some (.obj o) := by
  have hmap : (scavenge h).space = (scavengeGc h).toSp.map Cell.obj := rfl
  rw [hmap] at ht ⊢
  rw [List.length_map] at ht
  rw [List.getElem?_map, List.getElem?_eq_getElem ht]
  exact ⟨(scavengeGc h).toSp[t], rfl⟩

theorem set_getD_id {α : Type} (l : List α) (i : Nat) (d : α) (v : α)
    (hv : l.getD i d = v) : l.set i v = l := by
  by_cases hi : i < l.length
  · apply List.ext_getElem?
    intro j
    by_cases hij : i = j
    · subst hij
      rw [List.getElem?_set_self hi, ← hv, List.getD_eq_getElem?_getD,
        List.getElem?_eq_getElem hi]
      rfl
    · rw [List.getElem?_set_ne hij]
  · exact set_beyond l i v (by omega)

theorem setSlot_self (o : Obj) (i : Nat) (r : Ref)
    (hr : (slotsOf o).getD i (.imm 0) = r) : o.setSlot i r = o := by
  obtain ⟨c, hh, p⟩ := o
  cases p with
  | bytes d => rfl
  | ptrs l =>
      show (⟨c, hh, .ptrs (l.set i r)⟩ : Obj) = ⟨c, hh, .ptrs l⟩
      rw [set_getD_id l i (.imm 0) r hr]

theorem putSlot_self (s : GcState) (t i : Nat) (r : Ref)
    (hr : s.getSlot t i = r) : s.putSlot t i r = s := by
  show { s with toSp := s.toSp.set t ((s.toSp.getD t default).setSlot i r) } = s
  rw [setSlot_self (s.toSp.getD t default) i r hr,
    set_getD_id s.toSp t default (s.toSp.getD t default) rfl]

/-- Lockstep relation between a mid-loop state `s1` of the scavenge of `h`
and the corresponding state `s2` of the scavenge of `scavenge h`: the second
run has copied exactly the objects `0 .. top` of the compacted heap, each to
its own address. -/
structure Sim (h : Heap) (s1 s2 : GcState) : Prop where
  len : s2.toSp.length = s1.toSp.length
  flen : s2.fromSp.length = (scavenge h).space.length
  tocells : ∀ t : Nat, t < s1.toSp.length →
    (s2.toSp[t]?).map Cell.obj = (scavenge h).space[t]?
  ffwd : ∀ t : Nat, t < s1.toSp.length → ∃ o : Obj,
    (scavenge h).space[t]? = some (.obj o) ∧ s2.fromSp[t]? = some (.fwd t o)
  fobj : ∀ t : Nat, s1.toSp.length ≤ t → s2.fromSp[t]? = (scavenge h).space[t]?
  weakeq : s2.weaks = s1.weaks
  table : s2.classTable = (scavenge h).classTable
  free : s2.classTableFree = (scavenge h).classTableFree

/-- The second run's ephemeron worklist is the first run's with some
permanently-dead (to-be-mourned) ephemerons already dismissed. -/
def EphRel (h : Heap) (l1 l2 : List Nat) : Prop :=
  l2.Sublist l1 ∧ ∀ e ∈ l1, e ∉ l2 → e ∈ (loopState h).ephems

theorem ephRel_nil (h : Heap) : EphRel h [] [] :=
  ⟨List.Sublist.refl [], fun e he => absurd he (List.not_mem_nil e)⟩

theorem ephRel_cons (h : Heap) (l1 l2 : List Nat) (e : Nat)
    (hr : EphRel h l1 l2) : EphRel h (e :: l1) (e :: l2) := by
  refine ⟨List.Sublist.cons₂ e hr.1, ?_⟩
  intro e2 he2 hne2
  rcases List.mem_cons.mp he2 with rfl | he3
  · exact absurd (List.mem_cons_self e2 l2) hne2
  · exact hr.2 e2 he3 (fun hc => hne2 (List.mem_cons_of_mem e hc))

/-- Lockstep step for `ScavengePointer`: scavenging a slot value `r1` in the
first run pairs with scavenging its final value `r2` in the second run; the
second run's result is `r2` again and the first run's result is also `r2`. -/
theorem simPointer (h : Heap) (hwf : WF h) (s1 s2 : GcState) (scan : Nat)
    (ex : List Nat) (cur : Option Nat) (inv1 : InvCore h s1 scan ex cur)
    (sim : Sim h s1 s2) (r1 r2 : Ref)
    (hfinR : ExtendsF (scavengePointer s1 r1).1 (loopState h))
    (hSD : SlotDone (loopState h) r1 r2)
    (hrange : ∀ b : Nat, r1 = .ptr b → b < h.space.length) :
    Sim h (scavengePointer s1 r1).1 (scavengePointer s2 r2).1 ∧
    (scavengePointer s2 r2).2 = r2 ∧
    (scavengePointer s1 r1).2 = r2 ∧
    (scavengePointer s2 r2).1.ephems = s2.ephems ∧
    (scavengePointer s2 r2).1.weaks = s2.weaks ∧
    (scavengePointer s2 r2).1.objectStore = s2.objectStore ∧
    (scavengePointer s2 r2).1.currentActivation = s2.currentActivation ∧
    (scavengePointer s2 r2).1.handles = s2.handles ∧
    (scavengePointer s2 r2).1.classTable = s2.classTable ∧
    (scavengePointer s2 r2).1.classTableFree = s2.classTableFree := by
  cases r1 with
  | imm v =>
      obtain rfl : r2 = .imm v := by
        rcases hSD with ⟨v2, h1, h2⟩ | ⟨b, tb, ob, h1, _⟩
        · rw [h2, h1]
        · exact Ref.noConfusion h1
      exact ⟨sim, rfl, rfl, rfl, rfl, rfl, rfl, rfl, rfl, rfl⟩
  | ptr b =>
      obtain ⟨tb, ob, hfb, rfl⟩ : ∃ (tb : Nat) (ob : Obj),
          (loopState h).fromSp[b]? = some (.fwd tb ob) ∧ r2 = .ptr tb := by
        rcases hSD with ⟨v2, h1, _⟩ | ⟨b2, tb, ob, h1, h2, h3⟩
        · exact Ref.noConfusion h1
        · obtain rfl : b2 = b := (Ref.ptr.inj h1).symm
          exact ⟨tb, ob, h2, h3⟩
      have hblen : b < s1.fromSp.length := by
        rw [inv1.flen]
        exact hrange b rfl
      cases hc1 : s1.fromSp[b]? with
      | none =>
          rw [List.getElem?_eq_getElem hblen] at hc1
          exact Option.noConfusion hc1
      | some c =>
          cases c with
          | fwd t o =>
              -- already forwarded in the first run
              have hres1 : scavengePointer s1 (.ptr b) = (s1, .ptr t) := by
                simp only [scavengePointer, hc1]
              have htlt : t < s1.toSp.length := by
                rcases inv1.fcells b with heq | ⟨o3, t3, hsp3, hf3, hlt3⟩
                · rw [heq] at hc1
                  exact absurd hc1 (hwf.noCorpse b t o)
                · rw [hf3] at hc1
                  obtain ⟨hte, _⟩ := Cell.fwd.inj (Option.some.inj hc1)
                  rw [← hte]
                  exact hlt3
              have hteq : tb = t := by
                rw [hres1] at hfinR
                have hp := hfinR.1 b t o hc1
                rw [hfb] at hp
                exact (Cell.fwd.inj (Option.some.inj hp)).1
              rw [hteq]
              obtain ⟨o2t, _, hf2t⟩ := sim.ffwd t htlt
              have hres2 : scavengePointer s2 (.ptr t) = (s2, .ptr t) := by
                simp only [scavengePointer, hf2t]
              rw [hres1, hres2]
              exact ⟨sim, rfl, rfl, rfl, rfl, rfl, rfl, rfl, rfl, rfl⟩
          | obj o =>
              -- the first run copies now; the second run copies the final
              -- object at the same index
              have hres1 : scavengePointer s1 (.ptr b) =
                  ({ s1 with toSp := s1.toSp ++ [o], fromSp := s1.fromSp.set b (.fwd s1.toSp.length o) }, .ptr s1.toSp.length) := by
                simp only [scavengePointer, hc1]
              have hteq : tb = s1.toSp.length := by
                rw [hres1] at hfinR
                have hpst := hfinR.1 b s1.toSp.length o
                  (by rw [List.getElem?_set_self hblen])
                rw [hfb] at hpst
                exact (Cell.fwd.inj (Option.some.inj hpst)).1
              rw [hteq]
              have hnlt : s1.toSp.length < (scavenge h).space.length := by
                rw [hres1] at hfinR
                have hle : (s1.toSp ++ [o]).length ≤ (loopState h).toSp.length :=
                  hfinR.2.2
                have hlen2 : (s1.toSp ++ [o]).length = s1.toSp.length + 1 := by
                  simp
                rw [scavenge_space_len h]
                omega
              obtain ⟨o2n, ho2n⟩ := scavenge_space_obj h s1.toSp.length hnlt
              have hf2n : s2.fromSp[s1.toSp.length]? = some (.obj o2n) := by
                rw [sim.fobj s1.toSp.length (Nat.le_refl _), ho2n]
              have htop2 : s2.toSp.length = s1.toSp.length := sim.len
              have hres2 : scavengePointer s2 (.ptr s1.toSp.length) =
                  ({ s2 with toSp := s2.toSp ++ [o2n], fromSp := s2.fromSp.set s1.toSp.length (.fwd s2.toSp.length o2n) }, .ptr s2.toSp.length) := by
                simp only [scavengePointer, hf2n]
              rw [hres1, hres2]
              refine ⟨?_, ?_, rfl, rfl, rfl, rfl, rfl, rfl, rfl, rfl⟩
              · refine ⟨?_, ?_, ?_, ?_, ?_, sim.weakeq, sim.table, sim.free⟩
                · show (s2.toSp ++ [o2n]).length = (s1.toSp ++ [o]).length
                  rw [List.length_append, List.length_append, sim.len]
                  rfl
                · show (s2.fromSp.set _ _).length = _
                  rw [List.length_set]
                  exact sim.flen
                · intro t ht
                  have ht2 : t < s1.toSp.length + 1 := by
                    have ht3 : t < (s1.toSp ++ [o]).length := ht
                    have hlen2 : (s1.toSp ++ [o]).length = s1.toSp.length + 1 := by
                      simp
                    omega
                  show (s2.toSp ++ [o2n])[t]?.map Cell.obj = _
                  by_cases htle : t < s1.toSp.length
                  · rw [getElem_append_lt s2.toSp o2n t (by omega)]
                    exact sim.tocells t htle
                  · have hte2 : t = s1.toSp.length := by omega
                    rw [hte2]
                    have hget : (s2.toSp ++ [o2n])[s1.toSp.length]? = some o2n := by
                      rw [List.getElem?_append_right (by omega), htop2]
                      simp
                    rw [hget, ho2n]
                    rfl
                · intro t ht
                  have ht2 : t < s1.toSp.length + 1 := by
                    have ht3 : t < (s1.toSp ++ [o]).length := ht
                    have hlen2 : (s1.toSp ++ [o]).length = s1.toSp.length + 1 := by
                      simp
                    omega
                  by_cases htle : t < s1.toSp.length
                  · obtain ⟨o3, h3a, h3b⟩ := sim.ffwd t htle
                    refine ⟨o3, h3a, ?_⟩
                    show (s2.fromSp.set _ _)[t]? = _
                    rw [List.getElem?_set_ne (by omega)]
                    exact h3b
                  · have hte2 : t = s1.toSp.length := by omega
                    rw [hte2]
                    refine ⟨o2n, ho2n, ?_⟩
                    show (s2.fromSp.set _ _)[s1.toSp.length]? = _
                    rw [List.getElem?_set_self (by rw [sim.flen]; exact hnlt), htop2]
                · intro t ht
                  have ht2 : s1.toSp.length + 1 ≤ t := by
                    have ht3 : (s1.toSp ++ [o]).length ≤ t := ht
                    have hlen2 : (s1.toSp ++ [o]).length = s1.toSp.length + 1 := by
                      simp
                    omega
                  show (s2.fromSp.set _ _)[t]? = _
                  rw [List.getElem?_set_ne (by omega)]
                  exact sim.fobj t (by omega)
              · show Ref.ptr s2.toSp.length = .ptr s1.toSp.length
                rw [htop2]

theorem scavengePointer_front (s : GcState) (r : Ref) (u : Nat)
    (hu : u < s.toSp.length) : (scavengePointer s r).1.toSp[u]? = s.toSp[u]? := by
  cases r with
  | imm v => rfl
  | ptr a =>
      cases hfa : s.fromSp[a]? with
      | none =>
          have hres : scavengePointer s (.ptr a) = (s, .ptr a) := by
            simp only [scavengePointer, hfa]
          rw [hres]
      | some c =>
          cases c with
          | fwd t o =>
              have hres : scavengePointer s (.ptr a) = (s, .ptr t) := by
                simp only [scavengePointer, hfa]
              rw [hres]
          | obj o =>
              have hres : scavengePointer s (.ptr a) =
                  ({ s with toSp := s.toSp ++ [o], fromSp := s.fromSp.set a (.fwd s.toSp.length o) }, .ptr s.toSp.length) := by
                simp only [scavengePointer, hfa]
              rw [hres]
              exact getElem_append_lt s.toSp o u hu

theorem sim_putSlot1 (h : Heap) (s1 s2 : GcState) (t i : Nat) (r : Ref)
    (sim : Sim h s1 s2) : Sim h (s1.putSlot t i r) s2 := by
  refine ⟨?_, sim.flen, ?_, ?_, ?_, sim.weakeq, sim.table, sim.free⟩
  · rw [putSlot_len]
    exact sim.len
  · intro u hu
    rw [putSlot_len] at hu
    exact sim.tocells u hu
  · intro u hu
    rw [putSlot_len] at hu
    exact sim.ffwd u hu
  · intro u hu
    rw [putSlot_len] at hu
    exact sim.fobj u hu

theorem sim_getSlot (h : Heap) (s1 s2 : GcState) (sim : Sim h s1 s2) (t : Nat)
    (ht : t < s1.toSp.length) (of : Obj)
    (hof : (scavenge h).space[t]? = some (.obj of)) (i : Nat) :
    s2.getSlot t i = (slotsOf of).getD i (.imm 0) := by
  have h2 := sim.tocells t ht
  rw [hof] at h2
  cases hc : s2.toSp[t]? with
  | none =>
      rw [hc] at h2
      exact Option.noConfusion h2
  | some o2 =>
      rw [hc] at h2
      have h3 : some (Cell.obj o2) = some (.obj of) := h2
      obtain rfl : o2 = of := Cell.obj.inj (Option.some.inj h3)
      exact getSlot_of_copy s2 t o2 hc i

/-- Lockstep for the slot loop: the first run scavenges slots `i .. i+k` of
the copy at `t`; the second run reads the already-final values, rewrites each
to itself, and copies exactly the objects the first run copies. -/
theorem simSlots (h : Heap) (hwf : WF h) (t : Nat) (o : Obj) (l : List Ref)
    (of : Obj) (hof : (scavenge h).space[t]? = some (.obj of)) (k : Nat) :
    ∀ (s1 : GcState) (scan : Nat) (ex : List Nat) (i : Nat) (s2 : GcState),
    InvCore h s1 scan ex (some t) →
    PartialCopy s1 t o l i →
    (∀ j b : Nat, i ≤ j → j < i + k → l.getD j (.imm 0) = .ptr b →
      Live h b ∧ b < h.space.length) →
    Sim h s1 s2 →
    t < s1.toSp.length →
    (∀ j : Nat, i ≤ j → j < i + k →
      SlotDone (loopState h) (l.getD j (.imm 0)) ((slotsOf of).getD j (.imm 0))) →
    ExtendsF (scavengeSlots s1 t i k) (loopState h) →
    Sim h (scavengeSlots s1 t i k) (scavengeSlots s2 t i k) ∧
    (scavengeSlots s2 t i k).ephems = s2.ephems ∧
    (scavengeSlots s2 t i k).weaks = s2.weaks ∧
    (scavengeSlots s2 t i k).objectStore = s2.objectStore ∧
    (scavengeSlots s2 t i k).currentActivation = s2.currentActivation ∧
    (scavengeSlots s2 t i k).handles = s2.handles ∧
    (scavengeSlots s2 t i k).classTable = s2.classTable ∧
    (scavengeSlots s2 t i k).classTableFree = s2.classTableFree := by
  induction k with
  | zero =>
      intro s1 scan ex i s2 inv hpc hjs sim ht hdone hfin
      exact ⟨sim, rfl, rfl, rfl, rfl, rfl, rfl, rfl⟩
  | succ k ih =>
      intro s1 scan ex i s2 inv hpc hjs sim ht hdone hfin
      obtain ⟨o2, l2, hc1, hc2, hc3, hc4, hc5, hc6, hc7⟩ := hpc
      have hslot1 : s1.getSlot t i = l.getD i (.imm 0) := by
        rw [getSlot_eq s1 t i o2 l2 hc1 hc4]
        exact hc7 i (Nat.le_refl i)
      have hslot2 : s2.getSlot t i = (slotsOf of).getD i (.imm 0) :=
        sim_getSlot h s1 s2 sim t ht of hof i
      have hSD : SlotDone (loopState h) (s1.getSlot t i) (s2.getSlot t i) := by
        rw [hslot1, hslot2]
        exact hdone i (Nat.le_refl i) (by omega)
      have hstep1 : scavengeSlots s1 t i (k + 1) =
          scavengeSlots ((scavengePointer s1 (s1.getSlot t i)).1.putSlot t i
            (scavengePointer s1 (s1.getSlot t i)).2) t (i + 1) k := rfl
      have hstep2 : scavengeSlots s2 t i (k + 1) =
          scavengeSlots ((scavengePointer s2 (s2.getSlot t i)).1.putSlot t i
            (scavengePointer s2 (s2.getSlot t i)).2) t (i + 1) k := rfl
      -- one run-1 step via the preservation lemma
      have hone := scavengeSlots_pres h hwf t o l 1 s1 scan ex i inv
        ⟨o2, l2, hc1, hc2, hc3, hc4, hc5, hc6, hc7⟩
        (fun j b hj1 hj2 hjv => hjs j b hj1 (by omega) hjv)
      have honeeq : scavengeSlots s1 t i 1 =
          (scavengePointer s1 (s1.getSlot t i)).1.putSlot t i
            (scavengePointer s1 (s1.getSlot t i)).2 := rfl
      rw [honeeq] at hone
      obtain ⟨inv1, hx1, he1, hw1, hs1b, ha1, hh1, hpre1, hsig1, hpc1⟩ := hone
      have hpcsucc : PartialCopy ((scavengePointer s1 (s1.getSlot t i)).1.putSlot t i
          (scavengePointer s1 (s1.getSlot t i)).2) t o l (i + 1) := by
        have : i + 1 = i + 1 := rfl
        exact hpc1
      -- the tail of the run-1 loop extends to the final state
      have hfin1 : ExtendsF (scavengeSlots ((scavengePointer s1 (s1.getSlot t i)).1.putSlot t i
          (scavengePointer s1 (s1.getSlot t i)).2) t (i + 1) k) (loopState h) := by
        rw [← hstep1]
        exact hfin
      have htail := scavengeSlots_pres h hwf t o l k
        ((scavengePointer s1 (s1.getSlot t i)).1.putSlot t i
          (scavengePointer s1 (s1.getSlot t i)).2) scan ex (i + 1) inv1 hpcsucc
        (fun j b hj1 hj2 hjv => hjs j b (by omega) (by omega) hjv)
      have hfinP : ExtendsF (scavengePointer s1 (s1.getSlot t i)).1 (loopState h) := by
        have hxput : ExtendsF (scavengePointer s1 (s1.getSlot t i)).1
            ((scavengePointer s1 (s1.getSlot t i)).1.putSlot t i
              (scavengePointer s1 (s1.getSlot t i)).2) :=
          ⟨fun a t2 o3 hg => hg, rfl, Nat.le_of_eq (putSlot_len _ _ _ _).symm⟩
        exact extendsF_trans hxput (extendsF_trans htail.2.1 hfin1)
      have hrange : ∀ b : Nat, s1.getSlot t i = .ptr b → b < h.space.length := by
        intro b hb
        rw [hslot1] at hb
        exact (hjs i b (Nat.le_refl i) (by omega) hb).2
      obtain ⟨simP, hr2eq, hr1eq, hpe, hpw, hps, hpa, hph, hpt, hpf⟩ :=
        simPointer h hwf s1 s2 scan ex (some t) inv sim
          (s1.getSlot t i) (s2.getSlot t i) hfinP hSD hrange
      -- the second run's write-back is the identity
      have hput2 : (scavengePointer s2 (s2.getSlot t i)).1.putSlot t i
          (scavengePointer s2 (s2.getSlot t i)).2 =
          (scavengePointer s2 (s2.getSlot t i)).1 := by
        rw [hr2eq]
        apply putSlot_self
        rw [getSlot_congr (scavengePointer_front s2 (s2.getSlot t i) t
          (by rw [sim.len]; exact ht)) i]
      rw [hstep1, hstep2, hput2]
      have hsim1 : Sim h ((scavengePointer s1 (s1.getSlot t i)).1.putSlot t i
          (scavengePointer s1 (s1.getSlot t i)).2)
          (scavengePointer s2 (s2.getSlot t i)).1 :=
        sim_putSlot1 h _ _ t i _ simP
      have ht1 : t < ((scavengePointer s1 (s1.getSlot t i)).1.putSlot t i
          (scavengePointer s1 (s1.getSlot t i)).2).toSp.length := by
        rw [putSlot_len]
        have := scavengePointer_toSp_le s1 (s1.getSlot t i)
        omega
      obtain ⟨simT, qe, qw, qs, qa, qh, qt, qf⟩ := ih
        ((scavengePointer s1 (s1.getSlot t i)).1.putSlot t i
          (scavengePointer s1 (s1.getSlot t i)).2) scan ex (i + 1)
        (scavengePointer s2 (s2.getSlot t i)).1 inv1 hpcsucc
        (fun j b hj1 hj2 hjv => hjs j b (by omega) (by omega) hjv) hsim1 ht1
        (fun j hj1 hj2 => hdone j (by omega) (by omega)) hfin1
      exact ⟨simT, qe.trans hpe, qw.trans hpw, qs.trans hps, qa.trans hpa,
        qh.trans hph, qt.trans hpt, qf.trans hpf⟩

theorem mournWeakSlot_rest (s : GcState) (w i : Nat) :
    (mournWeakSlot s w i).objectStore = s.objectStore ∧
    (mournWeakSlot s w i).currentActivation = s.currentActivation ∧
    (mournWeakSlot s w i).handles = s.handles ∧
    (mournWeakSlot s w i).classTable = s.classTable ∧
    (mournWeakSlot s w i).classTableFree = s.classTableFree ∧
    (mournWeakSlot s w i).ephems = s.ephems ∧
    (mournWeakSlot s w i).weaks = s.weaks := by
  cases hv : s.getSlot w i with
  | imm v =>
      have hres : mournWeakSlot s w i = s := by
        simp only [mournWeakSlot, hv]
      rw [hres]
      exact ⟨rfl, rfl, rfl, rfl, rfl, rfl, rfl⟩
  | ptr a =>
      cases hfa : s.fromSp[a]? with
      | none =>
          have hres : mournWeakSlot s w i = s.putSlot w i (nilOf s) := by
            simp only [mournWeakSlot, hv, hfa]
          rw [hres]
          exact ⟨rfl, rfl, rfl, rfl, rfl, rfl, rfl⟩
      | some c =>
          cases c with
          | fwd t o =>
              have hres : mournWeakSlot s w i = s.putSlot w i (.ptr t) := by
                simp only [mournWeakSlot, hv, hfa]
              rw [hres]
              exact ⟨rfl, rfl, rfl, rfl, rfl, rfl, rfl⟩
          | obj o =>
              have hres : mournWeakSlot s w i = s.putSlot w i (nilOf s) := by
                simp only [mournWeakSlot, hv, hfa]
              rw [hres]
              exact ⟨rfl, rfl, rfl, rfl, rfl, rfl, rfl⟩

theorem mournWeakSlots_rest (w k : Nat) : ∀ (s : GcState) (i : Nat),
    (mournWeakSlots w i k s).objectStore = s.objectStore ∧
    (mournWeakSlots w i k s).currentActivation = s.currentActivation ∧
    (mournWeakSlots w i k s).handles = s.handles ∧
    (mournWeakSlots w i k s).classTable = s.classTable ∧
    (mournWeakSlots w i k s).classTableFree = s.classTableFree ∧
    (mournWeakSlots w i k s).ephems = s.ephems := by
  induction k with
  | zero =>
      intro s i
      exact ⟨rfl, rfl, rfl, rfl, rfl, rfl⟩
  | succ k ih =>
      intro s i
      have hstep : mournWeakSlots w i (k + 1) s =
          mournWeakSlots w (i + 1) k (mournWeakSlot s w i) := rfl
      obtain ⟨q1, q2, q3, q4, q5, q6, _⟩ := mournWeakSlot_rest s w i
      obtain ⟨p1, p2, p3, p4, p5, p6⟩ := ih (mournWeakSlot s w i) (i + 1)
      rw [hstep]
      exact ⟨p1.trans q1, p2.trans q2, p3.trans q3, p4.trans q4, p5.trans q5,
        p6.trans q6⟩

theorem mournWeaks_rest (ws : List Nat) : ∀ s : GcState,
    (mournWeaks ws s).objectStore = s.objectStore ∧
    (mournWeaks ws s).currentActivation = s.currentActivation ∧
    (mournWeaks ws s).handles = s.handles ∧
    (mournWeaks ws s).classTable = s.classTable ∧
    (mournWeaks ws s).classTableFree = s.classTableFree ∧
    (mournWeaks ws s).ephems = s.ephems := by
  induction ws with
  | nil =>
      intro s
      exact ⟨rfl, rfl, rfl, rfl, rfl, rfl⟩
  | cons w rest ih =>
      intro s
      have hstep : mournWeaks (w :: rest) s =
          mournWeaks rest (mournWeakSlots w 0 (slotsOf (s.objAt w)).length s) := rfl
      obtain ⟨q1, q2, q3, q4, q5, q6⟩ :=
        mournWeakSlots_rest w (slotsOf (s.objAt w)).length s 0
      obtain ⟨p1, p2, p3, p4, p5, p6⟩ :=
        ih (mournWeakSlots w 0 (slotsOf (s.objAt w)).length s)
      rw [hstep]
      exact ⟨p1.trans q1, p2.trans q2, p3.trans q3, p4.trans q4, p5.trans q5,
        p6.trans q6⟩

theorem mournWeakList_rest (s : GcState) :
    (mournWeakList s).objectStore = s.objectStore ∧
    (mournWeakList s).currentActivation = s.currentActivation ∧
    (mournWeakList s).handles = s.handles ∧
    (mournWeakList s).classTable = s.classTable ∧
    (mournWeakList s).classTableFree = s.classTableFree ∧
    (mournWeakList s).ephems = s.ephems :=
  mournWeaks_rest s.weaks { s with weaks := [] }

theorem mournClassStep_getD_lt (s : GcState) (i j : Nat) (hj : j ≠ i) :
    (mournClassStep s i).classTable.getD j (.imm 0) =
      s.classTable.getD j (.imm 0) := by
  cases hct : s.classTable.getD i (.imm 0) with
  | imm v =>
      have hres : mournClassStep s i = s := by
        simp only [mournClassStep, hct]
      rw [hres]
  | ptr a =>
      cases hfa : s.fromSp[a]? with
      | none =>
          have hres : mournClassStep s i =
              { s with classTable := s.classTable.set i (.imm (Int.ofNat s.classTableFree)), classTableFree := i } := by
            simp only [mournClassStep, hfa, hct]
          rw [hres]
          exact getD_set_ne s.classTable i j _ _ (fun he => hj he.symm)
      | some c =>
          cases c with
          | fwd t o =>
              have hres : mournClassStep s i =
                  { s with classTable := s.classTable.set i (.ptr t) } := by
                simp only [mournClassStep, hfa, hct]
              rw [hres]
              exact getD_set_ne s.classTable i j _ _ (fun he => hj he.symm)
          | obj o =>
              have hres : mournClassStep s i =
                  { s with classTable := s.classTable.set i (.imm (Int.ofNat s.classTableFree)), classTableFree := i } := by
                simp only [mournClassStep, hfa, hct]
              rw [hres]
              exact getD_set_ne s.classTable i j _ _ (fun he => hj he.symm)

theorem mournClassFrom_getD_lt (k : Nat) : ∀ (i : Nat) (s : GcState) (j : Nat),
    j < i →
    (mournClassFrom i k s).classTable.getD j (.imm 0) =
      s.classTable.getD j (.imm 0) := by
  induction k with
  | zero =>
      intro i s j _
      rfl
  | succ k ih =>
      intro i s j hj
      have hstep : mournClassFrom i (k + 1) s =
          mournClassFrom (i + 1) k (mournClassStep s i) := rfl
      rw [hstep, ih (i + 1) (mournClassStep s i) j (by omega)]
      exact mournClassStep_getD_lt s i j (by omega)

theorem mournClassFrom_entry_imm (k : Nat) : ∀ (i : Nat) (s : GcState) (j : Nat)
    (v : Int), s.classTable.getD j (.imm 0) = .imm v →
    (mournClassFrom i k s).classTable.getD j (.imm 0) = .imm v := by
  induction k with
  | zero =>
      intro i s j v hv
      exact hv
  | succ k ih =>
      intro i s j v hv
      have hstep : mournClassFrom i (k + 1) s =
          mournClassFrom (i + 1) k (mournClassStep s i) := rfl
      rw [hstep]
      by_cases hij : j = i
      · subst hij
        have hres : mournClassStep s j = s := by
          simp only [mournClassStep, hv]
        rw [hres]
        exact ih (j + 1) s j v hv
      · refine ih (i + 1) (mournClassStep s i) j v ?_
        rw [mournClassStep_getD_lt s i j hij]
        exact hv

theorem mournClassStep_fromSp (s : GcState) (i : Nat) :
    (mournClassStep s i).fromSp = s.fromSp :=
  (mournClassStep_frame s i).2.1

theorem mournClassFrom_entry_fwd (k : Nat) : ∀ (i : Nat) (s : GcState)
    (j a t : Nat) (o : Obj), s.classTable.getD j (.imm 0) = .ptr a →
    s.fromSp[a]? = some (.fwd t o) → i ≤ j → j < i + k →
    (mournClassFrom i k s).classTable.getD j (.imm 0) = .ptr t := by
  induction k with
  | zero =>
      intro i s j a t o _ _ h1 h2
      omega
  | succ k ih =>
      intro i s j a t o ha hf h1 h2
      have hstep : mournClassFrom i (k + 1) s =
          mournClassFrom (i + 1) k (mournClassStep s i) := rfl
      rw [hstep]
      by_cases hij : j = i
      · subst hij
        have hres : mournClassStep s j =
            { s with classTable := s.classTable.set j (.ptr t) } := by
          simp only [mournClassStep, ha, hf]
        rw [hres]
        have hjlen : j < s.classTable.length := by
          by_contra hge
          rw [getD_beyond s.classTable j (.imm 0) (by omega)] at ha
          exact Ref.noConfusion ha
        rw [mournClassFrom_getD_lt k (j + 1) _ j (by omega)]
        show (s.classTable.set j (.ptr t)).getD j (.imm 0) = .ptr t
        exact getD_set_self s.classTable j (.ptr t) (.imm 0) hjlen
      · refine ih (i + 1) (mournClassStep s i) j a t o ?_ ?_ (by omega) (by omega)
        · rw [mournClassStep_getD_lt s i j hij]
          exact ha
        · rw [mournClassStep_fromSp s i]
          exact hf

theorem mournClassTable_len (s : GcState) :
    (mournClassTable s).classTable.length = s.classTable.length := by
  suffices hgen : ∀ (k i : Nat) (s2 : GcState),
      (mournClassFrom i k s2).classTable.length = s2.classTable.length by
    exact hgen (s.classTable.length - kFirstLegalCid) kFirstLegalCid s
  intro k
  induction k with
  | zero =>
      intro i s2
      rfl
  | succ k ih =>
      intro i s2
      have hstep : mournClassFrom i (k + 1) s2 =
          mournClassFrom (i + 1) k (mournClassStep s2 i) := rfl
      rw [hstep, ih (i + 1) (mournClassStep s2 i)]
      cases hct : s2.classTable.getD i (.imm 0) with
      | imm v =>
          have hres : mournClassStep s2 i = s2 := by
            simp only [mournClassStep, hct]
          rw [hres]
      | ptr a =>
          cases hfa : s2.fromSp[a]? with
          | none =>
              have hres : mournClassStep s2 i =
                  { s2 with classTable := s2.classTable.set i (.imm (Int.ofNat s2.classTableFree)), classTableFree := i } := by
                simp only [mournClassStep, hfa, hct]
              rw [hres]
              exact List.length_set _ _ _
          | some c =>
              cases c with
              | fwd t o =>
                  have hres : mournClassStep s2 i =
                      { s2 with classTable := s2.classTable.set i (.ptr t) } := by
                    simp only [mournClassStep, hfa, hct]
                  rw [hres]
                  exact List.length_set _ _ _
              | obj o =>
                  have hres : mournClassStep s2 i =
                      { s2 with classTable := s2.classTable.set i (.imm (Int.ofNat s2.classTableFree)), classTableFree := i } := by
                    simp only [mournClassStep, hfa, hct]
                  rw [hres]
                  exact List.length_set _ _ _

/-- The class-table entry of a legal cid after the mourning pass: an
immediate stays; an entry whose class was forwarded holds the new address. -/
theorem scavenge_table_imm (h : Heap) (scanF : Nat)
    (inv : InvCore h (loopState h) scanF [] none) (cid : Nat) (v : Int)
    (ha : h.classTable.getD cid (.imm 0) = .imm v) :
    (scavenge h).classTable.getD cid (.imm 0) = .imm v := by
  show (scavengeGc h).classTable.getD cid (.imm 0) = .imm v
  rw [scavengeGc_eq]
  refine mournClassFrom_entry_imm _ _ _ cid v ?_
  rw [(mournWeakList_rest (mournEphemeronList (loopState h))).2.2.2.1,
    (mournEphemeronList_spec (loopState h) inv.ephnd).2.2.2.2.1, inv.table]
  exact ha

theorem scavenge_table_fwd (h : Heap) (scanF : Nat)
    (inv : InvCore h (loopState h) scanF [] none) (cid : Nat)
    (hcid : kFirstLegalCid ≤ cid) (a t : Nat) (o : Obj)
    (ha : h.classTable.getD cid (.imm 0) = .ptr a)
    (hf : (loopState h).fromSp[a]? = some (.fwd t o)) :
    (scavenge h).classTable.getD cid (.imm 0) = .ptr t := by
  show (scavengeGc h).classTable.getD cid (.imm 0) = .ptr t
  rw [scavengeGc_eq]
  have htab : (mournWeakList (mournEphemeronList (loopState h))).classTable =
      h.classTable := by
    rw [(mournWeakList_rest (mournEphemeronList (loopState h))).2.2.2.1,
      (mournEphemeronList_spec (loopState h) inv.ephnd).2.2.2.2.1, inv.table]
  have hfr : (mournWeakList (mournEphemeronList (loopState h))).fromSp =
      (loopState h).fromSp := by
    rw [mournWeakList_fromSp,
      (mournEphemeronList_spec (loopState h) inv.ephnd).1]
  have hcl : cid < (mournWeakList (mournEphemeronList (loopState h))).classTable.length := by
    rw [htab]
    by_contra hge
    rw [getD_beyond h.classTable cid (.imm 0) (by omega)] at ha
    exact Ref.noConfusion ha
  refine mournClassFrom_entry_fwd _ kFirstLegalCid _ cid a t o ?_ ?_ hcid ?_
  · rw [htab]
    exact ha
  · rw [hfr]
    exact hf
  · omega

theorem scavengeClass_eq_pointer (s : GcState) (cid : Nat) :
    scavengeClass s cid = (scavengePointer s (s.classTable.getD cid (.imm 0))).1 := by
  cases hct : s.classTable.getD cid (.imm 0) with
  | imm v =>
      have hres : scavengeClass s cid = s := by
        simp only [scavengeClass, hct]
      rw [hres]
      rfl
  | ptr a =>
      cases hfa : s.fromSp[a]? with
      | none =>
          have hres : scavengeClass s cid = s := by
            simp only [scavengeClass, hct, hfa]
          have hres2 : scavengePointer s (.ptr a) = (s, .ptr a) := by
            simp only [scavengePointer, hfa]
          rw [hres, hres2]
      | some c =>
          cases c with
          | fwd t o =>
              have hres : scavengeClass s cid = s := by
                simp only [scavengeClass, hct, hfa]
              have hres2 : scavengePointer s (.ptr a) = (s, .ptr t) := by
                simp only [scavengePointer, hfa]
              rw [hres, hres2]
          | obj o =>
              have hres : scavengeClass s cid =
                  { s with toSp := s.toSp ++ [o], fromSp := s.fromSp.set a (.fwd s.toSp.length o) } := by
                simp only [scavengeClass, hct, hfa]
              have hres2 : scavengePointer s (.ptr a) =
                  ({ s with toSp := s.toSp ++ [o], fromSp := s.fromSp.set a (.fwd s.toSp.length o) }, .ptr s.toSp.length) := by
                simp only [scavengePointer, hfa]
              rw [hres, hres2]

/-- Lockstep for `ScavengeClass`: the first run traces the original class
of a scanned cid; the second run traces the mourned table entry, which is
the same class at its new address. -/
theorem simClass (h : Heap) (hwf : WF h) (s1 s2 : GcState) (scan : Nat)
    (ex : List Nat) (cur : Option Nat) (inv1 : InvCore h s1 scan ex cur)
    (sim : Sim h s1 s2) (scanF : Nat)
    (invF : InvCore h (loopState h) scanF [] none) (cid : Nat)
    (hcid : kFirstLegalCid ≤ cid)
    (hfinR : ExtendsF (scavengeClass s1 cid) (loopState h))
    (hCD : ClassDone (loopState h) cid) :
    Sim h (scavengeClass s1 cid) (scavengeClass s2 cid) ∧
    (scavengeClass s2 cid).ephems = s2.ephems ∧
    (scavengeClass s2 cid).weaks = s2.weaks ∧
    (scavengeClass s2 cid).objectStore = s2.objectStore ∧
    (scavengeClass s2 cid).currentActivation = s2.currentActivation ∧
    (scavengeClass s2 cid).handles = s2.handles ∧
    (scavengeClass s2 cid).classTable = s2.classTable ∧
    (scavengeClass s2 cid).classTableFree = s2.classTableFree := by
  have htab1 : s1.classTable.getD cid (.imm 0) = h.classTable.getD cid (.imm 0) := by
    rw [inv1.table]
  have htab2 : s2.classTable.getD cid (.imm 0) =
      (scavenge h).classTable.getD cid (.imm 0) := by
    rw [sim.table]
  have hSD : SlotDone (loopState h) (s1.classTable.getD cid (.imm 0))
      (s2.classTable.getD cid (.imm 0)) := by
    rcases hCD with ⟨v, hv⟩ | ⟨c, hc, hfc⟩
    · rw [invF.table] at hv
      refine Or.inl ⟨v, ?_, ?_⟩
      · rw [htab1]
        exact hv
      · rw [htab2, scavenge_table_imm h scanF invF cid v hv, htab1, hv]
    · obtain ⟨tc, oc, hfcc⟩ := hfc
      rw [invF.table] at hc
      refine Or.inr ⟨c, tc, oc, ?_, hfcc, ?_⟩
      · rw [htab1]
        exact hc
      · rw [htab2]
        exact scavenge_table_fwd h scanF invF cid hcid c tc oc hc hfcc
  have hrange : ∀ b : Nat, s1.classTable.getD cid (.imm 0) = .ptr b →
      b < h.space.length := by
    intro b hb
    rw [htab1] at hb
    exact hwf.tableOk cid b hb
  have hfinP : ExtendsF (scavengePointer s1 (s1.classTable.getD cid (.imm 0))).1
      (loopState h) := by
    rw [← scavengeClass_eq_pointer]
    exact hfinR
  obtain ⟨simP, _, _, hpe, hpw, hps, hpa, hph, hpt, hpf⟩ :=
    simPointer h hwf s1 s2 scan ex cur inv1 sim
      (s1.classTable.getD cid (.imm 0)) (s2.classTable.getD cid (.imm 0))
      hfinP hSD hrange
  rw [scavengeClass_eq_pointer s1 cid, scavengeClass_eq_pointer s2 cid]
  exact ⟨simP, hpe, hpw, hps, hpa, hph, hpt, hpf⟩

/-- What the compacted heap holds at index `t`: the final version of the
copy the loop produced there, with cid and hash intact. -/
theorem scavenge_final_cidhash (h : Heap) (hwf : WF h) (scanF : Nat)
    (invF : InvCore h (loopState h) scanF [] none)
    (hscan : (loopState h).toSp.length ≤ scanF) (t : Nat)
    (ht : t < (loopState h).toSp.length) :
    ∃ (a : Nat) (o : Obj) (of : Obj),
      h.space[a]? = some (.obj o) ∧
      (loopState h).fromSp[a]? = some (.fwd t o) ∧
      (scavenge h).space[t]? = some (.obj of) ∧
      of.cid = o.cid ∧ of.hash = o.hash := by
  obtain ⟨a, o, hsa, hfa⟩ := invF.surj t ht
  obtain ⟨o2F, hc1, hc2, hc3, hc4⟩ := invF.content a t o hsa hfa
    (fun hc => Option.noConfusion hc)
  obtain ⟨e1, e2, e3, e4, e5, e6, e7, e8, e9, e10⟩ :=
    mournEphemeronList_spec (loopState h) invF.ephnd
  obtain ⟨c1, c2, c3, c4, c5, c6, c7⟩ :=
    mournClassTable_frame (mournWeakList (mournEphemeronList (loopState h)))
  have hts : t < scanF := by omega
  by_cases hcw : o2F.cid = kWeakArrayCid
  · have hmemw : t ∈ (loopState h).weaks := invF.weakall t hts o2F hc1 hcw
    have hnotE : t ∉ (loopState h).ephems := by
      intro hmem
      obtain ⟨_, o2e, h2e, hcide⟩ := invF.ephmem t hmem
      obtain rfl : o2F = o2e := Option.some.inj (hc1.symm.trans h2e)
      exact absurd (hcw.symm.trans hcide) (by decide)
    have hcE : (mournEphemeronList (loopState h)).toSp[t]? = some o2F := by
      rw [e9 t hnotE]
      exact hc1
    have hmemwE : t ∈ (mournEphemeronList (loopState h)).weaks := by
      rw [e8]
      exact hmemw
    cases hpp : o2F.payload with
    | bytes d =>
        have hW := mournWeakList_bytes (mournEphemeronList (loopState h)) t hmemwE
          o2F d hcE hpp
        refine ⟨a, o, o2F, hsa, hfa, ?_, hc2, hc3⟩
        show (heapOf (scavengeGc h)).space[t]? = _
        rw [heapOf_space, scavengeGc_eq, c1, hW]
        rfl
    | ptrs lw =>
        obtain ⟨l2w, hW1, _⟩ :=
          mournWeakList_shape (mournEphemeronList (loopState h)) t hmemwE o2F lw
            hcE hpp
        refine ⟨a, o, ⟨o2F.cid, o2F.hash, .ptrs l2w⟩, hsa, hfa, ?_, hc2, hc3⟩
        show (heapOf (scavengeGc h)).space[t]? = _
        rw [heapOf_space, scavengeGc_eq, c1, hW1]
        rfl
  · have hnW : t ∉ (loopState h).weaks := by
      intro hmem
      obtain ⟨_, o2w2, h2w, hcidw⟩ := invF.weakmem t hmem
      obtain rfl : o2F = o2w2 := Option.some.inj (hc1.symm.trans h2w)
      exact absurd hcidw hcw
    by_cases hmE : t ∈ (loopState h).ephems
    · have hcE := e10 t hmE o2F hc1
      have hW : (mournWeakList (mournEphemeronList (loopState h))).toSp[t]? =
          some (((o2F.setSlot 0 (nilOf (loopState h))).setSlot 1
            (nilOf (loopState h))).setSlot 2 (nilOf (loopState h))) := by
        rw [mournWeakList_notmem (mournEphemeronList (loopState h)) t
          (by rw [e8]; exact hnW)]
        exact hcE
      refine ⟨a, o, ((o2F.setSlot 0 (nilOf (loopState h))).setSlot 1
        (nilOf (loopState h))).setSlot 2 (nilOf (loopState h)), hsa, hfa, ?_, ?_, ?_⟩
      · show (heapOf (scavengeGc h)).space[t]? = _
        rw [heapOf_space, scavengeGc_eq, c1, hW]
        rfl
      · rw [setSlot_cid, setSlot_cid, setSlot_cid]
        exact hc2
      · rw [setSlot_hash, setSlot_hash, setSlot_hash]
        exact hc3
    · have hcE : (mournEphemeronList (loopState h)).toSp[t]? = some o2F := by
        rw [e9 t hmE]
        exact hc1
      have hW : (mournWeakList (mournEphemeronList (loopState h))).toSp[t]? =
          some o2F := by
        rw [mournWeakList_notmem (mournEphemeronList (loopState h)) t
          (by rw [e8]; exact hnW)]
        exact hcE
      refine ⟨a, o, o2F, hsa, hfa, ?_, hc2, hc3⟩
      show (heapOf (scavengeGc h)).space[t]? = _
      rw [heapOf_space, scavengeGc_eq, c1, hW]
      rfl

/-- Final content of an ordinary (non-weak, non-ephemeron) copy: preserved
from the loop exit, with all slots scavenged against the original. -/
theorem scavenge_final_normal (h : Heap) (hwf : WF h) (scanF : Nat)
    (invF : InvCore h (loopState h) scanF [] none)
    (hscan : (loopState h).toSp.length ≤ scanF) (t : Nat)
    (ht : t < (loopState h).toSp.length) (a : Nat) (o : Obj)
    (hsa : h.space[a]? = some (.obj o))
    (hfa : (loopState h).fromSp[a]? = some (.fwd t o))
    (hnw : o.cid ≠ kWeakArrayCid) (hne : o.cid ≠ kEphemeronCid) :
    ∃ of : Obj, (scavenge h).space[t]? = some (.obj of) ∧
      of.cid = o.cid ∧ of.hash = o.hash ∧
      ((∃ d : List Nat, o.payload = .bytes d ∧ of.payload = .bytes d) ∨
       (∃ (l l2 : List Ref), o.payload = .ptrs l ∧ of.payload = .ptrs l2 ∧
         l2.length = l.length ∧
         ∀ i : Nat, i < l.length →
           SlotDone (loopState h) (l.getD i (.imm 0)) (l2.getD i (.imm 0)))) := by
  obtain ⟨o2F, hc1, hc2, hc3, hc4⟩ := invF.content a t o hsa hfa
    (fun hc => Option.noConfusion hc)
  obtain ⟨e1, e2, e3, e4, e5, e6, e7, e8, e9, e10⟩ :=
    mournEphemeronList_spec (loopState h) invF.ephnd
  obtain ⟨c1, c2, c3, c4, c5, c6, c7⟩ :=
    mournClassTable_frame (mournWeakList (mournEphemeronList (loopState h)))
  have hts : t < scanF := by omega
  have hnd : NormDone (loopState h) o o2F := by
    rcases hc4 with ⟨_, h2⟩ | ⟨h1, _⟩ | ⟨_, _, _, hnd⟩
    · rcases h2 hts with hww | ⟨hee, _⟩
      · exact absurd hww hnw
      · exact absurd hee hne
    · exact absurd h1 hne
    · exact hnd
  have hnW : t ∉ (loopState h).weaks := by
    intro hmem
    obtain ⟨_, o2w2, h2w, hcidw⟩ := invF.weakmem t hmem
    obtain rfl : o2F = o2w2 := Option.some.inj (hc1.symm.trans h2w)
    exact absurd (hc2.symm.trans hcidw) hnw
  have hnE : t ∉ (loopState h).ephems := by
    intro hmem
    obtain ⟨_, o2e, h2e, hcide⟩ := invF.ephmem t hmem
    obtain rfl : o2F = o2e := Option.some.inj (hc1.symm.trans h2e)
    exact absurd (hc2.symm.trans hcide) hne
  have hcE : (mournEphemeronList (loopState h)).toSp[t]? = some o2F := by
    rw [e9 t hnE]
    exact hc1
  have hW : (mournWeakList (mournEphemeronList (loopState h))).toSp[t]? =
      some o2F := by
    rw [mournWeakList_notmem (mournEphemeronList (loopState h)) t
      (by rw [e8]; exact hnW)]
    exact hcE
  refine ⟨o2F, ?_, hc2, hc3, ?_⟩
  · show (heapOf (scavengeGc h)).space[t]? = _
    rw [heapOf_space, scavengeGc_eq, c1, hW]
    rfl
  · rcases hnd with ⟨d, h1, h2⟩ | ⟨l, l2, h1, h2, h3, h4⟩
    · exact Or.inl ⟨d, h1, h2⟩
    · exact Or.inr ⟨l, l2, h1, h2, h3, h4⟩

/-- Final content of an ephemeron that came off the worklist: preserved from
the loop exit, key/value/finalizer scavenged. -/
theorem scavenge_final_eph_done (h : Heap) (hwf : WF h) (scanF : Nat)
    (invF : InvCore h (loopState h) scanF [] none)
    (hscan : (loopState h).toSp.length ≤ scanF) (t : Nat)
    (ht : t < (loopState h).toSp.length) (a : Nat) (o : Obj)
    (hsa : h.space[a]? = some (.obj o))
    (hfa : (loopState h).fromSp[a]? = some (.fwd t o))
    (hne : o.cid = kEphemeronCid) (hmE : t ∉ (loopState h).ephems) :
    ∃ of : Obj, (scavenge h).space[t]? = some (.obj of) ∧
      of.cid = o.cid ∧ of.hash = o.hash ∧ EphDone (loopState h) o of := by
  obtain ⟨o2F, hc1, hc2, hc3, hc4⟩ := invF.content a t o hsa hfa
    (fun hc => Option.noConfusion hc)
  obtain ⟨e1, e2, e3, e4, e5, e6, e7, e8, e9, e10⟩ :=
    mournEphemeronList_spec (loopState h) invF.ephnd
  obtain ⟨c1, c2, c3, c4, c5, c6, c7⟩ :=
    mournClassTable_frame (mournWeakList (mournEphemeronList (loopState h)))
  have hts : t < scanF := by omega
  have hed : EphDone (loopState h) o o2F := by
    rcases hc4 with ⟨_, h2⟩ | ⟨_, _, _, _, hed⟩ | ⟨_, hne2, _, _⟩
    · rcases h2 hts with hww | ⟨_, hm⟩
      · exact absurd (hne.symm.trans hww) (by decide)
      · rcases hm with hm1 | hm2
        · exact absurd hm1 hmE
        · exact absurd hm2 (List.not_mem_nil t)
    · exact hed
    · exact absurd hne hne2
  have hnW : t ∉ (loopState h).weaks := by
    intro hmem
    obtain ⟨_, o2w2, h2w, hcidw⟩ := invF.weakmem t hmem
    obtain rfl : o2F = o2w2 := Option.some.inj (hc1.symm.trans h2w)
    exact absurd ((hc2.trans hne).symm.trans hcidw) (by decide)
  have hcE : (mournEphemeronList (loopState h)).toSp[t]? = some o2F := by
    rw [e9 t hmE]
    exact hc1
  have hW : (mournWeakList (mournEphemeronList (loopState h))).toSp[t]? =
      some o2F := by
    rw [mournWeakList_notmem (mournEphemeronList (loopState h)) t
      (by rw [e8]; exact hnW)]
    exact hcE
  refine ⟨o2F, ?_, hc2, hc3, hed⟩
  show (heapOf (scavengeGc h)).space[t]? = _
  rw [heapOf_space, scavengeGc_eq, c1, hW]
  rfl

/-- Final content of a mourned ephemeron (one whose key was never found):
the verbatim copy with key, value and finalizer set to nil. -/
theorem scavenge_final_eph_mourned (h : Heap) (hwf : WF h) (scanF : Nat)
    (invF : InvCore h (loopState h) scanF [] none)
    (hscan : (loopState h).toSp.length ≤ scanF) (t : Nat)
    (ht : t < (loopState h).toSp.length) (a : Nat) (o : Obj)
    (hsa : h.space[a]? = some (.obj o))
    (hfa : (loopState h).fromSp[a]? = some (.fwd t o))
    (hmE : t ∈ (loopState h).ephems) :
    ∃ o2F : Obj, (loopState h).toSp[t]? = some o2F ∧
      o2F.payload = o.payload ∧ o2F.cid = o.cid ∧ o2F.hash = o.hash ∧
      (scavenge h).space[t]? = some (.obj (((o2F.setSlot 0
        (nilOf (loopState h))).setSlot 1 (nilOf (loopState h))).setSlot 2
        (nilOf (loopState h)))) := by
  obtain ⟨o2F, hc1, hc2, hc3, hc4⟩ := invF.content a t o hsa hfa
    (fun hc => Option.noConfusion hc)
  obtain ⟨e1, e2, e3, e4, e5, e6, e7, e8, e9, e10⟩ :=
    mournEphemeronList_spec (loopState h) invF.ephnd
  obtain ⟨c1, c2, c3, c4, c5, c6, c7⟩ :=
    mournClassTable_frame (mournWeakList (mournEphemeronList (loopState h)))
  obtain ⟨_, o2e, h2e, hcide⟩ := invF.ephmem t hmE
  obtain rfl : o2F = o2e := Option.some.inj (hc1.symm.trans h2e)
  have hpayeq : o2F.payload = o.payload := by
    rcases hc4 with ⟨h1, _⟩ | ⟨_, _, h3, _⟩ | ⟨_, hne2, _, _⟩
    · exact h1
    · exact absurd hmE h3
    · exact absurd (hc2.symm.trans hcide) hne2
  have hnW : t ∉ (loopState h).weaks := by
    intro hmem
    obtain ⟨_, o2w2, h2w, hcidw⟩ := invF.weakmem t hmem
    obtain rfl : o2F = o2w2 := Option.some.inj (hc1.symm.trans h2w)
    exact absurd (hcide.symm.trans hcidw) (by decide)
  have hcE := e10 t hmE o2F hc1
  have hW : (mournWeakList (mournEphemeronList (loopState h))).toSp[t]? =
      some (((o2F.setSlot 0 (nilOf (loopState h))).setSlot 1
        (nilOf (loopState h))).setSlot 2 (nilOf (loopState h))) := by
    rw [mournWeakList_notmem (mournEphemeronList (loopState h)) t
      (by rw [e8]; exact hnW)]
    exact hcE
  refine ⟨o2F, hc1, hpayeq, hc2, hc3, ?_⟩
  show (heapOf (scavengeGc h)).space[t]? = _
  rw [heapOf_space, scavengeGc_eq, c1, hW]
  rfl

theorem sim_copy (h : Heap) (s1 s2 : GcState) (sim : Sim h s1 s2) (t : Nat)
    (ht : t < s1.toSp.length) (of : Obj)
    (hof : (scavenge h).space[t]? = some (.obj of)) :
    s2.toSp[t]? = some of ∧ s2.objAt t = of := by
  have h2 := sim.tocells t ht
  rw [hof] at h2
  cases hc : s2.toSp[t]? with
  | none =>
      rw [hc] at h2
      exact Option.noConfusion h2
  | some o2 =>
      rw [hc] at h2
      have h3 : some (Cell.obj o2) = some (.obj of) := h2
      obtain rfl : o2 = of := Cell.obj.inj (Option.some.inj h3)
      refine ⟨rfl, ?_⟩
      unfold GcState.objAt
      rw [List.getD_eq_getElem?_getD, hc]
      rfl

/-- Lockstep for one `ProcessToSpace` iteration: scanning the copy at the
cursor pairs with scanning the same object of the compacted heap. -/
theorem simObjAt (h : Heap) (hwf : WF h)
    (hcids : ∀ (a : Nat) (o : Obj), h.space[a]? = some (.obj o) →
      kFirstLegalCid ≤ o.cid)
    (s1 s2 : GcState) (scan : Nat) (ex : List Nat)
    (inv1 : InvCore h s1 scan ex none) (hlt : scan < s1.toSp.length)
    (sim : Sim h s1 s2) (ephr : EphRel h s1.ephems s2.ephems)
    (scanF : Nat) (invF : InvCore h (loopState h) scanF [] none)
    (hscanF : (loopState h).toSp.length ≤ scanF)
    (hfin : ExtendsF (processObjAt s1 scan) (loopState h)) :
    Sim h (processObjAt s1 scan) (processObjAt s2 scan) ∧
    EphRel h (processObjAt s1 scan).ephems (processObjAt s2 scan).ephems ∧
    (processObjAt s2 scan).objectStore = s2.objectStore ∧
    (processObjAt s2 scan).currentActivation = s2.currentActivation ∧
    (processObjAt s2 scan).handles = s2.handles := by
  have hcopy : s1.toSp[scan]? = some (s1.objAt scan) := by
    unfold GcState.objAt
    rw [List.getD_eq_getElem?_getD, List.getElem?_eq_getElem hlt]
    rfl
  obtain ⟨a, o, hsa, hfa⟩ := inv1.surj scan hlt
  obtain ⟨o2c, hto, hcid, hhash, hpay⟩ := inv1.content a scan o hsa hfa
    (fun hc => Option.noConfusion hc)
  have hobj : s1.objAt scan = o2c := Option.some.inj (hcopy.symm.trans hto)
  have hpayeq : o2c.payload = o.payload := by
    rcases hpay with ⟨h1, _⟩ | ⟨_, h2, _⟩ | ⟨_, _, h2, _⟩
    · exact h1
    · omega
    · omega
  have hlivea : Live h a := inv1.sound a ⟨scan, o, hfa⟩
  have hclassLive : ∀ c : Nat, s1.classTable.getD o2c.cid (.imm 0) = .ptr c →
      Live h c := by
    intro c hcg
    refine Live.classEdge a o c hlivea hsa ?_
    rw [← inv1.table]
    rw [hcid] at hcg
    exact hcg
  obtain ⟨invC, hcd1, hx1, he1, hw1, hos1, hca1, hh1, hpre1⟩ :=
    scavengeClass_pres h hwf s1 scan ex none inv1 o2c.cid hclassLive
  have hto1 : (scavengeClass s1 o2c.cid).toSp[scan]? = some o2c :=
    (hpre1 scan hlt).trans hto
  have hfaC : (scavengeClass s1 o2c.cid).fromSp[a]? = some (.fwd scan o) :=
    hx1.1 a scan o hfa
  have hfinS1 : ExtendsF s1 (loopState h) :=
    extendsF_trans (processObjAt_pres h hwf s1 scan ex inv1 hlt).2.1 hfin
  have hscanSF : scan < (loopState h).toSp.length := by
    have := hfinS1.2.2
    omega
  have hfaSF : (loopState h).fromSp[a]? = some (.fwd scan o) := hfinS1.1 a scan o hfa
  obtain ⟨a2, o2x, of, hsa2, hfa2, hof, hofc, hofh⟩ :=
    scavenge_final_cidhash h hwf scanF invF hscanF scan hscanSF
  have ha2eq : a2 = a := invF.inj a2 a scan o2x o hfa2 hfaSF
  rw [ha2eq] at hsa2 hfa2
  have ho2xeq : o2x = o := Cell.obj.inj (Option.some.inj (hsa2.symm.trans hsa))
  rw [ho2xeq] at hofc hofh
  obtain ⟨hof2, hobj2⟩ := sim_copy h s1 s2 sim scan hlt of hof
  have hcidEq : of.cid = o2c.cid := hofc.trans hcid.symm
  have hcid2 : kFirstLegalCid ≤ o2c.cid := by
    rw [hcid]
    exact hcids a o hsa
  have hCD : ClassDone (loopState h) o2c.cid := by
    obtain ⟨o2SF, hSF1, hSF2, _, _⟩ := invF.content a scan o hsa hfaSF
      (fun hc => Option.noConfusion hc)
    have := invF.classdone scan (by omega) o2SF hSF1
    rw [show o2SF.cid = o2c.cid from hSF2.trans hcid.symm] at this
    exact this
  by_cases hwcid : o2c.cid = kWeakArrayCid
  · -- a weak array: both runs push it onto the weak list, untraced
    have hres1 : processObjAt s1 scan =
        { scavengeClass s1 o2c.cid with
          weaks := scan :: (scavengeClass s1 o2c.cid).weaks } := by
      simp only [processObjAt, hobj]
      rw [if_pos hwcid]
    have hres2 : processObjAt s2 scan =
        { scavengeClass s2 of.cid with
          weaks := scan :: (scavengeClass s2 of.cid).weaks } := by
      simp only [processObjAt, hobj2]
      rw [if_pos (hcidEq.trans hwcid)]
    rw [hcidEq] at hres2
    have hfinC : ExtendsF (scavengeClass s1 o2c.cid) (loopState h) := by
      have hxw : ExtendsF (scavengeClass s1 o2c.cid)
          { scavengeClass s1 o2c.cid with
            weaks := scan :: (scavengeClass s1 o2c.cid).weaks } :=
        ⟨fun a3 t3 o3 hg => hg, rfl, Nat.le_refl _⟩
      refine extendsF_trans ?_ hfin
      rw [hres1]
      exact hxw
    obtain ⟨simC, ce, cw, cs, ca, ch, ct, cf⟩ :=
      simClass h hwf s1 s2 scan ex none inv1 sim scanF invF o2c.cid hcid2 hfinC hCD
    rw [hres1, hres2]
    refine ⟨⟨simC.len, simC.flen, simC.tocells, simC.ffwd, simC.fobj, ?_,
      simC.table, simC.free⟩, ?_, cs, ca, ch⟩
    · show scan :: (scavengeClass s2 o2c.cid).weaks =
        scan :: (scavengeClass s1 o2c.cid).weaks
      rw [simC.weakeq]
    · show EphRel h (scavengeClass s1 o2c.cid).ephems
        (scavengeClass s2 o2c.cid).ephems
      rw [he1, ce]
      exact ephr
  · by_cases hecid : o2c.cid = kEphemeronCid
    · -- an ephemeron: both runs push it onto the worklist, untraced
      have hres1 : processObjAt s1 scan =
          { scavengeClass s1 o2c.cid with
            ephems := scan :: (scavengeClass s1 o2c.cid).ephems } := by
        simp only [processObjAt, hobj]
        rw [if_neg hwcid, if_pos hecid]
      have hres2 : processObjAt s2 scan =
          { scavengeClass s2 of.cid with
            ephems := scan :: (scavengeClass s2 of.cid).ephems } := by
        simp only [processObjAt, hobj2]
        rw [if_neg (fun hc => hwcid (hcidEq.symm.trans hc)),
          if_pos (hcidEq.trans hecid)]
      rw [hcidEq] at hres2
      have hfinC : ExtendsF (scavengeClass s1 o2c.cid) (loopState h) := by
        have hxw : ExtendsF (scavengeClass s1 o2c.cid)
            { scavengeClass s1 o2c.cid with
              ephems := scan :: (scavengeClass s1 o2c.cid).ephems } :=
          ⟨fun a3 t3 o3 hg => hg, rfl, Nat.le_refl _⟩
        refine extendsF_trans ?_ hfin
        rw [hres1]
        exact hxw
      obtain ⟨simC, ce, cw, cs, ca, ch, ct, cf⟩ :=
        simClass h hwf s1 s2 scan ex none inv1 sim scanF invF o2c.cid hcid2 hfinC hCD
      rw [hres1, hres2]
      refine ⟨⟨simC.len, simC.flen, simC.tocells, simC.ffwd, simC.fobj, ?_,
        simC.table, simC.free⟩, ?_, cs, ca, ch⟩
      · show (scavengeClass s2 o2c.cid).weaks = (scavengeClass s1 o2c.cid).weaks
        exact simC.weakeq
      · show EphRel h (scan :: (scavengeClass s1 o2c.cid).ephems)
          (scan :: (scavengeClass s2 o2c.cid).ephems)
        rw [he1, ce]
        exact ephRel_cons h s1.ephems s2.ephems scan ephr
    · -- an ordinary object: both runs scavenge every slot
      have hres1 : processObjAt s1 scan =
          scavengeSlots (scavengeClass s1 o2c.cid) scan 0 (slotsOf o2c).length := by
        simp only [processObjAt, hobj]
        rw [if_neg hwcid, if_neg hecid]
      have hres2 : processObjAt s2 scan =
          scavengeSlots (scavengeClass s2 of.cid) scan 0 (slotsOf of).length := by
        simp only [processObjAt, hobj2]
        rw [if_neg (fun hc => hwcid (hcidEq.symm.trans hc)),
          if_neg (fun hc => hecid (hcidEq.symm.trans hc))]
      rw [hcidEq] at hres2
      have honw : o.cid ≠ kWeakArrayCid := fun hoc => hwcid (hcid.trans hoc)
      have hone : o.cid ≠ kEphemeronCid := fun hoc => hecid (hcid.trans hoc)
      obtain ⟨of2, hof2x, hofc2, hofh2, hdisj⟩ :=
        scavenge_final_normal h hwf scanF invF hscanF scan hscanSF a o hsa hfaSF
          honw hone
      have hof2eq : of2 = of := Cell.obj.inj (Option.some.inj (hof2x.symm.trans hof))
      rw [hof2eq] at hof2x hofc2 hofh2 hdisj
      cases hpp : o2c.payload with
      | bytes d =>
          have hopay : o.payload = .bytes d := hpayeq ▸ hpp
          have hofbytes : of.payload = .bytes d := by
            rcases hdisj with ⟨d2, hd1, hd2⟩ | ⟨l, l2, hl1, _⟩
            · rw [hd2, Payload.bytes.inj (hd1.symm.trans hopay)]
            · exact absurd (hl1.symm.trans hopay) (by simp)
          have hres1b : processObjAt s1 scan = scavengeClass s1 o2c.cid := by
            rw [hres1, slotsOf_bytes o2c d hpp]
            rfl
          have hres2b : processObjAt s2 scan = scavengeClass s2 o2c.cid := by
            rw [hres2, slotsOf_bytes of d hofbytes]
            rfl
          have hfinC : ExtendsF (scavengeClass s1 o2c.cid) (loopState h) := by
            rw [← hres1b]
            exact hfin
          obtain ⟨simC, ce, cw, cs, ca, ch, ct, cf⟩ :=
            simClass h hwf s1 s2 scan ex none inv1 sim scanF invF o2c.cid hcid2
              hfinC hCD
          rw [hres1b, hres2b]
          refine ⟨simC, ?_, cs, ca, ch⟩
          rw [he1, ce]
          exact ephr
      | ptrs lo =>
          have hopay : o.payload = .ptrs lo := hpayeq ▸ hpp
          obtain ⟨l2f, hofp, hlen2, hdone⟩ : ∃ l2f : List Ref,
              of.payload = .ptrs l2f ∧ l2f.length = lo.length ∧
              ∀ i : Nat, i < lo.length → SlotDone (loopState h)
                (lo.getD i (.imm 0)) (l2f.getD i (.imm 0)) := by
            rcases hdisj with ⟨d2, hd1, _⟩ | ⟨l, l2, hl1, hl2, hl3, hl4⟩
            · exact absurd (hd1.symm.trans hopay) (by simp)
            · obtain rfl : l = lo := Payload.ptrs.inj (hl1.symm.trans hopay)
              exact ⟨l2, hl2, hl3, hl4⟩
          have hres1c : processObjAt s1 scan =
              scavengeSlots (scavengeClass s1 o2c.cid) scan 0 lo.length := by
            rw [hres1, slotsOf_ptrs o2c lo hpp]
          have hres2c : processObjAt s2 scan =
              scavengeSlots (scavengeClass s2 o2c.cid) scan 0 lo.length := by
            rw [hres2, slotsOf_ptrs of l2f hofp, hlen2]
          have hfinC : ExtendsF (scavengeClass s1 o2c.cid) (loopState h) := by
            have hpcinit : PartialCopy (scavengeClass s1 o2c.cid) scan o lo 0 :=
              ⟨o2c, lo, hto1, hcid, hhash, hpp, rfl,
                fun j hj => absurd hj (Nat.not_lt_zero j), fun j _ => rfl⟩
            have hjs : ∀ j b : Nat, 0 ≤ j → j < 0 + lo.length →
                lo.getD j (.imm 0) = .ptr b → Live h b ∧ b < h.space.length := by
              intro j b _ hjlt hgb
              have hjlo : j < lo.length := by omega
              have hmem : Ref.ptr b ∈ slotsOf o := by
                rw [slotsOf_ptrs o lo hopay, ← hgb]
                exact mem_of_getD lo j (.imm 0) hjlo
              exact ⟨Live.slot a o b hlivea hsa honw hone hmem,
                hwf.refOk a o hsa b hmem⟩
            have hx2 := (scavengeSlots_pres h hwf scan o lo lo.length
              (scavengeClass s1 o2c.cid) scan ex 0
              (invCore_to_cur h (scavengeClass s1 o2c.cid) scan ex (some scan) invC)
              hpcinit hjs).2.1
            refine extendsF_trans hx2 ?_
            rw [← hres1c]
            exact hfin
          obtain ⟨simC, ce, cw, cs, ca, ch, ct, cf⟩ :=
            simClass h hwf s1 s2 scan ex none inv1 sim scanF invF o2c.cid hcid2
              hfinC hCD
          have hpcinit : PartialCopy (scavengeClass s1 o2c.cid) scan o lo 0 :=
            ⟨o2c, lo, hto1, hcid, hhash, hpp, rfl,
              fun j hj => absurd hj (Nat.not_lt_zero j), fun j _ => rfl⟩
          have hjs : ∀ j b : Nat, 0 ≤ j → j < 0 + lo.length →
              lo.getD j (.imm 0) = .ptr b → Live h b ∧ b < h.space.length := by
            intro j b _ hjlt hgb
            have hjlo : j < lo.length := by omega
            have hmem : Ref.ptr b ∈ slotsOf o := by
              rw [slotsOf_ptrs o lo hopay, ← hgb]
              exact mem_of_getD lo j (.imm 0) hjlo
            exact ⟨Live.slot a o b hlivea hsa honw hone hmem,
              hwf.refOk a o hsa b hmem⟩
          have hfinSlots : ExtendsF (scavengeSlots (scavengeClass s1 o2c.cid)
              scan 0 lo.length) (loopState h) := by
            rw [← hres1c]
            exact hfin
          have hscanC : scan < (scavengeClass s1 o2c.cid).toSp.length := by
            have := hx1.2.2
            omega
          obtain ⟨simT, qe, qw, qs, qa, qh, qt, qf⟩ :=
            simSlots h hwf scan o lo of hof lo.length (scavengeClass s1 o2c.cid)
              scan ex 0 (scavengeClass s2 o2c.cid)
              (invCore_to_cur h (scavengeClass s1 o2c.cid) scan ex (some scan) invC)
              hpcinit hjs simC hscanC
              (fun j hj1 hj2 => by
                rw [slotsOf_ptrs of l2f hofp]
                exact hdone j (by omega)) hfinSlots
          obtain ⟨_, _, he2, hw2, _, _, _, _, _, _⟩ :=
            scavengeSlots_pres h hwf scan o lo lo.length (scavengeClass s1 o2c.cid)
              scan ex 0
              (invCore_to_cur h (scavengeClass s1 o2c.cid) scan ex (some scan) invC)
              hpcinit hjs
          rw [hres1c, hres2c]
          refine ⟨simT, ?_, qs.trans cs, qa.trans ca, qh.trans ch⟩
          rw [he2, he1, qe, ce]
          exact ephr

theorem scavengeSlots_sigma (k : Nat) : ∀ (s : GcState) (t i : Nat),
    (scavengeSlots s t i k).toSp.length + obCount (scavengeSlots s t i k).fromSp =
      s.toSp.length + obCount s.fromSp := by
  induction k with
  | zero =>
      intro s t i
      rfl
  | succ k ih =>
      intro s t i
      have hstep : scavengeSlots s t i (k + 1) =
          scavengeSlots ((scavengePointer s (s.getSlot t i)).1.putSlot t i
            (scavengePointer s (s.getSlot t i)).2) t (i + 1) k := rfl
      rw [hstep, ih]
      have hput : ((scavengePointer s (s.getSlot t i)).1.putSlot t i
          (scavengePointer s (s.getSlot t i)).2).toSp.length =
          (scavengePointer s (s.getSlot t i)).1.toSp.length := putSlot_len _ _ _ _
      rw [hput]
      exact scavengePointer_sigma s (s.getSlot t i)

theorem processObjAt_sigma (s : GcState) (t : Nat) :
    (processObjAt s t).toSp.length + obCount (processObjAt s t).fromSp =
      s.toSp.length + obCount s.fromSp := by
  by_cases hw : (s.objAt t).cid = kWeakArrayCid
  · have hres : processObjAt s t =
        { scavengeClass s (s.objAt t).cid with
          weaks := t :: (scavengeClass s (s.objAt t).cid).weaks } := by
      simp only [processObjAt]
      rw [if_pos hw]
    rw [hres]
    exact scavengeClass_sigma s (s.objAt t).cid
  · by_cases he : (s.objAt t).cid = kEphemeronCid
    · have hres : processObjAt s t =
          { scavengeClass s (s.objAt t).cid with
            ephems := t :: (scavengeClass s (s.objAt t).cid).ephems } := by
        simp only [processObjAt]
        rw [if_neg hw, if_pos he]
      rw [hres]
      exact scavengeClass_sigma s (s.objAt t).cid
    · have hres : processObjAt s t =
          scavengeSlots (scavengeClass s (s.objAt t).cid) t 0
            (slotsOf (s.objAt t)).length := by
        simp only [processObjAt]
        rw [if_neg hw, if_neg he]
      rw [hres, scavengeSlots_sigma]
      exact scavengeClass_sigma s (s.objAt t).cid

/-- Lockstep for `ProcessToSpace`: both runs advance their cursors together
to the same top. -/
theorem simProcessToSpace (h : Heap) (hwf : WF h)
    (hcids : ∀ (a : Nat) (o : Obj), h.space[a]? = some (.obj o) →
      kFirstLegalCid ≤ o.cid)
    (scanF : Nat) (invF : InvCore h (loopState h) scanF [] none)
    (hscanF : (loopState h).toSp.length ≤ scanF) (f1 : Nat) :
    ∀ (s1 : GcState) (scan : Nat) (ex : List Nat) (f2 : Nat) (s2 : GcState),
    InvCore h s1 scan ex none →
    s1.toSp.length + obCount s1.fromSp + 1 - scan ≤ f1 →
    s2.toSp.length + obCount s2.fromSp + 1 - scan ≤ f2 →
    Sim h s1 s2 →
    EphRel h s1.ephems s2.ephems →
    ExtendsF (processToSpace f1 s1 scan).1 (loopState h) →
    Sim h (processToSpace f1 s1 scan).1 (processToSpace f2 s2 scan).1 ∧
    (processToSpace f2 s2 scan).2 = (processToSpace f1 s1 scan).2 ∧
    EphRel h (processToSpace f1 s1 scan).1.ephems
      (processToSpace f2 s2 scan).1.ephems ∧
    (processToSpace f2 s2 scan).1.objectStore = s2.objectStore ∧
    (processToSpace f2 s2 scan).1.currentActivation = s2.currentActivation ∧
    (processToSpace f2 s2 scan).1.handles = s2.handles := by
  induction f1 with
  | zero =>
      intro s1 scan ex f2 s2 inv1 hf1 hf2 sim ephr hfin
      have := inv1.scanle
      have hob : 0 ≤ obCount s1.fromSp := Nat.zero_le _
      omega
  | succ f1 ih =>
      intro s1 scan ex f2 s2 inv1 hf1 hf2 sim ephr hfin
      by_cases hlt : scan < s1.toSp.length
      · have hres1 : processToSpace (f1 + 1) s1 scan =
            processToSpace f1 (processObjAt s1 scan) (scan + 1) := by
          simp only [processToSpace]
          rw [if_pos hlt]
        have hlt2 : scan < s2.toSp.length := by
          rw [sim.len]
          exact hlt
        cases f2 with
        | zero =>
            have := inv1.scanle
            have hlen2 := sim.len
            have hob : 0 ≤ obCount s2.fromSp := Nat.zero_le _
            omega
        | succ g2 =>
            have hres2 : processToSpace (g2 + 1) s2 scan =
                processToSpace g2 (processObjAt s2 scan) (scan + 1) := by
              simp only [processToSpace]
              rw [if_pos hlt2]
            obtain ⟨invO, hxO, hosO, hcaO, hhO, hsigO, hephO⟩ :=
              processObjAt_pres h hwf s1 scan ex inv1 hlt
            have hf1n : (processObjAt s1 scan).toSp.length +
                obCount (processObjAt s1 scan).fromSp + 1 - (scan + 1) ≤ f1 := by
              omega
            have hfinO : ExtendsF (processObjAt s1 scan) (loopState h) := by
              refine extendsF_trans
                (processToSpace_pres h hwf f1 (processObjAt s1 scan) (scan + 1) ex
                  invO hf1n).2.1 ?_
              rw [← hres1]
              exact hfin
            obtain ⟨simO, ephrO, osO2, caO2, hhO2⟩ :=
              simObjAt h hwf hcids s1 s2 scan ex inv1 hlt sim ephr scanF invF
                hscanF hfinO
            have hsig2 := processObjAt_sigma s2 scan
            have hf2n : (processObjAt s2 scan).toSp.length +
                obCount (processObjAt s2 scan).fromSp + 1 - (scan + 1) ≤ g2 := by
              omega
            have hfinT : ExtendsF (processToSpace f1 (processObjAt s1 scan)
                (scan + 1)).1 (loopState h) := by
              rw [← hres1]
              exact hfin
            obtain ⟨simT, hcur, ephrT, qs, qa, qh⟩ :=
              ih (processObjAt s1 scan) (scan + 1) ex g2 (processObjAt s2 scan)
                invO hf1n hf2n simO ephrO hfinT
            rw [hres1, hres2]
            exact ⟨simT, hcur, ephrT, qs.trans osO2, qa.trans caO2, qh.trans hhO2⟩
      · have hres1 : processToSpace (f1 + 1) s1 scan = (s1, scan) := by
          simp only [processToSpace]
          rw [if_neg hlt]
        have hlt2 : ¬ scan < s2.toSp.length := by
          rw [sim.len]
          exact hlt
        have hres2 : processToSpace f2 s2 scan = (s2, scan) := by
          cases f2 with
          | zero => rfl
          | succ g2 =>
              simp only [processToSpace]
              rw [if_neg hlt2]
        rw [hres1, hres2]
        exact ⟨sim, rfl, ephr, rfl, rfl, rfl⟩

theorem ephRel_cons_left (h : Heap) (l1 l2 : List Nat) (e : Nat)
    (hr : EphRel h l1 l2) (hm : e ∈ (loopState h).ephems) :
    EphRel h (e :: l1) l2 := by
  refine ⟨List.Sublist.cons e hr.1, ?_⟩
  intro e2 he2 hne2
  rcases List.mem_cons.mp he2 with rfl | he3
  · exact hm
  · exact hr.2 e2 he3 hne2

/-- Scavenging slots whose values are immediates or identity-forwarded
pointers is the identity. -/
theorem scavengeSlots_id (e : Nat) (k : Nat) : ∀ (s : GcState) (i : Nat),
    (∀ j : Nat, i ≤ j → j < i + k →
      (∃ v : Int, s.getSlot e j = .imm v) ∨
      (∃ (n : Nat) (o2 : Obj), s.getSlot e j = .ptr n ∧
        s.fromSp[n]? = some (.fwd n o2))) →
    scavengeSlots s e i k = s := by
  induction k with
  | zero =>
      intro s i _
      rfl
  | succ k ih =>
      intro s i hslots
      have hstep : scavengeSlots s e i (k + 1) =
          scavengeSlots ((scavengePointer s (s.getSlot e i)).1.putSlot e i
            (scavengePointer s (s.getSlot e i)).2) e (i + 1) k := rfl
      have hone : (scavengePointer s (s.getSlot e i)).1.putSlot e i
          (scavengePointer s (s.getSlot e i)).2 = s := by
        rcases hslots i (Nat.le_refl i) (by omega) with ⟨v, hv⟩ | ⟨n, o2, hn, hf⟩
        · rw [hv]
          exact putSlot_self s e i (.imm v) hv
        · rw [hn]
          have hres : scavengePointer s (.ptr n) = (s, .ptr n) := by
            simp only [scavengePointer, hf]
          rw [hres]
          exact putSlot_self s e i (.ptr n) hn
      rw [hstep, hone]
      exact ih s (i + 1) (fun j hj1 hj2 => hslots j (by omega) (by omega))

/-- An ephemeron whose key is already discovered mid-run is not on the final
worklist (it is processed, not mourned). -/
theorem knownNow_not_mourned (h : Heap) (hwf : WF h) (s1 : GcState) (scan : Nat)
    (ex : List Nat) (inv1 : InvCore h s1 scan ex none) (e : Nat) (he : e ∈ ex)
    (helt : e < scan) (hxSF : ExtendsF s1 (loopState h)) (scanF : Nat)
    (invF : InvCore h (loopState h) scanF [] none)
    (hscanF : (loopState h).toSp.length ≤ scanF)
    (hkeysF : ∀ e2 ∈ (loopState h).ephems,
      ephKeyKnown (loopState h) ((loopState h).getSlot e2 0) = false)
    (hk : ephKeyKnown s1 (s1.getSlot e 0) = true) :
    e ∉ (loopState h).ephems := by
  intro hmem
  have helt1 : e < s1.toSp.length := by
    have := inv1.scanle
    omega
  obtain ⟨a, o, hsa, hfa⟩ := inv1.surj e helt1
  have hfaSF : (loopState h).fromSp[a]? = some (.fwd e o) := hxSF.1 a e o hfa
  obtain ⟨o2n, hton, hcidn, _, hpayn⟩ := inv1.content a e o hsa hfa
    (fun hc => Option.noConfusion hc)
  obtain ⟨o2SF, htoSF, hcidSF, _, hpaySF⟩ := invF.content a e o hsa hfaSF
    (fun hc => Option.noConfusion hc)
  obtain ⟨_, o2m, h2m, hcidm⟩ := invF.ephmem e hmem
  obtain rfl : o2SF = o2m := Option.some.inj (htoSF.symm.trans h2m)
  have hoeph : o.cid = kEphemeronCid := hcidSF.symm.trans hcidm
  have hpayeqn : o2n.payload = o.payload := by
    rcases hpayn with ⟨h1, _⟩ | ⟨_, _, _, h4, _⟩ | ⟨_, hne, _, _⟩
    · exact h1
    · exact absurd he h4
    · exact absurd hoeph hne
  have hpayeqSF : o2SF.payload = o.payload := by
    rcases hpaySF with ⟨h1, _⟩ | ⟨_, _, h3, _⟩ | ⟨_, hne, _, _⟩
    · exact h1
    · exact absurd hmem h3
    · exact absurd hoeph hne
  have hkeySF := hkeysF e hmem
  cases hpo : o.payload with
  | bytes d =>
      have hgSF : (loopState h).getSlot e 0 = .imm 0 := by
        rw [getSlot_of_copy (loopState h) e o2SF htoSF 0,
          slotsOf_bytes o2SF d (hpayeqSF.trans hpo)]
        rfl
      rw [hgSF] at hkeySF
      exact Bool.noConfusion hkeySF
  | ptrs lo =>
      have hgN : s1.getSlot e 0 = lo.getD 0 (.imm 0) := by
        rw [getSlot_eq s1 e 0 o2n lo hton (hpayeqn.trans hpo)]
      have hgSF : (loopState h).getSlot e 0 = lo.getD 0 (.imm 0) := by
        rw [getSlot_eq (loopState h) e 0 o2SF lo htoSF (hpayeqSF.trans hpo)]
      rw [hgN] at hk
      rw [hgSF] at hkeySF
      cases hkey : lo.getD 0 (.imm 0) with
      | imm v =>
          rw [hkey] at hkeySF
          exact Bool.noConfusion hkeySF
      | ptr ka =>
          rw [hkey] at hk hkeySF
          obtain ⟨tk, ok, hfk⟩ := ephKeyKnown_ptr s1 ka hk
          have hfkSF : (loopState h).fromSp[ka]? = some (.fwd tk ok) :=
            hxSF.1 ka tk ok hfk
          have htrue : ephKeyKnown (loopState h) (.ptr ka) = true := by
            simp only [ephKeyKnown, hfkSF]
          rw [htrue] at hkeySF
          exact Bool.noConfusion hkeySF

theorem scavenge_space_no_fwd (h : Heap) (u m : Nat) (om : Obj) :
    (scavenge h).space[u]? ≠ some (.fwd m om) := by
  intro hc
  have hmap : (scavenge h).space = (scavengeGc h).toSp.map Cell.obj := rfl
  rw [hmap, List.getElem?_map] at hc
  cases hx : (scavengeGc h).toSp[u]? with
  | none =>
      rw [hx] at hc
      exact Option.noConfusion hc
  | some o2 =>
      rw [hx] at hc
      have hc2 : some (Cell.obj o2) = some (.fwd m om) := hc
      exact Cell.noConfusion (Option.some.inj hc2)

/-- Lockstep for the `ProcessEphemeronList` loop over the detached lists:
the second run's list is the first's minus some permanently dead ephemerons,
and the runs copy the same objects in the same order. -/
theorem simEphemList (h : Heap) (hwf : WF h) (scanF : Nat)
    (invF : InvCore h (loopState h) scanF [] none)
    (hscanF : (loopState h).toSp.length ≤ scanF)
    (hkeysF : ∀ e2 ∈ (loopState h).ephems,
      ephKeyKnown (loopState h) ((loopState h).getSlot e2 0) = false) :
    ∀ (L1 : List Nat) (s1 : GcState) (scan : Nat) (L2 : List Nat) (s2 : GcState),
    InvCore h s1 scan L1 none →
    L1.Nodup →
    (∀ e2 ∈ L1, e2 ∉ s1.ephems) →
    (∀ e2 ∈ L1, e2 < scan ∧ ∃ o2, s1.toSp[e2]? = some o2 ∧ o2.cid = kEphemeronCid) →
    Sim h s1 s2 →
    EphRel h L1 L2 →
    EphRel h s1.ephems s2.ephems →
    ExtendsF (processEphemList L1 s1) (loopState h) →
    Sim h (processEphemList L1 s1) (processEphemList L2 s2) ∧
    EphRel h (processEphemList L1 s1).ephems (processEphemList L2 s2).ephems ∧
    (processEphemList L2 s2).objectStore = s2.objectStore ∧
    (processEphemList L2 s2).currentActivation = s2.currentActivation ∧
    (processEphemList L2 s2).handles = s2.handles ∧
    (processEphemList L2 s2).weaks = s2.weaks := by
  intro L1
  induction L1 with
  | nil =>
      intro s1 scan L2 s2 inv hnd hdisj hex sim hrelL ephr hfin
      obtain rfl : L2 = [] := List.sublist_nil.mp hrelL.1
      exact ⟨sim, ephr, rfl, rfl, rfl, rfl⟩
  | cons e rest ih =>
      intro s1 scan L2 s2 inv hnd hdisj hex sim hrelL ephr hfin
      obtain ⟨helt, o2e, hte, hce⟩ := hex e (List.mem_cons_self e rest)
      have her : e ∉ rest := (List.nodup_cons.mp hnd).1
      have hndr : rest.Nodup := (List.nodup_cons.mp hnd).2
      have henotin : e ∉ s1.ephems := hdisj e (List.mem_cons_self e rest)
      have helt1 : e < s1.toSp.length := by
        have := inv.scanle
        omega
      have hres0 : processEphemList (e :: rest) s1 =
          processEphemList rest (if ephKeyKnown s1 (s1.getSlot e 0)
            then scavengeSlots s1 e 0 3
            else { s1 with ephems := e :: s1.ephems }) := rfl
      have hxS1 : ExtendsF s1 (loopState h) :=
        extendsF_trans
          (processEphemList_pres h hwf (e :: rest) s1 scan inv hnd hdisj hex).2.1 hfin
      obtain ⟨a, o, hsa, hfa⟩ := inv.surj e helt1
      obtain ⟨o2x, hto, hcid2, hhash2, hpay⟩ := inv.content a e o hsa hfa
        (fun hc => Option.noConfusion hc)
      obtain rfl : o2e = o2x := Option.some.inj (hte.symm.trans hto)
      have hoeph : o.cid = kEphemeronCid := hcid2.symm.trans hce
      have hpayeq : o2e.payload = o.payload := by
        rcases hpay with ⟨h1, _⟩ | ⟨_, _, _, h4, _⟩ | ⟨_, hne, _, _⟩
        · exact h1
        · exact absurd (List.mem_cons_self e rest) h4
        · exact absurd hoeph hne
      have hlivea : Live h a := inv.sound a ⟨e, o, hfa⟩
      have hfaSF : (loopState h).fromSp[a]? = some (.fwd e o) := hxS1.1 a e o hfa
      have heSFlt : e < (loopState h).toSp.length := by
        have := hxS1.2.2
        omega
      cases hrelL.1 with
      | cons _ hsub2 =>
          -- `e` was already dismissed by the second run: it is mourned, its
          -- key is still unknown, and the first run just pushes it back
          have heL2 : e ∉ L2 := fun hm => her (hsub2.subset hm)
          have hmemSF : e ∈ (loopState h).ephems :=
            hrelL.2 e (List.mem_cons_self e rest) heL2
          have hk : ephKeyKnown s1 (s1.getSlot e 0) = false := by
            by_contra hkt
            rw [Bool.not_eq_false] at hkt
            exact knownNow_not_mourned h hwf s1 scan (e :: rest) inv e
              (List.mem_cons_self e rest) helt hxS1 scanF invF hscanF hkeysF hkt hmemSF
          have hres : processEphemList (e :: rest) s1 =
              processEphemList rest { s1 with ephems := e :: s1.ephems } := by
            rw [hres0, if_neg (by rw [hk]; exact Bool.false_ne_true)]
          rw [hres]
          have inv1 : InvCore h { s1 with ephems := e :: s1.ephems } scan rest none :=
            invCore_expush h s1 scan e rest inv henotin helt ⟨o2e, hte, hce⟩
          have sim1 : Sim h { s1 with ephems := e :: s1.ephems } s2 :=
            ⟨sim.len, sim.flen, sim.tocells, sim.ffwd, sim.fobj, sim.weakeq,
              sim.table, sim.free⟩
          refine ih { s1 with ephems := e :: s1.ephems } scan L2 s2 inv1 hndr ?_
            (fun e2 he2x => hex e2 (List.mem_cons_of_mem e he2x)) sim1
            ⟨hsub2, fun e2 he2x hne2 =>
              hrelL.2 e2 (List.mem_cons_of_mem e he2x) hne2⟩
            (ephRel_cons_left h s1.ephems s2.ephems e ephr hmemSF) ?_
          · intro e2 he2x
            show e2 ∉ e :: s1.ephems
            intro hmem
            rcases List.mem_cons.mp hmem with rfl | hm2
            · exact her he2x
            · exact hdisj e2 (List.mem_cons_of_mem e he2x) hm2
          · rw [← hres]
            exact hfin
      | cons₂ _ hsub2 =>
          rename_i L2t
          have hdropr : ∀ e2 ∈ rest, e2 ∉ L2t → e2 ∈ (loopState h).ephems := by
            intro e2 he2x hne2
            refine hrelL.2 e2 (List.mem_cons_of_mem e he2x) ?_
            intro hm
            rcases List.mem_cons.mp hm with rfl | hm2
            · exact her he2x
            · exact hne2 hm2
          have hres0b : processEphemList (e :: L2t) s2 =
              processEphemList L2t (if ephKeyKnown s2 (s2.getSlot e 0)
                then scavengeSlots s2 e 0 3
                else { s2 with ephems := e :: s2.ephems }) := rfl
          by_cases hk : ephKeyKnown s1 (s1.getSlot e 0) = true
          · -- both runs process `e` now
            have hnotM : e ∉ (loopState h).ephems :=
              knownNow_not_mourned h hwf s1 scan (e :: rest) inv e
                (List.mem_cons_self e rest) helt hxS1 scanF invF hscanF hkeysF hk
            obtain ⟨of, hof, hofc, hofh, hed⟩ :=
              scavenge_final_eph_done h hwf scanF invF hscanF e heSFlt a o hsa hfaSF
                hoeph hnotM
            obtain ⟨hof2, hobj2⟩ := sim_copy h s1 s2 sim e helt1 of hof
            cases hppe : o2e.payload with
            | bytes d =>
                have hopay : o.payload = .bytes d := hpayeq ▸ hppe
                have hofbytes : of.payload = .bytes d := by
                  rcases hed with ⟨d2, hd1, hd2x⟩ | ⟨l, l2, hl1, _⟩
                  · rw [hd2x, Payload.bytes.inj (hd1.symm.trans hopay)]
                  · exact absurd (hl1.symm.trans hopay) (by simp)
                have hbs : scavengeSlots s1 e 0 3 = s1 :=
                  scavengeSlots_bytes e 3 s1 0 o2e d hte hppe
                have hres : processEphemList (e :: rest) s1 =
                    processEphemList rest s1 := by
                  rw [hres0, if_pos hk, hbs]
                have hk2 : ephKeyKnown s2 (s2.getSlot e 0) = true := by
                  have hg2 : s2.getSlot e 0 = .imm 0 := by
                    rw [sim_getSlot h s1 s2 sim e helt1 of hof 0,
                      slotsOf_bytes of d hofbytes]
                    rfl
                  rw [hg2]
                  rfl
                have hbs2 : scavengeSlots s2 e 0 3 = s2 :=
                  scavengeSlots_bytes e 3 s2 0 of d hof2 hofbytes
                have hres2 : processEphemList (e :: L2t) s2 =
                    processEphemList L2t s2 := by
                  rw [hres0b, if_pos hk2, hbs2]
                rw [hres, hres2]
                have invd : InvCore h s1 scan rest none := by
                  refine invCore_exdrop h s1 scan e rest
                    (invCore_to_cur h s1 scan (e :: rest) (some e) inv) ?_ helt
                    henotin her
                  intro a2 o2 h1 h2
                  obtain ⟨rfl, rfl⟩ := content_at_t h s1 scan e (e :: rest) none inv
                    a o hfa a2 o2 h1 h2
                  exact ⟨o2e, hte, hcid2, hhash2, hoeph, Or.inl ⟨d, hopay, hppe⟩⟩
                refine ih s1 scan L2t s2 invd hndr
                  (fun e2 he2x => hdisj e2 (List.mem_cons_of_mem e he2x))
                  (fun e2 he2x => hex e2 (List.mem_cons_of_mem e he2x)) sim
                  ⟨hsub2, hdropr⟩ ephr ?_
                rw [← hres]
                exact hfin
            | ptrs lo =>
                have hopay : o.payload = .ptrs lo := hpayeq ▸ hppe
                have hslo : slotsOf o = lo := slotsOf_ptrs o lo hopay
                have hkk : ephKeyKnown s1 (lo.getD 0 (.imm 0)) = true := by
                  rw [← getSlot_eq s1 e 0 o2e lo hte hppe]
                  exact hk
                have hpcinit : PartialCopy s1 e o lo 0 :=
                  ⟨o2e, lo, hte, hcid2, hhash2, hppe, rfl,
                    fun j hj => absurd hj (Nat.not_lt_zero j), fun j _ => rfl⟩
                have hjs : ∀ j b : Nat, 0 ≤ j → j < 0 + 3 →
                    lo.getD j (.imm 0) = .ptr b → Live h b ∧ b < h.space.length := by
                  intro j b _ hj3 hgb
                  have hjlen : j < lo.length := by
                    by_contra hge
                    rw [getD_beyond lo j (.imm 0) (by omega)] at hgb
                    exact Ref.noConfusion hgb
                  have hmem : Ref.ptr b ∈ slotsOf o := by
                    rw [hslo, ← hgb]
                    exact mem_of_getD lo j (.imm 0) hjlen
                  refine ⟨?_, hwf.refOk a o hsa b hmem⟩
                  rcases Nat.lt_or_ge j 1 with hj0 | hj1
                  · have hj0e : j = 0 := by omega
                    subst hj0e
                    rw [hgb] at hkk
                    obtain ⟨tf, off, hff⟩ := ephKeyKnown_ptr s1 b hkk
                    exact inv.sound b ⟨tf, off, hff⟩
                  · have hor : Ref.ptr b = (slotsOf o).getD 1 (.imm 0) ∨
                        Ref.ptr b = (slotsOf o).getD 2 (.imm 0) := by
                      rw [hslo]
                      rcases Nat.lt_or_ge j 2 with hj2 | hj2
                      · have hj1e : j = 1 := by omega
                        subst hj1e
                        exact Or.inl hgb.symm
                      · have hj2e : j = 2 := by omega
                        subst hj2e
                        exact Or.inr hgb.symm
                    cases hkey : lo.getD 0 (.imm 0) with
                    | imm v =>
                        refine Live.ephImm a o v b hlivea hsa hoeph ?_ hor
                        rw [hslo]
                        exact hkey
                    | ptr ka =>
                        rw [hkey] at hkk
                        obtain ⟨tf, off, hff⟩ := ephKeyKnown_ptr s1 ka hkk
                        refine Live.ephKey a o ka b hlivea hsa hoeph ?_
                          (inv.sound ka ⟨tf, off, hff⟩) hor
                        rw [hslo]
                        exact hkey
                obtain ⟨lof, hlof, hloflen, hsdF⟩ : ∃ lof : List Ref,
                    of.payload = .ptrs lof ∧ lof.length = lo.length ∧
                    ∀ j : Nat, j < 3 → j < lo.length → SlotDone (loopState h)
                      (lo.getD j (.imm 0)) (lof.getD j (.imm 0)) := by
                  rcases hed with ⟨d2, hd1, _⟩ | ⟨l, l2, hl1, hl2, hlen, hsd3, _⟩
                  · exact absurd (hd1.symm.trans hopay) (by simp)
                  · obtain rfl : l = lo := Payload.ptrs.inj (hl1.symm.trans hopay)
                    exact ⟨l2, hl2, hlen, hsd3⟩
                have hdone3 : ∀ j : Nat, 0 ≤ j → j < 0 + 3 →
                    SlotDone (loopState h) (lo.getD j (.imm 0))
                      ((slotsOf of).getD j (.imm 0)) := by
                  intro j _ hj3
                  rw [slotsOf_ptrs of lof hlof]
                  by_cases hjlen : j < lo.length
                  · exact hsdF j (by omega) hjlen
                  · rw [getD_beyond lo j (.imm 0) (by omega),
                      getD_beyond lof j (.imm 0) (by omega)]
                    exact Or.inl ⟨0, rfl, rfl⟩
                have hk2 : ephKeyKnown s2 (s2.getSlot e 0) = true := by
                  have hg2 : s2.getSlot e 0 = lof.getD 0 (.imm 0) := by
                    rw [sim_getSlot h s1 s2 sim e helt1 of hof 0,
                      slotsOf_ptrs of lof hlof]
                  rw [hg2]
                  cases hkey : lo.getD 0 (.imm 0) with
                  | imm v =>
                      have hcur : lof.getD 0 (.imm 0) = .imm v := by
                        rcases hdone3 0 (Nat.le_refl 0) (by omega) with
                          ⟨v2, h1, h2⟩ | ⟨b2, tb, ob, h1, _⟩
                        · rw [slotsOf_ptrs of lof hlof] at h2
                          rw [h2, hkey]
                        · rw [hkey] at h1
                          exact Ref.noConfusion h1
                      rw [hcur]
                      rfl
                  | ptr k =>
                      rw [hkey] at hkk
                      obtain ⟨tk, ok, hfk⟩ := ephKeyKnown_ptr s1 k hkk
                      have hfkSF : (loopState h).fromSp[k]? = some (.fwd tk ok) :=
                        hxS1.1 k tk ok hfk
                      have hcur : lof.getD 0 (.imm 0) = .ptr tk := by
                        rcases hdone3 0 (Nat.le_refl 0) (by omega) with
                          ⟨v2, h1, _⟩ | ⟨b2, tb, ob, h1, h2, h3⟩
                        · rw [hkey] at h1
                          exact Ref.noConfusion h1
                        · rw [hkey] at h1
                          obtain rfl : b2 = k := (Ref.ptr.inj h1).symm
                          rw [hfkSF] at h2
                          obtain ⟨hteq, _⟩ := Cell.fwd.inj (Option.some.inj h2)
                          rw [slotsOf_ptrs of lof hlof] at h3
                          rw [h3, hteq]
                      have htklt : tk < s1.toSp.length := by
                        rcases inv.fcells k with heq | ⟨o3, t3, hsp3, hf3, hlt3⟩
                        · rw [heq] at hfk
                          exact absurd hfk (hwf.noCorpse k tk ok)
                        · rw [hf3] at hfk
                          obtain ⟨hte2, _⟩ := Cell.fwd.inj (Option.some.inj hfk)
                          rw [← hte2]
                          exact hlt3
                      obtain ⟨o2t, _, hf2t⟩ := sim.ffwd tk htklt
                      rw [hcur]
                      simp only [ephKeyKnown, hf2t]
                have hres : processEphemList (e :: rest) s1 =
                    processEphemList rest (scavengeSlots s1 e 0 3) := by
                  rw [hres0, if_pos hk]
                have hres2 : processEphemList (e :: L2t) s2 =
                    processEphemList L2t (scavengeSlots s2 e 0 3) := by
                  rw [hres0b, if_pos hk2]
                obtain ⟨inv2, hx2, he2, hw2, hos2, hca2, hh2, hpre2, hsig2, hpc2⟩ :=
                  scavengeSlots_pres h hwf e o lo 3 s1 scan (e :: rest) 0
                    (invCore_to_cur h s1 scan (e :: rest) (some e) inv) hpcinit hjs
                obtain ⟨o2f, l2f, hf1, hf2, hf3, hf4, hf5, hf6, hf7⟩ := hpc2
                have hfa2 : (scavengeSlots s1 e 0 3).fromSp[a]? = some (.fwd e o) :=
                  hx2.1 a e o hfa
                have invd : InvCore h (scavengeSlots s1 e 0 3) scan rest none := by
                  refine invCore_exdrop h (scavengeSlots s1 e 0 3) scan e rest inv2 ?_
                    helt (by rw [he2]; exact henotin) her
                  intro a2 o2 h1 h2
                  obtain ⟨rfl, rfl⟩ := content_at_t h (scavengeSlots s1 e 0 3) scan e
                    (e :: rest) (some e) inv2 a o hfa2 a2 o2 h1 h2
                  refine ⟨o2f, hf1, hf2, hf3, hoeph,
                    Or.inr ⟨lo, l2f, hopay, hf4, hf5, ?_, ?_⟩⟩
                  · intro i hi3 hilen
                    exact hf6 i (by omega)
                  · intro i hi3
                    exact hf7 i (by omega)
                have hdisjd : ∀ e2 ∈ rest, e2 ∉ (scavengeSlots s1 e 0 3).ephems := by
                  intro e2 he2x
                  rw [he2]
                  exact hdisj e2 (List.mem_cons_of_mem e he2x)
                have hexd : ∀ e2 ∈ rest, e2 < scan ∧ ∃ o2,
                    (scavengeSlots s1 e 0 3).toSp[e2]? = some o2 ∧
                    o2.cid = kEphemeronCid := by
                  intro e2 he2x
                  obtain ⟨hlt2, o2y, hty, hcy⟩ := hex e2 (List.mem_cons_of_mem e he2x)
                  have hne2 : e2 ≠ e := fun hh => her (hh ▸ he2x)
                  exact ⟨hlt2, o2y,
                    by rw [hpre2 e2 (getElem_some_lt _ _ _ hty) hne2]; exact hty, hcy⟩
                have hfind : ExtendsF (processEphemList rest (scavengeSlots s1 e 0 3))
                    (loopState h) := by
                  rw [← hres]
                  exact hfin
                have hfinSlots : ExtendsF (scavengeSlots s1 e 0 3) (loopState h) :=
                  extendsF_trans
                    (processEphemList_pres h hwf rest (scavengeSlots s1 e 0 3) scan
                      invd hndr hdisjd hexd).2.1 hfind
                obtain ⟨simT, qe, qw, qs, qa, qh, qt, qf⟩ :=
                  simSlots h hwf e o lo of hof 3 s1 scan (e :: rest) 0 s2
                    (invCore_to_cur h s1 scan (e :: rest) (some e) inv) hpcinit hjs
                    sim helt1 hdone3 hfinSlots
                rw [hres, hres2]
                obtain ⟨rs, rephr, r3, r4, r5, r6⟩ :=
                  ih (scavengeSlots s1 e 0 3) scan L2t (scavengeSlots s2 e 0 3) invd
                    hndr hdisjd hexd simT ⟨hsub2, hdropr⟩
                    (by rw [he2, qe]; exact ephr) hfind
                exact ⟨rs, rephr, r3.trans qs, r4.trans qa, r5.trans qh, r6.trans qw⟩
          · -- the first run pushes `e` back
            rw [Bool.not_eq_true] at hk
            have hres : processEphemList (e :: rest) s1 =
                processEphemList rest { s1 with ephems := e :: s1.ephems } := by
              rw [hres0, if_neg (by rw [hk]; exact Bool.false_ne_true)]
            have inv1 : InvCore h { s1 with ephems := e :: s1.ephems } scan rest none :=
              invCore_expush h s1 scan e rest inv henotin helt ⟨o2e, hte, hce⟩
            have hdisj1 : ∀ e2 ∈ rest, e2 ∉ ({ s1 with ephems := e :: s1.ephems } :
                GcState).ephems := by
              intro e2 he2x
              show e2 ∉ e :: s1.ephems
              intro hmem
              rcases List.mem_cons.mp hmem with rfl | hm2
              · exact her he2x
              · exact hdisj e2 (List.mem_cons_of_mem e he2x) hm2
            by_cases hk2 : ephKeyKnown s2 (s2.getSlot e 0) = true
            · -- the second run still holds `e`, but its final slots are nil
              -- and processing it is a no-op
              have hmemSF : e ∈ (loopState h).ephems := by
                by_contra hnm
                obtain ⟨of, hof, hofc, hofh, hed⟩ :=
                  scavenge_final_eph_done h hwf scanF invF hscanF e heSFlt a o hsa
                    hfaSF hoeph hnm
                obtain ⟨hof2, hobj2⟩ := sim_copy h s1 s2 sim e helt1 of hof
                cases hppe : o2e.payload with
                | bytes d =>
                    have hg1 : s1.getSlot e 0 = .imm 0 := by
                      rw [getSlot_of_copy s1 e o2e hte 0, slotsOf_bytes o2e d hppe]
                      rfl
                    rw [hg1] at hk
                    exact Bool.noConfusion hk
                | ptrs lo =>
                    have hopay : o.payload = .ptrs lo := hpayeq ▸ hppe
                    have hg1 : s1.getSlot e 0 = lo.getD 0 (.imm 0) :=
                      getSlot_eq s1 e 0 o2e lo hte hppe
                    obtain ⟨lof, hlof, hloflen, hsdF⟩ : ∃ lof : List Ref,
                        of.payload = .ptrs lof ∧ lof.length = lo.length ∧
                        ∀ j : Nat, j < 3 → j < lo.length → SlotDone (loopState h)
                          (lo.getD j (.imm 0)) (lof.getD j (.imm 0)) := by
                      rcases hed with ⟨d2, hd1, _⟩ | ⟨l, l2, hl1, hl2, hlen, hsd3, _⟩
                      · exact absurd (hd1.symm.trans hopay) (by simp)
                      · obtain rfl : l = lo := Payload.ptrs.inj (hl1.symm.trans hopay)
                        exact ⟨l2, hl2, hlen, hsd3⟩
                    have hg2 : s2.getSlot e 0 = lof.getD 0 (.imm 0) := by
                      rw [sim_getSlot h s1 s2 sim e helt1 of hof 0,
                        slotsOf_ptrs of lof hlof]
                    by_cases h0len : 0 < lo.length
                    · cases hkey : lo.getD 0 (.imm 0) with
                      | imm v =>
                          rw [hg1, hkey] at hk
                          exact Bool.noConfusion hk
                      | ptr k =>
                          rcases hsdF 0 (by omega) h0len with
                            ⟨v2, h1, _⟩ | ⟨b2, tb, ob, h1, h2, h3⟩
                          · rw [hkey] at h1
                            exact Ref.noConfusion h1
                          · rw [hkey] at h1
                            have hb2k : b2 = k := (Ref.ptr.inj h1).symm
                            rw [hb2k] at h2
                            rw [hg2, h3] at hk2
                            obtain ⟨m, om, hfm⟩ := ephKeyKnown_ptr s2 tb hk2
                            by_cases htb : tb < s1.toSp.length
                            · obtain ⟨a1, o1, hsa1, hfa1⟩ := inv.surj tb htb
                              have hfa1SF : (loopState h).fromSp[a1]? =
                                  some (.fwd tb o1) := hxS1.1 a1 tb o1 hfa1
                              have ha1k : a1 = k := invF.inj a1 k tb o1 ob hfa1SF h2
                              rw [ha1k] at hfa1
                              have hkt : ephKeyKnown s1 (s1.getSlot e 0) = true := by
                                rw [hg1, hkey]
                                simp only [ephKeyKnown, hfa1]
                              rw [hkt] at hk
                              exact Bool.noConfusion hk
                            · have hfm2 : (scavenge h).space[tb]? =
                                  some (.fwd m om) := by
                                rw [← sim.fobj tb (by omega)]
                                exact hfm
                              exact scavenge_space_no_fwd h tb m om hfm2
                    · have hg1z : s1.getSlot e 0 = .imm 0 := by
                        rw [hg1, getD_beyond lo 0 (.imm 0) (by omega)]
                      rw [hg1z] at hk
                      exact Bool.noConfusion hk
              obtain ⟨o2F, hto2F, hpayF, hcidF, hhashF, hofm⟩ :=
                scavenge_final_eph_mourned h hwf scanF invF hscanF e heSFlt a o hsa
                  hfaSF hmemSF
              obtain ⟨hof2, hobj2⟩ := sim_copy h s1 s2 sim e helt1 _ hofm
              have hid : scavengeSlots s2 e 0 3 = s2 := by
                refine scavengeSlots_id e 3 s2 0 ?_
                intro j _ hj3
                have hgj : s2.getSlot e j = (slotsOf (((o2F.setSlot 0
                    (nilOf (loopState h))).setSlot 1 (nilOf (loopState h))).setSlot 2
                    (nilOf (loopState h)))).getD j (.imm 0) :=
                  sim_getSlot h s1 s2 sim e helt1 _ hofm j
                cases hpo : o.payload with
                | bytes d =>
                    have hpF : o2F.payload = .bytes d := hpayF.trans hpo
                    rw [setSlot_bytes o2F d 0 _ hpF, setSlot_bytes o2F d 1 _ hpF,
                      setSlot_bytes o2F d 2 _ hpF, slotsOf_bytes o2F d hpF] at hgj
                    refine Or.inl ⟨0, ?_⟩
                    rw [hgj]
                    rfl
                | ptrs lo =>
                    have hpF : o2F.payload = .ptrs lo := hpayF.trans hpo
                    have htrip : (((o2F.setSlot 0 (nilOf (loopState h))).setSlot 1
                        (nilOf (loopState h))).setSlot 2 (nilOf (loopState h))) =
                        ⟨o2F.cid, o2F.hash, .ptrs (((lo.set 0
                          (nilOf (loopState h))).set 1 (nilOf (loopState h))).set 2
                          (nilOf (loopState h)))⟩ := by
                      rw [obj_eta_ptrs o2F lo hpF]
                      rfl
                    rw [htrip] at hgj
                    have hslots2 : slotsOf (⟨o2F.cid, o2F.hash, .ptrs (((lo.set 0
                        (nilOf (loopState h))).set 1 (nilOf (loopState h))).set 2
                        (nilOf (loopState h)))⟩ : Obj) = ((lo.set 0
                        (nilOf (loopState h))).set 1 (nilOf (loopState h))).set 2
                        (nilOf (loopState h)) := rfl
                    rw [hslots2] at hgj
                    by_cases hjlen : j < lo.length
                    · rw [getD_set012 lo (nilOf (loopState h)) j hj3 hjlen] at hgj
                      cases hnil : nilOf (loopState h) with
                      | imm v =>
                          rw [hnil] at hgj
                          exact Or.inl ⟨v, hgj⟩
                      | ptr nn =>
                          rw [hnil] at hgj
                          have h0len : 0 < lo.length := by omega
                          have hg20 : s2.getSlot e 0 = .ptr nn := by
                            have hgj0 : s2.getSlot e 0 = (((lo.set 0
                                (nilOf (loopState h))).set 1
                                (nilOf (loopState h))).set 2
                                (nilOf (loopState h))).getD 0 (.imm 0) := by
                              rw [sim_getSlot h s1 s2 sim e helt1 _ hofm 0, htrip]
                              rfl
                            rw [hgj0, getD_set012 lo (nilOf (loopState h)) 0
                              (by omega) h0len, hnil]
                          rw [hg20] at hk2
                          obtain ⟨m, om, hfm⟩ := ephKeyKnown_ptr s2 nn hk2
                          by_cases hnn : nn < s1.toSp.length
                          · obtain ⟨o2t, _, hf2t⟩ := sim.ffwd nn hnn
                            exact Or.inr ⟨nn, o2t, hgj, hf2t⟩
                          · have hfm2 : (scavenge h).space[nn]? =
                                some (.fwd m om) := by
                              rw [← sim.fobj nn (by omega)]
                              exact hfm
                            exact absurd hfm2 (scavenge_space_no_fwd h nn m om)
                    · rw [getD_beyond (((lo.set 0 (nilOf (loopState h))).set 1
                        (nilOf (loopState h))).set 2 (nilOf (loopState h))) j (.imm 0)
                        (by rw [List.length_set, List.length_set, List.length_set]
                            omega)] at hgj
                      exact Or.inl ⟨0, hgj⟩
              have hres2 : processEphemList (e :: L2t) s2 =
                  processEphemList L2t s2 := by
                rw [hres0b, if_pos hk2, hid]
              rw [hres, hres2]
              have sim1 : Sim h { s1 with ephems := e :: s1.ephems } s2 :=
                ⟨sim.len, sim.flen, sim.tocells, sim.ffwd, sim.fobj, sim.weakeq,
                  sim.table, sim.free⟩
              refine ih { s1 with ephems := e :: s1.ephems } scan L2t s2 inv1 hndr
                hdisj1 (fun e2 he2x => hex e2 (List.mem_cons_of_mem e he2x)) sim1
                ⟨hsub2, hdropr⟩
                (ephRel_cons_left h s1.ephems s2.ephems e ephr hmemSF) ?_
              rw [← hres]
              exact hfin
            · -- both runs push `e` back
              rw [Bool.not_eq_true] at hk2
              have hres2 : processEphemList (e :: L2t) s2 =
                  processEphemList L2t { s2 with ephems := e :: s2.ephems } := by
                rw [hres0b, if_neg (by rw [hk2]; exact Bool.false_ne_true)]
              rw [hres, hres2]
              have sim1 : Sim h { s1 with ephems := e :: s1.ephems }
                  { s2 with ephems := e :: s2.ephems } :=
                ⟨sim.len, sim.flen, sim.tocells, sim.ffwd, sim.fobj, sim.weakeq,
                  sim.table, sim.free⟩
              obtain ⟨rs, rephr, r3, r4, r5, r6⟩ :=
                ih { s1 with ephems := e :: s1.ephems } scan L2t
                  { s2 with ephems := e :: s2.ephems } inv1 hndr hdisj1
                  (fun e2 he2x => hex e2 (List.mem_cons_of_mem e he2x)) sim1
                  ⟨hsub2, hdropr⟩
                  (ephRel_cons h s1.ephems s2.ephems e ephr)
                  (by rw [← hres]; exact hfin)
              exact ⟨rs, rephr, r3, r4, r5, r6⟩

/-- Lockstep for `ProcessEphemeronList`: detach both worklists and process
them in step. -/
theorem simProcessEphemeronList (h : Heap) (hwf : WF h) (scanF : Nat)
    (invF : InvCore h (loopState h) scanF [] none)
    (hscanF : (loopState h).toSp.length ≤ scanF)
    (hkeysF : ∀ e2 ∈ (loopState h).ephems,
      ephKeyKnown (loopState h) ((loopState h).getSlot e2 0) = false)
    (s1 s2 : GcState) (scan : Nat) (inv : InvCore h s1 scan [] none)
    (sim : Sim h s1 s2) (ephr : EphRel h s1.ephems s2.ephems)
    (hfin : ExtendsF (processEphemeronList s1) (loopState h)) :
    Sim h (processEphemeronList s1) (processEphemeronList s2) ∧
    EphRel h (processEphemeronList s1).ephems (processEphemeronList s2).ephems ∧
    (processEphemeronList s2).objectStore = s2.objectStore ∧
    (processEphemeronList s2).currentActivation = s2.currentActivation ∧
    (processEphemeronList s2).handles = s2.handles ∧
    (processEphemeronList s2).weaks = s2.weaks := by
  have hres1 : processEphemeronList s1 =
      processEphemList s1.ephems { s1 with ephems := [] } := rfl
  have hres2 : processEphemeronList s2 =
      processEphemList s2.ephems { s2 with ephems := [] } := rfl
  have invd : InvCore h { s1 with ephems := [] } scan s1.ephems none :=
    invCore_detach h s1 scan inv
  have simd : Sim h { s1 with ephems := [] } { s2 with ephems := [] } :=
    ⟨sim.len, sim.flen, sim.tocells, sim.ffwd, sim.fobj, sim.weakeq,
      sim.table, sim.free⟩
  have hex : ∀ e2 ∈ s1.ephems, e2 < scan ∧ ∃ o2,
      ({ s1 with ephems := ([] : List Nat) } : GcState).toSp[e2]? = some o2 ∧
      o2.cid = kEphemeronCid := by
    intro e2 he2
    obtain ⟨hlt, o2, h2, hc⟩ := inv.ephmem e2 he2
    exact ⟨hlt, o2, h2, hc⟩
  obtain ⟨rs, rephr, r3, r4, r5, r6⟩ :=
    simEphemList h hwf scanF invF hscanF hkeysF s1.ephems
      { s1 with ephems := [] } scan s2.ephems { s2 with ephems := [] } invd
      inv.ephnd (fun e2 _ => List.not_mem_nil e2) hex simd ephr
      (ephRel_nil h) (by rw [← hres1]; exact hfin)
  rw [hres1, hres2]
  exact ⟨rs, rephr, r3, r4, r5, r6⟩

theorem processToSpace_sigma (f : Nat) : ∀ (s : GcState) (scan : Nat),
    (processToSpace f s scan).1.toSp.length +
      obCount (processToSpace f s scan).1.fromSp =
    s.toSp.length + obCount s.fromSp := by
  induction f with
  | zero =>
      intro s scan
      rfl
  | succ f ih =>
      intro s scan
      by_cases hlt : scan < s.toSp.length
      · have hres : processToSpace (f + 1) s scan =
            processToSpace f (processObjAt s scan) (scan + 1) := by
          simp only [processToSpace]
          rw [if_pos hlt]
        rw [hres, ih]
        exact processObjAt_sigma s scan
      · have hres : processToSpace (f + 1) s scan = (s, scan) := by
          simp only [processToSpace]
          rw [if_neg hlt]
        rw [hres]

theorem processEphemList_sigma (es : List Nat) : ∀ s : GcState,
    (processEphemList es s).toSp.length + obCount (processEphemList es s).fromSp =
      s.toSp.length + obCount s.fromSp := by
  induction es with
  | nil =>
      intro s
      rfl
  | cons e rest ih =>
      intro s
      have hres : processEphemList (e :: rest) s =
          processEphemList rest (if ephKeyKnown s (s.getSlot e 0)
            then scavengeSlots s e 0 3
            else { s with ephems := e :: s.ephems }) := rfl
      rw [hres, ih]
      by_cases hk : ephKeyKnown s (s.getSlot e 0) = true
      · rw [if_pos hk]
        exact scavengeSlots_sigma 3 s e 0
      · rw [Bool.not_eq_true] at hk
        rw [if_neg (by rw [hk]; exact Bool.false_ne_true)]

theorem processEphemeronList_sigma (s : GcState) :
    (processEphemeronList s).toSp.length + obCount (processEphemeronList s).fromSp =
      s.toSp.length + obCount s.fromSp :=
  processEphemList_sigma s.ephems { s with ephems := [] }

/-- Lockstep for the scavenge fixpoint loop. -/
theorem simLoop (h : Heap) (hwf : WF h)
    (hcids : ∀ (a : Nat) (o : Obj), h.space[a]? = some (.obj o) →
      kFirstLegalCid ≤ o.cid)
    (scanF : Nat) (invF : InvCore h (loopState h) scanF [] none)
    (hscanF : (loopState h).toSp.length ≤ scanF)
    (hkeysF : ∀ e2 ∈ (loopState h).ephems,
      ephKeyKnown (loopState h) ((loopState h).getSlot e2 0) = false) (f1 : Nat) :
    ∀ (s1 : GcState) (scan : Nat) (f2 : Nat) (s2 : GcState),
    InvCore h s1 scan [] none →
    1 ≤ f1 →
    (scan < s1.toSp.length → obCount s1.fromSp + 2 ≤ f1) →
    (s1.toSp.length ≤ scan → ∀ e2 ∈ s1.ephems,
      ephKeyKnown s1 (s1.getSlot e2 0) = false) →
    1 ≤ f2 →
    (scan < s2.toSp.length → obCount s2.fromSp + 2 ≤ f2) →
    Sim h s1 s2 →
    EphRel h s1.ephems s2.ephems →
    ExtendsF (scavengeLoop f1 s1 scan) (loopState h) →
    Sim h (scavengeLoop f1 s1 scan) (scavengeLoop f2 s2 scan) ∧
    EphRel h (scavengeLoop f1 s1 scan).ephems (scavengeLoop f2 s2 scan).ephems ∧
    (scavengeLoop f2 s2 scan).objectStore = s2.objectStore ∧
    (scavengeLoop f2 s2 scan).currentActivation = s2.currentActivation ∧
    (scavengeLoop f2 s2 scan).handles = s2.handles := by
  induction f1 with
  | zero =>
      intro s1 scan f2 s2 inv h1 _ _ _ _ _ _ _
      omega
  | succ f1 ih =>
      intro s1 scan f2 s2 inv h1 hfuel1 hkeys1 h2 hfuel2 sim ephr hfin
      have hres0 : scavengeLoop (f1 + 1) s1 scan =
          if scan < s1.toSp.length then
            scavengeLoop f1
              (processEphemeronList
                (processToSpace (s1.toSp.length + obCount s1.fromSp + 1) s1 scan).1)
              (processToSpace (s1.toSp.length + obCount s1.fromSp + 1) s1 scan).2
          else s1 := rfl
      by_cases hlt : scan < s1.toSp.length
      · have hres : scavengeLoop (f1 + 1) s1 scan =
            scavengeLoop f1
              (processEphemeronList
                (processToSpace (s1.toSp.length + obCount s1.fromSp + 1) s1 scan).1)
              (processToSpace (s1.toSp.length + obCount s1.fromSp + 1) s1 scan).2 :=
          hres0.trans (if_pos hlt)
        have hlt2 : scan < s2.toSp.length := by
          rw [sim.len]
          exact hlt
        cases f2 with
        | zero => omega
        | succ g2 =>
            have hres2 : scavengeLoop (g2 + 1) s2 scan =
                scavengeLoop g2
                  (processEphemeronList
                    (processToSpace (s2.toSp.length + obCount s2.fromSp + 1) s2
                      scan).1)
                  (processToSpace (s2.toSp.length + obCount s2.fromSp + 1) s2
                    scan).2 := by
              have hres0b : scavengeLoop (g2 + 1) s2 scan =
                  if scan < s2.toSp.length then
                    scavengeLoop g2
                      (processEphemeronList
                        (processToSpace (s2.toSp.length + obCount s2.fromSp + 1) s2
                          scan).1)
                      (processToSpace (s2.toSp.length + obCount s2.fromSp + 1) s2
                        scan).2
                  else s2 := rfl
              exact hres0b.trans (if_pos hlt2)
            obtain ⟨inv2, hx2, hos2, hca2, hh2, hsig2, hem2, hend⟩ :=
              processToSpace_pres h hwf (s1.toSp.length + obCount s1.fromSp + 1) s1
                scan [] inv (by omega)
            obtain ⟨inv3, hx3, hos3, hca3, hh3, hsig3, hnc3⟩ :=
              processEphemeronList_pres h hwf
                (processToSpace (s1.toSp.length + obCount s1.fromSp + 1) s1 scan).1
                (processToSpace (s1.toSp.length + obCount s1.fromSp + 1) s1 scan).2
                inv2
            have hlen12 : s1.toSp.length ≤
                (processToSpace (s1.toSp.length + obCount s1.fromSp + 1) s1
                  scan).1.toSp.length := hx2.2.2
            have hlen23 :
                (processToSpace (s1.toSp.length + obCount s1.fromSp + 1) s1
                  scan).1.toSp.length ≤
                (processEphemeronList
                  (processToSpace (s1.toSp.length + obCount s1.fromSp + 1) s1
                    scan).1).toSp.length := hx3.2.2
            have hfuel1b : obCount s1.fromSp + 2 ≤ f1 + 1 := hfuel1 hlt
            have hfuel2b : obCount s2.fromSp + 2 ≤ g2 + 1 := hfuel2 hlt2
            -- the continuation of the first run extends to the final state
            have hfinT : ExtendsF
                (scavengeLoop f1
                  (processEphemeronList
                    (processToSpace (s1.toSp.length + obCount s1.fromSp + 1) s1
                      scan).1)
                  (processToSpace (s1.toSp.length + obCount s1.fromSp + 1) s1
                    scan).2) (loopState h) := by
              rw [← hres]
              exact hfin
            obtain ⟨scanT, t1, t2, t3, t4, t5, t6, t7⟩ :=
              scavengeLoop_pres h hwf f1
                (processEphemeronList
                  (processToSpace (s1.toSp.length + obCount s1.fromSp + 1) s1
                    scan).1)
                (processToSpace (s1.toSp.length + obCount s1.fromSp + 1) s1 scan).2
                inv3 (by omega) (fun hc => by omega)
                (fun hge e2 he2 => hnc3 (by omega) e2 he2)
            have hfinE : ExtendsF
                (processEphemeronList
                  (processToSpace (s1.toSp.length + obCount s1.fromSp + 1) s1
                    scan).1) (loopState h) := extendsF_trans t3 hfinT
            have hfinP : ExtendsF
                (processToSpace (s1.toSp.length + obCount s1.fromSp + 1) s1
                  scan).1 (loopState h) := extendsF_trans hx3 hfinE
            obtain ⟨simP, hcur, ephrP, ps, pa, ph⟩ :=
              simProcessToSpace h hwf hcids scanF invF hscanF
                (s1.toSp.length + obCount s1.fromSp + 1) s1 scan []
                (s2.toSp.length + obCount s2.fromSp + 1) s2 inv (by omega)
                (by omega) sim ephr hfinP
            obtain ⟨simE, ephrE, es, ea, eh, ew⟩ :=
              simProcessEphemeronList h hwf scanF invF hscanF hkeysF
                (processToSpace (s1.toSp.length + obCount s1.fromSp + 1) s1 scan).1
                (processToSpace (s2.toSp.length + obCount s2.fromSp + 1) s2 scan).1
                (processToSpace (s1.toSp.length + obCount s1.fromSp + 1) s1 scan).2
                inv2 simP ephrP hfinE
            have hsigP2 := processToSpace_sigma
              (s2.toSp.length + obCount s2.fromSp + 1) s2 scan
            have hsigE2 := processEphemeronList_sigma
              (processToSpace (s2.toSp.length + obCount s2.fromSp + 1) s2 scan).1
            have hlenP : (processToSpace (s2.toSp.length + obCount s2.fromSp + 1)
                s2 scan).1.toSp.length =
                (processToSpace (s1.toSp.length + obCount s1.fromSp + 1) s1
                  scan).1.toSp.length := simP.len
            have hlenE : (processEphemeronList
                (processToSpace (s2.toSp.length + obCount s2.fromSp + 1) s2
                  scan).1).toSp.length =
                (processEphemeronList
                  (processToSpace (s1.toSp.length + obCount s1.fromSp + 1) s1
                    scan).1).toSp.length := simE.len
            have hslen : s2.toSp.length = s1.toSp.length := sim.len
            obtain ⟨rs, rephr, r3, r4, r5⟩ :=
              ih (processEphemeronList
                   (processToSpace (s1.toSp.length + obCount s1.fromSp + 1) s1
                     scan).1)
                 (processToSpace (s1.toSp.length + obCount s1.fromSp + 1) s1 scan).2
                 g2
                 (processEphemeronList
                   (processToSpace (s2.toSp.length + obCount s2.fromSp + 1) s2
                     scan).1)
                 inv3 (by omega) (fun hc => by omega)
                 (fun hge e2 he2 => hnc3 (by omega) e2 he2)
                 (by omega)
                 (fun hc => by omega)
                 simE ephrE hfinT
            rw [hres, hres2]
            rw [hcur]
            exact ⟨rs, rephr, r3.trans (es.trans ps), r4.trans (ea.trans pa),
              r5.trans (eh.trans ph)⟩
      · have hres : scavengeLoop (f1 + 1) s1 scan = s1 := hres0.trans (if_neg hlt)
        have hlt2 : ¬ scan < s2.toSp.length := by
          rw [sim.len]
          exact hlt
        have hres2 : scavengeLoop f2 s2 scan = s2 := by
          cases f2 with
          | zero => rfl
          | succ g2 =>
              have hres0b : scavengeLoop (g2 + 1) s2 scan =
                  if scan < s2.toSp.length then
                    scavengeLoop g2
                      (processEphemeronList
                        (processToSpace (s2.toSp.length + obCount s2.fromSp + 1) s2
                          scan).1)
                      (processToSpace (s2.toSp.length + obCount s2.fromSp + 1) s2
                        scan).2
                  else s2 := rfl
              exact hres0b.trans (if_neg hlt2)
        rw [hres, hres2]
        exact ⟨sim, ephr, rfl, rfl, rfl⟩

theorem mournEphems_rest (nilv : Ref) (es : List Nat) : ∀ s : GcState,
    (mournEphems nilv es s).fromSp = s.fromSp ∧
    (mournEphems nilv es s).objectStore = s.objectStore ∧
    (mournEphems nilv es s).currentActivation = s.currentActivation ∧
    (mournEphems nilv es s).handles = s.handles ∧
    (mournEphems nilv es s).classTable = s.classTable ∧
    (mournEphems nilv es s).classTableFree = s.classTableFree ∧
    (mournEphems nilv es s).weaks = s.weaks := by
  induction es with
  | nil =>
      intro s
      exact ⟨rfl, rfl, rfl, rfl, rfl, rfl, rfl⟩
  | cons e rest ih =>
      intro s
      have hres : mournEphems nilv (e :: rest) s =
          mournEphems nilv rest
            (((s.putSlot e 0 nilv).putSlot e 1 nilv).putSlot e 2 nilv) := rfl
      rw [hres]
      exact ih (((s.putSlot e 0 nilv).putSlot e 1 nilv).putSlot e 2 nilv)

theorem mournEphemeronList_rest (s : GcState) :
    (mournEphemeronList s).fromSp = s.fromSp ∧
    (mournEphemeronList s).objectStore = s.objectStore ∧
    (mournEphemeronList s).currentActivation = s.currentActivation ∧
    (mournEphemeronList s).handles = s.handles ∧
    (mournEphemeronList s).classTable = s.classTable ∧
    (mournEphemeronList s).classTableFree = s.classTableFree ∧
    (mournEphemeronList s).weaks = s.weaks :=
  mournEphems_rest (nilOf s) s.ephems { s with ephems := [] }

/-- The mourning passes leave the three root sets where the fixpoint loop
put them, so the collected heap's roots are the loop-exit roots. -/
theorem scavenge_roots_eq (h : Heap) :
    (scavenge h).objectStore = (loopState h).objectStore ∧
    (scavenge h).currentActivation = (loopState h).currentActivation ∧
    (scavenge h).handles = (loopState h).handles := by
  have hE := mournEphemeronList_rest (loopState h)
  have hW := mournWeakList_rest (mournEphemeronList (loopState h))
  have hC := mournClassTable_frame (mournWeakList (mournEphemeronList (loopState h)))
  refine ⟨?_, ?_, ?_⟩
  · show (mournClassTable (mournWeakList (mournEphemeronList
      (loopState h)))).objectStore = _
    rw [hC.2.2.1, hW.1, hE.2.1]
  · show (mournClassTable (mournWeakList (mournEphemeronList
      (loopState h)))).currentActivation = _
    rw [hC.2.2.2.1, hW.2.1, hE.2.2.1]
  · show (mournClassTable (mournWeakList (mournEphemeronList
      (loopState h)))).handles = _
    rw [hC.2.2.2.2.1, hW.2.2.1, hE.2.2.2.1]

/-- Lockstep for the handle-scavenging loop: the second run revisits the
first run's results and leaves them unchanged. -/
theorem simHandles (h : Heap) (hwf : WF h) : ∀ (rs1 rs2 : List Ref),
    List.Forall₂ (SlotDone (loopState h)) rs1 rs2 →
    ∀ (s1 s2 : GcState) (scan : Nat) (ex : List Nat) (cur : Option Nat),
    InvCore h s1 scan ex cur →
    Sim h s1 s2 →
    ExtendsF (scavengeHandles rs1 s1).1 (loopState h) →
    (∀ r ∈ rs1, ∀ b : Nat, r = .ptr b → Live h b ∧ b < h.space.length) →
    Sim h (scavengeHandles rs1 s1).1 (scavengeHandles rs2 s2).1 ∧
    (scavengeHandles rs2 s2).2 = rs2 ∧
    (scavengeHandles rs1 s1).2 = rs2 ∧
    (scavengeHandles rs2 s2).1.ephems = s2.ephems ∧
    (scavengeHandles rs2 s2).1.weaks = s2.weaks ∧
    (scavengeHandles rs2 s2).1.objectStore = s2.objectStore ∧
    (scavengeHandles rs2 s2).1.currentActivation = s2.currentActivation ∧
    (scavengeHandles rs2 s2).1.handles = s2.handles := by
  intro rs1 rs2 hf
  induction hf with
  | nil =>
      intro s1 s2 scan ex cur inv sim hfin hj
      exact ⟨sim, rfl, rfl, rfl, rfl, rfl, rfl, rfl⟩
  | @cons r1 r2 rest1 rest2 hR hrest ih =>
      intro s1 s2 scan ex cur inv sim hfin hj
      have hres1 : scavengeHandles (r1 :: rest1) s1 =
          ((scavengeHandles rest1 (scavengePointer s1 r1).1).1,
            (scavengePointer s1 r1).2 ::
              (scavengeHandles rest1 (scavengePointer s1 r1).1).2) := rfl
      have hres2 : scavengeHandles (r2 :: rest2) s2 =
          ((scavengeHandles rest2 (scavengePointer s2 r2).1).1,
            (scavengePointer s2 r2).2 ::
              (scavengeHandles rest2 (scavengePointer s2 r2).1).2) := rfl
      obtain ⟨inv1, hsd1, hx1, he1, hw1, hos1, hca1, hh1, _, _⟩ :=
        scavengePointer_pres h hwf s1 scan ex cur inv r1
          (fun b ob hb _ => (hj r1 (List.mem_cons_self r1 rest1) b hb).1)
          (fun b hb => (hj r1 (List.mem_cons_self r1 rest1) b hb).2)
      have hfin' : ExtendsF (scavengeHandles rest1 (scavengePointer s1 r1).1).1
          (loopState h) := by
        rw [hres1] at hfin
        exact hfin
      have hfinP : ExtendsF (scavengePointer s1 r1).1 (loopState h) :=
        extendsF_trans
          (scavengeHandles_pres h hwf rest1 (scavengePointer s1 r1).1 scan ex cur
            inv1 (fun r2b hr2 => hj r2b (List.mem_cons_of_mem r1 hr2))).2.1 hfin'
      obtain ⟨simP, hr2eq, hr1eq, hephP, hwkP, hosP, hcaP, hhP, _, _⟩ :=
        simPointer h hwf s1 s2 scan ex cur inv sim r1 r2 hfinP hR
          (fun b hb => (hj r1 (List.mem_cons_self r1 rest1) b hb).2)
      obtain ⟨simR, hl2, hl1, heR, hwR, hoR, hcR, hhR⟩ :=
        ih (scavengePointer s1 r1).1 (scavengePointer s2 r2).1 scan ex cur inv1
          simP hfin' (fun r2b hr2 => hj r2b (List.mem_cons_of_mem r1 hr2))
      rw [hres1, hres2]
      refine ⟨simR, ?_, ?_, heR.trans hephP, hwR.trans hwkP, hoR.trans hosP,
        hcR.trans hcaP, hhR.trans hhP⟩
      · show (scavengePointer s2 r2).2 ::
            (scavengeHandles rest2 (scavengePointer s2 r2).1).2 = r2 :: rest2
        rw [hr2eq, hl2]
      · show (scavengePointer s1 r1).2 ::
            (scavengeHandles rest1 (scavengePointer s1 r1).1).2 = r2 :: rest2
        rw [hr1eq, hl1]

/-- Lockstep for `ProcessRoots` over an abstract copy `g` of the collected
heap: on it the root pass finds every root already final and leaves the
state's roots unchanged. -/
theorem simRootsAux (h : Heap) (hwf : WF h) (g : Heap)
    (hg : g.space = (scavenge h).space)
    (hgt : g.classTable = (scavenge h).classTable)
    (hgf : g.classTableFree = (scavenge h).classTableFree)
    (hgo : g.objectStore = (loopState h).objectStore)
    (hgc : g.currentActivation = (loopState h).currentActivation)
    (hgh : g.handles = (loopState h).handles) :
    Sim h (rootsState h) (processRoots (flipState g)) ∧
    (processRoots (flipState g)).objectStore = g.objectStore ∧
    (processRoots (flipState g)).currentActivation = g.currentActivation ∧
    (processRoots (flipState g)).handles = g.handles ∧
    (processRoots (flipState g)).ephems = [] ∧
    (processRoots (flipState g)).weaks = [] := by
  obtain ⟨scanFx, invFx, hscanFx, hroots, hkeysFx⟩ := loopState_facts h hwf
  have hinit := invCore_init h hwf
  -- first-run chain, exactly as in processRoots_pres
  set p1 := scavengePointer (flipState h) (flipState h).objectStore with hp1
  set s1 : GcState := { p1.1 with objectStore := p1.2 } with hs1
  set p2 := scavengePointer s1 s1.currentActivation with hp2
  set s2 : GcState := { p2.1 with currentActivation := p2.2 } with hs2
  set q := scavengeHandles s2.handles s2 with hq
  have hres : processRoots (flipState h) = { q.1 with handles := q.2 } := rfl
  have inv0 : InvCore h (flipState h) 0 [] none := hinit
  obtain ⟨inv1, hsd1, hx1, he1, hw1, hos1, hca1, hh1, _, _⟩ :=
    scavengePointer_pres h hwf (flipState h) 0 [] none inv0
      (flipState h).objectStore
      (fun b ob hb _ => Live.store b hb)
      (fun b hb => hwf.rootSOk b hb)
  have inv1b : InvCore h s1 0 [] none :=
    invCore_setRoots h p1.1 0 [] none p1.2 p1.1.currentActivation p1.1.handles inv1
  have hx1b : ExtendsF p1.1 s1 := ⟨fun a2 t2 o3 hg2 => hg2, rfl, Nat.le_refl _⟩
  have hca1b : s1.currentActivation = h.currentActivation := by
    show p1.1.currentActivation = h.currentActivation
    rw [hca1]
    rfl
  obtain ⟨inv2, hsd2, hx2, he2, hw2, hos2, hca2, hh2, _, _⟩ :=
    scavengePointer_pres h hwf s1 0 [] none inv1b s1.currentActivation
      (fun b ob hb _ => Live.activation b (by rw [← hca1b]; exact hb))
      (fun b hb => hwf.rootAOk b (by rw [← hca1b]; exact hb))
  have inv2b : InvCore h s2 0 [] none :=
    invCore_setRoots h p2.1 0 [] none p2.1.objectStore p2.2 p2.1.handles inv2
  have hx2b : ExtendsF p2.1 s2 := ⟨fun a2 t2 o3 hg2 => hg2, rfl, Nat.le_refl _⟩
  have hhd2b : s2.handles = h.handles := by
    show p2.1.handles = h.handles
    rw [hh2]
    show p1.1.handles = h.handles
    rw [hh1]
    rfl
  obtain ⟨inv3, hx3, he3, hw3, hos3, hca3, hh3, hfa3⟩ :=
    scavengeHandles_pres h hwf s2.handles s2 0 [] none inv2b
      (fun r hr b hb => by
        rw [hb] at hr
        rw [hhd2b] at hr
        exact ⟨Live.handle b hr, hwf.handleOk b hr⟩)
  have hx3b : ExtendsF q.1 { q.1 with handles := q.2 } :=
    ⟨fun a2 t2 o3 hg2 => hg2, rfl, Nat.le_refl _⟩
  -- link the root pass to the loop fixpoint
  obtain ⟨invR, hxR, hephR, hwkR, hrdR, hsigR⟩ :=
    processRoots_pres h hwf (flipState h) hinit rfl rfl rfl rfl rfl
  obtain ⟨scanF2, q1, q2, q3, q4, q5, q6, q7⟩ :=
    scavengeLoop_pres h hwf (obCount (rootsState h).fromSp + 2) (rootsState h) 0
      invR (by omega) (fun _ => Nat.le_refl _)
      (fun _ e2 he2 => absurd (hephR ▸ he2) (List.not_mem_nil e2))
  have hxAll : ExtendsF (processRoots (flipState h)) (loopState h) := q3
  have hfinH : ExtendsF q.1 (loopState h) := by
    rw [hres] at hxAll
    exact extendsF_trans hx3b hxAll
  have hfinP2 : ExtendsF p2.1 (loopState h) :=
    extendsF_trans hx2b (extendsF_trans hx3 hfinH)
  have hfinP1 : ExtendsF p1.1 (loopState h) :=
    extendsF_trans hx1b (extendsF_trans hx2 hfinP2)
  -- second-run chain on the copy of the collected heap
  set p1b := scavengePointer (flipState g) (flipState g).objectStore with hp1b
  set s1b : GcState := { p1b.1 with objectStore := p1b.2 } with hs1b
  set p2b := scavengePointer s1b s1b.currentActivation with hp2b
  set s2b : GcState := { p2b.1 with currentActivation := p2b.2 } with hs2b
  set qb := scavengeHandles s2b.handles s2b with hqb
  have hresb : processRoots (flipState g) = { qb.1 with handles := qb.2 } := rfl
  have sim0 : Sim h (flipState h) (flipState g) := by
    refine ⟨rfl, ?_, fun t ht => absurd ht (Nat.not_lt_zero t),
      fun t ht => absurd ht (Nat.not_lt_zero t), fun t _ => ?_, rfl, ?_, ?_⟩
    · show g.space.length = (scavenge h).space.length
      rw [hg]
    · show g.space[t]? = (scavenge h).space[t]?
      rw [hg]
    · show g.classTable = (scavenge h).classTable
      exact hgt
    · show g.classTableFree = (scavenge h).classTableFree
      exact hgf
  have hOS0 : (flipState g).objectStore = (loopState h).objectStore := hgo
  have hp1beq : p1b = scavengePointer (flipState g)
      ((loopState h).objectStore) := by
    rw [hp1b, hOS0]
  have hrangeS : ∀ b : Nat, (flipState h).objectStore = .ptr b →
      b < h.space.length := fun b hb => hwf.rootSOk b hb
  obtain ⟨simA, ha2, ha1, haE, haW, haO, haC, haH, _, _⟩ :=
    simPointer h hwf (flipState h) (flipState g) 0 [] none inv0 sim0
      (flipState h).objectStore ((loopState h).objectStore) hfinP1 hroots.rootS
      hrangeS
  rw [← hp1beq] at simA ha2 haE haW haO haC haH
  have sim1 : Sim h s1 s1b :=
    ⟨simA.len, simA.flen, simA.tocells, simA.ffwd, simA.fobj, simA.weakeq,
      simA.table, simA.free⟩
  have hCA1b : s1b.currentActivation = (loopState h).currentActivation := by
    show p1b.1.currentActivation = (loopState h).currentActivation
    rw [haC]
    exact hgc
  have hp2beq : p2b = scavengePointer s1b ((loopState h).currentActivation) := by
    rw [hp2b, hCA1b]
  have hSDA : SlotDone (loopState h) s1.currentActivation
      ((loopState h).currentActivation) := by
    rw [hca1b]
    exact hroots.rootA
  obtain ⟨simB, hb2, hb1, hbE, hbW, hbO, hbC, hbH, _, _⟩ :=
    simPointer h hwf s1 s1b 0 [] none inv1b sim1 s1.currentActivation
      ((loopState h).currentActivation) hfinP2 hSDA
      (fun b hb => hwf.rootAOk b (by rw [← hca1b]; exact hb))
  rw [← hp2beq] at simB hb2 hbE hbW hbO hbC hbH
  have sim2 : Sim h s2 s2b :=
    ⟨simB.len, simB.flen, simB.tocells, simB.ffwd, simB.fobj, simB.weakeq,
      simB.table, simB.free⟩
  have hHD2b : s2b.handles = (loopState h).handles := by
    show p2b.1.handles = (loopState h).handles
    rw [hbH]
    show p1b.1.handles = (loopState h).handles
    rw [haH]
    exact hgh
  have hqbeq : qb = scavengeHandles ((loopState h).handles) s2b := by
    rw [hqb, hHD2b]
  have hF2 : List.Forall₂ (SlotDone (loopState h)) s2.handles
      ((loopState h).handles) := by
    rw [hhd2b]
    exact hroots.rootH
  obtain ⟨simC, hc2, hc1, hcE, hcW, hcO, hcC, hcH⟩ :=
    simHandles h hwf s2.handles ((loopState h).handles) hF2 s2 s2b 0 [] none
      inv2b sim2 hfinH
      (fun r hr b hb => by
        rw [hb] at hr
        rw [hhd2b] at hr
        exact ⟨Live.handle b hr, hwf.handleOk b hr⟩)
  rw [← hqbeq] at simC hc2 hcE hcW hcO hcC hcH
  have hrootsE : rootsState h = { q.1 with handles := q.2 } := hres
  refine ⟨?_, ?_, ?_, ?_, ?_, ?_⟩
  · rw [hrootsE, hresb]
    exact ⟨simC.len, simC.flen, simC.tocells, simC.ffwd, simC.fobj, simC.weakeq,
      simC.table, simC.free⟩
  · rw [hresb]
    show qb.1.objectStore = g.objectStore
    rw [hcO]
    show p2b.1.objectStore = g.objectStore
    rw [hbO]
    show p1b.2 = g.objectStore
    rw [ha2, hgo]
  · rw [hresb]
    show qb.1.currentActivation = g.currentActivation
    rw [hcC]
    show p2b.2 = g.currentActivation
    rw [hb2, hgc]
  · rw [hresb]
    show qb.2 = g.handles
    rw [hc2, hgh]
  · rw [hresb]
    show qb.1.ephems = []
    rw [hcE]
    show p2b.1.ephems = []
    rw [hbE]
    show p1b.1.ephems = []
    rw [haE]
    rfl
  · rw [hresb]
    show qb.1.weaks = []
    rw [hcW]
    show p2b.1.weaks = []
    rw [hbW]
    show p1b.1.weaks = []
    rw [haW]
    rfl

/-- Lockstep for `ProcessRoots` on the collected heap itself. -/
theorem simRoots (h : Heap) (hwf : WF h) :
    Sim h (rootsState h) (processRoots (flipState (scavenge h))) ∧
    (processRoots (flipState (scavenge h))).objectStore =
      (scavenge h).objectStore ∧
    (processRoots (flipState (scavenge h))).currentActivation =
      (scavenge h).currentActivation ∧
    (processRoots (flipState (scavenge h))).handles = (scavenge h).handles ∧
    (processRoots (flipState (scavenge h))).ephems = [] ∧
    (processRoots (flipState (scavenge h))).weaks = [] := by
  obtain ⟨hOSe, hCAe, hHDe⟩ := scavenge_roots_eq h
  exact simRootsAux h hwf (scavenge h) rfl rfl rfl hOSe hCAe hHDe

theorem fwd_space (h : Heap) (hwf : WF h) (s : GcState) (scan : Nat)
    (ex : List Nat) (cur : Option Nat) (inv : InvCore h s scan ex cur)
    (b tb : Nat) (ob : Obj) (hb : s.fromSp[b]? = some (.fwd tb ob)) :
    h.space[b]? = some (.obj ob) := by
  rcases inv.fcells b with hc | ⟨o, t, hh, hf, _⟩
  · rw [hc] at hb
    exact absurd hb (hwf.noCorpse b tb ob)
  · rw [hf] at hb
    obtain ⟨_, ho⟩ := Cell.fwd.inj (Option.some.inj hb)
    rw [hh, ho]

theorem fwd_bound (h : Heap) (hwf : WF h) (s : GcState) (scan : Nat)
    (ex : List Nat) (cur : Option Nat) (inv : InvCore h s scan ex cur)
    (b tb : Nat) (ob : Obj) (hb : s.fromSp[b]? = some (.fwd tb ob)) :
    tb < s.toSp.length := by
  rcases inv.fcells b with hc | ⟨o, t, hh, hf, htlt⟩
  · rw [hc] at hb
    exact absurd hb (hwf.noCorpse b tb ob)
  · rw [hf] at hb
    obtain ⟨ht, _⟩ := Cell.fwd.inj (Option.some.inj hb)
    rw [ht] at htlt
    exact htlt

/-- The final `nil` is an immediate or a to-space pointer: the nil object is
a root and it is copied. -/
theorem nil_clean (h : Heap) (hwf : WF h)
    (hstore : ∀ (as : Nat) (os : Obj), h.objectStore = .ptr as →
      h.space[as]? = some (.obj os) → os.cid ≠ kWeakArrayCid ∧ os.cid ≠ kEphemeronCid)
    (scanF : Nat) (inv : InvCore h (loopState h) scanF [] none)
    (hscan : (loopState h).toSp.length ≤ scanF)
    (hrs : SlotDone (loopState h) h.objectStore (loopState h).objectStore) :
    (∃ v : Int, nilOf (loopState h) = .imm v) ∨
    (∃ u : Nat, nilOf (loopState h) = .ptr u ∧
      u < (loopState h).toSp.length) := by
  rcases hrs with ⟨v, h1, h2⟩ | ⟨as, a1, os1, h1, h2, h3⟩
  · left
    refine ⟨v, ?_⟩
    unfold nilOf
    rw [h2, h1]
  · have hsp : h.space[as]? = some (.obj os1) :=
      fwd_space h hwf _ scanF [] none inv as a1 os1 h2
    have ha1lt : a1 < (loopState h).toSp.length :=
      fwd_bound h hwf _ scanF [] none inv as a1 os1 h2
    obtain ⟨o2s, hc1, hc2, hc3, hc4⟩ := inv.content as a1 os1 hsp h2
      (fun hc => Option.noConfusion hc)
    obtain ⟨hnw, hne⟩ := hstore as os1 h1 hsp
    have hnd : NormDone (loopState h) os1 o2s := by
      rcases hc4 with ⟨hp, hcond⟩ | ⟨hcw, _⟩ | ⟨_, _, _, hnd⟩
      · rcases hcond (by omega) with hw | ⟨he, _⟩
        · exact absurd hw hnw
        · exact absurd he hne
      · exact absurd hcw hne
      · exact hnd
    have hnil : nilOf (loopState h) = (loopState h).getSlot a1 0 := by
      unfold nilOf
      rw [h3]
    rcases hnd with ⟨d, hpo, hpo2⟩ | ⟨l, l2, hpl, hpl2, hlen, hslots⟩
    · left
      refine ⟨0, ?_⟩
      rw [hnil]
      have hgd : (loopState h).toSp.getD a1 default = o2s := by
        rw [List.getD_eq_getElem?_getD, hc1]
        rfl
      unfold GcState.getSlot GcState.objAt
      rw [hgd, slotsOf_bytes o2s d hpo2]
      rfl
    · have hgs : (loopState h).getSlot a1 0 = l2.getD 0 (.imm 0) :=
        getSlot_eq _ a1 0 o2s l2 hc1 hpl2
      by_cases h0 : 0 < l.length
      · rcases hslots 0 h0 with ⟨v, hv1, hv2⟩ | ⟨b, tb, ob, hb1, hb2, hb3⟩
        · left
          exact ⟨v, by rw [hnil, hgs, hv2, hv1]⟩
        · right
          refine ⟨tb, by rw [hnil, hgs, hb3], ?_⟩
          exact fwd_bound h hwf _ scanF [] none inv b tb ob hb2
      · left
        refine ⟨0, ?_⟩
        rw [hnil, hgs, getD_beyond l2 0 (.imm 0) (by omega)]

/-- Every slot of a mourned weak array in the collected heap is an immediate
or an in-range to-space pointer. -/
theorem scavenge_weak_clean (h : Heap) (hwf : WF h)
    (hstore : ∀ (as : Nat) (os : Obj), h.objectStore = .ptr as →
      h.space[as]? = some (.obj os) → os.cid ≠ kWeakArrayCid ∧ os.cid ≠ kEphemeronCid)
    (scanF : Nat) (inv : InvCore h (loopState h) scanF [] none)
    (hscan : (loopState h).toSp.length ≤ scanF)
    (hrs : SlotDone (loopState h) h.objectStore (loopState h).objectStore) :
    ∀ w ∈ (loopState h).weaks, ∃ o2 : Obj,
      (scavenge h).space[w]? = some (.obj o2) ∧
      ∀ j : Nat, (∃ v : Int, (slotsOf o2).getD j (.imm 0) = .imm v) ∨
        (∃ u : Nat, (slotsOf o2).getD j (.imm 0) = .ptr u ∧
          u < (loopState h).toSp.length) := by
  intro w hw
  obtain ⟨hwsc, o2w, h2w, hcid⟩ := inv.weakmem w hw
  have hclean := store_target_clean h hwf hstore (loopState h) scanF inv hrs
  obtain ⟨e1, e2, e3, e4, e5, e6, e7, e8, e9, e10⟩ :=
    mournEphemeronList_spec (loopState h) inv.ephnd
  have hwne : w ∉ (loopState h).ephems := by
    intro hmem
    obtain ⟨_, o2e, h2e, hcide⟩ := inv.ephmem w hmem
    obtain rfl : o2w = o2e := Option.some.inj (h2w.symm.trans h2e)
    exact absurd (hcid.symm.trans hcide) (by decide)
  have hE : (mournEphemeronList (loopState h)).toSp[w]? = some o2w := by
    rw [e9 w hwne]
    exact h2w
  have hwnodup : (mournEphemeronList (loopState h)).weaks.Nodup := by
    rw [e8]
    exact inv.weaknd
  have hswE : ∀ a2 : Nat, (mournEphemeronList (loopState h)).objectStore = .ptr a2 →
      a2 ∉ (mournEphemeronList (loopState h)).weaks := by
    intro a2 ha2
    rw [e8]
    exact (hclean a2 (by rw [← e2]; exact ha2)).1
  have hwcop : ∀ w2 ∈ (mournEphemeronList (loopState h)).weaks,
      ∃ o2 : Obj, (mournEphemeronList (loopState h)).toSp[w2]? = some o2 := by
    intro w2 hw2
    rw [e8] at hw2
    obtain ⟨_, o2, h2, hcid2⟩ := inv.weakmem w2 hw2
    have hwne2 : w2 ∉ (loopState h).ephems := by
      intro hmem
      obtain ⟨_, o2e, h2e, hcide⟩ := inv.ephmem w2 hmem
      obtain rfl : o2 = o2e := Option.some.inj (h2.symm.trans h2e)
      exact absurd (hcid2.symm.trans hcide) (by decide)
    exact ⟨o2, by rw [e9 w2 hwne2]; exact h2⟩
  have hwE : w ∈ (mournEphemeronList (loopState h)).weaks := by
    rw [e8]
    exact hw
  have hC := (mournClassTable_frame
    (mournWeakList (mournEphemeronList (loopState h)))).1
  have hnilE : nilOf (mournEphemeronList (loopState h)) = nilOf (loopState h) :=
    (scavenge_nil_final h hwf hstore scanF inv hrs).1
  have h0 : ∀ u : Nat, (scavenge h).space[u]? =
      ((scavengeGc h).toSp[u]?).map Cell.obj := fun u => heapOf_space (scavengeGc h) u
  cases hp : o2w.payload with
  | bytes d =>
      have hfin : (scavenge h).space[w]? = some (.obj o2w) := by
        rw [h0 w, scavengeGc_eq]
        rw [hC, mournWeakList_bytes _ w hwE o2w d hE hp]
        rfl
      refine ⟨o2w, hfin, fun j => Or.inl ⟨0, ?_⟩⟩
      rw [slotsOf_bytes o2w d hp]
      rfl
  | ptrs l2 =>
      obtain ⟨e1x, e2x, e3x, e4x, e5x, e6x, e7x, w8, w9⟩ :=
        mournWeakList_spec (mournEphemeronList (loopState h)) hwnodup hswE hwcop
      obtain ⟨l2f, hw1, hw2, hw3⟩ := w9 w hwE o2w l2 hE hp
      have hfin : (scavenge h).space[w]? =
          some (.obj ⟨o2w.cid, o2w.hash, .ptrs l2f⟩) := by
        rw [h0 w, scavengeGc_eq]
        rw [hC, hw1]
        rfl
      refine ⟨⟨o2w.cid, o2w.hash, .ptrs l2f⟩, hfin, fun j => ?_⟩
      have hsl : slotsOf (⟨o2w.cid, o2w.hash, .ptrs l2f⟩ : Obj) = l2f := rfl
      by_cases hj : j < l2.length
      · rw [hsl, hw3 j hj]
        cases hv : l2.getD j (.imm 0) with
        | imm v =>
            left
            exact ⟨v, rfl⟩
        | ptr b =>
            have hmr : mournedRef (mournEphemeronList (loopState h))
                (nilOf (mournEphemeronList (loopState h))) (.ptr b) =
                mournedRef (loopState h) (nilOf (loopState h)) (.ptr b) := by
              rw [hnilE]
              exact mournedRef_congr e1 (nilOf (loopState h)) (.ptr b)
            rw [hmr]
            cases hfb : (loopState h).fromSp[b]? with
            | none =>
                have hval : mournedRef (loopState h) (nilOf (loopState h))
                    (.ptr b) = nilOf (loopState h) := by
                  simp only [mournedRef, hfb]
                rw [hval]
                rcases nil_clean h hwf hstore scanF inv hscan hrs with
                  ⟨v, hv2⟩ | ⟨u, hu1, hu2⟩
                · exact Or.inl ⟨v, hv2⟩
                · exact Or.inr ⟨u, hu1, hu2⟩
            | some c =>
                cases c with
                | obj o3 =>
                    have hval : mournedRef (loopState h) (nilOf (loopState h))
                        (.ptr b) = nilOf (loopState h) := by
                      simp only [mournedRef, hfb]
                    rw [hval]
                    rcases nil_clean h hwf hstore scanF inv hscan hrs with
                      ⟨v, hv2⟩ | ⟨u, hu1, hu2⟩
                    · exact Or.inl ⟨v, hv2⟩
                    · exact Or.inr ⟨u, hu1, hu2⟩
                | fwd t o3 =>
                    have hval : mournedRef (loopState h) (nilOf (loopState h))
                        (.ptr b) = .ptr t := by
                      simp only [mournedRef, hfb]
                    rw [hval]
                    right
                    exact ⟨t, rfl,
                      fwd_bound h hwf _ scanF [] none inv b t o3 hfb⟩
      · left
        refine ⟨0, ?_⟩
        rw [hsl, getD_beyond l2f j (.imm 0) (by omega)]

theorem putSlot_id (s : GcState) (t i : Nat) (r : Ref)
    (h : (s.toSp.getD t default).setSlot i r = s.toSp.getD t default) :
    s.putSlot t i r = s := by
  show { s with toSp := s.toSp.set t ((s.toSp.getD t default).setSlot i r) } = s
  rw [h, set_getD_id s.toSp t default (s.toSp.getD t default) rfl]

theorem setSlot_noop_beyond (o : Obj) (l : List Ref) (i : Nat) (r : Ref)
    (hp : o.payload = .ptrs l) (hi : l.length ≤ i) : o.setSlot i r = o := by
  rw [setSlot_eta o l i r hp, set_beyond l i r hi]
  exact (obj_eta_ptrs o l hp).symm

/-- Renilling already-nil ephemerons is a no-op. -/
theorem mournEphems_id (nilv : Ref) : ∀ (es : List Nat) (s : GcState),
    (∀ e ∈ es, ∀ i : Nat, i < 3 →
      (s.toSp.getD e default).setSlot i nilv = s.toSp.getD e default) →
    mournEphems nilv es s = s := by
  intro es
  induction es with
  | nil =>
      intro s _
      rfl
  | cons e rest ih =>
      intro s hc
      have hres : mournEphems nilv (e :: rest) s =
          mournEphems nilv rest
            (((s.putSlot e 0 nilv).putSlot e 1 nilv).putSlot e 2 nilv) := rfl
      have h0 : s.putSlot e 0 nilv = s :=
        putSlot_id s e 0 nilv (hc e (List.mem_cons_self e rest) 0 (by omega))
      have h1 : s.putSlot e 1 nilv = s :=
        putSlot_id s e 1 nilv (hc e (List.mem_cons_self e rest) 1 (by omega))
      have h2 : s.putSlot e 2 nilv = s :=
        putSlot_id s e 2 nilv (hc e (List.mem_cons_self e rest) 2 (by omega))
      rw [hres, h0, h1, h2]
      exact ih s (fun e2 he2 => hc e2 (List.mem_cons_of_mem e he2))

/-- Mourning a weak slot whose referent is identity-forwarded is a no-op. -/
theorem mournWeakSlot_id (s : GcState) (w i : Nat)
    (hc : ∀ u : Nat, s.getSlot w i = .ptr u →
      ∃ o : Obj, s.fromSp[u]? = some (.fwd u o)) :
    mournWeakSlot s w i = s := by
  cases hv : s.getSlot w i with
  | imm v =>
      simp only [mournWeakSlot, hv]
  | ptr u =>
      obtain ⟨o, ho⟩ := hc u hv
      have hres : mournWeakSlot s w i = s.putSlot w i (.ptr u) := by
        simp only [mournWeakSlot, hv, ho]
      rw [hres]
      exact putSlot_self s w i (.ptr u) hv

theorem mournWeakSlots_id (w : Nat) : ∀ (k i : Nat) (s : GcState),
    (∀ j u : Nat, s.getSlot w j = .ptr u →
      ∃ o : Obj, s.fromSp[u]? = some (.fwd u o)) →
    mournWeakSlots w i k s = s := by
  intro k
  induction k with
  | zero =>
      intro i s _
      rfl
  | succ k ih =>
      intro i s hc
      have hres : mournWeakSlots w i (k + 1) s =
          mournWeakSlots w (i + 1) k (mournWeakSlot s w i) := rfl
      rw [hres, mournWeakSlot_id s w i (fun u hu => hc i u hu)]
      exact ih (i + 1) s hc

theorem mournWeaks_id : ∀ (ws : List Nat) (s : GcState),
    (∀ w ∈ ws, ∀ j u : Nat, s.getSlot w j = .ptr u →
      ∃ o : Obj, s.fromSp[u]? = some (.fwd u o)) →
    mournWeaks ws s = s := by
  intro ws
  induction ws with
  | nil =>
      intro s _
      rfl
  | cons w rest ih =>
      intro s hc
      have hres : mournWeaks (w :: rest) s =
          mournWeaks rest (mournWeakSlots w 0 (slotsOf (s.objAt w)).length s) := rfl
      rw [hres, mournWeakSlots_id w (slotsOf (s.objAt w)).length 0 s
        (fun j u hu => hc w (List.mem_cons_self w rest) j u hu)]
      exact ih s (fun w2 hw2 => hc w2 (List.mem_cons_of_mem w hw2))

theorem mournWeakList_id (s : GcState)
    (hc : ∀ w ∈ s.weaks, ∀ j u : Nat, s.getSlot w j = .ptr u →
      ∃ o : Obj, s.fromSp[u]? = some (.fwd u o)) :
    mournWeakList s = { s with weaks := [] } := by
  show mournWeaks s.weaks { s with weaks := [] } = _
  exact mournWeaks_id s.weaks { s with weaks := [] } hc

/-- A class-table entry that is an immediate or identity-forwarded is left
unchanged by the mourning step. -/
theorem mournClassStep_id (s : GcState) (i : Nat)
    (hc : (∃ v : Int, s.classTable.getD i (.imm 0) = .imm v) ∨
      (∃ (c : Nat) (o : Obj), s.classTable.getD i (.imm 0) = .ptr c ∧
        s.fromSp[c]? = some (.fwd c o))) :
    mournClassStep s i = s := by
  rcases hc with ⟨v, hv⟩ | ⟨c, o, hcv, hfc⟩
  · simp only [mournClassStep, hv]
  · have hres : mournClassStep s i =
        { s with classTable := s.classTable.set i (.ptr c) } := by
      simp only [mournClassStep, hcv, hfc]
    rw [hres, set_getD_id s.classTable i (.imm 0) (.ptr c) hcv]

theorem mournClassFrom_id : ∀ (k i : Nat) (s : GcState),
    (∀ j : Nat, i ≤ j → j < i + k →
      (∃ v : Int, s.classTable.getD j (.imm 0) = .imm v) ∨
      (∃ (c : Nat) (o : Obj), s.classTable.getD j (.imm 0) = .ptr c ∧
        s.fromSp[c]? = some (.fwd c o))) →
    mournClassFrom i k s = s := by
  intro k
  induction k with
  | zero =>
      intro i s _
      rfl
  | succ k ih =>
      intro i s hc
      have hres : mournClassFrom i (k + 1) s =
          mournClassFrom (i + 1) k (mournClassStep s i) := rfl
      have hstep : mournClassStep s i = s :=
        mournClassStep_id s i (hc i (Nat.le_refl i) (by omega))
      rw [hres, hstep]
      exact ih (i + 1) s (fun j h1 h2 => hc j (by omega) (by omega))

theorem mournClassTable_id (s : GcState)
    (hc : ∀ j : Nat, kFirstLegalCid ≤ j → j < s.classTable.length →
      (∃ v : Int, s.classTable.getD j (.imm 0) = .imm v) ∨
      (∃ (c : Nat) (o : Obj), s.classTable.getD j (.imm 0) = .ptr c ∧
        s.fromSp[c]? = some (.fwd c o))) :
    mournClassTable s = s := by
  show mournClassFrom kFirstLegalCid (s.classTable.length - kFirstLegalCid) s = s
  exact mournClassFrom_id _ _ s (fun j h1 h2 => hc j h1 (by omega))

/-- After the class-table mourning walk, every walked entry is an immediate
or points at a forwarding target of the walk-time from-space. -/
theorem mournClassFrom_entry_clean (k : Nat) : ∀ (i : Nat) (s : GcState)
    (j : Nat), i ≤ j → j < i + k →
    (∃ v : Int, (mournClassFrom i k s).classTable.getD j (.imm 0) = .imm v) ∨
    (∃ (a t : Nat) (o : Obj), s.classTable.getD j (.imm 0) = .ptr a ∧
      s.fromSp[a]? = some (.fwd t o) ∧
      (mournClassFrom i k s).classTable.getD j (.imm 0) = .ptr t) := by
  induction k with
  | zero =>
      intro i s j h1 h2
      omega
  | succ k ih =>
      intro i s j h1 h2
      have hres : mournClassFrom i (k + 1) s =
          mournClassFrom (i + 1) k (mournClassStep s i) := rfl
      by_cases hji : j = i
      · subst hji
        cases hct : s.classTable.getD j (.imm 0) with
        | imm v =>
            left
            refine ⟨v, ?_⟩
            rw [hres, mournClassFrom_getD_lt k (j + 1) _ j (by omega)]
            have hstep : mournClassStep s j = s := by
              simp only [mournClassStep, hct]
            rw [hstep]
            exact hct
        | ptr a =>
            have hjlen : j < s.classTable.length := by
              by_contra hn
              rw [getD_beyond s.classTable j (.imm 0) (by omega)] at hct
              exact Ref.noConfusion hct
            cases hfa : s.fromSp[a]? with
            | none =>
                left
                refine ⟨Int.ofNat s.classTableFree, ?_⟩
                rw [hres, mournClassFrom_getD_lt k (j + 1) _ j (by omega)]
                have hstep : mournClassStep s j = { s with classTable := s.classTable.set j (.imm (Int.ofNat s.classTableFree)), classTableFree := j } := by
                  simp only [mournClassStep, hct, hfa]
                rw [hstep]
                show (s.classTable.set j
                  (.imm (Int.ofNat s.classTableFree))).getD j (.imm 0) = _
                rw [getD_set_self s.classTable j _ (.imm 0) hjlen]
            | some c =>
                cases c with
                | obj o2 =>
                    left
                    refine ⟨Int.ofNat s.classTableFree, ?_⟩
                    rw [hres, mournClassFrom_getD_lt k (j + 1) _ j (by omega)]
                    have hstep : mournClassStep s j = { s with classTable := s.classTable.set j (.imm (Int.ofNat s.classTableFree)), classTableFree := j } := by
                      simp only [mournClassStep, hct, hfa]
                    rw [hstep]
                    show (s.classTable.set j
                      (.imm (Int.ofNat s.classTableFree))).getD j (.imm 0) = _
                    rw [getD_set_self s.classTable j _ (.imm 0) hjlen]
                | fwd t o2 =>
                    right
                    refine ⟨a, t, o2, rfl, hfa, ?_⟩
                    rw [hres, mournClassFrom_getD_lt k (j + 1) _ j (by omega)]
                    have hstep : mournClassStep s j =
                        { s with classTable := s.classTable.set j (.ptr t) } := by
                      simp only [mournClassStep, hct, hfa]
                    rw [hstep]
                    show (s.classTable.set j (.ptr t)).getD j (.imm 0) = .ptr t
                    rw [getD_set_self s.classTable j _ (.imm 0) hjlen]
      · rcases ih (i + 1) (mournClassStep s i) j (by omega) (by omega) with
          ⟨v, hv⟩ | ⟨a, t, o, ha, hf, hfin⟩
        · left
          exact ⟨v, by rw [hres]; exact hv⟩
        · right
          refine ⟨a, t, o, ?_, ?_, by rw [hres]; exact hfin⟩
          · rw [← mournClassStep_getD_lt s i j hji]
            exact ha
          · rw [← mournClassStep_fromSp s i]
            exact hf

/-- Every class-table entry of the collected heap in the mourned region is
an immediate or an in-range to-space pointer. -/
theorem scavenge_table_clean (h : Heap) (hwf : WF h) (scanF : Nat)
    (inv : InvCore h (loopState h) scanF [] none) :
    ∀ j : Nat, kFirstLegalCid ≤ j → j < h.classTable.length →
    (∃ v : Int, (scavenge h).classTable.getD j (.imm 0) = .imm v) ∨
    (∃ c : Nat, (scavenge h).classTable.getD j (.imm 0) = .ptr c ∧
      c < (loopState h).toSp.length) := by
  intro j h1 h2
  have htab : (mournWeakList (mournEphemeronList (loopState h))).classTable =
      h.classTable := by
    rw [(mournWeakList_rest (mournEphemeronList (loopState h))).2.2.2.1,
      (mournEphemeronList_rest (loopState h)).2.2.2.2.1, inv.table]
  have hfr : (mournWeakList (mournEphemeronList (loopState h))).fromSp =
      (loopState h).fromSp := by
    rw [mournWeakList_fromSp, (mournEphemeronList_rest (loopState h)).1]
  have hsh : (scavenge h).classTable =
      (mournClassTable (mournWeakList (mournEphemeronList
        (loopState h)))).classTable := by
    show (scavengeGc h).classTable = _
    rw [scavengeGc_eq]
  rcases mournClassFrom_entry_clean
      ((mournWeakList (mournEphemeronList (loopState h))).classTable.length -
        kFirstLegalCid) kFirstLegalCid
      (mournWeakList (mournEphemeronList (loopState h))) j h1
      (by rw [htab]; omega) with ⟨v, hv⟩ | ⟨a, t, o, ha, hf, hfin⟩
  · left
    refine ⟨v, ?_⟩
    rw [hsh]
    exact hv
  · right
    refine ⟨t, ?_, ?_⟩
    · rw [hsh]
      exact hfin
    · rw [hfr] at hf
      exact fwd_bound h hwf _ scanF [] none inv a t o hf

/-- The second collection replays the first in lockstep and changes
nothing: the heap of `scavenge h` is a fixpoint of `scavenge`. -/
theorem scavenge_idem_of_wf (h : Heap) (hwf : WF h)
    (hcids : ∀ (a : Nat) (o : Obj), h.space[a]? = some (.obj o) →
      kFirstLegalCid ≤ o.cid)
    (hstore : ∀ (as : Nat) (os : Obj), h.objectStore = .ptr as →
      h.space[as]? = some (.obj os) →
      os.cid ≠ kWeakArrayCid ∧ os.cid ≠ kEphemeronCid) :
    scavenge (scavenge h) = scavenge h := by
  obtain ⟨scanF, invF, hscanF, hroots, hkeysF⟩ := loopState_facts h hwf
  obtain ⟨simR, hRo, hRc, hRh, hRe, hRw⟩ := simRoots h hwf
  have hinit := invCore_init h hwf
  obtain ⟨invR, hxR, hephR, hwkR, hrdR, hsigR⟩ :=
    processRoots_pres h hwf (flipState h) hinit rfl rfl rfl rfl rfl
  have hre1 : (rootsState h).ephems = [] := hephR
  have ephr0 : EphRel h (rootsState h).ephems
      (processRoots (flipState (scavenge h))).ephems := by
    rw [hre1, hRe]
    exact ephRel_nil h
  obtain ⟨simL, ephrL, hLo, hLc, hLh⟩ :=
    simLoop h hwf hcids scanF invF hscanF hkeysF
      (obCount (rootsState h).fromSp + 2) (rootsState h) 0
      (obCount (processRoots (flipState (scavenge h))).fromSp + 2)
      (processRoots (flipState (scavenge h)))
      invR (by omega) (fun _ => Nat.le_refl _)
      (fun _ e2 he2 => absurd (hephR ▸ he2) (List.not_mem_nil e2))
      (by omega) (fun _ => Nat.le_refl _)
      simR ephr0 (extendsF_refl (loopState h))
  obtain ⟨L2, hL2⟩ : ∃ L2 : GcState,
      scavengeLoop (obCount (processRoots (flipState (scavenge h))).fromSp + 2)
        (processRoots (flipState (scavenge h))) 0 = L2 := ⟨_, rfl⟩
  rw [hL2] at simL ephrL hLo hLc hLh
  have simL2 : Sim h (loopState h) L2 := simL
  have ephrL2 : EphRel h (loopState h).ephems L2.ephems := ephrL
  have hLoS : L2.objectStore = (scavenge h).objectStore := by
    rw [hLo, hRo]
  have hLcS : L2.currentActivation = (scavenge h).currentActivation := by
    rw [hLc, hRc]
  have hLhS : L2.handles = (scavenge h).handles := by
    rw [hLh, hRh]
  have hweq : L2.weaks = (loopState h).weaks := simL2.weakeq
  have htopw : (scavenge h).space.length = (loopState h).toSp.length :=
    scavenge_space_len h
  have hLlen : L2.toSp.length = (loopState h).toSp.length := simL2.len
  have hnilh : nilOfHeap (scavenge h) = nilOf (loopState h) :=
    (scavenge_nil_final h hwf hstore scanF invF hroots.rootS).2
  have hnilL2 : nilOf L2 = nilOf (loopState h) := by
    cases hso : (scavenge h).objectStore with
    | imm v =>
        have hL2o : L2.objectStore = .imm v := by rw [hLoS, hso]
        have h1 : nilOf L2 = .imm v := by
          unfold nilOf
          rw [hL2o]
        have h2 : nilOfHeap (scavenge h) = .imm v := by
          unfold nilOfHeap
          rw [hso]
        rw [h1, ← h2, hnilh]
    | ptr a1 =>
        have hL2o : L2.objectStore = .ptr a1 := by rw [hLoS, hso]
        have h1 : nilOf L2 = L2.getSlot a1 0 := by
          unfold nilOf
          rw [hL2o]
        have h2 : nilOfHeap (scavenge h) = (scavenge h).getSlotH a1 0 := by
          unfold nilOfHeap
          rw [hso]
        have hSFo : (loopState h).objectStore = .ptr a1 := by
          rw [← (scavenge_roots_eq h).1]
          exact hso
        have ha1 : a1 < (scavenge h).space.length := by
          rcases hroots.rootS with ⟨v, hh1, hh2⟩ | ⟨as, t, os1, hh1, hh2, hh3⟩
          · rw [hh2, hh1] at hSFo
            exact absurd hSFo (fun hc => Ref.noConfusion hc)
          · rw [hh3] at hSFo
            have hta : t = a1 := Ref.ptr.inj hSFo
            rw [hta] at hh2
            have := fwd_bound h hwf (loopState h) scanF [] none invF as a1 os1 hh2
            omega
        obtain ⟨o1, ho1⟩ := scavenge_space_obj h a1 ha1
        have hg1 : (scavenge h).getSlotH a1 0 = (slotsOf o1).getD 0 (.imm 0) := by
          unfold Heap.getSlotH
          rw [objAt_of_getElem (scavenge h) a1 o1 ho1]
        have hg2 : L2.getSlot a1 0 = (slotsOf o1).getD 0 (.imm 0) :=
          sim_getSlot h (loopState h) L2 simL2 a1 (by omega) o1 ho1 0
        rw [h1, hg2, ← hg1, ← h2, hnilh]
  have hEcond : ∀ e ∈ L2.ephems, ∀ i : Nat, i < 3 →
      (L2.toSp.getD e default).setSlot i (nilOf L2) = L2.toSp.getD e default := by
    intro e he i hi
    have heS : e ∈ (loopState h).ephems := ephrL2.1.subset he
    obtain ⟨hesc, o2e, h2e, hcide⟩ := invF.ephmem e heS
    obtain ⟨e1, e2, e3, e4, e5, e6, e7, e8, e9, e10⟩ :=
      mournEphemeronList_spec (loopState h) invF.ephnd
    have hEe := e10 e heS o2e h2e
    have henw : e ∉ (mournEphemeronList (loopState h)).weaks := by
      rw [e8]
      intro hmem
      obtain ⟨_, o2w, h2w, hcidw⟩ := invF.weakmem e hmem
      obtain rfl : o2e = o2w := Option.some.inj (h2e.symm.trans h2w)
      exact absurd (hcide.symm.trans hcidw) (by decide)
    have hWu := mournWeakList_notmem (mournEphemeronList (loopState h)) e henw
    have hCu := (mournClassTable_frame
      (mournWeakList (mournEphemeronList (loopState h)))).1
    have h0 : (scavenge h).space[e]? = ((scavengeGc h).toSp[e]?).map Cell.obj :=
      heapOf_space (scavengeGc h) e
    have hfin : (scavenge h).space[e]? = some (.obj (((o2e.setSlot 0
        (nilOf (loopState h))).setSlot 1 (nilOf (loopState h))).setSlot 2
        (nilOf (loopState h)))) := by
      rw [h0, scavengeGc_eq, hCu, hWu, hEe]
      rfl
    have helen : e < (loopState h).toSp.length := getElem_some_lt _ _ _ h2e
    have htoc := simL2.tocells e helen
    rw [hfin] at htoc
    have hL2e : L2.toSp[e]? = some (((o2e.setSlot 0
        (nilOf (loopState h))).setSlot 1 (nilOf (loopState h))).setSlot 2
        (nilOf (loopState h))) := by
      cases hc : L2.toSp[e]? with
      | none =>
          rw [hc] at htoc
          exact Option.noConfusion htoc
      | some x =>
          rw [hc] at htoc
          have h3 : some (Cell.obj x) = some (.obj (((o2e.setSlot 0
              (nilOf (loopState h))).setSlot 1 (nilOf (loopState h))).setSlot 2
              (nilOf (loopState h)))) := htoc
          rw [Cell.obj.inj (Option.some.inj h3)]
    have hgd : L2.toSp.getD e default = ((o2e.setSlot 0
        (nilOf (loopState h))).setSlot 1 (nilOf (loopState h))).setSlot 2
        (nilOf (loopState h)) := by
      rw [List.getD_eq_getElem?_getD, hL2e]
      rfl
    rw [hgd, hnilL2]
    cases hpe : o2e.payload with
    | bytes d =>
        rw [setSlot_bytes o2e d 0 (nilOf (loopState h)) hpe,
          setSlot_bytes o2e d 1 (nilOf (loopState h)) hpe,
          setSlot_bytes o2e d 2 (nilOf (loopState h)) hpe]
        exact setSlot_bytes o2e d i (nilOf (loopState h)) hpe
    | ptrs l =>
        have hp0 : (o2e.setSlot 0 (nilOf (loopState h))).payload =
            .ptrs (l.set 0 (nilOf (loopState h))) :=
          setSlot_payload o2e l 0 (nilOf (loopState h)) hpe
        have hp1 : ((o2e.setSlot 0 (nilOf (loopState h))).setSlot 1
            (nilOf (loopState h))).payload =
            .ptrs ((l.set 0 (nilOf (loopState h))).set 1 (nilOf (loopState h))) :=
          setSlot_payload _ _ 1 (nilOf (loopState h)) hp0
        have hp2 : (((o2e.setSlot 0 (nilOf (loopState h))).setSlot 1
            (nilOf (loopState h))).setSlot 2 (nilOf (loopState h))).payload =
            .ptrs (((l.set 0 (nilOf (loopState h))).set 1
              (nilOf (loopState h))).set 2 (nilOf (loopState h))) :=
          setSlot_payload _ _ 2 (nilOf (loopState h)) hp1
        by_cases hil : i < l.length
        · refine setSlot_self _ i _ ?_
          rw [slotsOf_ptrs _ _ hp2]
          exact getD_set012 l (nilOf (loopState h)) i hi hil
        · refine setSlot_noop_beyond _ (((l.set 0 (nilOf (loopState h))).set 1
            (nilOf (loopState h))).set 2 (nilOf (loopState h))) i _ hp2 ?_
          rw [List.length_set, List.length_set, List.length_set]
          omega
  have hE : mournEphemeronList L2 = { L2 with ephems := ([] : List Nat) } := by
    show mournEphems (nilOf L2) L2.ephems { L2 with ephems := ([] : List Nat) } = _
    exact mournEphems_id (nilOf L2) L2.ephems
      { L2 with ephems := ([] : List Nat) } hEcond
  have hWcond : ∀ w ∈ ({ L2 with ephems := ([] : List Nat) } : GcState).weaks,
      ∀ j u : Nat,
      ({ L2 with ephems := ([] : List Nat) } : GcState).getSlot w j = .ptr u →
      ∃ o : Obj, ({ L2 with ephems := ([] : List Nat) } : GcState).fromSp[u]? =
        some (.fwd u o) := by
    intro w hw j u hju
    have hw2 : w ∈ L2.weaks := hw
    rw [hweq] at hw2
    obtain ⟨o2, hfin, hslots⟩ :=
      scavenge_weak_clean h hwf hstore scanF invF hscanF hroots.rootS w hw2
    have hwlen : w < (loopState h).toSp.length := by
      have := getElem_some_lt _ _ _ hfin
      omega
    have hgs : L2.getSlot w j = (slotsOf o2).getD j (.imm 0) :=
      sim_getSlot h (loopState h) L2 simL2 w hwlen o2 hfin j
    have hju2 : L2.getSlot w j = .ptr u := hju
    rcases hslots j with ⟨v, hv⟩ | ⟨u2, hu1, hu2⟩
    · rw [hgs, hv] at hju2
      exact absurd hju2 (fun hc => Ref.noConfusion hc)
    · rw [hgs, hu1] at hju2
      obtain rfl : u2 = u := Ref.ptr.inj hju2
      obtain ⟨o4, hh4, hf4⟩ := simL2.ffwd u2 (by omega)
      exact ⟨o4, hf4⟩
  have hWe : mournWeakList { L2 with ephems := ([] : List Nat) } = { L2 with ephems := ([] : List Nat), weaks := ([] : List Nat) } :=
    mournWeakList_id { L2 with ephems := ([] : List Nat) } hWcond
  have htablen : (scavenge h).classTable.length = h.classTable.length := by
    show (scavengeGc h).classTable.length = _
    rw [scavengeGc_eq, mournClassTable_len,
      (mournWeakList_rest (mournEphemeronList (loopState h))).2.2.2.1,
      (mournEphemeronList_rest (loopState h)).2.2.2.2.1, invF.table]
  have hCcond : ∀ j : Nat, kFirstLegalCid ≤ j → j < ({ L2 with ephems := ([] : List Nat), weaks := ([] : List Nat) } : GcState).classTable.length → (∃ v : Int, ({ L2 with ephems := ([] : List Nat), weaks := ([] : List Nat) } : GcState).classTable.getD j (.imm 0) = .imm v) ∨ (∃ (c : Nat) (o : Obj), ({ L2 with ephems := ([] : List Nat), weaks := ([] : List Nat) } : GcState).classTable.getD j (.imm 0) = .ptr c ∧ ({ L2 with ephems := ([] : List Nat), weaks := ([] : List Nat) } : GcState).fromSp[c]? = some (.fwd c o)) := by
    intro j h1 h2
    have h2b : j < L2.classTable.length := h2
    rw [simL2.table] at h2b
    have h2c : j < h.classTable.length := by omega
    rcases scavenge_table_clean h hwf scanF invF j h1 h2c with
      ⟨v, hv⟩ | ⟨c, hc1, hc2⟩
    · left
      refine ⟨v, ?_⟩
      show L2.classTable.getD j (.imm 0) = .imm v
      rw [simL2.table]
      exact hv
    · right
      obtain ⟨o4, hh4, hf4⟩ := simL2.ffwd c (by omega)
      refine ⟨c, o4, ?_, ?_⟩
      · show L2.classTable.getD j (.imm 0) = .ptr c
        rw [simL2.table]
        exact hc1
      · show L2.fromSp[c]? = some (.fwd c o4)
        exact hf4
  have hCe : mournClassTable { L2 with ephems := ([] : List Nat), weaks := ([] : List Nat) } = { L2 with ephems := ([] : List Nat), weaks := ([] : List Nat) } :=
    mournClassTable_id _ hCcond
  have hloop2 : loopState (scavenge h) = L2 := hL2
  have hgc2 : scavengeGc (scavenge h) = { L2 with ephems := ([] : List Nat), weaks := ([] : List Nat) } := by
    rw [scavengeGc_eq (scavenge h), hloop2, hE, hWe, hCe]
  have hspace : L2.toSp.map Cell.obj = (scavenge h).space := by
    apply List.ext_getElem?
    intro t
    rw [List.getElem?_map]
    by_cases ht : t < (loopState h).toSp.length
    · exact simL2.tocells t ht
    · rw [List.getElem?_eq_none (by omega), List.getElem?_eq_none (by omega)]
      rfl
  calc scavenge (scavenge h) = heapOf (scavengeGc (scavenge h)) := rfl
    _ = heapOf { L2 with ephems := ([] : List Nat), weaks := ([] : List Nat) } := by
        rw [hgc2]
    _ = scavenge h := by
        show ({ space := L2.toSp.map Cell.obj, objectStore := L2.objectStore, currentActivation := L2.currentActivation, handles := L2.handles, classTable := L2.classTable, classTableFree := L2.classTableFree } : Heap) = scavenge h
        rw [hspace, hLoS, hLcS, hLhS, simL2.table, simL2.free]

/-- C9: collection idempotence. On a well-formed heap whose objects carry
legal cids and whose object store is an ordinary (non-weak, non-ephemeron)
array, running a scavenge twice in a row with no mutator activity in
between returns the identical heap: the second collection replays the
first's copy order verbatim, so the to-space contents (hence the used-byte
count), every root, every slot of every live object, the class table and
its free list are all unchanged. -/
theorem scavenge_idempotent (h : Heap) (hb : wfb h = true)
    (hcids : ∀ (a : Nat) (o : Obj), h.space[a]? = some (.obj o) →
      kFirstLegalCid ≤ o.cid)
    (hstore : ∀ (as : Nat) (os : Obj), h.objectStore = .ptr as →
      h.space[as]? = some (.obj os) →
      os.cid ≠ kWeakArrayCid ∧ os.cid ≠ kEphemeronCid) :
    scavenge (scavenge h) = scavenge h :=
  scavenge_idem_of_wf h (wfb_wf h hb) hcids hstore

theorem scavenge_idempotent_witness :
    scavenge (scavenge heapC1) = scavenge heapC1 := by
  refine scavenge_idempotent heapC1 (by decide) ?_ ?_
  · intro a o ha
    have h3 : a < 3 := getElem_some_lt _ _ _ ha
    interval_cases a
    · have h4 : some (Cell.obj (⟨2, 1, .ptrs [.imm 99, .ptr 1]⟩ : Obj)) =
          some (.obj o) := ha
      cases Cell.obj.inj (Option.some.inj h4)
      decide
    · have h4 : some (Cell.obj (⟨kWeakArrayCid, 5, .ptrs [.ptr 2]⟩ : Obj)) =
          some (.obj o) := ha
      cases Cell.obj.inj (Option.some.inj h4)
      decide
    · have h4 : some (Cell.obj (⟨2, 7, .ptrs ([] : List Ref)⟩ : Obj)) =
          some (.obj o) := ha
      cases Cell.obj.inj (Option.some.inj h4)
      decide
  · intro as os h1 h2
    obtain rfl : as = 0 := (Ref.ptr.inj h1).symm
    have h3 : some (Cell.obj (⟨2, 1, .ptrs [.imm 99, .ptr 1]⟩ : Obj)) =
        some (.obj os) := h2
    cases Cell.obj.inj (Option.some.inj h3)
    exact ⟨by decide, by decide⟩

end Psoup

